import Mathlib

/-! # B-tree (`btree.go`, `node.go`, `item.go`): embedding and verification

The Go program keeps a tree of heap nodes that are owned exclusively by their
parent.  The embedding represents a node by its value (its items and the values
of its children); a mutation made through a pointer to a child is a functional
update of that child inside its owner.  Every slice index, slice expression and
`slices.Insert`/`slices.Delete` call that can panic in Go returns `none` here,
and so does a loop that runs out of fuel.
-/

set_option autoImplicit false

namespace BTreeGo

/-! ## Slices -/

/-- Go `slices.Insert(s, i, v)`: panics when `i > len(s)`. -/
def slicesInsert {α : Type} (s : List α) (i : Nat) (v : α) : Option (List α) :=
  if i ≤ s.length then some (s.take i ++ v :: s.drop i) else none

/-- Go `slices.Delete(s, i, j)`: panics unless `i ≤ j ≤ len(s)`. -/
def slicesDelete {α : Type} (s : List α) (i j : Nat) : Option (List α) :=
  if i ≤ j ∧ j ≤ s.length then some (s.take i ++ s.drop j) else none

/-- Go `s[i] = v`: panics when `i ≥ len(s)`. -/
def setAt {α : Type} (s : List α) (i : Nat) (v : α) : Option (List α) :=
  if i < s.length then some (s.set i v) else none

/-- Go `s[:k]`.  The model fails when `k` exceeds the length (Go would then
expose spare capacity of the backing array, which never happens on a full node). -/
def sliceTo {α : Type} (s : List α) (k : Nat) : Option (List α) :=
  if k ≤ s.length then some (s.take k) else none

/-- Go `s[k:]`: panics when `k > len(s)`. -/
def sliceFrom {α : Type} (s : List α) (k : Nat) : Option (List α) :=
  if k ≤ s.length then some (s.drop k) else none

/-! ## item.go -/

/-- Go `Item[K, V]`. -/
structure Item (K V : Type) where
  Key : K
  Value : V
deriving DecidableEq, Repr

/-- Go `NewItem`. -/
def NewItem {K V : Type} (k : K) (value : V) : Item K V := ⟨k, value⟩

/-! ## node.go -/

/-- Go `node[K, V]`: the items and the children of a node.  The capacity of
`items` is `(t<<1)-1` for every node (`newNode` is the only allocation and no
operation on a valid tree grows a slice beyond it). -/
inductive node (K V : Type) where
  | mk (items : List (Item K V)) (children : List (node K V)) : node K V

namespace node

variable {K V : Type}

/-- Field `items`. -/
def items : node K V → List (Item K V)
  | mk i _ => i

/-- Field `children`. -/
def children : node K V → List (node K V)
  | mk _ c => c

/-- Go `isLeaf`: `len(n.children) == 0`. -/
def isLeaf (n : node K V) : Bool := n.children.length == 0

/-- Go `isFilled`: `len(n.items) == cap(n.items)`, the capacity being `(t<<1)-1`. -/
def isFilled (t : Nat) (n : node K V) : Bool := n.items.length == 2 * t - 1

/-- The loop of `bSearch`; the first argument bounds the number of iterations. -/
def bSearchLoop (cmp : K → K → Int) (its : List (Item K V)) (key : K) :
    Nat → Nat → Nat → Option Nat
  | 0, i, j => if i < j then none else some i
  | fuel + 1, i, j =>
    if i < j then
      let h := (i + j) / 2
      match its[h]? with
      | none => none
      | some it =>
        if cmp it.Key key < 0 then bSearchLoop cmp its key fuel (h + 1) j
        else bSearchLoop cmp its key fuel i h
    else some i

/-- Go `bSearch`: index of the first item whose key is not smaller than `key`,
and whether that item has exactly this key. -/
def bSearch (n : node K V) (key : K) (cmp : K → K → Int) : Option (Nat × Bool) :=
  let l := n.items.length
  match bSearchLoop cmp n.items key l 0 l with
  | none => none
  | some i =>
    if i < l then
      match n.items[i]? with
      | none => none
      | some it => some (i, decide (cmp it.Key key = 0))
    else some (i, false)

mutual
/-- Number of levels below a node (the longest path to a leaf). -/
def height : node K V → Nat
  | mk _ cs => heightList cs
/-- One more than the largest height in a list of children, 0 for no children. -/
def heightList : List (node K V) → Nat
  | [] => 0
  | c :: cs => max (height c + 1) (heightList cs)
end

end node

/-- Go `newNode`: an empty node. -/
def newNode {K V : Type} (_t : Nat) : node K V := node.mk [] []

/-! ## btree.go -/

/-- Go `BTree[K, V]`.  `t` is positive in every use, so `t - 1` on naturals is
Go's `b.t-1`; `count` is a `uint64`. -/
structure BTree (K V : Type) where
  root : Option (node K V)
  t : Nat
  count : Nat
  compare : K → K → Int

/-- Go `New`/`NewWith`. -/
def NewWith {K V : Type} (t : Nat) (compare : K → K → Int) : BTree K V :=
  { root := none, t := t, count := 0, compare := compare }

/-- Go `Count`. -/
def BTree.Count {K V : Type} (b : BTree K V) : Nat := b.count

section ops

variable {K V : Type}

/-- Go `splitNode(node, parent)`.  The result is the position of `left` and
of `right` among the children of the parent, and the parent after the call:
the fresh root when `parent == nil` (the caller stores it in `b.root`), the
updated parent otherwise. -/
def splitNode (t : Nat) (cmp : K → K → Int) (nd : node K V) (parent : Option (node K V)) :
    Option (Nat × Nat × node K V) := do
  let leftItems ← sliceTo nd.items (t - 1)
  let item ← nd.items[t - 1]?
  let rightItems ← sliceFrom nd.items t
  let (leftChildren, rightChildren) ←
    if !nd.isLeaf then do
      let lc ← sliceTo nd.children t
      let rc ← sliceFrom nd.children t
      pure (lc, rc)
    else pure ([], [])
  let left := node.mk leftItems leftChildren
  let right := node.mk rightItems rightChildren
  match parent with
  | none => pure (0, 1, node.mk [item] [left, right])
  | some p => do
    let (ind, _) ← p.bSearch item.Key cmp
    let pitems ← slicesInsert p.items ind item
    let pchildren ← setAt p.children ind left
    let pchildren ← slicesInsert pchildren (ind + 1) right
    pure (ind, ind + 1, node.mk pitems pchildren)

/-- The loop of `TryAdd` while `parent != nil`: `curr` is `parent.children[ci]`.
Returns the parent after the loop and the result of `TryAdd`. -/
def TryAdd.loop (t : Nat) (cmp : K → K → Int) (key : K) (value : V) :
    Nat → node K V → Nat → Option (node K V × Bool)
  | 0, _, _ => none
  | fuel + 1, parent, ci => do
    let curr ← parent.children[ci]?
    let (ind, exist) ← curr.bSearch key cmp
    if exist then pure (parent, false)
    else if curr.isFilled t then do
      let (left, right, parent) ← splitNode t cmp curr (some parent)
      if ind ≤ t - 1 then TryAdd.loop t cmp key value fuel parent left
      else TryAdd.loop t cmp key value fuel parent right
    else if curr.isLeaf then do
      let citems ← slicesInsert curr.items ind (NewItem key value)
      let pchildren ← setAt parent.children ci (node.mk citems curr.children)
      pure (node.mk parent.items pchildren, true)
    else do
      let (curr, ok) ← TryAdd.loop t cmp key value fuel curr ind
      let pchildren ← setAt parent.children ci curr
      pure (node.mk parent.items pchildren, ok)

/-- The loop of `TryAdd` while `parent == nil`: `curr` is `b.root` itself
(`pos = none`) or, after a split of the root, the child `b.root.children[ci]`
(`pos = some ci`).  Returns `b.root` after the loop and the result. -/
def TryAdd.loopNil (t : Nat) (cmp : K → K → Int) (key : K) (value : V) :
    Nat → node K V → Option Nat → Option (node K V × Bool)
  | 0, _, _ => none
  | fuel + 1, root, none => do
    let (ind, exist) ← root.bSearch key cmp
    if exist then pure (root, false)
    else if root.isFilled t then do
      let (left, right, root) ← splitNode t cmp root none
      if ind ≤ t - 1 then TryAdd.loopNil t cmp key value fuel root (some left)
      else TryAdd.loopNil t cmp key value fuel root (some right)
    else if root.isLeaf then do
      let ritems ← slicesInsert root.items ind (NewItem key value)
      pure (node.mk ritems root.children, true)
    else TryAdd.loop t cmp key value fuel root ind
  | fuel + 1, root, some ci => do
    let curr ← root.children[ci]?
    let (ind, exist) ← curr.bSearch key cmp
    if exist then pure (root, false)
    else if curr.isFilled t then do
      let (left, right, root) ← splitNode t cmp curr none
      if ind ≤ t - 1 then TryAdd.loopNil t cmp key value fuel root (some left)
      else TryAdd.loopNil t cmp key value fuel root (some right)
    else if curr.isLeaf then do
      let citems ← slicesInsert curr.items ind (NewItem key value)
      let rchildren ← setAt root.children ci (node.mk citems curr.children)
      pure (node.mk root.items rchildren, true)
    else do
      let (curr, ok) ← TryAdd.loop t cmp key value fuel curr ind
      let rchildren ← setAt root.children ci curr
      pure (node.mk root.items rchildren, ok)

/-- Go `TryAdd`.  The loop gets two iterations for every level of the tree and
two more, which is enough on every tree (a level is visited at most twice). -/
def TryAdd (b : BTree K V) (key : K) (value : V) : Option (BTree K V × Bool) :=
  match b.root with
  | none =>
    some ({ b with root := some (node.mk [NewItem key value] []),
                   count := (b.count + 1) % 2 ^ 64 }, true)
  | some root => do
    let (root, ok) ← TryAdd.loopNil b.t b.compare key value (2 * root.height + 2) root none
    if ok then pure ({ b with root := some root, count := (b.count + 1) % 2 ^ 64 }, true)
    else pure ({ b with root := some root }, false)

/-- The loop of `TryGet` from `node`; `zero` is the zero value of `V`. -/
def TryGet.loop (cmp : K → K → Int) (key : K) (zero : V) :
    Nat → node K V → Option (Bool × V)
  | 0, _ => none
  | fuel + 1, nd => do
    let (ind, ok) ← nd.bSearch key cmp
    if ok then do
      let it ← nd.items[ind]?
      pure (true, it.Value)
    else if nd.isLeaf then pure (false, zero)
    else do
      let c ← nd.children[ind]?
      TryGet.loop cmp key zero fuel c

/-- Go `TryGet`; the zero value of `V` is `default`. -/
def TryGet [Inhabited V] (b : BTree K V) (key : K) : Option (Bool × V) :=
  match b.root with
  | none => some (false, default)
  | some root => TryGet.loop b.compare key default (root.height + 1) root

/-- Go `min`: the first item of the leftmost leaf below `node`. -/
def BTree.min : Nat → node K V → Option (Item K V)
  | 0, _ => none
  | fuel + 1, nd =>
    if !nd.isLeaf then do
      let c ← nd.children[0]?
      BTree.min fuel c
    else nd.items[0]?

/-- Go `max`: the last item of the rightmost leaf below `node`. -/
def BTree.max : Nat → node K V → Option (Item K V)
  | 0, _ => none
  | fuel + 1, nd =>
    if !nd.isLeaf then do
      let c ← nd.children[nd.children.length - 1]?
      BTree.max fuel c
    else nd.items[nd.items.length - 1]?

/-- Go `stealIfPossible(parent, childInd)`: the parent after the call and the
result. -/
def stealIfPossible (t : Nat) (parent : node K V) (childInd : Nat) :
    Option (node K V × Bool) := do
  let child ← parent.children[childInd]?
  let leftOk ←
    if 0 < childInd then do
      let s ← parent.children[childInd - 1]?
      pure (decide (t ≤ s.items.length))
    else pure false
  if leftOk then do
    let sibling ← parent.children[childInd - 1]?
    let sep ← parent.items[childInd - 1]?
    let citems ← slicesInsert child.items 0 sep
    let (cchildren, schildren) ←
      if !sibling.isLeaf then do
        let moved ← sibling.children[sibling.children.length - 1]?
        let cc ← slicesInsert child.children 0 moved
        let sc ← slicesDelete sibling.children (sibling.children.length - 1)
          sibling.children.length
        pure (cc, sc)
      else pure (child.children, sibling.children)
    let up ← sibling.items[sibling.items.length - 1]?
    let pitems ← setAt parent.items (childInd - 1) up
    let sitems ← slicesDelete sibling.items (sibling.items.length - 1) sibling.items.length
    let pchildren ← setAt parent.children childInd (node.mk citems cchildren)
    let pchildren ← setAt pchildren (childInd - 1) (node.mk sitems schildren)
    pure (node.mk pitems pchildren, true)
  else do
    let rightOk ←
      if childInd + 1 < parent.children.length then do
        let s ← parent.children[childInd + 1]?
        pure (decide (t ≤ s.items.length))
      else pure false
    if rightOk then do
      let sibling ← parent.children[childInd + 1]?
      let sep ← parent.items[childInd]?
      let citems := child.items ++ [sep]
      let (cchildren, schildren) ←
        if !sibling.isLeaf then do
          let moved ← sibling.children[0]?
          let sc ← slicesDelete sibling.children 0 1
          pure (child.children ++ [moved], sc)
        else pure (child.children, sibling.children)
      let up ← sibling.items[0]?
      let pitems ← setAt parent.items childInd up
      let sitems ← slicesDelete sibling.items 0 1
      let pchildren ← setAt parent.children childInd (node.mk citems cchildren)
      let pchildren ← setAt pchildren (childInd + 1) (node.mk sitems schildren)
      pure (node.mk pitems pchildren, true)
    else pure (parent, false)

/-- Go `merge(parent, childInd)`: the parent after the call and the position in
it of the returned node `leftSibl`. -/
def merge (parent : node K V) (childInd : Nat) : Option (node K V × Nat) := do
  let left := if 0 < childInd then childInd - 1 else childInd
  let right := if 0 < childInd then childInd else childInd + 1
  let leftSibl ← parent.children[left]?
  let sep ← parent.items[left]?
  let rightSibl ← parent.children[right]?
  let merged := node.mk (leftSibl.items ++ [sep] ++ rightSibl.items)
    (leftSibl.children ++ rightSibl.children)
  let pitems ← slicesDelete parent.items left right
  let pchildren ← setAt parent.children left merged
  let pchildren ← slicesDelete pchildren right (right + 1)
  pure (node.mk pitems pchildren, left)

mutual
/-- Go `remove(node, parent, childInd, key)` with `node = parent.children[childInd]`:
the parent after the call and the result. -/
def remove (t : Nat) (cmp : K → K → Int) (key : K) :
    Nat → node K V → Nat → Option (node K V × Bool)
  | 0, _, _ => none
  | fuel + 1, parent, childInd => do
    let nd ← parent.children[childInd]?
    let (parent, pos) ←
      if nd.items.length == t - 1 then do
        let (p, stolen) ← stealIfPossible t parent childInd
        if !stolen then merge p childInd else pure (p, childInd)
      else pure (parent, childInd)
    let nd ← parent.children[pos]?
    let (ind, exist) ← nd.bSearch key cmp
    if exist then do
      let nd ← delete t cmp fuel nd ind
      let pchildren ← setAt parent.children pos nd
      pure (node.mk parent.items pchildren, true)
    else if nd.isLeaf then pure (parent, false)
    else do
      let (nd, r) ← remove t cmp key fuel nd ind
      let pchildren ← setAt parent.children pos nd
      pure (node.mk parent.items pchildren, r)
/-- Go `delete(node, valueInd)`: the node after the call. -/
def delete (t : Nat) (cmp : K → K → Int) :
    Nat → node K V → Nat → Option (node K V)
  | 0, _, _ => none
  | fuel + 1, nd, valueInd =>
    if nd.isLeaf then do
      let its ← slicesDelete nd.items valueInd (valueInd + 1)
      pure (node.mk its nd.children)
    else do
      let c ← nd.children[valueInd]?
      if t - 1 < c.items.length then do
        let m ← BTree.max (c.height + 1) c
        let (nd, _) ← remove t cmp m.Key fuel nd valueInd
        let its ← setAt nd.items valueInd m
        pure (node.mk its nd.children)
      else do
        let c2 ← nd.children[valueInd + 1]?
        if t - 1 < c2.items.length then do
          let m ← BTree.min (c2.height + 1) c2
          let (nd, _) ← remove t cmp m.Key fuel nd (valueInd + 1)
          let its ← setAt nd.items valueInd m
          pure (node.mk its nd.children)
        else do
          let leftLen := c.items.length
          let (nd, _) ← merge nd (valueInd + 1)
          let c ← nd.children[valueInd]?
          let c ← delete t cmp fuel c leftLen
          let pchildren ← setAt nd.children valueInd c
          pure (node.mk nd.items pchildren)
end

/-- Go `TryRemove`.  `remove` and `delete` get two calls for every level of the
tree and two more. -/
def TryRemove (b : BTree K V) (key : K) : Option (BTree K V × Bool) :=
  match b.root with
  | none => some (b, false)
  | some root => do
    let (ind, exist) ← root.bSearch key b.compare
    if exist then do
      let root ← delete b.t b.compare (2 * root.height + 2) root ind
      let newRoot ←
        if root.items.length == 0 then
          if root.isLeaf then pure none
          else do
            let c ← root.children[0]?
            pure (some c)
        else pure (some root)
      pure ({ b with root := newRoot, count := (b.count + 2 ^ 64 - 1) % 2 ^ 64 }, true)
    else if root.isLeaf then pure (b, false)
    else do
      let (root, removed) ← remove b.t b.compare key (2 * root.height + 2) root ind
      let root ←
        if root.items.length == 0 then root.children[0]?
        else pure root
      if removed then
        pure ({ b with root := some root, count := (b.count + 2 ^ 64 - 1) % 2 ^ 64 }, true)
      else pure ({ b with root := some root }, false)

/-- The loop `for i, v := range node.items` of `inorderTraverse`, from index
`i` on; `rs[i]` is the result of `inorderTraverse(node.children[i])`. -/
def inorderTraverse.range : List (Item K V) → Nat → List (Option (List (Item K V))) →
    Option (List (Item K V))
  | [], _, _ => some []
  | v :: rest, i, rs => do
    let r ← rs[i]?
    let r ← r
    let tail ← inorderTraverse.range rest (i + 1) rs
    pure (r ++ v :: tail)

mutual
/-- Go `inorderTraverse(node)`. -/
def inorderTraverse : node K V → Option (List (Item K V))
  | node.mk its cs =>
    if cs.length == 0 then some its
    else do
      let front ← inorderTraverse.range its 0 (inorderTraverse.all cs)
      let last ← (inorderTraverse.all cs)[cs.length - 1]?
      let last ← last
      pure (front ++ last)
/-- The traversals of all nodes of a list, in order (`none` where one fails). -/
def inorderTraverse.all : List (node K V) → List (Option (List (Item K V)))
  | [] => []
  | c :: cs => inorderTraverse c :: inorderTraverse.all cs
end

/-- Go `InorderTraverse`. -/
def InorderTraverse (b : BTree K V) : Option (List (Item K V)) :=
  match b.root with
  | none => some []
  | some root => inorderTraverse root

end ops

/-! ## The structural invariant -/

section invariant

variable {K V : Type}

/-- A comparator that is a strict total order: `cmp a b < 0` reads "`a` is
smaller than `b`", `cmp a b = 0` holds for equal keys only, and the sign of
`cmp b a` is opposite to that of `cmp a b`. -/
structure StrictTotal (cmp : K → K → Int) : Prop where
  eq_iff : ∀ a b, cmp a b = 0 ↔ a = b
  swap : ∀ a b, cmp a b < 0 ↔ 0 < cmp b a
  trans : ∀ a b c, cmp a b < 0 → cmp b c < 0 → cmp a c < 0

namespace node

/-- Occupancy, child count and leaf depth of a node all of whose leaves are
`depth` levels below it: the node holds between `lo` and `2t-1` items; at depth
0 it has no children; otherwise it has `len(items)+1` children, each of which
holds at least `t-1` items and has all its leaves `depth-1` levels below. -/
def shaped (t : Nat) : Nat → Nat → node K V → Bool
  | 0, lo, n =>
    n.children.isEmpty && decide (lo ≤ n.items.length) && decide (n.items.length ≤ 2 * t - 1)
  | d + 1, lo, n =>
    (n.children.length == n.items.length + 1) && decide (lo ≤ n.items.length)
      && decide (n.items.length ≤ 2 * t - 1) && n.children.all (shaped t d (t - 1))

mutual
/-- All keys stored in a node and below it. -/
def allKeys : node K V → List K
  | mk its cs => its.map Item.Key ++ allKeysList cs
/-- All keys stored in and below the nodes of a list. -/
def allKeysList : List (node K V) → List K
  | [] => []
  | c :: cs => allKeys c ++ allKeysList cs
end

/-- Keys strictly ascending under the comparator. -/
def ascending (cmp : K → K → Int) : List K → Bool
  | [] => true
  | [_] => true
  | a :: b :: rest => decide (cmp a b < 0) && ascending cmp (b :: rest)

/-- Every key of `children[i]` lies strictly between `items[i-1]` and
`items[i]`; `lo` is the key of the item before the first child of the list
(none for `children[0]`), `ks` are the keys of the items from `items[i]` on. -/
def separated (cmp : K → K → Int) : Option K → List K → List (node K V) → Bool
  | _, _, [] => true
  | lo, [], c :: cs =>
    c.allKeys.all (fun k => match lo with
      | none => true
      | some l => decide (cmp l k < 0)) && separated cmp lo [] cs
  | lo, x :: xs, c :: cs =>
    c.allKeys.all (fun k => (match lo with
      | none => true
      | some l => decide (cmp l k < 0)) && decide (cmp k x < 0)) && separated cmp (some x) xs cs

mutual
/-- The ordering invariant: in every node the keys are strictly ascending and
every key below `children[i]` lies strictly between `items[i-1]` and `items[i]`. -/
def ordered (cmp : K → K → Int) : node K V → Bool
  | mk its cs =>
    ascending cmp (its.map Item.Key) && separated cmp none (its.map Item.Key) cs
      && orderedList cmp cs
/-- The ordering invariant for every node of a list. -/
def orderedList (cmp : K → K → Int) : List (node K V) → Bool
  | [] => true
  | c :: cs => ordered cmp c && orderedList cmp cs
end

end node

/-- The structural invariant of a tree: every node except the root has between
`t-1` and `2t-1` items and the root at most `2t-1`; every internal node has
`len(items)+1` children; all leaves are at the same depth; keys are ordered
within and across nodes.  A tree without root satisfies it. -/
def BTree.invariant (b : BTree K V) : Bool :=
  match b.root with
  | none => true
  | some r => r.shaped b.t r.height 0 && r.ordered b.compare

/-- The root, when present, holds at least one item (an empty tree has no root). -/
def BTree.rootNonEmpty (b : BTree K V) : Bool :=
  match b.root with
  | none => true
  | some r => decide (0 < r.items.length)

/-- The integer comparator `cmp.Compare` on `int` keys. -/
def intCompare (a b : Int) : Int := if a < b then -1 else if a = b then 0 else 1

end invariant

/-! ## The content of a tree -/

section content

variable {K V : Type}

/-- Items in strictly ascending key order. -/
def SortedItems (cmp : K → K → Int) (l : List (Item K V)) : Prop :=
  l.Pairwise (fun a b => cmp a.Key b.Key < 0)

/-- The sequence `x0, c0, x1, c1, ...` of items, each followed by a block. -/
def weaveR {α : Type} : List α → List (List α) → List α
  | x :: xs, c :: cs => x :: (c ++ weaveR xs cs)
  | _, _ => []

/-- The sequence `c0, x0, c1, x1, ...` of blocks, each followed by an item. -/
def weaveL {α : Type} : List (List α) → List α → List α
  | c :: cs, x :: xs => c ++ x :: weaveL cs xs
  | _, _ => []

/-- The sequence `c0, x0, c1, x1, ..., cm` of the blocks `cs` separated by the
items `xs`; the items alone when there is no block. -/
def interleave {α : Type} (xs : List α) (cs : List (List α)) : List α :=
  match cs with
  | [] => xs
  | c :: rest => c ++ weaveR xs rest

mutual
/-- The items of a node and of everything below it, children and items
alternating: the sequence `inorderTraverse` produces on a well-shaped node. -/
def node.inorder : node K V → List (Item K V)
  | node.mk its cs => interleave its (node.inorderList cs)
/-- The sequences of the nodes of a list. -/
def node.inorderList : List (node K V) → List (List (Item K V))
  | [] => []
  | c :: cs => node.inorder c :: node.inorderList cs
end

/-- The list `l2` is `l1` with the pair `(key, value)` inserted at its sorted
position: everything before it has a smaller key, everything after it a larger one. -/
def Inserted (cmp : K → K → Int) (key : K) (value : V) (l1 l2 : List (Item K V)) : Prop :=
  ∃ p q, l1 = p ++ q ∧ l2 = p ++ NewItem key value :: q ∧
    (∀ x ∈ p, cmp x.Key key < 0) ∧ (∀ x ∈ q, cmp key x.Key < 0)

/-- The list `l2` is `l1` with one item of key `key` taken out. -/
def Removed (key : K) (l1 l2 : List (Item K V)) : Prop :=
  ∃ p x q, l1 = p ++ x :: q ∧ x.Key = key ∧ l2 = p ++ q

/-- What `TryAdd` does to a sorted sequence `l1`: it reports `true` and inserts
the pair at its sorted position, or it reports `false`, leaves the sequence as
it is, and the key is in it. -/
def AddOutcome (cmp : K → K → Int) (key : K) (value : V) (l1 l2 : List (Item K V))
    (r : Bool) : Prop :=
  (r = true ∧ Inserted cmp key value l1 l2) ∨ (r = false ∧ l2 = l1 ∧ ∃ x ∈ l1, x.Key = key)

/-- What `TryRemove` does to a sequence `l1`: it reports `true` and takes the
item of the key out, or it reports `false`, leaves the sequence as it is, and
the key is not in it. -/
def RemoveOutcome (key : K) (l1 l2 : List (Item K V)) (r : Bool) : Prop :=
  (r = true ∧ Removed key l1 l2) ∨ (r = false ∧ l2 = l1 ∧ ∀ x ∈ l1, x.Key ≠ key)

/-- The part of an iteration of `remove` that follows the steal-or-merge step,
as a function of the current node: search it, then delete, stop or descend.
Returns the node after the call and the result. -/
def removeBody (t : Nat) (cmp : K → K → Int) (key : K) (fuel : Nat) (nd : node K V) :
    Option (node K V × Bool) := do
  let (ind, exist) ← nd.bSearch key cmp
  if exist then do
    let nd ← delete t cmp fuel nd ind
    pure (nd, true)
  else if nd.isLeaf then pure (nd, false)
  else remove t cmp key fuel nd ind

/-- The statement proved about `TryAdd.loop` for a child `c` whose leaves are
`d` levels below it. -/
def LoopGoal (cmp : K → K → Int) (t : Nat) (key : K) (value : V) (d : Nat)
    (full : Bool) : Prop :=
  ∀ (fuel lo : Nat) (xs1 xs2 : List (Item K V)) (cs1 : List (node K V)) (c : node K V)
    (cs2 : List (node K V)),
    cs1.length = xs1.length →
    (node.mk (xs1 ++ xs2) (cs1 ++ c :: cs2)).shaped t (d + 1) lo = true →
    SortedItems cmp (node.mk (xs1 ++ xs2) (cs1 ++ c :: cs2)).inorder →
    (∀ x ∈ xs1, cmp x.Key key < 0) → (∀ x ∈ xs2, cmp key x.Key < 0) →
    (if full then (xs1 ++ xs2).length < 2 * t - 1 ∧ 2 * d + 2 ≤ fuel
      else c.items.length < 2 * t - 1 ∧ 2 * d + 1 ≤ fuel) →
    ∃ p r, TryAdd.loop t cmp key value fuel (node.mk (xs1 ++ xs2) (cs1 ++ c :: cs2)) cs1.length
        = some (p, r) ∧
      p.shaped t (d + 1) lo = true ∧
      AddOutcome cmp key value (node.mk (xs1 ++ xs2) (cs1 ++ c :: cs2)).inorder p.inorder r

/-- The key `k` is larger than the bound `lo`, when there is one. -/
def Above (cmp : K → K → Int) (lo : Option K) (k : K) : Prop :=
  ∀ l, lo = some l → cmp l k < 0

/-- The steal-or-merge step at the start of an iteration of `remove`, for the
current node `nd = parent.children[childInd]`: the parent after the step and
the position of the current node in it. -/
def rebalance (t : Nat) (parent : node K V) (childInd : Nat) (nd : node K V) :
    Option (node K V × Nat) :=
  if nd.items.length == t - 1 then do
    let (p, stolen) ← stealIfPossible t parent childInd
    if !stolen then merge p childInd else pure (p, childInd)
  else pure (parent, childInd)

/-- The statement proved about `delete` for a node whose leaves are `d` levels
below it. -/
def DeleteGoal (cmp : K → K → Int) (t d : Nat) : Prop :=
  ∀ (fuel lo : Nat) (xs1 : List (Item K V)) (x : Item K V) (xs2 : List (Item K V))
    (cs : List (node K V)),
    (node.mk (xs1 ++ x :: xs2) cs).shaped t d lo = true →
    SortedItems cmp (node.mk (xs1 ++ x :: xs2) cs).inorder →
    2 * d + 1 ≤ fuel →
    ∃ nd2 p q, delete t cmp fuel (node.mk (xs1 ++ x :: xs2) cs) xs1.length = some nd2 ∧
      nd2.shaped t d (lo - 1) = true ∧
      (node.mk (xs1 ++ x :: xs2) cs).inorder = p ++ x :: q ∧ nd2.inorder = p ++ q

/-- The statement proved about the part of an iteration of `remove` that
follows the steal-or-merge step, for a node whose leaves are `d` levels below it. -/
def BodyGoal (cmp : K → K → Int) (t d : Nat) : Prop :=
  ∀ (key : K) (fuel lo : Nat) (nd : node K V),
    nd.shaped t d lo = true → 1 ≤ lo → SortedItems cmp nd.inorder → 2 * d + 1 ≤ fuel →
    ∃ nd2 r, removeBody t cmp key fuel nd = some (nd2, r) ∧
      nd2.shaped t d (lo - 1) = true ∧ RemoveOutcome key nd.inorder nd2.inorder r

/-- `TryAdd` for every pair of a list in turn, on the tree the previous call
left: the last tree and the results of the calls. -/
def addAll : BTree K V → List (Item K V) → Option (BTree K V × List Bool)
  | b, [] => some (b, [])
  | b, kv :: rest => do
    let (b1, r) ← TryAdd b kv.Key kv.Value
    let (b2, rs) ← addAll b1 rest
    pure (b2, r :: rs)

/-- Whether the search of `TryAdd` for `key`, started at `nd`, comes to a full
node before it finds the key or ends at a leaf. -/
def TryAdd.meetsFull (t : Nat) (cmp : K → K → Int) (key : K) : Nat → node K V → Bool
  | 0, _ => false
  | fuel + 1, nd =>
    match nd.bSearch key cmp with
    | none => false
    | some (ind, exist) =>
      if exist then false
      else if nd.isFilled t then true
      else if nd.isLeaf then false
      else
        match nd.children[ind]? with
        | none => false
        | some c => TryAdd.meetsFull t cmp key fuel c

/-- Whether `TryAdd b key _` comes to a full node before it finds the key. -/
def BTree.meetsFull (b : BTree K V) (key : K) : Bool :=
  match b.root with
  | none => false
  | some root => TryAdd.meetsFull b.t b.compare key (2 * root.height + 2) root

/-- Whether the search of `remove` for `key` below `nd` descends into a node
that holds only `t-1` items. -/
def remove.meetsMinimal (t : Nat) (cmp : K → K → Int) (key : K) : Nat → node K V → Bool
  | 0, _ => false
  | fuel + 1, nd =>
    match nd.bSearch key cmp with
    | none => false
    | some (ind, exist) =>
      if exist then false
      else if nd.isLeaf then false
      else
        match nd.children[ind]? with
        | none => false
        | some c =>
          if c.items.length == t - 1 then true
          else remove.meetsMinimal t cmp key fuel c

/-- Whether `TryRemove b key` descends into a node that holds only `t-1` items. -/
def BTree.meetsMinimal (b : BTree K V) (key : K) : Bool :=
  match b.root with
  | none => false
  | some root => remove.meetsMinimal b.t b.compare key (2 * root.height + 3) root

/-- A tree of minimum degree 2 with a full root and four leaves. -/
def fullRootTree : BTree Int Int :=
  { root := some (node.mk [⟨2, 20⟩, ⟨4, 40⟩, ⟨6, 60⟩]
      [node.mk [⟨1, 10⟩] [], node.mk [⟨3, 30⟩] [], node.mk [⟨5, 50⟩] [], node.mk [⟨7, 70⟩] []]),
    t := 2, count := 7, compare := intCompare }

/-- The tree of minimum degree 2 that inserting 1, 2, ..., 10 in this order makes. -/
def tenTree : BTree Int Int :=
  { root := some (node.mk [⟨4, 4⟩]
      [node.mk [⟨2, 2⟩] [node.mk [⟨1, 1⟩] [], node.mk [⟨3, 3⟩] []],
       node.mk [⟨6, 6⟩, ⟨8, 8⟩]
         [node.mk [⟨5, 5⟩] [], node.mk [⟨7, 7⟩] [], node.mk [⟨9, 9⟩, ⟨10, 10⟩] []]]),
    t := 2, count := 10, compare := intCompare }

/-- The tree that `TryAdd fullRootTree 7 _` leaves: the root has been split. -/
def fullRootTreeSplit : BTree Int Int :=
  { root := some (node.mk [⟨4, 40⟩]
      [node.mk [⟨2, 20⟩] [node.mk [⟨1, 10⟩] [], node.mk [⟨3, 30⟩] []],
       node.mk [⟨6, 60⟩] [node.mk [⟨5, 50⟩] [], node.mk [⟨7, 70⟩] []]]),
    t := 2, count := 7, compare := intCompare }

/-- The tree that `TryRemove tenTree 0` leaves: an item was stolen from the
right child of the root, and two leaves were merged. -/
def tenTreeRestructured : BTree Int Int :=
  { root := some (node.mk [⟨6, 6⟩]
      [node.mk [⟨4, 4⟩] [node.mk [⟨1, 1⟩, ⟨2, 2⟩, ⟨3, 3⟩] [], node.mk [⟨5, 5⟩] []],
       node.mk [⟨8, 8⟩] [node.mk [⟨7, 7⟩] [], node.mk [⟨9, 9⟩, ⟨10, 10⟩] []]]),
    t := 2, count := 10, compare := intCompare }

/-- The sequence of `tenTree`. -/
def tenItems : List (Item Int Int) :=
  [⟨1, 1⟩, ⟨2, 2⟩, ⟨3, 3⟩, ⟨4, 4⟩, ⟨5, 5⟩, ⟨6, 6⟩, ⟨7, 7⟩, ⟨8, 8⟩, ⟨9, 9⟩, ⟨10, 10⟩]

/-- The sequence of `fullRootTree`. -/
def fullRootItems : List (Item Int Int) :=
  [⟨1, 10⟩, ⟨2, 20⟩, ⟨3, 30⟩, ⟨4, 40⟩, ⟨5, 50⟩, ⟨6, 60⟩, ⟨7, 70⟩]

end content

/-! ## TryUpdate and sequences of calls -/

section calls

variable {K V : Type}

/-- The loop of `TryUpdate` from `node`: the node after the loop and the result.
`node.items[ind].Value = new` writes through the item pointer, so the item
keeps its key. -/
def TryUpdate.loop (cmp : K → K → Int) (key : K) (new : V) :
    Nat → node K V → Option (node K V × Bool)
  | 0, _ => none
  | fuel + 1, nd => do
    let (ind, ok) ← nd.bSearch key cmp
    if ok then do
      let it ← nd.items[ind]?
      let its ← setAt nd.items ind { it with Value := new }
      pure (node.mk its nd.children, true)
    else if nd.isLeaf then pure (nd, false)
    else do
      let c ← nd.children[ind]?
      let (c, r) ← TryUpdate.loop cmp key new fuel c
      let cs ← setAt nd.children ind c
      pure (node.mk nd.items cs, r)

/-- Go `TryUpdate`. -/
def TryUpdate (b : BTree K V) (key : K) (new : V) : Option (BTree K V × Bool) :=
  match b.root with
  | none => some (b, false)
  | some root => do
    let (root, r) ← TryUpdate.loop b.compare key new (root.height + 1) root
    pure ({ b with root := some root }, r)

/-- The item `x` with the value `new` when its key compares equal to `key`,
`x` itself otherwise. -/
def setValue (cmp : K → K → Int) (key : K) (new : V) (x : Item K V) : Item K V :=
  if cmp x.Key key = 0 then { x with Value := new } else x

mutual
/-- The node with `f` applied to every item in it and below it; nodes, item
positions and children stay as they are. -/
def node.mapItems (f : Item K V → Item K V) : node K V → node K V
  | node.mk its cs => node.mk (its.map f) (node.mapItemsList f cs)
/-- The nodes of a list with `f` applied to every item. -/
def node.mapItemsList (f : Item K V → Item K V) : List (node K V) → List (node K V)
  | [] => []
  | c :: cs => node.mapItems f c :: node.mapItemsList f cs
end

/-- A call of one of the public operations that take a key. -/
inductive Call (K V : Type) where
  | add (key : K) (value : V)
  | update (key : K) (new : V)
  | get (key : K)
  | remove (key : K)

/-- The tree after a call; the result of the call is dropped. -/
def Call.run [Inhabited V] (b : BTree K V) : Call K V → Option (BTree K V)
  | Call.add key value => (TryAdd b key value).map Prod.fst
  | Call.update key new => (TryUpdate b key new).map Prod.fst
  | Call.get key => (TryGet b key).map (fun _ => b)
  | Call.remove key => (TryRemove b key).map Prod.fst

/-- The tree after a sequence of calls, each on the tree the previous one left. -/
def runCalls [Inhabited V] : BTree K V → List (Call K V) → Option (BTree K V)
  | b, [] => some b
  | b, c :: rest => do
    let b1 ← c.run b
    runCalls b1 rest

/-- `TryRemove` for every key of a list in turn, on the tree the previous call
left: the last tree and the results of the calls. -/
def removeAll : BTree K V → List K → Option (BTree K V × List Bool)
  | b, [] => some (b, [])
  | b, k :: rest => do
    let (b1, r) ← TryRemove b k
    let (b2, rs) ← removeAll b1 rest
    pure (b2, r :: rs)

/-- Go `remove` with a record of its loop: the parent after the call and the
result, as `remove` returns them, and the current node of every iteration in
turn, as it is after the steal-or-merge step of the iteration, when it is
searched, handed to `delete` or used as the parent of the next iteration.
The iteration is the one of `remove`, with `rebalance` as its steal-or-merge
step. -/
def remove.traced (t : Nat) (cmp : K → K → Int) (key : K) :
    Nat → node K V → Nat → Option ((node K V × Bool) × List (node K V))
  | 0, _, _ => none
  | fuel + 1, parent, childInd => do
    let nd ← parent.children[childInd]?
    let (parent, pos) ← rebalance t parent childInd nd
    let nd ← parent.children[pos]?
    let (ind, exist) ← nd.bSearch key cmp
    if exist then do
      let nd2 ← delete t cmp fuel nd ind
      let pchildren ← setAt parent.children pos nd2
      pure ((node.mk parent.items pchildren, true), [nd])
    else if nd.isLeaf then pure ((parent, false), [nd])
    else do
      let ((nd2, r), rest) ← remove.traced t cmp key fuel nd ind
      let pchildren ← setAt parent.children pos nd2
      pure ((node.mk parent.items pchildren, r), nd :: rest)

/-- A full node of minimum degree 2 over four full leaves. -/
def fullLevelsRoot : node Int Int :=
  node.mk [⟨10, 10⟩, ⟨20, 20⟩, ⟨30, 30⟩]
    [node.mk [⟨1, 1⟩, ⟨2, 2⟩, ⟨3, 3⟩] [], node.mk [⟨11, 11⟩, ⟨12, 12⟩, ⟨13, 13⟩] [],
     node.mk [⟨21, 21⟩, ⟨22, 22⟩, ⟨23, 23⟩] [], node.mk [⟨31, 31⟩, ⟨32, 32⟩, ⟨33, 33⟩] []]

/-- A tree of minimum degree 2 with a full root over four full leaves. -/
def fullLevelsTree : BTree Int Int :=
  { root := some fullLevelsRoot, t := 2, count := 15, compare := intCompare }

/-- The left child of the root after `TryAdd fullLevelsTree 5 50`: the item
`10` of the old root and the item `2` that the split of the first leaf promoted. -/
def fullLevelsLeft : node Int Int :=
  node.mk [⟨2, 2⟩, ⟨10, 10⟩]
    [node.mk [⟨1, 1⟩] [], node.mk [⟨3, 3⟩, ⟨5, 50⟩] [],
     node.mk [⟨11, 11⟩, ⟨12, 12⟩, ⟨13, 13⟩] []]

/-- The right child of the root after `TryAdd fullLevelsTree 5 50`. -/
def fullLevelsRight : node Int Int :=
  node.mk [⟨30, 30⟩]
    [node.mk [⟨21, 21⟩, ⟨22, 22⟩, ⟨23, 23⟩] [], node.mk [⟨31, 31⟩, ⟨32, 32⟩, ⟨33, 33⟩] []]

/-- The tree that `TryAdd fullLevelsTree 5 50` leaves. -/
def fullLevelsAdded : BTree Int Int :=
  { root := some (node.mk [⟨20, 20⟩] [fullLevelsLeft, fullLevelsRight]),
    t := 2, count := 16, compare := intCompare }

/-- The node `h2` is the node `h` as the loop of `TryAdd` for `key` leaves it
when `h` is not full: with the same items, or with one more item, which is the
new item or the item at index `t-1` of the full child of `h` that the search
for `key` leads to (the item that the split of this child promotes). -/
def GrownBy (t : Nat) (cmp : K → K → Int) (key : K) (value : V) (h h2 : node K V) : Prop :=
  h2.items = h.items ∨
    ∃ a b x, h.items = a ++ b ∧ h2.items = a ++ x :: b ∧
      (x = NewItem key value ∨
        ∃ ind full, h.bSearch key cmp = some (ind, false) ∧ h.children[ind]? = some full ∧
          full.items.length = 2 * t - 1 ∧ full.items[t - 1]? = some x)

/-- The root of `tenTree`. -/
def tenRoot : node Int Int :=
  node.mk [⟨4, 4⟩]
    [node.mk [⟨2, 2⟩] [node.mk [⟨1, 1⟩] [], node.mk [⟨3, 3⟩] []],
     node.mk [⟨6, 6⟩, ⟨8, 8⟩]
       [node.mk [⟨5, 5⟩] [], node.mk [⟨7, 7⟩] [], node.mk [⟨9, 9⟩, ⟨10, 10⟩] []]]

/-- A node of minimum degree 2 with one item and a full first child. -/
def parentOfFullLeaf : node Int Int :=
  node.mk [⟨10, 10⟩] [node.mk [⟨1, 1⟩, ⟨2, 2⟩, ⟨3, 3⟩] [], node.mk [⟨11, 11⟩, ⟨12, 12⟩] []]

end calls

/-! # Theorems -/

/-! ## Lists at a position -/

section lists

variable {α : Type}

theorem exists_split_at (l : List α) (i : Nat) (h : i < l.length) :
    ∃ l1 a l2, l = l1 ++ a :: l2 ∧ l1.length = i := by
  refine ⟨l.take i, l[i], l.drop (i + 1), ?_, ?_⟩
  · rw [← List.drop_eq_getElem_cons h, List.take_append_drop]
  · simp [List.length_take]; omega

theorem exists_split_le (l : List α) (i : Nat) (h : i ≤ l.length) :
    ∃ l1 l2, l = l1 ++ l2 ∧ l1.length = i := by
  refine ⟨l.take i, l.drop i, (List.take_append_drop i l).symm, ?_⟩
  simp [List.length_take]; omega

theorem getElem?_at (l1 : List α) (a : α) (l2 : List α) (i : Nat) (h : i = l1.length) :
    (l1 ++ a :: l2)[i]? = some a := by
  subst h
  rw [List.getElem?_append_right (Nat.le_refl _)]
  simp

theorem set_at (l1 : List α) (a b : α) (l2 : List α) (i : Nat) (h : i = l1.length) :
    (l1 ++ a :: l2).set i b = l1 ++ b :: l2 := by
  subst h
  simp

theorem take_at (l1 l2 : List α) (i : Nat) (h : i = l1.length) : (l1 ++ l2).take i = l1 := by
  subst h
  simp

theorem drop_at (l1 l2 : List α) (i : Nat) (h : i = l1.length) : (l1 ++ l2).drop i = l2 := by
  subst h
  simp

end lists

/-! ## The comparator -/

section order

variable {K V : Type} {cmp : K → K → Int}

theorem StrictTotal.irrefl (hc : StrictTotal cmp) (a : K) : ¬ cmp a a < 0 := by
  have h := (hc.eq_iff a a).2 rfl
  omega

theorem StrictTotal.asymm (hc : StrictTotal cmp) {a b : K} (h : cmp a b < 0) : ¬ cmp b a < 0 := by
  have h2 := (hc.swap a b).1 h
  omega

theorem StrictTotal.lt_of_not (hc : StrictTotal cmp) {a b : K} (h1 : ¬ cmp a b < 0)
    (h2 : a ≠ b) : cmp b a < 0 := by
  have h3 : cmp a b ≠ 0 := fun h => h2 ((hc.eq_iff a b).1 h)
  have h4 : 0 < cmp a b := by omega
  exact (hc.swap b a).2 h4

theorem StrictTotal.ne_of_lt (hc : StrictTotal cmp) {a b : K} (h : cmp a b < 0) : a ≠ b := by
  intro e
  subst e
  exact hc.irrefl a h

theorem intCompare_strictTotal : StrictTotal intCompare := by
  refine ⟨?_, ?_, ?_⟩
  · intro a b
    unfold intCompare
    rcases lt_trichotomy a b with h | h | h
    · have h3 : a ≠ b := ne_of_lt h
      simp [h, h3]
    · subst h
      simp
    · have h2 : ¬ a < b := not_lt.2 (le_of_lt h)
      have h3 : a ≠ b := ne_of_gt h
      simp [h2, h3]
  · intro a b
    unfold intCompare
    rcases lt_trichotomy a b with h | h | h
    · have h2 : ¬ b < a := not_lt.2 (le_of_lt h)
      have h3 : b ≠ a := ne_of_gt h
      simp [h, h2, h3]
    · subst h
      simp
    · have h2 : ¬ a < b := not_lt.2 (le_of_lt h)
      have h3 : a ≠ b := ne_of_gt h
      simp [h, h2, h3]
  · intro a b c
    unfold intCompare
    intro h1 h2
    have h3 : a < b := by
      by_contra h
      simp only [h, if_false] at h1
      split_ifs at h1 <;> omega
    have h4 : b < c := by
      by_contra h
      simp only [h, if_false] at h2
      split_ifs at h2 <;> omega
    have h5 : a < c := lt_trans h3 h4
    simp [h5]

end order

/-! ## Local search -/

section search

variable {K V : Type} {cmp : K → K → Int}

theorem SortedItems.append_left {l1 l2 : List (Item K V)} (h : SortedItems cmp (l1 ++ l2)) :
    SortedItems cmp l1 :=
  (List.pairwise_append.1 h).1

theorem SortedItems.append_right {l1 l2 : List (Item K V)} (h : SortedItems cmp (l1 ++ l2)) :
    SortedItems cmp l2 :=
  (List.pairwise_append.1 h).2.1

theorem SortedItems.lt_of_append {l1 l2 : List (Item K V)} (h : SortedItems cmp (l1 ++ l2))
    {a b : Item K V} (ha : a ∈ l1) (hb : b ∈ l2) : cmp a.Key b.Key < 0 :=
  (List.pairwise_append.1 h).2.2 a ha b hb

theorem bSearchLoop_spec (hc : StrictTotal cmp) (its : List (Item K V))
    (hs : SortedItems cmp its) (key : K) :
    ∀ fuel i j, i ≤ j → j ≤ its.length → j - i ≤ fuel →
      (∀ x ∈ its.take i, cmp x.Key key < 0) → (∀ x ∈ its.drop j, ¬ cmp x.Key key < 0) →
      ∃ r, node.bSearchLoop cmp its key fuel i j = some r ∧ r ≤ its.length ∧
        (∀ x ∈ its.take r, cmp x.Key key < 0) ∧ (∀ x ∈ its.drop r, ¬ cmp x.Key key < 0) := by
  intro fuel
  induction fuel with
  | zero =>
    intro i j hij hj hf hlo hhi
    have e : i = j := by omega
    subst e
    exact ⟨i, by simp [node.bSearchLoop], hj, hlo, hhi⟩
  | succ fuel ih =>
    intro i j hij hj hf hlo hhi
    by_cases hlt : i < j
    · have hh : (i + j) / 2 < its.length := by omega
      obtain ⟨l1, it, l2, e, hl1⟩ := exists_split_at its ((i + j) / 2) hh
      have hget : its[(i + j) / 2]? = some it := by
        rw [e]; exact getElem?_at l1 it l2 _ hl1.symm
      have hs' : SortedItems cmp (l1 ++ it :: l2) := e ▸ hs
      by_cases hcmp : cmp it.Key key < 0
      · have hstep : node.bSearchLoop cmp its key (fuel + 1) i j
            = node.bSearchLoop cmp its key fuel ((i + j) / 2 + 1) j := by
          simp [node.bSearchLoop, hlt, hget, hcmp]
        rw [hstep]
        apply ih _ _ (by omega) hj (by omega) _ hhi
        intro x hx
        have e2 : its = (l1 ++ [it]) ++ l2 := by rw [e]; simp
        rw [e2, take_at (l1 ++ [it]) l2 _ (by simp [hl1])] at hx
        rcases List.mem_append.1 hx with h1 | h1
        · exact hc.trans _ _ _ (hs'.lt_of_append h1 (List.mem_cons_self _ _)) hcmp
        · simp at h1; subst h1; exact hcmp
      · have hstep : node.bSearchLoop cmp its key (fuel + 1) i j
            = node.bSearchLoop cmp its key fuel i ((i + j) / 2) := by
          simp [node.bSearchLoop, hlt, hget, hcmp]
        rw [hstep]
        apply ih _ _ (by omega) (by omega) (by omega) hlo
        intro x hx
        rw [e, drop_at l1 (it :: l2) _ hl1.symm] at hx
        rcases List.mem_cons.1 hx with h1 | h1
        · subst h1; exact hcmp
        · intro hx2
          have h3 : cmp it.Key x.Key < 0 := by
            have := hs'.append_right
            exact (List.pairwise_cons.1 this).1 x h1
          exact hcmp (hc.trans _ _ _ h3 hx2)
    · have e : i = j := by omega
      subst e
      exact ⟨i, by simp [node.bSearchLoop], hj, hlo, hhi⟩

/-- What `bSearch` returns on a node with ascending keys: the items split at the
returned index into those with a smaller key and the rest; `exist` reports
whether the rest starts with the key. -/
theorem bSearch_spec (hc : StrictTotal cmp) (n : node K V) (hs : SortedItems cmp n.items)
    (key : K) :
    ∃ i e l1 l2, n.bSearch key cmp = some (i, e) ∧ n.items = l1 ++ l2 ∧ l1.length = i ∧
      (∀ x ∈ l1, cmp x.Key key < 0) ∧
      (e = true → ∃ x l3, l2 = x :: l3 ∧ x.Key = key) ∧
      (e = false → ∀ x ∈ l2, cmp key x.Key < 0) := by
  obtain ⟨r, hr, hrl, hlo, hhi⟩ := bSearchLoop_spec hc n.items hs key n.items.length 0
    n.items.length (Nat.zero_le _) (Nat.le_refl _) (by omega) (by simp) (by simp)
  obtain ⟨l1, l2, e, hl1⟩ := exists_split_le n.items r hrl
  rw [e, take_at l1 l2 r hl1.symm] at hlo
  rw [e, drop_at l1 l2 r hl1.symm] at hhi
  have hs' : SortedItems cmp (l1 ++ l2) := e ▸ hs
  cases l2 with
  | nil =>
    refine ⟨r, false, l1, [], ?_, e, hl1, hlo, by simp, by simp⟩
    have : ¬ r < n.items.length := by rw [e]; simp; omega
    simp [node.bSearch, hr, this]
  | cons x l3 =>
    have hlt : r < n.items.length := by rw [e]; simp; omega
    have hget : n.items[r]? = some x := by rw [e]; exact getElem?_at l1 x l3 r hl1.symm
    refine ⟨r, decide (cmp x.Key key = 0), l1, x :: l3, ?_, e, hl1, hlo, ?_, ?_⟩
    · simp [node.bSearch, hr, hlt, hget]
    · intro h
      have h' : cmp x.Key key = 0 := by simpa using h
      exact ⟨x, l3, rfl, (hc.eq_iff _ _).1 h'⟩
    · intro h
      have h' : ¬ cmp x.Key key = 0 := by simpa using h
      have hne : x.Key ≠ key := fun e => h' ((hc.eq_iff _ _).2 e)
      have hx : cmp key x.Key < 0 := hc.lt_of_not (hhi x (List.mem_cons_self _ _)) hne
      intro y hy
      rcases List.mem_cons.1 hy with h1 | h1
      · subst h1; exact hx
      · exact hc.trans _ _ _ hx ((List.pairwise_cons.1 hs'.append_right).1 y h1)

end search

/-! ## Shape of a node -/

section shape

variable {K V : Type}

theorem node.eta (n : node K V) : node.mk n.items n.children = n := by
  cases n; rfl

@[simp]
theorem node.items_mk (its : List (Item K V)) (cs : List (node K V)) :
    (node.mk its cs).items = its := rfl

@[simp]
theorem node.children_mk (its : List (Item K V)) (cs : List (node K V)) :
    (node.mk its cs).children = cs := rfl

theorem node.isLeaf_iff (n : node K V) : n.isLeaf = true ↔ n.children = [] := by
  simp [node.isLeaf, List.length_eq_zero]

theorem shaped_zero {t lo : Nat} {n : node K V} :
    n.shaped t 0 lo = true ↔ n.children = [] ∧ lo ≤ n.items.length ∧ n.items.length ≤ 2 * t - 1 := by
  simp [node.shaped, List.isEmpty_iff, and_assoc]

theorem shaped_succ {t d lo : Nat} {n : node K V} :
    n.shaped t (d + 1) lo = true ↔
      n.children.length = n.items.length + 1 ∧ lo ≤ n.items.length ∧
        n.items.length ≤ 2 * t - 1 ∧ ∀ c ∈ n.children, c.shaped t d (t - 1) = true := by
  simp [node.shaped, and_assoc]

theorem shaped_mono {t d lo lo2 : Nat} {n : node K V} (h : n.shaped t d lo = true)
    (hle : lo2 ≤ lo) : n.shaped t d lo2 = true := by
  cases d with
  | zero =>
    rw [shaped_zero] at h ⊢
    exact ⟨h.1, by omega, h.2.2⟩
  | succ d =>
    rw [shaped_succ] at h ⊢
    exact ⟨h.1, by omega, h.2.2.1, h.2.2.2⟩

theorem shaped_lo {t d lo : Nat} {n : node K V} (h : n.shaped t d lo = true) :
    lo ≤ n.items.length := by
  cases d with
  | zero => exact (shaped_zero.1 h).2.1
  | succ d => exact (shaped_succ.1 h).2.1

theorem shaped_hi {t d lo : Nat} {n : node K V} (h : n.shaped t d lo = true) :
    n.items.length ≤ 2 * t - 1 := by
  cases d with
  | zero => exact (shaped_zero.1 h).2.2
  | succ d => exact (shaped_succ.1 h).2.2.1

theorem shaped_exact {t d lo : Nat} {n : node K V} (h : n.shaped t d lo = true) :
    n.shaped t d n.items.length = true := by
  cases d with
  | zero =>
    rw [shaped_zero] at h ⊢
    exact ⟨h.1, Nat.le_refl _, h.2.2⟩
  | succ d =>
    rw [shaped_succ] at h ⊢
    exact ⟨h.1, Nat.le_refl _, h.2.2.1, h.2.2.2⟩

theorem heightList_eq {d : Nat} (cs : List (node K V)) (hne : cs ≠ [])
    (h : ∀ c ∈ cs, c.height = d) : node.heightList cs = d + 1 := by
  induction cs with
  | nil => exact absurd rfl hne
  | cons c cs ih =>
    have hc : c.height = d := h c (List.mem_cons_self _ _)
    cases cs with
    | nil => simp [node.heightList, hc]
    | cons c2 cs2 =>
      have := ih (by simp) (fun x hx => h x (List.mem_cons_of_mem _ hx))
      simp only [node.heightList] at this ⊢
      rw [hc]
      omega

theorem shaped_height {t : Nat} : ∀ (d lo : Nat) (n : node K V),
    n.shaped t d lo = true → n.height = d := by
  intro d
  induction d with
  | zero =>
    intro lo n h
    rw [shaped_zero] at h
    cases n with
    | mk its cs =>
      simp only [node.children_mk] at h
      simp [node.height, h.1, node.heightList]
  | succ d ih =>
    intro lo n h
    rw [shaped_succ] at h
    cases n with
    | mk its cs =>
      simp only [node.children_mk, node.items_mk] at h
      simp only [node.height]
      apply heightList_eq
      · intro e; rw [e] at h; simp at h
      · intro c hc; exact ih _ c (h.2.2.2 c hc)

end shape

/-! ## Interleaving -/

section weave

variable {α : Type}

@[simp]
theorem weaveR_nil_left (cs : List (List α)) : weaveR ([] : List α) cs = [] := by
  cases cs <;> rfl

@[simp]
theorem weaveR_nil_right (xs : List α) : weaveR xs ([] : List (List α)) = [] := by
  cases xs <;> rfl

@[simp]
theorem weaveR_cons (x : α) (xs : List α) (c : List α) (cs : List (List α)) :
    weaveR (x :: xs) (c :: cs) = x :: (c ++ weaveR xs cs) := rfl

@[simp]
theorem weaveL_nil_left (xs : List α) : weaveL ([] : List (List α)) xs = [] := by
  cases xs <;> rfl

@[simp]
theorem weaveL_nil_right (cs : List (List α)) : weaveL cs ([] : List α) = [] := by
  cases cs <;> rfl

@[simp]
theorem weaveL_cons (x : α) (xs : List α) (c : List α) (cs : List (List α)) :
    weaveL (c :: cs) (x :: xs) = c ++ x :: weaveL cs xs := rfl

@[simp]
theorem interleave_nil (xs : List α) : interleave xs [] = xs := rfl

@[simp]
theorem interleave_cons (xs : List α) (c : List α) (cs : List (List α)) :
    interleave xs (c :: cs) = c ++ weaveR xs cs := rfl

theorem weaveR_split (x0 : α) (xs2 : List α) (b : List α) (bs2 : List (List α)) :
    ∀ (bs1 : List (List α)) (xs1 : List α), bs1.length = xs1.length →
      weaveR (x0 :: (xs1 ++ xs2)) (bs1 ++ b :: bs2)
        = x0 :: (weaveL bs1 xs1 ++ b ++ weaveR xs2 bs2) := by
  intro bs1
  induction bs1 generalizing x0 with
  | nil =>
    intro xs1 h
    have : xs1 = [] := List.length_eq_zero.1 h.symm
    subst this
    simp
  | cons b1 bs1 ih =>
    intro xs1 h
    cases xs1 with
    | nil => simp at h
    | cons x1 xs1 =>
      simp only [List.length_cons, Nat.add_right_cancel_iff] at h
      simp only [List.cons_append, weaveR_cons, weaveL_cons, ih x1 xs1 h]
      simp

theorem interleave_split (xs1 xs2 : List α) (bs1 : List (List α)) (b : List α)
    (bs2 : List (List α)) (h : bs1.length = xs1.length) :
    interleave (xs1 ++ xs2) (bs1 ++ b :: bs2) = weaveL bs1 xs1 ++ b ++ weaveR xs2 bs2 := by
  cases bs1 with
  | nil =>
    have : xs1 = [] := List.length_eq_zero.1 h.symm
    subst this
    simp
  | cons b0 bs1 =>
    cases xs1 with
    | nil => simp at h
    | cons x0 xs1 =>
      simp only [List.length_cons, Nat.add_right_cancel_iff] at h
      simp only [List.cons_append, interleave_cons, weaveL_cons, weaveR_split x0 xs2 b bs2 bs1 xs1 h]
      simp

theorem weaveL_append (xs1 xs2 : List α) (bs1 bs2 : List (List α))
    (h : bs1.length = xs1.length) :
    weaveL (bs1 ++ bs2) (xs1 ++ xs2) = weaveL bs1 xs1 ++ weaveL bs2 xs2 := by
  induction bs1 generalizing xs1 with
  | nil =>
    have : xs1 = [] := List.length_eq_zero.1 h.symm
    subst this
    simp
  | cons b bs1 ih =>
    cases xs1 with
    | nil => simp at h
    | cons x xs1 =>
      simp only [List.length_cons, Nat.add_right_cancel_iff] at h
      simp [ih xs1 h]

theorem weaveR_append (xs1 xs2 : List α) (bs1 bs2 : List (List α))
    (h : bs1.length = xs1.length) :
    weaveR (xs1 ++ xs2) (bs1 ++ bs2) = weaveR xs1 bs1 ++ weaveR xs2 bs2 := by
  induction bs1 generalizing xs1 with
  | nil =>
    have : xs1 = [] := List.length_eq_zero.1 h.symm
    subst this
    simp
  | cons b bs1 ih =>
    cases xs1 with
    | nil => simp at h
    | cons x xs1 =>
      simp only [List.length_cons, Nat.add_right_cancel_iff] at h
      simp [ih xs1 h]

end weave

section inorder

variable {K V : Type}

@[simp]
theorem inorderList_nil : node.inorderList ([] : List (node K V)) = [] := by
  simp [node.inorderList]

@[simp]
theorem inorderList_cons (c : node K V) (cs : List (node K V)) :
    node.inorderList (c :: cs) = c.inorder :: node.inorderList cs := by
  simp [node.inorderList]

@[simp]
theorem inorderList_append (cs1 cs2 : List (node K V)) :
    node.inorderList (cs1 ++ cs2) = node.inorderList cs1 ++ node.inorderList cs2 := by
  induction cs1 with
  | nil => simp
  | cons c cs ih => simp [ih]

@[simp]
theorem length_inorderList (cs : List (node K V)) :
    (node.inorderList cs).length = cs.length := by
  induction cs with
  | nil => simp
  | cons c cs ih => simp [ih]

theorem inorder_mk (its : List (Item K V)) (cs : List (node K V)) :
    (node.mk its cs).inorder = interleave its (node.inorderList cs) := by
  simp [node.inorder]

@[simp]
theorem inorder_leaf (its : List (Item K V)) : (node.mk its []).inorder = its := by
  simp [inorder_mk]

/-- The sequence of a node, seen from one of its children. -/
theorem inorder_split (xs1 xs2 : List (Item K V)) (cs1 : List (node K V)) (c : node K V)
    (cs2 : List (node K V)) (h : cs1.length = xs1.length) :
    (node.mk (xs1 ++ xs2) (cs1 ++ c :: cs2)).inorder
      = weaveL (node.inorderList cs1) xs1 ++ c.inorder ++ weaveR xs2 (node.inorderList cs2) := by
  rw [inorder_mk, inorderList_append, inorderList_cons]
  exact interleave_split xs1 xs2 _ _ _ (by simpa using h)

end inorder

/-! ## Slices at a position -/

section slices

variable {α : Type}

theorem sliceTo_at (l1 l2 : List α) (k : Nat) (h : k = l1.length) :
    sliceTo (l1 ++ l2) k = some l1 := by
  subst h
  simp [sliceTo]

theorem sliceFrom_at (l1 l2 : List α) (k : Nat) (h : k = l1.length) :
    sliceFrom (l1 ++ l2) k = some l2 := by
  subst h
  simp [sliceFrom]

theorem slicesInsert_at (l1 l2 : List α) (k : Nat) (v : α) (h : k = l1.length) :
    slicesInsert (l1 ++ l2) k v = some (l1 ++ v :: l2) := by
  subst h
  simp [slicesInsert]

theorem setAt_at (l1 : List α) (a b : α) (l2 : List α) (k : Nat) (h : k = l1.length) :
    setAt (l1 ++ a :: l2) k b = some (l1 ++ b :: l2) := by
  subst h
  simp [setAt]

theorem slicesDelete_at (l1 m l2 : List α) (i j : Nat) (hi : i = l1.length)
    (hj : j = l1.length + m.length) :
    slicesDelete (l1 ++ (m ++ l2)) i j = some (l1 ++ l2) := by
  subst hi hj
  have h1 : (l1 ++ (m ++ l2)).drop (l1.length + m.length) = l2 := by
    rw [← List.append_assoc]
    exact drop_at (l1 ++ m) l2 _ (by simp)
  simp [slicesDelete, h1]

end slices

/-! ## Search in a sorted node -/

section searchAt

variable {K V : Type} {cmp : K → K → Int}

/-- The index `bSearch` returns for a key that is not among the items. -/
theorem bSearch_at (hc : StrictTotal cmp) (xs1 xs2 : List (Item K V)) (cs : List (node K V))
    (hs : SortedItems cmp (xs1 ++ xs2)) (key : K)
    (h1 : ∀ x ∈ xs1, cmp x.Key key < 0) (h2 : ∀ x ∈ xs2, cmp key x.Key < 0) :
    (node.mk (xs1 ++ xs2) cs).bSearch key cmp = some (xs1.length, false) := by
  obtain ⟨i, e, l1, l2, hb, hl, hi, hlo, htrue, hfalse⟩ :=
    bSearch_spec hc (node.mk (xs1 ++ xs2) cs) hs key
  simp only [node.items_mk] at hl
  have hl1 : l1 = xs1 ∧ l2 = xs2 := by
    rcases List.append_eq_append_iff.1 hl with ⟨a, ha1, ha2⟩ | ⟨c, hc1, hc2⟩
    · cases a with
      | nil => simp at ha1 ha2; exact ⟨ha1, ha2.symm⟩
      | cons y a =>
        exfalso
        have hy1 : cmp y.Key key < 0 := hlo y (by rw [ha1]; simp)
        have hy2 : cmp key y.Key < 0 := h2 y (by rw [ha2]; simp)
        exact hc.asymm hy1 hy2
    · cases c with
      | nil => simp at hc1 hc2; exact ⟨hc1.symm, hc2⟩
      | cons y c =>
        exfalso
        have hy1 : cmp y.Key key < 0 := h1 y (by rw [hc1]; simp)
        cases e with
        | true =>
          obtain ⟨x, l3, hx, hk⟩ := htrue rfl
          rw [hx] at hc2
          simp only [List.cons_append, List.cons.injEq] at hc2
          rw [← hc2.1, hk] at hy1
          exact hc.irrefl _ hy1
        | false =>
          have hy2 : cmp key y.Key < 0 := hfalse rfl y (by rw [hc2]; simp)
          exact hc.asymm hy1 hy2
  obtain ⟨e1, e2⟩ := hl1
  subst e1 e2
  cases e with
  | true =>
    exfalso
    obtain ⟨x, l3, hx, hk⟩ := htrue rfl
    have := h2 x (by rw [hx]; simp)
    rw [hk] at this
    exact hc.irrefl _ this
  | false => rw [hb, hi]

/-- The index `bSearch` returns for the key of one of the items. -/
theorem bSearch_found (hc : StrictTotal cmp) (xs1 : List (Item K V)) (x : Item K V)
    (xs2 : List (Item K V)) (cs : List (node K V))
    (hs : SortedItems cmp (xs1 ++ x :: xs2)) :
    (node.mk (xs1 ++ x :: xs2) cs).bSearch x.Key cmp = some (xs1.length, true) := by
  obtain ⟨i, e, l1, l2, hb, hl, hi, hlo, htrue, hfalse⟩ :=
    bSearch_spec hc (node.mk (xs1 ++ x :: xs2) cs) hs x.Key
  simp only [node.items_mk] at hl
  have h1 : ∀ y ∈ xs1, cmp y.Key x.Key < 0 := fun y hy =>
    hs.lt_of_append hy (List.mem_cons_self _ _)
  have h2 : ∀ y ∈ xs2, cmp x.Key y.Key < 0 := fun y hy =>
    (List.pairwise_cons.1 hs.append_right).1 y hy
  have hl1 : l1 = xs1 ∧ l2 = x :: xs2 := by
    rcases List.append_eq_append_iff.1 hl with ⟨a, ha1, ha2⟩ | ⟨c, hc1, hc2⟩
    · cases a with
      | nil => simp at ha1 ha2; exact ⟨ha1, ha2.symm⟩
      | cons y a =>
        exfalso
        have hy1 : cmp y.Key x.Key < 0 := hlo y (by rw [ha1]; simp)
        simp only [List.cons_append, List.cons.injEq] at ha2
        rw [← ha2.1] at hy1
        exact hc.irrefl _ hy1
    · cases c with
      | nil => simp at hc1 hc2; exact ⟨hc1.symm, hc2⟩
      | cons y c =>
        exfalso
        have hy1 : cmp y.Key x.Key < 0 := h1 y (by rw [hc1]; simp)
        cases e with
        | true =>
          obtain ⟨z, l3, hz, hk⟩ := htrue rfl
          rw [hz] at hc2
          simp only [List.cons_append, List.cons.injEq] at hc2
          rw [← hc2.1, hk] at hy1
          exact hc.irrefl _ hy1
        | false =>
          have hy2 : cmp x.Key y.Key < 0 := hfalse rfl y (by rw [hc2]; simp)
          exact hc.asymm hy1 hy2
  obtain ⟨e1, e2⟩ := hl1
  subst e1
  cases e with
  | true => rw [hb, hi]
  | false =>
    exfalso
    have := hfalse rfl x (by rw [e2]; simp)
    exact hc.irrefl _ this

/-- The two outcomes of `bSearch` on a node with ascending keys. -/
theorem bSearch_cases (hc : StrictTotal cmp) (n : node K V) (hs : SortedItems cmp n.items)
    (key : K) :
    (∃ xs1 xs2, n.items = xs1 ++ xs2 ∧ (∀ x ∈ xs1, cmp x.Key key < 0) ∧
        (∀ x ∈ xs2, cmp key x.Key < 0) ∧ n.bSearch key cmp = some (xs1.length, false)) ∨
    (∃ xs1 x xs2, n.items = xs1 ++ x :: xs2 ∧ x.Key = key ∧
        n.bSearch key cmp = some (xs1.length, true)) := by
  obtain ⟨i, e, l1, l2, hb, hl, hi, hlo, htrue, hfalse⟩ := bSearch_spec hc n hs key
  cases e with
  | true =>
    right
    obtain ⟨x, l3, hx, hk⟩ := htrue rfl
    exact ⟨l1, x, l3, by rw [hl, hx], hk, by rw [hb, hi]⟩
  | false =>
    left
    exact ⟨l1, l2, hl, hlo, hfalse rfl, by rw [hb, hi]⟩

end searchAt

/-! ## Sorted sequences of a node -/

section sortedWeave

variable {K V : Type} {cmp : K → K → Int}

theorem weaveL_bound (hc : StrictTotal cmp) (key : K) :
    ∀ (bs : List (List (Item K V))) (xs : List (Item K V)),
      SortedItems cmp (weaveL bs xs) → (∀ x ∈ xs, cmp x.Key key < 0) →
      ∀ e ∈ weaveL bs xs, cmp e.Key key < 0 := by
  intro bs
  induction bs with
  | nil => intro xs _ _ e he; simp at he
  | cons b bs ih =>
    intro xs hs hx e he
    cases xs with
    | nil => simp at he
    | cons x xs =>
      simp only [weaveL_cons] at hs he
      have hxk : cmp x.Key key < 0 := hx x (List.mem_cons_self _ _)
      rcases List.mem_append.1 he with h | h
      · exact hc.trans _ _ _ (hs.lt_of_append h (List.mem_cons_self _ _)) hxk
      · rcases List.mem_cons.1 h with h | h
        · subst h; exact hxk
        · exact ih xs (List.pairwise_cons.1 hs.append_right).2
            (fun y hy => hx y (List.mem_cons_of_mem _ hy)) e h

theorem weaveR_bound (hc : StrictTotal cmp) (key : K) :
    ∀ (xs : List (Item K V)) (bs : List (List (Item K V))),
      SortedItems cmp (weaveR xs bs) → (∀ x ∈ xs, cmp key x.Key < 0) →
      ∀ e ∈ weaveR xs bs, cmp key e.Key < 0 := by
  intro xs
  induction xs with
  | nil => intro bs _ _ e he; simp at he
  | cons x xs ih =>
    intro bs hs hx e he
    cases bs with
    | nil => simp at he
    | cons b bs =>
      simp only [weaveR_cons] at hs he
      have hxk : cmp key x.Key < 0 := hx x (List.mem_cons_self _ _)
      have hs2 := List.pairwise_cons.1 hs
      rcases List.mem_cons.1 he with h | h
      · subst h; exact hxk
      · have hxe : cmp x.Key e.Key < 0 := hs2.1 e h
        exact hc.trans _ _ _ hxk hxe

theorem mem_weaveL_items {α : Type} : ∀ (bs : List (List α)) (xs : List α),
    bs.length = xs.length → ∀ x ∈ xs, x ∈ weaveL bs xs := by
  intro bs
  induction bs with
  | nil =>
    intro xs h x hx
    have : xs = [] := List.length_eq_zero.1 h.symm
    subst this
    simp at hx
  | cons b bs ih =>
    intro xs h x hx
    cases xs with
    | nil => simp at hx
    | cons y xs =>
      simp only [List.length_cons, Nat.add_right_cancel_iff] at h
      simp only [weaveL_cons, List.mem_append, List.mem_cons]
      rcases List.mem_cons.1 hx with h1 | h1
      · exact Or.inr (Or.inl h1)
      · exact Or.inr (Or.inr (ih xs h x h1))

end sortedWeave

/-! ## More on sequences -/

section seq

variable {α : Type}

theorem weaveR_sublist : ∀ (xs : List α) (bs : List (List α)), xs.length ≤ bs.length →
    xs.Sublist (weaveR xs bs) := by
  intro xs
  induction xs with
  | nil => intro bs _; simp
  | cons x xs ih =>
    intro bs h
    cases bs with
    | nil => simp at h
    | cons b bs =>
      simp only [List.length_cons, Nat.add_le_add_iff_right] at h
      simp only [weaveR_cons]
      exact List.Sublist.cons₂ x ((ih bs h).trans (List.sublist_append_right _ _))

theorem interleave_sublist (xs : List α) (bs : List (List α))
    (h : bs = [] ∨ bs.length = xs.length + 1) : xs.Sublist (interleave xs bs) := by
  cases bs with
  | nil => simp
  | cons b bs =>
    rcases h with h | h
    · simp at h
    · simp only [List.length_cons, Nat.add_right_cancel_iff] at h
      simp only [interleave_cons]
      exact (weaveR_sublist xs bs (by omega)).trans (List.sublist_append_right _ _)

theorem interleave_snoc (xs : List α) (bs : List (List α)) (b : List α)
    (h : bs.length = xs.length) : interleave xs (bs ++ [b]) = weaveL bs xs ++ b := by
  have := interleave_split xs [] bs b [] h
  simpa using this

theorem interleave_append (xs1 : List α) (x : α) (xs2 : List α) (bs1 bs2 : List (List α))
    (h1 : bs1.length = xs1.length + 1) (h2 : bs2 ≠ []) :
    interleave (xs1 ++ x :: xs2) (bs1 ++ bs2) = interleave xs1 bs1 ++ x :: interleave xs2 bs2 := by
  obtain ⟨bs, b, rfl⟩ : ∃ bs b, bs1 = bs ++ [b] := by
    rcases List.eq_nil_or_concat bs1 with h | ⟨bs, b, h⟩
    · rw [h] at h1; simp at h1
    · exact ⟨bs, b, by simpa using h⟩
  have hl : bs.length = xs1.length := by simpa using h1
  cases bs2 with
  | nil => exact absurd rfl h2
  | cons b2 bs2 =>
    rw [interleave_snoc xs1 bs b hl, List.append_assoc, List.singleton_append,
      interleave_split xs1 (x :: xs2) bs b (b2 :: bs2) hl]
    simp

end seq

section nodeSeq

variable {K V : Type} {cmp : K → K → Int}

theorem shaped_children {t d lo : Nat} {n : node K V} (h : n.shaped t d lo = true) :
    n.children = [] ∨ n.children.length = n.items.length + 1 := by
  cases d with
  | zero => exact Or.inl (shaped_zero.1 h).1
  | succ d => exact Or.inr (shaped_succ.1 h).1

theorem items_sublist_inorder {t d lo : Nat} {n : node K V} (h : n.shaped t d lo = true) :
    n.items.Sublist n.inorder := by
  cases n with
  | mk its cs =>
    rw [inorder_mk]
    apply interleave_sublist
    have := shaped_children h
    simp only [node.children_mk, node.items_mk] at this
    rcases this with h1 | h1
    · left; rw [h1]; simp
    · right; simpa using h1

theorem sorted_items_of_inorder {t d lo : Nat} {n : node K V} (h : n.shaped t d lo = true)
    (hs : SortedItems cmp n.inorder) : SortedItems cmp n.items :=
  List.Pairwise.sublist (items_sublist_inorder h) hs

theorem AddOutcome.lift_add {key : K} {value : V} {l1 l2 : List (Item K V)} {r : Bool}
    (h : AddOutcome cmp key value l1 l2 r) (a b : List (Item K V))
    (ha : ∀ e ∈ a, cmp e.Key key < 0) (hb : ∀ e ∈ b, cmp key e.Key < 0) :
    AddOutcome cmp key value (a ++ l1 ++ b) (a ++ l2 ++ b) r := by
  rcases h with ⟨hr, p, q, e1, e2, hp, hq⟩ | ⟨hr, e, x, hx, hk⟩
  · left
    refine ⟨hr, a ++ p, q ++ b, by rw [e1]; simp, by rw [e2]; simp, ?_, ?_⟩
    · intro y hy
      rcases List.mem_append.1 hy with h | h
      · exact ha y h
      · exact hp y h
    · intro y hy
      rcases List.mem_append.1 hy with h | h
      · exact hq y h
      · exact hb y h
  · right
    exact ⟨hr, by rw [e], x, by simp [hx], hk⟩

theorem RemoveOutcome.lift_remove (hc : StrictTotal cmp) {key : K} {l1 l2 : List (Item K V)} {r : Bool}
    (h : RemoveOutcome key l1 l2 r) (a b : List (Item K V))
    (ha : ∀ e ∈ a, cmp e.Key key < 0) (hb : ∀ e ∈ b, cmp key e.Key < 0) :
    RemoveOutcome key (a ++ l1 ++ b) (a ++ l2 ++ b) r := by
  rcases h with ⟨hr, p, x, q, e1, hk, e2⟩ | ⟨hr, e, hx⟩
  · left
    exact ⟨hr, a ++ p, x, q ++ b, by rw [e1]; simp, hk, by rw [e2]; simp⟩
  · right
    refine ⟨hr, by rw [e], ?_⟩
    intro y hy hk
    rcases List.mem_append.1 hy with h | h
    · rcases List.mem_append.1 h with h | h
      · have := ha y h; rw [hk] at this; exact hc.irrefl _ this
      · exact hx y h hk
    · have := hb y h; rw [hk] at this; exact hc.irrefl _ this

theorem Removed.lift_removed {key : K} {l1 l2 : List (Item K V)}
    (h : Removed key l1 l2) (a b : List (Item K V)) :
    Removed key (a ++ l1 ++ b) (a ++ l2 ++ b) := by
  obtain ⟨p, x, q, e1, hk, e2⟩ := h
  exact ⟨a ++ p, x, q ++ b, by rw [e1]; simp, hk, by rw [e2]; simp⟩

end nodeSeq

/-! ## Split -/

section split

variable {K V : Type} {cmp : K → K → Int}

/-- The two halves and the promoted item that `splitNode` makes of a full node,
and what it returns without and with a parent. -/
theorem splitNode_full {t d : Nat} (ht : 1 ≤ t) (c : node K V)
    (hcs : c.shaped t d (t - 1) = true) (hfull : c.items.length = 2 * t - 1) :
    ∃ left item right,
      c.items = left.items ++ item :: right.items ∧
      left.items.length = t - 1 ∧ right.items.length = t - 1 ∧
      left.shaped t d (t - 1) = true ∧ right.shaped t d (t - 1) = true ∧
      c.inorder = left.inorder ++ item :: right.inorder ∧
      splitNode t cmp c none = some (0, 1, node.mk [item] [left, right]) ∧
      ∀ (xs1 xs2 : List (Item K V)) (cs1 cs2 : List (node K V)) (x : node K V),
        cs1.length = xs1.length →
        (node.mk (xs1 ++ xs2) (cs1 ++ x :: cs2)).bSearch item.Key cmp = some (xs1.length, false) →
        splitNode t cmp c (some (node.mk (xs1 ++ xs2) (cs1 ++ x :: cs2)))
          = some (cs1.length, cs1.length + 1,
              node.mk (xs1 ++ item :: xs2) (cs1 ++ left :: right :: cs2)) := by
  cases c with
  | mk its cs =>
  simp only [node.items_mk] at hfull
  obtain ⟨li, item, ri, e, hli⟩ := exists_split_at its (t - 1) (by omega)
  subst e
  have hri : ri.length = t - 1 := by
    simp only [List.length_append, List.length_cons] at hfull
    omega
  have h1 : sliceTo (li ++ item :: ri) (t - 1) = some li := sliceTo_at _ _ _ hli.symm
  have h2 : (li ++ item :: ri)[t - 1]? = some item := getElem?_at _ _ _ _ hli.symm
  have h3 : sliceFrom (li ++ item :: ri) t = some ri := by
    have : li ++ item :: ri = (li ++ [item]) ++ ri := by simp
    rw [this]
    exact sliceFrom_at _ _ _ (by simp; omega)
  cases d with
  | zero =>
    rw [shaped_zero] at hcs
    simp only [node.children_mk, node.items_mk] at hcs
    obtain ⟨hcs1, -, -⟩ := hcs
    subst hcs1
    refine ⟨node.mk li [], item, node.mk ri [], rfl, hli, hri, ?_, ?_, by simp, ?_, ?_⟩
    · rw [shaped_zero]; simp; omega
    · rw [shaped_zero]; simp; omega
    · simp [splitNode, h1, h2, h3, node.isLeaf]
    · intro xs1 xs2 cs1 cs2 x hlen hb
      have h4 : slicesInsert (xs1 ++ xs2) xs1.length item = some (xs1 ++ item :: xs2) :=
        slicesInsert_at _ _ _ _ rfl
      have h5 : setAt (cs1 ++ x :: cs2) xs1.length (node.mk li [])
          = some (cs1 ++ node.mk li [] :: cs2) := setAt_at _ _ _ _ _ hlen.symm
      have h6 : slicesInsert (cs1 ++ node.mk li [] :: cs2) (xs1.length + 1) (node.mk ri [])
          = some (cs1 ++ node.mk li [] :: node.mk ri [] :: cs2) := by
        have : cs1 ++ node.mk li [] :: cs2 = (cs1 ++ [node.mk li []]) ++ cs2 := by simp
        rw [this, slicesInsert_at _ _ _ _ (by simp [hlen])]
        simp
      simp [splitNode, h1, h2, h3, node.isLeaf, hb, h4, h5, h6, hlen]
  | succ d =>
    rw [shaped_succ] at hcs
    simp only [node.children_mk, node.items_mk] at hcs
    obtain ⟨hcl, -, -, hch⟩ := hcs
    obtain ⟨lcs, rcs, e, hlcs⟩ := exists_split_le cs t (by omega)
    subst e
    have hrcs : rcs.length = t := by
      simp only [List.length_append, List.length_cons] at hcl
      omega
    have h7 : sliceTo (lcs ++ rcs) t = some lcs := sliceTo_at _ _ _ hlcs.symm
    have h8 : sliceFrom (lcs ++ rcs) t = some rcs := sliceFrom_at _ _ _ hlcs.symm
    have hleaf : (node.mk (li ++ item :: ri) (lcs ++ rcs)).isLeaf = false := by
      have : lcs.length + rcs.length ≠ 0 := by omega
      simp only [node.isLeaf, node.children_mk, List.length_append]
      simpa using this
    refine ⟨node.mk li lcs, item, node.mk ri rcs, rfl, hli, hri, ?_, ?_, ?_, ?_, ?_⟩
    · rw [shaped_succ]
      simp only [node.children_mk, node.items_mk]
      exact ⟨by omega, by omega, by omega, fun x hx => hch x (by simp [hx])⟩
    · rw [shaped_succ]
      simp only [node.children_mk, node.items_mk]
      exact ⟨by omega, by omega, by omega, fun x hx => hch x (by simp [hx])⟩
    · rw [inorder_mk, inorder_mk, inorder_mk, inorderList_append]
      apply interleave_append
      · simp; omega
      · intro h
        have := congrArg List.length h
        simp only [length_inorderList, List.length_nil] at this
        omega
    · simp [splitNode, h1, h2, h3, hleaf, h7, h8]
    · intro xs1 xs2 cs1 cs2 x hlen hb
      have h4 : slicesInsert (xs1 ++ xs2) xs1.length item = some (xs1 ++ item :: xs2) :=
        slicesInsert_at _ _ _ _ rfl
      have h5 : setAt (cs1 ++ x :: cs2) xs1.length (node.mk li lcs)
          = some (cs1 ++ node.mk li lcs :: cs2) := setAt_at _ _ _ _ _ hlen.symm
      have h6 : slicesInsert (cs1 ++ node.mk li lcs :: cs2) (xs1.length + 1) (node.mk ri rcs)
          = some (cs1 ++ node.mk li lcs :: node.mk ri rcs :: cs2) := by
        have : cs1 ++ node.mk li lcs :: cs2 = (cs1 ++ [node.mk li lcs]) ++ cs2 := by simp
        rw [this, slicesInsert_at _ _ _ _ (by simp [hlen])]
        simp
      simp [splitNode, h1, h2, h3, hleaf, h7, h8, hb, h4, h5, h6, hlen]

end split

/-! ## A child inside its parent -/

section context

variable {K V : Type} {cmp : K → K → Int}

/-- What the shape and the order of a parent say about one of its children and
about the sequence before and after it. -/
theorem context_facts {t d lo : Nat} {xs1 xs2 : List (Item K V)} {cs1 cs2 : List (node K V)}
    {c : node K V} (hlen : cs1.length = xs1.length)
    (hsh : (node.mk (xs1 ++ xs2) (cs1 ++ c :: cs2)).shaped t (d + 1) lo = true)
    (hs : SortedItems cmp (node.mk (xs1 ++ xs2) (cs1 ++ c :: cs2)).inorder) :
    cs2.length = xs2.length ∧ c.shaped t d (t - 1) = true ∧ SortedItems cmp c.inorder ∧
      SortedItems cmp (weaveL (node.inorderList cs1) xs1) ∧
      SortedItems cmp (weaveR xs2 (node.inorderList cs2)) ∧
      (∀ a ∈ weaveL (node.inorderList cs1) xs1, ∀ e ∈ c.inorder, cmp a.Key e.Key < 0) ∧
      (∀ e ∈ c.inorder, ∀ b ∈ weaveR xs2 (node.inorderList cs2), cmp e.Key b.Key < 0) := by
  rw [inorder_split xs1 xs2 cs1 c cs2 hlen] at hs
  rw [shaped_succ] at hsh
  simp only [node.children_mk, node.items_mk, List.length_append, List.length_cons] at hsh
  refine ⟨by omega, hsh.2.2.2 c (by simp), hs.append_left.append_right, hs.append_left.append_left,
    hs.append_right, ?_, ?_⟩
  · intro a ha e he
    exact hs.append_left.lt_of_append ha he
  · intro e he b hb
    exact hs.lt_of_append (List.mem_append_right _ he) hb

theorem context_bounds (hc : StrictTotal cmp) {t d lo : Nat} {xs1 xs2 : List (Item K V)}
    {cs1 cs2 : List (node K V)} {c : node K V} (hlen : cs1.length = xs1.length)
    (hsh : (node.mk (xs1 ++ xs2) (cs1 ++ c :: cs2)).shaped t (d + 1) lo = true)
    (hs : SortedItems cmp (node.mk (xs1 ++ xs2) (cs1 ++ c :: cs2)).inorder) (key : K)
    (h1 : ∀ x ∈ xs1, cmp x.Key key < 0) (h2 : ∀ x ∈ xs2, cmp key x.Key < 0) :
    (∀ e ∈ weaveL (node.inorderList cs1) xs1, cmp e.Key key < 0) ∧
      (∀ e ∈ weaveR xs2 (node.inorderList cs2), cmp key e.Key < 0) := by
  obtain ⟨-, -, -, hA, hB, -, -⟩ := context_facts hlen hsh hs
  exact ⟨weaveL_bound hc key _ _ hA h1, weaveR_bound hc key _ _ hB h2⟩

/-- A key stored in a child is found in the parent at the position of the child. -/
theorem bSearch_of_child (hc : StrictTotal cmp) {t d lo : Nat} {xs1 xs2 : List (Item K V)}
    {cs1 cs2 : List (node K V)} {c : node K V} (hlen : cs1.length = xs1.length)
    (hsh : (node.mk (xs1 ++ xs2) (cs1 ++ c :: cs2)).shaped t (d + 1) lo = true)
    (hs : SortedItems cmp (node.mk (xs1 ++ xs2) (cs1 ++ c :: cs2)).inorder)
    (item : Item K V) (hi : item ∈ c.inorder) :
    (∀ x ∈ xs1, cmp x.Key item.Key < 0) ∧ (∀ x ∈ xs2, cmp item.Key x.Key < 0) ∧
    (node.mk (xs1 ++ xs2) (cs1 ++ c :: cs2)).bSearch item.Key cmp = some (xs1.length, false) := by
  obtain ⟨hl2, -, -, -, -, hA, hB⟩ := context_facts hlen hsh hs
  have h1 : ∀ x ∈ xs1, cmp x.Key item.Key < 0 := fun x hx =>
    hA x (mem_weaveL_items _ _ (by simpa using hlen) x hx) item hi
  have h2 : ∀ x ∈ xs2, cmp item.Key x.Key < 0 := fun x hx =>
    hB item hi x ((weaveR_sublist xs2 _ (by simp [hl2])).subset hx)
  exact ⟨h1, h2, bSearch_at hc xs1 xs2 _ (sorted_items_of_inorder hsh hs) item.Key h1 h2⟩

theorem mem_items_inorder {t d lo : Nat} {n : node K V} (h : n.shaped t d lo = true)
    {x : Item K V} (hx : x ∈ n.items) : x ∈ n.inorder :=
  (items_sublist_inorder h).subset hx

theorem shaped_replace {t d lo : Nat} {xs : List (Item K V)} {cs1 cs2 : List (node K V)}
    {c c2 : node K V} (hsh : (node.mk xs (cs1 ++ c :: cs2)).shaped t (d + 1) lo = true)
    (h2 : c2.shaped t d (t - 1) = true) :
    (node.mk xs (cs1 ++ c2 :: cs2)).shaped t (d + 1) lo = true := by
  rw [shaped_succ] at hsh ⊢
  simp only [node.children_mk, node.items_mk, List.length_append, List.length_cons] at hsh ⊢
  refine ⟨hsh.1, hsh.2.1, hsh.2.2.1, ?_⟩
  intro x hx
  rcases List.mem_append.1 hx with h | h
  · exact hsh.2.2.2 x (by simp [h])
  · rcases List.mem_cons.1 h with h | h
    · subst h; exact h2
    · exact hsh.2.2.2 x (by simp [h])

end context

/-! ## The loop of `TryAdd` -/

section addLoop

variable {K V : Type} {cmp : K → K → Int}

/-- Inserting into a leaf that is not full. -/
theorem leaf_insert (key : K) (value : V) (ys1 ys2 : List (Item K V))
    (h1 : ∀ x ∈ ys1, cmp x.Key key < 0) (h2 : ∀ x ∈ ys2, cmp key x.Key < 0) :
    AddOutcome cmp key value (ys1 ++ ys2) (ys1 ++ NewItem key value :: ys2) true :=
  Or.inl ⟨rfl, ys1, ys2, rfl, rfl, h1, h2⟩

theorem loop_found {t d lo : Nat} (key : K) (value : V) (fuel : Nat)
    {xs1 xs2 : List (Item K V)} {cs1 cs2 : List (node K V)} {c : node K V}
    (hsh : (node.mk (xs1 ++ xs2) (cs1 ++ c :: cs2)).shaped t (d + 1) lo = true)
    (hcsh : c.shaped t d (t - 1) = true) (hlen : cs1.length = xs1.length)
    {ys1 ys2 : List (Item K V)} {x : Item K V}
    (hits : c.items = ys1 ++ x :: ys2) (hk : x.Key = key)
    (hb : c.bSearch key cmp = some (ys1.length, true)) :
    ∃ p r, TryAdd.loop t cmp key value (fuel + 1) (node.mk (xs1 ++ xs2) (cs1 ++ c :: cs2))
        cs1.length = some (p, r) ∧
      p.shaped t (d + 1) lo = true ∧
      AddOutcome cmp key value (node.mk (xs1 ++ xs2) (cs1 ++ c :: cs2)).inorder p.inorder r := by
  have hget : (cs1 ++ c :: cs2)[cs1.length]? = some c := getElem?_at _ _ _ _ rfl
  refine ⟨_, false, by simp [TryAdd.loop, hget, hb], hsh, Or.inr ⟨rfl, rfl, x, ?_, hk⟩⟩
  rw [inorder_split xs1 xs2 cs1 c cs2 hlen]
  have : x ∈ c.inorder := mem_items_inorder hcsh (by rw [hits]; simp)
  simp [this]

theorem loop_notFull (hc : StrictTotal cmp) {t : Nat} (key : K) (value : V) (d : Nat)
    (ih : ∀ d2, d = d2 + 1 → LoopGoal cmp t key value d2 true) :
    LoopGoal cmp t key value d false := by
  intro fuel lo xs1 xs2 cs1 c cs2 hlen hsh hs h1 h2 hf
  simp only [Bool.false_eq_true, if_false] at hf
  obtain ⟨hnf, hfuel⟩ := hf
  obtain ⟨f, rfl⟩ : ∃ f, fuel = f + 1 := ⟨fuel - 1, by omega⟩
  obtain ⟨hl2, hcsh, hcs, -, -, -, -⟩ := context_facts hlen hsh hs
  obtain ⟨hA, hB⟩ := context_bounds hc hlen hsh hs key h1 h2
  have hget : (cs1 ++ c :: cs2)[cs1.length]? = some c := getElem?_at _ _ _ _ rfl
  have hfill : c.isFilled t = false := by
    simp only [node.isFilled, beq_eq_false_iff_ne, ne_eq]
    omega
  rcases bSearch_cases hc c (sorted_items_of_inorder hcsh hcs) key with
    ⟨ys1, ys2, hits, hy1, hy2, hb⟩ | ⟨ys1, x, ys2, hits, hk, hb⟩
  · cases c with
    | mk cits ccs =>
    simp only [node.items_mk] at hits hnf
    subst hits
    cases d with
    | zero =>
      have hccs : ccs = [] := (shaped_zero.1 hcsh).1
      subst hccs
      have hins : slicesInsert (ys1 ++ ys2) ys1.length (NewItem key value)
          = some (ys1 ++ NewItem key value :: ys2) := slicesInsert_at _ _ _ _ rfl
      have hset : setAt (cs1 ++ node.mk (ys1 ++ ys2) [] :: cs2) cs1.length
          (node.mk (ys1 ++ NewItem key value :: ys2) [])
            = some (cs1 ++ node.mk (ys1 ++ NewItem key value :: ys2) [] :: cs2) :=
        setAt_at _ _ _ _ _ rfl
      refine ⟨node.mk (xs1 ++ xs2) (cs1 ++ node.mk (ys1 ++ NewItem key value :: ys2) [] :: cs2),
        true, ?_, ?_, ?_⟩
      · simp [TryAdd.loop, hget, hb, hfill, node.isLeaf, hins, hset]
      · apply shaped_replace hsh
        rw [shaped_zero]
        have := shaped_lo hcsh
        simp only [node.items_mk, List.length_append, List.length_cons, node.children_mk] at this hnf ⊢
        exact ⟨trivial, by omega, by omega⟩
      · rw [inorder_split xs1 xs2 cs1 _ cs2 hlen, inorder_split xs1 xs2 cs1 _ cs2 hlen]
        simp only [inorder_leaf]
        exact (leaf_insert key value ys1 ys2 hy1 hy2).lift_add _ _ hA hB
    | succ d2 =>
      have hcc := shaped_succ.1 hcsh
      simp only [node.children_mk, node.items_mk] at hcc
      obtain ⟨ds1, dc, ds2, hds, hdl⟩ := exists_split_at ccs ys1.length
        (by rw [hcc.1]; simp; omega)
      subst hds
      have hleaf : (node.mk (ys1 ++ ys2) (ds1 ++ dc :: ds2)).isLeaf = false := by
        simp [node.isLeaf]
      obtain ⟨c2, r, hrun, hsh2, hout⟩ := ih d2 rfl f (t - 1) ys1 ys2 ds1 dc ds2 hdl hcsh hcs
        hy1 hy2 (by simp only [if_true]; exact ⟨hnf, by omega⟩)
      rw [hdl] at hrun
      have hset : setAt (cs1 ++ node.mk (ys1 ++ ys2) (ds1 ++ dc :: ds2) :: cs2) cs1.length c2
            = some (cs1 ++ c2 :: cs2) := setAt_at _ _ _ _ _ rfl
      refine ⟨node.mk (xs1 ++ xs2) (cs1 ++ c2 :: cs2), r, ?_, shaped_replace hsh hsh2, ?_⟩
      · simp [TryAdd.loop, hget, hb, hfill, hleaf, hrun, hset]
      · rw [inorder_split xs1 xs2 cs1 _ cs2 hlen, inorder_split xs1 xs2 cs1 _ cs2 hlen]
        exact hout.lift_add _ _ hA hB
  · exact loop_found key value f hsh hcsh hlen hits hk hb

theorem mem_of_initial_le {α : Type} {ys1 ys2 li ri : List α} {item : α}
    (h : ys1 ++ ys2 = li ++ item :: ri) :
    (ys1.length ≤ li.length → item ∈ ys2) ∧ (li.length < ys1.length → item ∈ ys1) := by
  rcases List.append_eq_append_iff.1 h with ⟨a, ha1, ha2⟩ | ⟨c, hc1, hc2⟩
  · refine ⟨fun _ => by rw [ha2]; simp, fun hlt => ?_⟩
    rw [ha1] at hlt
    simp at hlt
  · cases c with
    | nil =>
      simp at hc1 hc2
      refine ⟨fun _ => by rw [← hc2]; simp, fun hlt => ?_⟩
      rw [hc1] at hlt
      simp at hlt
    | cons z c =>
      simp only [List.cons_append, List.cons.injEq] at hc2
      refine ⟨fun hle => ?_, fun _ => by rw [hc1, ← hc2.1]; simp⟩
      rw [hc1] at hle
      simp at hle

theorem loop_full (hc : StrictTotal cmp) {t : Nat} (ht : 1 ≤ t) (key : K) (value : V) (d : Nat)
    (hnot : LoopGoal cmp t key value d false) : LoopGoal cmp t key value d true := by
  intro fuel lo xs1 xs2 cs1 c cs2 hlen hsh hs h1 h2 hf
  simp only [if_true] at hf
  obtain ⟨hpn, hfuel⟩ := hf
  by_cases hcf : c.items.length < 2 * t - 1
  · exact hnot fuel lo xs1 xs2 cs1 c cs2 hlen hsh hs h1 h2
      (by simp only [Bool.false_eq_true, if_false]; exact ⟨hcf, by omega⟩)
  obtain ⟨f, rfl⟩ : ∃ f, fuel = f + 1 := ⟨fuel - 1, by omega⟩
  obtain ⟨hl2, hcsh, hcs, -, -, -, -⟩ := context_facts hlen hsh hs
  have hfull : c.items.length = 2 * t - 1 := by
    have := shaped_hi hcsh
    omega
  have hget : (cs1 ++ c :: cs2)[cs1.length]? = some c := getElem?_at _ _ _ _ rfl
  have hfill : c.isFilled t = true := by
    simp only [node.isFilled, beq_iff_eq]
    exact hfull
  rcases bSearch_cases hc c (sorted_items_of_inorder hcsh hcs) key with
    ⟨ys1, ys2, hits, hy1, hy2, hb⟩ | ⟨ys1, x, ys2, hits, hk, hb⟩
  · obtain ⟨left, item, right, hci, hll, hrl, hlsh, hrsh, hino, -, hsplit⟩ :=
      @splitNode_full _ _ cmp _ _ ht c hcsh hfull
    have himem : item ∈ c.inorder := mem_items_inorder hcsh (by rw [hci]; simp)
    obtain ⟨hi1, hi2, hbp⟩ := bSearch_of_child hc hlen hsh hs item himem
    have hsp := hsplit xs1 xs2 cs1 cs2 c hlen hbp
    have hsh1 : (node.mk (xs1 ++ item :: xs2) (cs1 ++ left :: right :: cs2)).shaped t (d + 1) lo
        = true := by
      rw [shaped_succ] at hsh ⊢
      simp only [node.children_mk, node.items_mk, List.length_append, List.length_cons] at hsh hpn ⊢
      refine ⟨by omega, by omega, by omega, ?_⟩
      intro y hy
      simp only [List.mem_append, List.mem_cons] at hy
      rcases hy with h | h | h | h
      · exact hsh.2.2.2 y (by simp [h])
      · subst h; exact hlsh
      · subst h; exact hrsh
      · exact hsh.2.2.2 y (by simp [h])
    have hino1 : (node.mk (xs1 ++ item :: xs2) (cs1 ++ left :: right :: cs2)).inorder
        = (node.mk (xs1 ++ xs2) (cs1 ++ c :: cs2)).inorder := by
      rw [inorder_split xs1 (item :: xs2) cs1 left (right :: cs2) hlen,
        inorder_split xs1 xs2 cs1 c cs2 hlen, hino]
      simp
    have hpre := mem_of_initial_le (hits.symm.trans hci)
    by_cases hind : ys1.length ≤ t - 1
    · have hkey : cmp key item.Key < 0 := hy2 item (hpre.1 (by omega))
      obtain ⟨p, r, hrun, hshp, hout⟩ := hnot f lo xs1 (item :: xs2) cs1 left (right :: cs2)
        hlen hsh1 (by rw [hino1]; exact hs) h1
        (by
          intro y hy
          rcases List.mem_cons.1 hy with h | h
          · subst h; exact hkey
          · exact h2 y h)
        (by simp only [Bool.false_eq_true, if_false]; exact ⟨by omega, by omega⟩)
      refine ⟨p, r, ?_, hshp, by rw [← hino1]; exact hout⟩
      simp [TryAdd.loop, hget, hb, hfill, hsp, hind, hrun]
    · have hkey : cmp item.Key key < 0 := hy1 item (hpre.2 (by omega))
      have e1 : (xs1 ++ [item]) ++ xs2 = xs1 ++ item :: xs2 := by simp
      have e2 : (cs1 ++ [left]) ++ right :: cs2 = cs1 ++ left :: right :: cs2 := by simp
      have e3 : (cs1 ++ [left]).length = cs1.length + 1 := by simp
      have := hnot f lo (xs1 ++ [item]) xs2 (cs1 ++ [left]) right cs2
        (by simp [hlen]) (by rw [e1, e2]; exact hsh1) (by rw [e1, e2, hino1]; exact hs)
        (by
          intro y hy
          rcases List.mem_append.1 hy with h | h
          · exact h1 y h
          · simp at h; subst h; exact hkey)
        h2
        (by simp only [Bool.false_eq_true, if_false]; exact ⟨by omega, by omega⟩)
      rw [e1, e2, e3] at this
      obtain ⟨p, r, hrun, hshp, hout⟩ := this
      refine ⟨p, r, ?_, hshp, by rw [← hino1]; exact hout⟩
      simp [TryAdd.loop, hget, hb, hfill, hsp, hind, hrun]
  · exact loop_found key value f hsh hcsh hlen hits hk hb

theorem loop_spec (hc : StrictTotal cmp) {t : Nat} (ht : 1 ≤ t) (key : K) (value : V) :
    ∀ d full, LoopGoal cmp t key value d full := by
  intro d
  induction d with
  | zero =>
    have h0 : LoopGoal cmp t key value 0 false :=
      loop_notFull hc key value 0 (fun d2 h => by omega)
    intro full
    cases full with
    | false => exact h0
    | true => exact loop_full hc ht key value 0 h0
  | succ d ih =>
    have h0 : LoopGoal cmp t key value (d + 1) false :=
      loop_notFull hc key value (d + 1) (fun d2 h => by
        have : d2 = d := by omega
        subst this
        exact ih true)
    intro full
    cases full with
    | false => exact h0
    | true => exact loop_full hc ht key value (d + 1) h0

end addLoop

/-! ## `TryAdd` from the root -/

section addRoot

variable {K V : Type} {cmp : K → K → Int}

theorem loopNil_some_eq (t : Nat) (key : K) (value : V) (f : Nat) (root curr : node K V)
    (ci : Nat) (hget : root.children[ci]? = some curr) (hfill : curr.isFilled t = false) :
    TryAdd.loopNil t cmp key value (f + 1) root (some ci)
      = TryAdd.loop t cmp key value (f + 1) root ci := by
  cases hb : curr.bSearch key cmp with
  | none => simp [TryAdd.loopNil, TryAdd.loop, hget, hb]
  | some p =>
    obtain ⟨ind, ex⟩ := p
    cases ex <;> simp [TryAdd.loopNil, TryAdd.loop, hget, hb, hfill]

/-- The loop of `TryAdd` started at the root. -/
theorem loopNil_spec (hc : StrictTotal cmp) {t : Nat} (ht : 2 ≤ t) (key : K) (value : V)
    (d lo fuel : Nat) (root : node K V) (hlo : lo ≤ 1)
    (hsh : root.shaped t d lo = true) (hs : SortedItems cmp root.inorder)
    (hfuel : 2 * d + 2 ≤ fuel) :
    ∃ root2 r d2, TryAdd.loopNil t cmp key value fuel root none = some (root2, r) ∧
      root2.shaped t d2 lo = true ∧ AddOutcome cmp key value root.inorder root2.inorder r := by
  obtain ⟨f, rfl⟩ : ∃ f, fuel = f + 1 := ⟨fuel - 1, by omega⟩
  rcases bSearch_cases hc root (sorted_items_of_inorder hsh hs) key with
    ⟨ys1, ys2, hits, hy1, hy2, hb⟩ | ⟨ys1, x, ys2, hits, hk, hb⟩
  · by_cases hfull : root.items.length = 2 * t - 1
    · -- the root is full: it is split and the loop goes on in one half
      have hfill : root.isFilled t = true := by
        simp only [node.isFilled, beq_iff_eq]; exact hfull
      have hsh' : root.shaped t d (t - 1) = true := shaped_mono (shaped_exact hsh) (by omega)
      obtain ⟨left, item, right, hci, hll, hrl, hlsh, hrsh, hino, hsplit, -⟩ :=
        @splitNode_full _ _ cmp _ _ (by omega) root hsh' hfull
      have hpre := mem_of_initial_le (hits.symm.trans hci)
      have hshN : (node.mk [item] [left, right]).shaped t (d + 1) 1 = true := by
        rw [shaped_succ]
        refine ⟨by simp, by simp, by simp; omega, ?_⟩
        intro y hy
        simp only [node.children_mk, List.mem_cons, List.mem_singleton, List.not_mem_nil,
          or_false] at hy
        rcases hy with h | h
        · subst h; exact hlsh
        · subst h; exact hrsh
      have hinoN : (node.mk [item] [left, right]).inorder = root.inorder := by
        rw [hino]; simp [inorder_mk]
      have hlf : left.isFilled t = false := by
        simp only [node.isFilled, beq_eq_false_iff_ne, ne_eq]; omega
      have hrf : right.isFilled t = false := by
        simp only [node.isFilled, beq_eq_false_iff_ne, ne_eq]; omega
      obtain ⟨g, rfl⟩ : ∃ g, f = g + 1 := ⟨f - 1, by omega⟩
      by_cases hind : ys1.length ≤ t - 1
      · have hkey : cmp key item.Key < 0 := hy2 item (hpre.1 (by omega))
        obtain ⟨p, r, hrun, hshp, hout⟩ := loop_spec hc (by omega) key value d false (g + 1) 1
          [] [item] [] left [right] rfl hshN
          (by show SortedItems cmp (node.mk [item] [left, right]).inorder; rw [hinoN]; exact hs)
          (by simp) (by simpa using hkey)
          (by simp only [Bool.false_eq_true, if_false]; exact ⟨by omega, by omega⟩)
        simp only [List.nil_append, List.length_nil] at hrun hout
        refine ⟨p, r, d + 1, ?_, shaped_mono hshp hlo, by rw [← hinoN]; exact hout⟩
        rw [← hrun, ← loopNil_some_eq t key value g _ left 0 (by simp) hlf]
        simp [TryAdd.loopNil, hb, hfill, hsplit, hind]
      · have hkey : cmp item.Key key < 0 := hy1 item (hpre.2 (by omega))
        obtain ⟨p, r, hrun, hshp, hout⟩ := loop_spec hc (by omega) key value d false (g + 1) 1
          [item] [] [left] right [] rfl hshN
          (by show SortedItems cmp (node.mk [item] [left, right]).inorder; rw [hinoN]; exact hs)
          (by simpa using hkey) (by simp)
          (by simp only [Bool.false_eq_true, if_false]; exact ⟨by omega, by omega⟩)
        simp only [List.append_nil, List.length_singleton, List.singleton_append] at hrun hout
        refine ⟨p, r, d + 1, ?_, shaped_mono hshp hlo, by rw [← hinoN]; exact hout⟩
        rw [← hrun, ← loopNil_some_eq t key value g _ right 1 (by simp) hrf]
        simp [TryAdd.loopNil, hb, hfill, hsplit, hind]
    · have hnf : root.items.length < 2 * t - 1 := by
        have := shaped_hi hsh
        omega
      have hfill : root.isFilled t = false := by
        simp only [node.isFilled, beq_eq_false_iff_ne, ne_eq]; exact hfull
      cases root with
      | mk rits rcs =>
      simp only [node.items_mk] at hits hnf
      subst hits
      cases d with
      | zero =>
        have hrcs : rcs = [] := (shaped_zero.1 hsh).1
        subst hrcs
        have hins : slicesInsert (ys1 ++ ys2) ys1.length (NewItem key value)
            = some (ys1 ++ NewItem key value :: ys2) := slicesInsert_at _ _ _ _ rfl
        refine ⟨node.mk (ys1 ++ NewItem key value :: ys2) [], true, 0, ?_, ?_, ?_⟩
        · simp [TryAdd.loopNil, hb, hfill, node.isLeaf, hins]
        · rw [shaped_zero]
          have := shaped_lo hsh
          simp only [node.items_mk, List.length_append, List.length_cons,
            node.children_mk] at this hnf ⊢
          exact ⟨trivial, by omega, by omega⟩
        · simp only [inorder_leaf]
          exact leaf_insert key value ys1 ys2 hy1 hy2
      | succ d2 =>
        have hcc := shaped_succ.1 hsh
        simp only [node.children_mk, node.items_mk] at hcc
        obtain ⟨ds1, dc, ds2, hds, hdl⟩ := exists_split_at rcs ys1.length
          (by rw [hcc.1]; simp; omega)
        subst hds
        have hleaf : (node.mk (ys1 ++ ys2) (ds1 ++ dc :: ds2)).isLeaf = false := by
          simp [node.isLeaf]
        obtain ⟨p, r, hrun, hshp, hout⟩ := loop_spec hc (by omega) key value d2 true f lo
          ys1 ys2 ds1 dc ds2 hdl hsh hs hy1 hy2
          (by simp only [if_true]; exact ⟨hnf, by omega⟩)
        rw [hdl] at hrun
        refine ⟨p, r, d2 + 1, ?_, hshp, hout⟩
        simp [TryAdd.loopNil, hb, hfill, hleaf, hrun]
  · refine ⟨root, false, d, by simp [TryAdd.loopNil, hb], hsh, Or.inr ⟨rfl, rfl, x, ?_, hk⟩⟩
    exact mem_items_inorder hsh (by rw [hits]; simp)

end addRoot

/-! ## The ordering invariant and the sorted sequence -/

section bridge

variable {K V : Type} {cmp : K → K → Int}

theorem ascending_iff (hc : StrictTotal cmp) (its : List (Item K V)) :
    node.ascending cmp (its.map Item.Key) = true ↔ SortedItems cmp its := by
  induction its with
  | nil => simp [node.ascending, SortedItems]
  | cons a l ih =>
    cases l with
    | nil => simp [node.ascending, SortedItems]
    | cons b l =>
      simp only [List.map_cons, node.ascending, Bool.and_eq_true, decide_eq_true_eq]
      simp only [List.map_cons] at ih
      rw [ih]
      unfold SortedItems
      rw [List.pairwise_cons (l := b :: l)]
      constructor
      · rintro ⟨h1, h2⟩
        refine ⟨?_, h2⟩
        intro x hx
        rcases List.mem_cons.1 hx with h | h
        · subst h; exact h1
        · exact hc.trans _ _ _ h1 ((List.pairwise_cons.1 h2).1 x h)
      · rintro ⟨h1, h2⟩
        exact ⟨h1 b (List.mem_cons_self _ _), h2⟩

theorem mem_allKeysList (cs : List (node K V)) (k : K) :
    k ∈ node.allKeysList cs ↔ ∃ c ∈ cs, k ∈ c.allKeys := by
  induction cs with
  | nil => simp [node.allKeysList]
  | cons c cs ih => simp [node.allKeysList, ih]

theorem mem_inorderList (cs : List (node K V)) (b : List (Item K V)) :
    b ∈ node.inorderList cs ↔ ∃ c ∈ cs, b = c.inorder := by
  induction cs with
  | nil => simp
  | cons c cs ih => simp [ih]

theorem mem_weaveR {α : Type} (x : α) : ∀ (xs : List α) (bs : List (List α)),
    bs.length = xs.length → (x ∈ weaveR xs bs ↔ x ∈ xs ∨ ∃ b ∈ bs, x ∈ b) := by
  intro xs
  induction xs with
  | nil =>
    intro bs h
    have : bs = [] := List.length_eq_zero.1 h
    subst this
    simp
  | cons y xs ih =>
    intro bs h
    cases bs with
    | nil => simp at h
    | cons b bs =>
      simp only [List.length_cons, Nat.add_right_cancel_iff] at h
      simp only [weaveR_cons, List.mem_cons, List.mem_append, ih bs h]
      constructor
      · rintro (h1 | h1 | h1 | ⟨b2, h1, h2⟩)
        · exact Or.inl (Or.inl h1)
        · exact Or.inr ⟨b, Or.inl rfl, h1⟩
        · exact Or.inl (Or.inr h1)
        · exact Or.inr ⟨b2, Or.inr h1, h2⟩
      · rintro ((h1 | h1) | ⟨b2, h1 | h1, h2⟩)
        · exact Or.inl h1
        · exact Or.inr (Or.inr (Or.inl h1))
        · subst h1; exact Or.inr (Or.inl h2)
        · exact Or.inr (Or.inr (Or.inr ⟨b2, h1, h2⟩))

theorem mem_interleave {α : Type} (x : α) (xs : List α) (bs : List (List α))
    (h : bs = [] ∨ bs.length = xs.length + 1) :
    x ∈ interleave xs bs ↔ x ∈ xs ∨ ∃ b ∈ bs, x ∈ b := by
  cases bs with
  | nil => simp
  | cons b bs =>
    rcases h with h | h
    · simp at h
    · simp only [List.length_cons, Nat.add_right_cancel_iff] at h
      simp only [interleave_cons, List.mem_append, mem_weaveR x xs bs h, List.mem_cons]
      constructor
      · rintro (h1 | h1 | ⟨b2, h1, h2⟩)
        · exact Or.inr ⟨b, Or.inl rfl, h1⟩
        · exact Or.inl h1
        · exact Or.inr ⟨b2, Or.inr h1, h2⟩
      · rintro (h1 | ⟨b2, h1 | h1, h2⟩)
        · exact Or.inr (Or.inl h1)
        · subst h1; exact Or.inl h2
        · exact Or.inr (Or.inr ⟨b2, h1, h2⟩)

theorem mem_inorder {t d lo : Nat} {n : node K V} (h : n.shaped t d lo = true) (x : Item K V) :
    x ∈ n.inorder ↔ x ∈ n.items ∨ ∃ c ∈ n.children, x ∈ c.inorder := by
  cases n with
  | mk its cs =>
    rw [inorder_mk, mem_interleave]
    · simp only [node.items_mk, node.children_mk, mem_inorderList]
      constructor
      · rintro (h1 | ⟨b, ⟨c, hc1, hc2⟩, h2⟩)
        · exact Or.inl h1
        · subst hc2; exact Or.inr ⟨c, hc1, h2⟩
      · rintro (h1 | ⟨c, hc1, h2⟩)
        · exact Or.inl h1
        · exact Or.inr ⟨c.inorder, ⟨c, hc1, rfl⟩, h2⟩
    · have := shaped_children h
      simp only [node.children_mk, node.items_mk] at this
      rcases this with h1 | h1
      · left; rw [h1]; simp
      · right; simpa using h1

theorem mem_allKeys {t : Nat} : ∀ (d lo : Nat) (n : node K V), n.shaped t d lo = true →
    ∀ k, k ∈ n.allKeys ↔ ∃ x ∈ n.inorder, x.Key = k := by
  intro d
  induction d with
  | zero =>
    intro lo n h k
    cases n with
    | mk its cs =>
      have hcs : cs = [] := (shaped_zero.1 h).1
      subst hcs
      simp [node.allKeys, node.allKeysList]
  | succ d ih =>
    intro lo n h k
    have hch := (shaped_succ.1 h).2.2.2
    cases n with
    | mk its cs =>
      simp only [node.children_mk] at hch
      simp only [node.allKeys, List.mem_append, List.mem_map, mem_allKeysList]
      constructor
      · rintro (⟨x, hx, hk⟩ | ⟨c, hc1, hc2⟩)
        · exact ⟨x, (mem_inorder h x).2 (Or.inl hx), hk⟩
        · obtain ⟨x, hx, hk⟩ := (ih _ c (hch c hc1) k).1 hc2
          exact ⟨x, (mem_inorder h x).2 (Or.inr ⟨c, hc1, hx⟩), hk⟩
      · rintro ⟨x, hx, hk⟩
        rcases (mem_inorder h x).1 hx with h1 | ⟨c, hc1, h2⟩
        · exact Or.inl ⟨x, h1, hk⟩
        · exact Or.inr ⟨c, hc1, (ih _ c (hch c hc1) k).2 ⟨x, h2, hk⟩⟩

theorem separated_one_iff (lo : Option K) (c : node K V) :
    node.separated cmp lo [] [c] = true ↔ ∀ k ∈ c.allKeys, Above cmp lo k := by
  cases lo <;> simp [node.separated, Above]

theorem separated_cons_iff (lo : Option K) (x : K) (xs : List K) (c : node K V)
    (cs : List (node K V)) :
    node.separated cmp lo (x :: xs) (c :: cs) = true ↔
      (∀ k ∈ c.allKeys, Above cmp lo k ∧ cmp k x < 0) ∧
        node.separated cmp (some x) xs cs = true := by
  cases lo <;> simp [node.separated, Above]

theorem Above.trans (hc : StrictTotal cmp) {lo : Option K} {a b : K} (h : Above cmp lo a)
    (hab : cmp a b < 0) : Above cmp lo b :=
  fun l hl => hc.trans _ _ _ (h l hl) hab

/-- The sequence of a node is sorted exactly when its items are ascending, the
sequences of its children are sorted and the keys of every child lie between
the neighbouring items. -/
theorem sorted_interleave_iff (hc : StrictTotal cmp) :
    ∀ (xs : List (Item K V)) (cs : List (node K V)) (lo : Option K),
      cs.length = xs.length + 1 →
      (∀ c ∈ cs, ∀ k, k ∈ c.allKeys ↔ ∃ x ∈ c.inorder, x.Key = k) →
      ((SortedItems cmp (interleave xs (node.inorderList cs)) ∧
          ∀ y ∈ interleave xs (node.inorderList cs), Above cmp lo y.Key) ↔
        ((SortedItems cmp xs ∧ ∀ x ∈ xs, Above cmp lo x.Key) ∧
          (∀ c ∈ cs, SortedItems cmp c.inorder) ∧
          node.separated cmp lo (xs.map Item.Key) cs = true)) := by
  intro xs
  induction xs with
  | nil =>
    intro cs lo hlen hk
    obtain ⟨c, rfl⟩ : ∃ c, cs = [c] := by
      cases cs with
      | nil => simp at hlen
      | cons c cs =>
        cases cs with
        | nil => exact ⟨c, rfl⟩
        | cons c2 cs => simp at hlen
    have hkc := hk c (by simp)
    simp only [inorderList_cons, inorderList_nil, interleave_cons, weaveR_nil_left,
      List.append_nil, List.map_nil, separated_one_iff,
      List.mem_singleton, forall_eq, SortedItems, List.Pairwise.nil,
      List.not_mem_nil, false_implies, implies_true, and_self, true_and]
    constructor
    · rintro ⟨h1, h2⟩
      refine ⟨h1, ?_⟩
      intro k hkm
      obtain ⟨x, hx, hxk⟩ := (hkc k).1 hkm
      rw [← hxk]; exact h2 x hx
    · rintro ⟨h1, h2⟩
      exact ⟨h1, fun y hy => h2 y.Key ((hkc _).2 ⟨y, hy, rfl⟩)⟩
  | cons x xs ih =>
    intro cs lo hlen hk
    obtain ⟨c, cs2, rfl⟩ : ∃ c cs2, cs = c :: cs2 := by
      cases cs with
      | nil => simp at hlen
      | cons c cs => exact ⟨c, cs, rfl⟩
    simp only [List.length_cons, Nat.add_right_cancel_iff] at hlen
    have hkc := hk c (by simp)
    have ih' := ih cs2 (some x.Key) hlen (fun c2 hc2 => hk c2 (by simp [hc2]))
    obtain ⟨c2, cs3, rfl⟩ : ∃ c2 cs3, cs2 = c2 :: cs3 := by
      cases cs2 with
      | nil => simp at hlen
      | cons c cs => exact ⟨c, cs, rfl⟩
    have hI : interleave (x :: xs) (node.inorderList (c :: c2 :: cs3))
        = c.inorder ++ x :: interleave xs (node.inorderList (c2 :: cs3)) := by
      simp
    rw [hI]
    have hmemx : ∀ z ∈ xs, z ∈ interleave xs (node.inorderList (c2 :: cs3)) := fun z hz =>
      (interleave_sublist xs _ (Or.inr (by simpa using hlen))).subset hz
    simp only [List.map_cons, separated_cons_iff]
    constructor
    · rintro ⟨h1, h2⟩
      have hsx : SortedItems cmp (x :: interleave xs (node.inorderList (c2 :: cs3))) :=
        h1.append_right
      have hsx2 := List.pairwise_cons.1 hsx
      have hrec := ih'.1 ⟨hsx2.2, fun y hy l hl => by
        cases hl; exact hsx2.1 y hy⟩
      obtain ⟨⟨r1, r2⟩, r3, r4⟩ := hrec
      refine ⟨⟨?_, ?_⟩, ?_, ⟨?_, r4⟩⟩
      · exact List.pairwise_cons.2 ⟨fun z hz => r2 z hz _ rfl, r1⟩
      · intro z hz
        exact h2 z (by
          rcases List.mem_cons.1 hz with h | h
          · subst h; simp
          · exact List.mem_append_right _ (List.mem_cons_of_mem _ (hmemx z h)))
      · intro c3 hc3
        rcases List.mem_cons.1 hc3 with h | h
        · subst h; exact h1.append_left
        · exact r3 c3 h
      · intro k hkm
        obtain ⟨y, hy, hyk⟩ := (hkc k).1 hkm
        rw [← hyk]
        exact ⟨h2 y (by simp [hy]), h1.lt_of_append hy (List.mem_cons_self _ _)⟩
    · rintro ⟨⟨q1, q2⟩, q3, q4, q5⟩
      have q1' := List.pairwise_cons.1 q1
      have hrec := ih'.2 ⟨⟨q1'.2, fun z hz l hl => by cases hl; exact q1'.1 z hz⟩,
        fun c3 hc3 => q3 c3 (by simp [hc3]), q5⟩
      obtain ⟨s1, s2⟩ := hrec
      have hcx : ∀ y ∈ c.inorder, Above cmp lo y.Key ∧ cmp y.Key x.Key < 0 := fun y hy =>
        q4 y.Key ((hkc _).2 ⟨y, hy, rfl⟩)
      have hxlo : Above cmp lo x.Key := q2 x (List.mem_cons_self _ _)
      refine ⟨?_, ?_⟩
      · apply List.pairwise_append.2
        refine ⟨q3 c (by simp), List.pairwise_cons.2 ⟨fun y hy => s2 y hy _ rfl, s1⟩, ?_⟩
        intro a ha b hb
        rcases List.mem_cons.1 hb with h | h
        · subst h; exact (hcx a ha).2
        · exact hc.trans _ _ _ (hcx a ha).2 (s2 b h _ rfl)
      · intro y hy
        rcases List.mem_append.1 hy with h | h
        · exact (hcx y h).1
        · rcases List.mem_cons.1 h with h | h
          · subst h; exact hxlo
          · exact hxlo.trans hc (s2 y h _ rfl)

theorem orderedList_iff (cs : List (node K V)) :
    node.orderedList cmp cs = true ↔ ∀ c ∈ cs, c.ordered cmp = true := by
  induction cs with
  | nil => simp [node.orderedList]
  | cons c cs ih => simp [node.orderedList, ih]

/-- On a well-shaped node the ordering invariant says that the sequence of the
node is sorted. -/
theorem ordered_iff_sorted (hc : StrictTotal cmp) {t : Nat} :
    ∀ (d lo : Nat) (n : node K V), n.shaped t d lo = true →
      (n.ordered cmp = true ↔ SortedItems cmp n.inorder) := by
  intro d
  induction d with
  | zero =>
    intro lo n h
    cases n with
    | mk its cs =>
      have hcs : cs = [] := (shaped_zero.1 h).1
      subst hcs
      simp [node.ordered, node.separated, node.orderedList, ascending_iff hc]
  | succ d ih =>
    intro lo n h
    have hsh := shaped_succ.1 h
    cases n with
    | mk its cs =>
      simp only [node.children_mk, node.items_mk] at hsh
      have hkeys : ∀ c ∈ cs, ∀ k, k ∈ c.allKeys ↔ ∃ x ∈ c.inorder, x.Key = k :=
        fun c hcm => mem_allKeys d _ c (hsh.2.2.2 c hcm)
      have key := sorted_interleave_iff hc its cs none hsh.1 hkeys
      have habove : ∀ k : K, Above cmp none k := fun k l hl => by cases hl
      simp only [habove, implies_true, and_true] at key
      rw [inorder_mk, key]
      simp only [node.ordered, Bool.and_eq_true, ascending_iff hc, orderedList_iff]
      constructor
      · rintro ⟨⟨h1, h2⟩, h3⟩
        exact ⟨h1, fun c hcm => (ih _ c (hsh.2.2.2 c hcm)).1 (h3 c hcm), h2⟩
      · rintro ⟨h1, h2, h3⟩
        exact ⟨⟨h1, h3⟩, fun c hcm => (ih _ c (hsh.2.2.2 c hcm)).2 (h2 c hcm)⟩

end bridge

/-! ## `inorderTraverse` on a well-shaped node -/

section traverse

variable {K V : Type} {cmp : K → K → Int}

theorem inorderTraverse_all_eq (cs : List (node K V))
    (h : ∀ c ∈ cs, inorderTraverse c = some c.inorder) :
    inorderTraverse.all cs = (node.inorderList cs).map some := by
  induction cs with
  | nil => simp [inorderTraverse.all]
  | cons c cs ih =>
    simp [inorderTraverse.all, h c (List.mem_cons_self _ _),
      ih (fun x hx => h x (List.mem_cons_of_mem _ hx))]

theorem inorderTraverse_range_eq : ∀ (its : List (Item K V)) (pre bs : List (List (Item K V))),
    its.length ≤ bs.length →
    inorderTraverse.range its pre.length ((pre ++ bs).map some) = some (weaveL bs its) := by
  intro its
  induction its with
  | nil => intro pre bs _; simp [inorderTraverse.range]
  | cons v rest ih =>
    intro pre bs h
    cases bs with
    | nil => simp at h
    | cons b bs =>
      simp only [List.length_cons, Nat.add_le_add_iff_right] at h
      have hget : ((pre ++ b :: bs).map some)[pre.length]? = some (some b) := by
        rw [List.getElem?_map, getElem?_at pre b bs _ rfl]
        rfl
      have hrec := ih (pre ++ [b]) bs h
      simp only [List.length_append, List.length_singleton, List.append_assoc,
        List.singleton_append] at hrec
      simp only [inorderTraverse.range, hget, hrec, Option.bind_eq_bind, Option.some_bind,
        Option.pure_def, weaveL_cons]

theorem weaveL_snoc {α : Type} (xs : List α) (bs : List (List α)) (b : List α)
    (h : bs.length = xs.length) : weaveL (bs ++ [b]) xs = weaveL bs xs := by
  have := weaveL_append xs [] bs [b] h
  simpa using this

/-- On a well-shaped node `inorderTraverse` returns the sequence of the node. -/
theorem inorderTraverse_eq {t : Nat} : ∀ (d lo : Nat) (n : node K V),
    n.shaped t d lo = true → inorderTraverse n = some n.inorder := by
  intro d
  induction d with
  | zero =>
    intro lo n h
    cases n with
    | mk its cs =>
      have hcs : cs = [] := (shaped_zero.1 h).1
      subst hcs
      simp [inorderTraverse]
  | succ d ih =>
    intro lo n h
    have hsh := shaped_succ.1 h
    cases n with
    | mk its cs =>
      simp only [node.children_mk, node.items_mk] at hsh
      have hall := inorderTraverse_all_eq cs (fun c hc => ih _ c (hsh.2.2.2 c hc))
      obtain ⟨cs1, cl, rfl⟩ : ∃ cs1 cl, cs = cs1 ++ [cl] := by
        rcases List.eq_nil_or_concat cs with h | ⟨bs, b, h⟩
        · rw [h] at hsh; simp at hsh
        · exact ⟨bs, b, by simpa using h⟩
      have hl1 : cs1.length = its.length := by simpa using hsh.1
      have hne : ((cs1 ++ [cl]).length == 0) = false := by simp
      have hrange := inorderTraverse_range_eq its [] (node.inorderList (cs1 ++ [cl]))
        (by simp; omega)
      simp only [List.nil_append, List.length_nil] at hrange
      have hlast : ((node.inorderList (cs1 ++ [cl])).map some)[(cs1 ++ [cl]).length - 1]?
          = some (some cl.inorder) := by
        rw [List.getElem?_map]
        simp only [inorderList_append, inorderList_cons, inorderList_nil]
        rw [getElem?_at (node.inorderList cs1) cl.inorder [] _ (by simp)]
        rfl
      rw [inorder_mk]
      simp only [inorderTraverse, hne, hall, hrange, hlast]
      simp only [inorderList_append, inorderList_cons, inorderList_nil]
      rw [weaveL_snoc its _ _ (by simpa using hl1), interleave_snoc its _ _ (by simpa using hl1)]
      simp

theorem Inserted.sorted_inserted {key : K} {value : V} {l1 l2 : List (Item K V)}
    (h : Inserted cmp key value l1 l2) (hs : SortedItems cmp l1) : SortedItems cmp l2 := by
  obtain ⟨p, q, e1, e2, hp, hq⟩ := h
  subst e1 e2
  apply List.pairwise_append.2
  refine ⟨hs.append_left, List.pairwise_cons.2 ⟨fun y hy => hq y hy, hs.append_right⟩, ?_⟩
  intro a ha b hb
  rcases List.mem_cons.1 hb with h | h
  · subst h; exact hp a ha
  · exact hs.lt_of_append ha h

theorem Inserted.not_mem (hc : StrictTotal cmp) {key : K} {value : V} {l1 l2 : List (Item K V)}
    (h : Inserted cmp key value l1 l2) : ∀ x ∈ l1, x.Key ≠ key := by
  obtain ⟨p, q, e1, e2, hp, hq⟩ := h
  subst e1
  intro x hx hk
  rcases List.mem_append.1 hx with h | h
  · have := hp x h; rw [hk] at this; exact hc.irrefl _ this
  · have := hq x h; rw [hk] at this; exact hc.irrefl _ this

theorem AddOutcome.sorted_add {key : K} {value : V}
    {l1 l2 : List (Item K V)} {r : Bool}
    (h : AddOutcome cmp key value l1 l2 r) (hs : SortedItems cmp l1) : SortedItems cmp l2 := by
  rcases h with ⟨-, h⟩ | ⟨-, e, -⟩
  · exact h.sorted_inserted hs
  · rw [e]; exact hs

end traverse

/-! ## `TryAdd` on a tree -/

section addTree

variable {K V : Type}

/-- A tree with a root satisfies the invariant exactly when the root is
well shaped for some depth and its sequence is sorted. -/
theorem invariant_iff (hcmp : K → K → Int) (hc : StrictTotal hcmp) (root : node K V) (t count : Nat) :
    (BTree.mk (some root) t count hcmp).invariant = true ↔
      ∃ d, root.shaped t d 0 = true ∧ SortedItems hcmp root.inorder := by
  simp only [BTree.invariant, Bool.and_eq_true]
  constructor
  · rintro ⟨h1, h2⟩
    exact ⟨root.height, h1, (ordered_iff_sorted hc _ _ root h1).1 h2⟩
  · rintro ⟨d, h1, h2⟩
    have hd := shaped_height d 0 root h1
    rw [hd]
    exact ⟨h1, (ordered_iff_sorted hc _ _ root h1).2 h2⟩

/-- The behaviour of `TryAdd` on a tree that satisfies the invariant, in one statement. -/
theorem TryAdd_core (b : BTree K V) (key : K) (value : V) (ht : 2 ≤ b.t)
    (hc : StrictTotal b.compare) (hinv : b.invariant = true) :
    ∃ b2 r l l2, TryAdd b key value = some (b2, r) ∧ InorderTraverse b = some l ∧
      InorderTraverse b2 = some l2 ∧ SortedItems b.compare l ∧
      AddOutcome b.compare key value l l2 r ∧ b2.invariant = true ∧ b2.t = b.t ∧
      b2.compare = b.compare ∧
      b2.count = (if r = true then (b.count + 1) % 2 ^ 64 else b.count) ∧
      (b.rootNonEmpty = true → b2.rootNonEmpty = true) := by
  obtain ⟨root, t, count, cmp⟩ := b
  simp only at ht hc
  cases root with
  | none =>
    refine ⟨_, true, [], [NewItem key value], rfl, rfl, ?_, List.Pairwise.nil,
      leaf_insert key value [] [] (by simp) (by simp), ?_, rfl, rfl, rfl, fun _ => ?_⟩
    · simp [InorderTraverse, inorderTraverse]
    · apply (invariant_iff cmp hc _ _ _).2
      refine ⟨0, ?_, ?_⟩
      · rw [shaped_zero]; simp; omega
      · simp [SortedItems]
    · simp [BTree.rootNonEmpty]
  | some root =>
    obtain ⟨d, hsh, hs⟩ := (invariant_iff cmp hc root t count).1 hinv
    have hd := shaped_height d 0 root hsh
    have hsh1 : root.shaped t d (min 1 root.items.length) = true :=
      shaped_mono (shaped_exact hsh) (Nat.min_le_right _ _)
    obtain ⟨root2, r, d2, hrun, hsh2, hout⟩ := loopNil_spec hc ht key value d
      (min 1 root.items.length) (2 * root.height + 2) root (Nat.min_le_left _ _) hsh1 hs
      (by omega)
    have hs2 : SortedItems cmp root2.inorder := hout.sorted_add hs
    have hsh2' : root2.shaped t d2 0 = true := shaped_mono hsh2 (Nat.zero_le _)
    have hne : (BTree.mk (some root) t count cmp).rootNonEmpty = true →
        0 < root2.items.length := by
      intro h
      have h1 : 0 < root.items.length := by simpa [BTree.rootNonEmpty] using h
      have h2 := shaped_lo hsh2
      have h3 : min 1 root.items.length = 1 := by omega
      omega
    cases r with
    | true =>
      refine ⟨⟨some root2, t, (count + 1) % 2 ^ 64, cmp⟩, true, root.inorder, root2.inorder,
        ?_, ?_, ?_, hs, hout, ?_, rfl, rfl, rfl, fun h => ?_⟩
      · simp [TryAdd, hrun]
      · simp [InorderTraverse, inorderTraverse_eq d 0 root hsh]
      · simp [InorderTraverse, inorderTraverse_eq d2 0 root2 hsh2']
      · exact (invariant_iff cmp hc _ _ _).2 ⟨d2, hsh2', hs2⟩
      · simpa [BTree.rootNonEmpty] using hne h
    | false =>
      refine ⟨⟨some root2, t, count, cmp⟩, false, root.inorder, root2.inorder,
        ?_, ?_, ?_, hs, hout, ?_, rfl, rfl, rfl, fun h => ?_⟩
      · simp [TryAdd, hrun]
      · simp [InorderTraverse, inorderTraverse_eq d 0 root hsh]
      · simp [InorderTraverse, inorderTraverse_eq d2 0 root2 hsh2']
      · exact (invariant_iff cmp hc _ _ _).2 ⟨d2, hsh2', hs2⟩
      · simpa [BTree.rootNonEmpty] using hne h

end addTree

/-! ## Smallest and largest item below a node -/

section minmax

variable {K V : Type} {cmp : K → K → Int}

theorem exists_snoc {α : Type} (l : List α) (h : 0 < l.length) : ∃ p m, l = p ++ [m] := by
  rcases List.eq_nil_or_concat l with h1 | ⟨p, m, h1⟩
  · rw [h1] at h; simp at h
  · exact ⟨p, m, by simpa using h1⟩

theorem getElem?_last {α : Type} (p : List α) (m : α) :
    (p ++ [m])[(p ++ [m]).length - 1]? = some m := by
  exact getElem?_at p m [] _ (by simp)

/-- `max` returns the last item of the sequence of a node. -/
theorem max_spec {t : Nat} (ht : 2 ≤ t) : ∀ (d lo fuel : Nat) (n : node K V),
    n.shaped t d lo = true → 1 ≤ lo → d + 1 ≤ fuel →
    ∃ p m, n.inorder = p ++ [m] ∧ BTree.max fuel n = some m := by
  intro d
  induction d with
  | zero =>
    intro lo fuel n h hlo hf
    obtain ⟨f, rfl⟩ : ∃ f, fuel = f + 1 := ⟨fuel - 1, by omega⟩
    cases n with
    | mk its cs =>
      have hz := shaped_zero.1 h
      simp only [node.children_mk, node.items_mk] at hz
      obtain ⟨hcs, h1, -⟩ := hz
      subst hcs
      obtain ⟨p, m, rfl⟩ := exists_snoc its (by omega)
      exact ⟨p, m, by simp, by simp [BTree.max, node.isLeaf, getElem?_last]⟩
  | succ d ih =>
    intro lo fuel n h hlo hf
    obtain ⟨f, rfl⟩ : ∃ f, fuel = f + 1 := ⟨fuel - 1, by omega⟩
    cases n with
    | mk its cs =>
      have hs := shaped_succ.1 h
      simp only [node.children_mk, node.items_mk] at hs
      obtain ⟨cs1, cl, rfl⟩ := exists_snoc cs (by omega)
      have hl1 : cs1.length = its.length := by simpa using hs.1
      obtain ⟨p, m, hp, hm⟩ := ih (t - 1) f cl (hs.2.2.2 cl (by simp)) (by omega) (by omega)
      refine ⟨weaveL (node.inorderList cs1) its ++ p, m, ?_, ?_⟩
      · rw [inorder_mk, inorderList_append, inorderList_cons, inorderList_nil,
          interleave_snoc its _ _ (by simpa using hl1), hp]
        simp
      · have hleaf : (node.mk its (cs1 ++ [cl])).isLeaf = false := by simp [node.isLeaf]
        simp [BTree.max, hleaf, getElem?_last, hm]

/-- `min` returns the first item of the sequence of a node. -/
theorem min_spec {t : Nat} (ht : 2 ≤ t) : ∀ (d lo fuel : Nat) (n : node K V),
    n.shaped t d lo = true → 1 ≤ lo → d + 1 ≤ fuel →
    ∃ m q, n.inorder = m :: q ∧ BTree.min fuel n = some m := by
  intro d
  induction d with
  | zero =>
    intro lo fuel n h hlo hf
    obtain ⟨f, rfl⟩ : ∃ f, fuel = f + 1 := ⟨fuel - 1, by omega⟩
    cases n with
    | mk its cs =>
      have hz := shaped_zero.1 h
      simp only [node.children_mk, node.items_mk] at hz
      obtain ⟨hcs, h1, -⟩ := hz
      subst hcs
      cases its with
      | nil => simp at h1; omega
      | cons m q => exact ⟨m, q, by simp, by simp [BTree.min, node.isLeaf]⟩
  | succ d ih =>
    intro lo fuel n h hlo hf
    obtain ⟨f, rfl⟩ : ∃ f, fuel = f + 1 := ⟨fuel - 1, by omega⟩
    cases n with
    | mk its cs =>
      have hs := shaped_succ.1 h
      simp only [node.children_mk, node.items_mk] at hs
      cases cs with
      | nil => simp at hs
      | cons c0 cs =>
        obtain ⟨m, q, hq, hm⟩ := ih (t - 1) f c0 (hs.2.2.2 c0 (by simp)) (by omega) (by omega)
        refine ⟨m, q ++ weaveR its (node.inorderList cs), ?_, ?_⟩
        · rw [inorder_mk, inorderList_cons, interleave_cons, hq]
          simp
        · have hleaf : (node.mk its (c0 :: cs)).isLeaf = false := by simp [node.isLeaf]
          simp [BTree.min, hleaf, hm]

end minmax

/-! ## Taking an item out of a sorted sequence -/

section removed

variable {K V : Type} {cmp : K → K → Int}

theorem setAt_self {α : Type} (l : List α) (i : Nat) (a : α) (h : l[i]? = some a) :
    setAt l i a = some l := by
  have hlt : i < l.length := by
    by_contra hn
    rw [List.getElem?_eq_none (by omega)] at h
    cases h
  obtain ⟨l1, b, l2, e, hl⟩ := exists_split_at l i hlt
  subst e
  rw [getElem?_at l1 b l2 i hl.symm] at h
  have hba : b = a := by simpa using h
  subst hba
  exact setAt_at l1 b b l2 i hl.symm

theorem sorted_key_unique (hc : StrictTotal cmp) {l : List (Item K V)} (hs : SortedItems cmp l)
    {x y : Item K V} (hx : x ∈ l) (hy : y ∈ l) (hk : x.Key = y.Key) : x = y := by
  induction l with
  | nil => simp at hx
  | cons a l ih =>
    have hs2 := List.pairwise_cons.1 hs
    rcases List.mem_cons.1 hx with h1 | h1 <;> rcases List.mem_cons.1 hy with h2 | h2
    · rw [h1, h2]
    · exfalso
      have := hs2.1 y h2
      rw [← h1, hk] at this
      exact hc.irrefl _ this
    · exfalso
      have := hs2.1 x h1
      rw [← h2, hk] at this
      exact hc.irrefl _ this
    · exact ih hs2.2 h1 h2

/-- In a sorted sequence the item of a key stands at one place only. -/
theorem sorted_split_unique (hc : StrictTotal cmp) {p q p2 q2 : List (Item K V)}
    {x y : Item K V} (hs : SortedItems cmp (p ++ x :: q)) (e : p ++ x :: q = p2 ++ y :: q2)
    (hk : x.Key = y.Key) : p = p2 ∧ x = y ∧ q = q2 := by
  have hxy : x = y := sorted_key_unique hc hs (by simp) (by rw [e]; simp) hk
  subst hxy
  have hirr : ∀ z ∈ p, z ≠ x := fun z hz hzx => by
    have := hs.lt_of_append hz (List.mem_cons_self x q)
    rw [hzx] at this
    exact hc.irrefl _ this
  have hirr2 : ∀ z ∈ p2, z ≠ x := fun z hz hzx => by
    have hs' : SortedItems cmp (p2 ++ x :: q2) := e ▸ hs
    have := hs'.lt_of_append hz (List.mem_cons_self x q2)
    rw [hzx] at this
    exact hc.irrefl _ this
  rcases List.append_eq_append_iff.1 e with ⟨a, ha1, ha2⟩ | ⟨c, hc1, hc2⟩
  · cases a with
    | nil =>
      simp only [List.append_nil, List.nil_append, List.cons.injEq, true_and] at ha1 ha2
      exact ⟨ha1.symm, rfl, ha2⟩
    | cons z a =>
      exfalso
      simp only [List.cons_append, List.cons.injEq] at ha2
      exact hirr2 x (by rw [ha1, ha2.1]; simp) rfl
  · cases c with
    | nil =>
      simp only [List.append_nil, List.nil_append, List.cons.injEq, true_and] at hc1 hc2
      exact ⟨hc1, rfl, hc2.symm⟩
    | cons z c =>
      exfalso
      simp only [List.cons_append, List.cons.injEq] at hc2
      exact hirr x (by rw [hc1, ← hc2.1]; simp) rfl

theorem RemoveOutcome.lift_ne {key : K} {l1 l2 : List (Item K V)} {r : Bool}
    (h : RemoveOutcome key l1 l2 r) (a b : List (Item K V))
    (ha : ∀ e ∈ a, e.Key ≠ key) (hb : ∀ e ∈ b, e.Key ≠ key) :
    RemoveOutcome key (a ++ l1 ++ b) (a ++ l2 ++ b) r := by
  rcases h with ⟨hr, p, x, q, e1, hk, e2⟩ | ⟨hr, e, hx⟩
  · left
    exact ⟨hr, a ++ p, x, q ++ b, by rw [e1]; simp, hk, by rw [e2]; simp⟩
  · right
    refine ⟨hr, by rw [e], ?_⟩
    intro y hy
    rcases List.mem_append.1 hy with h | h
    · rcases List.mem_append.1 h with h | h
      · exact ha y h
      · exact hx y h
    · exact hb y h

theorem Removed.sorted_removed {key : K} {l1 l2 : List (Item K V)} (h : Removed key l1 l2)
    (hs : SortedItems cmp l1) : SortedItems cmp l2 := by
  obtain ⟨p, x, q, e1, -, e2⟩ := h
  subst e1 e2
  exact List.Pairwise.sublist (List.Sublist.append_left (List.sublist_cons_self x q) p) hs

theorem RemoveOutcome.sorted_remove {key : K} {l1 l2 : List (Item K V)} {r : Bool}
    (h : RemoveOutcome key l1 l2 r) (hs : SortedItems cmp l1) : SortedItems cmp l2 := by
  rcases h with ⟨-, h⟩ | ⟨-, e, -⟩
  · exact h.sorted_removed hs
  · rw [e]; exact hs

end removed

/-! ## Merge and steal -/

section mergeSteal

variable {K V : Type}

theorem getElem?_at_succ {α : Type} (l1 : List α) (a b : α) (l2 : List α) (i : Nat)
    (h : i = l1.length + 1) : (l1 ++ a :: b :: l2)[i]? = some b := by
  have : l1 ++ a :: b :: l2 = (l1 ++ [a]) ++ b :: l2 := by simp
  rw [this]
  exact getElem?_at _ _ _ _ (by simp [h])

theorem setAt_at_succ {α : Type} (l1 : List α) (a b c : α) (l2 : List α) (i : Nat)
    (h : i = l1.length + 1) : setAt (l1 ++ a :: b :: l2) i c = some (l1 ++ a :: c :: l2) := by
  have : l1 ++ a :: b :: l2 = (l1 ++ [a]) ++ b :: l2 := by simp
  rw [this, setAt_at _ _ _ _ _ (by simp [h])]
  simp

theorem slicesDelete_one {α : Type} (l1 : List α) (a : α) (l2 : List α) (i j : Nat)
    (hi : i = l1.length) (hj : j = l1.length + 1) :
    slicesDelete (l1 ++ a :: l2) i j = some (l1 ++ l2) := by
  have := slicesDelete_at l1 [a] l2 i j hi (by simp [hj])
  simpa using this

/-- What `merge` does to two neighbouring children that hold `t-1` items each. -/
theorem merge_spec {t d : Nat} (ht : 1 ≤ t) (xs1 : List (Item K V)) (sep : Item K V)
    (xs2 : List (Item K V)) (cs1 : List (node K V)) (a b : node K V) (cs2 : List (node K V))
    (ci : Nat) (hlen : cs1.length = xs1.length)
    (hci : ci = cs1.length + 1 ∨ (ci = 0 ∧ cs1 = []))
    (ha : a.shaped t d (t - 1) = true) (hb : b.shaped t d (t - 1) = true)
    (hat : a.items.length = t - 1) (hbt : b.items.length = t - 1) :
    merge (node.mk (xs1 ++ sep :: xs2) (cs1 ++ a :: b :: cs2)) ci
        = some (node.mk (xs1 ++ xs2)
            (cs1 ++ node.mk (a.items ++ [sep] ++ b.items) (a.children ++ b.children) :: cs2),
          cs1.length) ∧
      (node.mk (a.items ++ [sep] ++ b.items) (a.children ++ b.children)).shaped t d (2 * t - 1)
        = true ∧
      (node.mk (a.items ++ [sep] ++ b.items) (a.children ++ b.children)).inorder
        = a.inorder ++ sep :: b.inorder := by
  have hleft : (if 0 < ci then ci - 1 else ci) = cs1.length := by
    rcases hci with h | ⟨h1, h2⟩
    · subst h; simp
    · subst h1 h2; simp
  have hright : (if 0 < ci then ci else ci + 1) = cs1.length + 1 := by
    rcases hci with h | ⟨h1, h2⟩
    · subst h; simp
    · subst h1 h2; simp
  refine ⟨?_, ?_, ?_⟩
  · have h1 : (cs1 ++ a :: b :: cs2)[cs1.length]? = some a := getElem?_at _ _ _ _ rfl
    have h2 : (xs1 ++ sep :: xs2)[cs1.length]? = some sep := getElem?_at _ _ _ _ hlen
    have h3 : (cs1 ++ a :: b :: cs2)[cs1.length + 1]? = some b := getElem?_at_succ _ _ _ _ _ rfl
    have h4 : slicesDelete (xs1 ++ sep :: xs2) cs1.length (cs1.length + 1) = some (xs1 ++ xs2) :=
      slicesDelete_one _ _ _ _ _ hlen (by rw [hlen])
    have h5 : ∀ m : node K V, setAt (cs1 ++ a :: b :: cs2) cs1.length m
        = some (cs1 ++ m :: b :: cs2) := fun m => setAt_at _ _ _ _ _ rfl
    have h6 : ∀ m : node K V, slicesDelete (cs1 ++ m :: b :: cs2) (cs1.length + 1)
        (cs1.length + 1 + 1) = some (cs1 ++ m :: cs2) := fun m => by
      have := slicesDelete_one (cs1 ++ [m]) b cs2 (cs1.length + 1) (cs1.length + 1 + 1)
        (by simp) (by simp)
      simpa using this
    simp only [merge, hleft, hright, node.children_mk, node.items_mk, h1, h2, h3, h4, h5, h6,
      Option.bind_eq_bind, Option.some_bind, Option.pure_def]
  · cases d with
    | zero =>
      rw [shaped_zero] at ha hb ⊢
      simp only [node.children_mk, node.items_mk, ha.1, hb.1, List.length_append,
        List.length_singleton, List.append_nil, hat, hbt, true_and]
      omega
    | succ d =>
      rw [shaped_succ] at ha hb ⊢
      simp only [node.children_mk, node.items_mk, List.length_append,
        List.length_singleton, hat, hbt, ha.1, hb.1]
      refine ⟨by omega, by omega, by omega, ?_⟩
      intro x hx
      rcases List.mem_append.1 hx with h | h
      · exact ha.2.2.2 x h
      · exact hb.2.2.2 x h
  · cases a with
    | mk aits acs =>
    cases b with
    | mk bits bcs =>
    simp only [node.items_mk, node.children_mk] at hat hbt ⊢
    cases d with
    | zero =>
      have h1 : acs = [] := (shaped_zero.1 ha).1
      have h2 : bcs = [] := (shaped_zero.1 hb).1
      subst h1 h2
      simp
    | succ d =>
      have h1 := (shaped_succ.1 ha).1
      have h2 := (shaped_succ.1 hb).1
      simp only [node.items_mk, node.children_mk] at h1 h2
      rw [inorder_mk, inorder_mk, inorder_mk, inorderList_append, List.append_assoc,
        List.singleton_append]
      apply interleave_append
      · simp [h1]
      · intro h
        have := congrArg List.length h
        simp only [length_inorderList, List.length_nil] at this
        omega

end mergeSteal

section steal

variable {K V : Type}

/-- Stealing from the left sibling. -/
theorem steal_left {t d : Nat} (ht : 2 ≤ t) (xs1 : List (Item K V)) (sep : Item K V)
    (xs2 : List (Item K V)) (cs1 : List (node K V)) (s c : node K V) (cs2 : List (node K V))
    (hlen : cs1.length = xs1.length)
    (hs : s.shaped t d (t - 1) = true) (hcs : c.shaped t d (t - 1) = true)
    (hst : t ≤ s.items.length) (hct : c.items.length = t - 1) :
    ∃ s2 up c2,
      stealIfPossible t (node.mk (xs1 ++ sep :: xs2) (cs1 ++ s :: c :: cs2)) (cs1.length + 1)
        = some (node.mk (xs1 ++ up :: xs2) (cs1 ++ s2 :: c2 :: cs2), true) ∧
      s2.shaped t d (t - 1) = true ∧ c2.shaped t d t = true ∧
      s.inorder ++ sep :: c.inorder = s2.inorder ++ up :: c2.inorder ∧
      (∀ x ∈ c.inorder, x ∈ c2.inorder) := by
  cases s with
  | mk sits scs =>
  cases c with
  | mk cits ccs =>
  simp only [node.items_mk] at hst hct
  obtain ⟨sits1, up, rfl⟩ := exists_snoc sits (by omega)
  have h1 : (cs1 ++ node.mk (sits1 ++ [up]) scs :: node.mk cits ccs :: cs2)[cs1.length + 1]?
      = some (node.mk cits ccs) := getElem?_at_succ _ _ _ _ _ rfl
  have h2 : (cs1 ++ node.mk (sits1 ++ [up]) scs :: node.mk cits ccs :: cs2)[cs1.length]?
      = some (node.mk (sits1 ++ [up]) scs) := getElem?_at _ _ _ _ rfl
  have h3 : (xs1 ++ sep :: xs2)[cs1.length]? = some sep := getElem?_at _ _ _ _ hlen
  have h4 : slicesInsert cits 0 sep = some (sep :: cits) := by simp [slicesInsert]
  have h5 : (sits1 ++ [up])[(sits1 ++ [up]).length - 1]? = some up := getElem?_last _ _
  have h6 : setAt (xs1 ++ sep :: xs2) cs1.length up = some (xs1 ++ up :: xs2) :=
    setAt_at _ _ _ _ _ hlen
  have h7 : slicesDelete (sits1 ++ [up]) ((sits1 ++ [up]).length - 1) (sits1 ++ [up]).length
      = some sits1 := by
    have := slicesDelete_one sits1 up [] ((sits1 ++ [up]).length - 1) (sits1 ++ [up]).length
      (by simp) (by simp)
    simpa using this
  have h8 : ∀ m : node K V,
      setAt (cs1 ++ node.mk (sits1 ++ [up]) scs :: node.mk cits ccs :: cs2) (cs1.length + 1) m
        = some (cs1 ++ node.mk (sits1 ++ [up]) scs :: m :: cs2) :=
    fun m => setAt_at_succ _ _ _ _ _ _ rfl
  have h9 : ∀ m m2 : node K V,
      setAt (cs1 ++ node.mk (sits1 ++ [up]) scs :: m2 :: cs2) cs1.length m
        = some (cs1 ++ m :: m2 :: cs2) :=
    fun m m2 => setAt_at _ _ _ _ _ rfl
  have hdec : decide (t ≤ (sits1 ++ [up]).length) = true := by simpa using hst
  have hsl : sits1.length + 1 = (sits1 ++ [up]).length := by simp
  cases d with
  | zero =>
    have e1 : scs = [] := (shaped_zero.1 hs).1
    have e2 : ccs = [] := (shaped_zero.1 hcs).1
    subst e1 e2
    refine ⟨node.mk sits1 [], up, node.mk (sep :: cits) [], ?_, ?_, ?_, by simp, ?_⟩
    · simp only [stealIfPossible, node.children_mk, node.items_mk, h1, h2, h3, h4, h5, h6, h7, h8,
        h9, hdec, node.isLeaf, Nat.add_sub_cancel, Nat.zero_lt_succ,
        Option.bind_eq_bind, Option.some_bind, Option.pure_def, if_true, List.length_nil,
        beq_self_eq_true, Bool.not_true, Bool.false_eq_true, if_false]
    · rw [shaped_zero]
      have := shaped_hi hs
      simp only [node.items_mk, List.length_append, List.length_singleton, node.children_mk]
        at this hst ⊢
      exact ⟨trivial, by omega, by omega⟩
    · rw [shaped_zero]
      simp only [node.items_mk, List.length_cons, node.children_mk]
      exact ⟨trivial, by omega, by omega⟩
    · intro x hx
      simp only [inorder_leaf] at hx ⊢
      exact List.mem_cons_of_mem _ hx
  | succ d =>
    have hss := shaped_succ.1 hs
    have hcc := shaped_succ.1 hcs
    simp only [node.items_mk, node.children_mk] at hss hcc
    obtain ⟨scs1, mv, rfl⟩ := exists_snoc scs (by omega)
    have hl : ((scs1 ++ [mv]).length == 0) = false := by simp
    have hsl1 : scs1.length = sits1.length + 1 := by simpa using hss.1
    have h10 : (scs1 ++ [mv])[(scs1 ++ [mv]).length - 1]? = some mv := getElem?_last _ _
    have h11 : slicesInsert ccs 0 mv = some (mv :: ccs) := by simp [slicesInsert]
    have h12 : slicesDelete (scs1 ++ [mv]) ((scs1 ++ [mv]).length - 1) (scs1 ++ [mv]).length
        = some scs1 := by
      have := slicesDelete_one scs1 mv [] ((scs1 ++ [mv]).length - 1) (scs1 ++ [mv]).length
        (by simp) (by simp)
      simpa using this
    refine ⟨node.mk sits1 scs1, up, node.mk (sep :: cits) (mv :: ccs), ?_, ?_, ?_, ?_, ?_⟩
    · simp only [stealIfPossible, node.children_mk, node.items_mk, h1, h2, h3, h4, h5, h6, h7, h8,
        h9, h10, h11, h12, hdec, node.isLeaf, hl, Nat.add_sub_cancel, Nat.zero_lt_succ,
        Option.bind_eq_bind, Option.some_bind, Option.pure_def, if_true,
        Bool.not_false]
    · rw [shaped_succ]
      simp only [node.items_mk, List.length_append, List.length_singleton, node.children_mk]
        at hss hst ⊢
      exact ⟨by omega, by omega, by omega, fun x hx => hss.2.2.2 x (by simp [hx])⟩
    · rw [shaped_succ]
      simp only [node.items_mk, List.length_cons, node.children_mk]
      refine ⟨by omega, by omega, by omega, ?_⟩
      intro x hx
      rcases List.mem_cons.1 hx with h | h
      · subst h; exact hss.2.2.2 x (by simp)
      · exact hcc.2.2.2 x h
    · have hA : (node.mk (sits1 ++ [up]) (scs1 ++ [mv])).inorder
          = (node.mk sits1 scs1).inorder ++ up :: mv.inorder := by
        rw [inorder_mk, inorder_mk, inorderList_append]
        rw [interleave_append sits1 up [] _ _ (by simp [hsl1]) (by simp)]
        simp
      have hB : (node.mk (sep :: cits) (mv :: ccs)).inorder
          = mv.inorder ++ sep :: (node.mk cits ccs).inorder := by
        cases ccs with
        | nil => simp at hcc
        | cons c0 ccs => simp [inorder_mk]
      rw [hA, hB]
      simp
    · intro x hx
      have hB : (node.mk (sep :: cits) (mv :: ccs)).inorder
          = mv.inorder ++ sep :: (node.mk cits ccs).inorder := by
        cases ccs with
        | nil => simp at hcc
        | cons c0 ccs => simp [inorder_mk]
      rw [hB]
      simp [hx]

/-- The element before a position, when there is one. -/
theorem getElem?_pred_cases {α : Type} (l : List α) (i : Nat) (hi : i < l.length) :
    i = 0 ∨ (0 < i ∧ ∃ a, l[i - 1]? = some a) := by
  by_cases h : i = 0
  · exact Or.inl h
  · right
    refine ⟨by omega, l[i - 1], ?_⟩
    exact List.getElem?_eq_getElem (by omega)

/-- Stealing from the right sibling, when the left one cannot lend. -/
theorem steal_right {t d : Nat} (ht : 2 ≤ t) (xs1 : List (Item K V)) (sep : Item K V)
    (xs2 : List (Item K V)) (cs1 : List (node K V)) (c s : node K V) (cs2 : List (node K V))
    (hlen : cs1.length = xs1.length)
    (hs : s.shaped t d (t - 1) = true) (hcs : c.shaped t d (t - 1) = true)
    (hst : t ≤ s.items.length) (hct : c.items.length = t - 1)
    (hleft : ∀ s0, 0 < cs1.length → (cs1 ++ c :: s :: cs2)[cs1.length - 1]? = some s0 →
      s0.items.length < t) :
    ∃ c2 up s2,
      stealIfPossible t (node.mk (xs1 ++ sep :: xs2) (cs1 ++ c :: s :: cs2)) cs1.length
        = some (node.mk (xs1 ++ up :: xs2) (cs1 ++ c2 :: s2 :: cs2), true) ∧
      s2.shaped t d (t - 1) = true ∧ c2.shaped t d t = true ∧
      c.inorder ++ sep :: s.inorder = c2.inorder ++ up :: s2.inorder ∧
      (∀ x ∈ c.inorder, x ∈ c2.inorder) := by
  cases s with
  | mk sits scs =>
  cases c with
  | mk cits ccs =>
  simp only [node.items_mk] at hst hct
  obtain ⟨up, sits1, rfl⟩ : ∃ up sits1, sits = up :: sits1 := by
    cases sits with
    | nil => simp at hst; omega
    | cons a l => exact ⟨a, l, rfl⟩
  have h1 : (cs1 ++ node.mk cits ccs :: node.mk (up :: sits1) scs :: cs2)[cs1.length]?
      = some (node.mk cits ccs) := getElem?_at _ _ _ _ rfl
  have h2 : (cs1 ++ node.mk cits ccs :: node.mk (up :: sits1) scs :: cs2)[cs1.length + 1]?
      = some (node.mk (up :: sits1) scs) := getElem?_at_succ _ _ _ _ _ rfl
  have h3 : (xs1 ++ sep :: xs2)[cs1.length]? = some sep := getElem?_at _ _ _ _ hlen
  have h6 : setAt (xs1 ++ sep :: xs2) cs1.length up = some (xs1 ++ up :: xs2) :=
    setAt_at _ _ _ _ _ hlen
  have h7 : slicesDelete (up :: sits1) 0 1 = some sits1 := by simp [slicesDelete]
  have h8 : ∀ m : node K V,
      setAt (cs1 ++ node.mk cits ccs :: node.mk (up :: sits1) scs :: cs2) cs1.length m
        = some (cs1 ++ m :: node.mk (up :: sits1) scs :: cs2) :=
    fun m => setAt_at _ _ _ _ _ rfl
  have h9 : ∀ m m2 : node K V,
      setAt (cs1 ++ m2 :: node.mk (up :: sits1) scs :: cs2) (cs1.length + 1) m
        = some (cs1 ++ m2 :: m :: cs2) :=
    fun m m2 => setAt_at_succ _ _ _ _ _ _ rfl
  have hdec : decide (t ≤ (up :: sits1).length) = true := by simpa using hst
  have hlt : cs1.length + 1
      < (cs1 ++ node.mk cits ccs :: node.mk (up :: sits1) scs :: cs2).length := by simp
  have hsz : (node.mk (up :: sits1) scs).items[0]? = some up := by simp
  have hrun : ∀ (c2 s2 : node K V),
      (c2 = node.mk (cits ++ [sep]) (if scs.length = 0 then ccs else ccs ++ scs.take 1)) →
      (s2 = node.mk sits1 (if scs.length = 0 then scs else scs.drop 1)) →
      stealIfPossible t (node.mk (xs1 ++ sep :: xs2)
          (cs1 ++ node.mk cits ccs :: node.mk (up :: sits1) scs :: cs2)) cs1.length
        = some (node.mk (xs1 ++ up :: xs2) (cs1 ++ c2 :: s2 :: cs2), true) := by
    intro c2 s2 e1 e2
    subst e1 e2
    have hlt' : (cs1.length + 1
        < (cs1 ++ node.mk cits ccs :: node.mk (up :: sits1) scs :: cs2).length) = True :=
      eq_true hlt
    have hsz' : (up :: sits1)[0]? = some up := by simp
    have hdec2 : decide (t ≤ sits1.length + 1) = true := by simpa using hst
    rcases getElem?_pred_cases (cs1 ++ node.mk cits ccs :: node.mk (up :: sits1) scs :: cs2)
      cs1.length (by simp) with h0 | ⟨h0, s0, hs0⟩
    · have hz : (0 < cs1.length) = False := by simp [h0]
      cases scs with
      | nil =>
        have hl : (node.mk (up :: sits1) ([] : List (node K V))).isLeaf = true := by
          simp [node.isLeaf]
        simp only [stealIfPossible, node.children_mk, node.items_mk, h1, h2, h3, h6, h7, h8, h9,
          hdec, hl, hz, hlt', hsz', Option.bind_eq_bind, Option.some_bind, Option.pure_def,
          if_true, if_false, Bool.not_true, Bool.false_eq_true, List.length_nil]
      | cons mv scs1 =>
        have hl : (node.mk (up :: sits1) (mv :: scs1)).isLeaf = false := by
          simp [node.isLeaf]
        have hm : (mv :: scs1)[0]? = some mv := by simp
        have hsd : slicesDelete (mv :: scs1) 0 1 = some scs1 := by simp [slicesDelete]
        simp only [stealIfPossible, node.children_mk, node.items_mk, h1, h2, h3, h6, h7, h8, h9,
          hdec, hdec2, hl, hz, hlt', hsz', hm, hsd, Option.bind_eq_bind, Option.some_bind,
          Option.pure_def, if_true, if_false, Bool.not_false, Bool.false_eq_true,
          List.length_cons, Nat.add_one_ne_zero, List.take_succ_cons, List.take_zero,
          List.drop_succ_cons, List.drop_zero]
    · have := hleft s0 h0 hs0
      have hd : decide (t ≤ s0.items.length) = false := by simpa using this
      have hz : (0 < cs1.length) = True := eq_true h0
      cases scs with
      | nil =>
        have hl : (node.mk (up :: sits1) ([] : List (node K V))).isLeaf = true := by
          simp [node.isLeaf]
        simp only [stealIfPossible, node.children_mk, node.items_mk, h1, h2, h3, h6, h7, h8, h9,
          hdec, hl, hz, hlt', hsz', hs0, hd, Option.bind_eq_bind, Option.some_bind,
          Option.pure_def, if_true, if_false, Bool.not_true, Bool.false_eq_true,
          List.length_nil]
      | cons mv scs1 =>
        have hl : (node.mk (up :: sits1) (mv :: scs1)).isLeaf = false := by
          simp [node.isLeaf]
        have hm : (mv :: scs1)[0]? = some mv := by simp
        have hsd : slicesDelete (mv :: scs1) 0 1 = some scs1 := by simp [slicesDelete]
        simp only [stealIfPossible, node.children_mk, node.items_mk, h1, h2, h3, h6, h7, h8, h9,
          hdec, hdec2, hl, hz, hlt', hsz', hs0, hd, hm, hsd, Option.bind_eq_bind, Option.some_bind,
          Option.pure_def, if_true, if_false, Bool.not_false, Bool.false_eq_true,
          List.length_cons, Nat.add_one_ne_zero, List.take_succ_cons, List.take_zero,
          List.drop_succ_cons, List.drop_zero]
  cases d with
  | zero =>
    have e1 : scs = [] := (shaped_zero.1 hs).1
    have e2 : ccs = [] := (shaped_zero.1 hcs).1
    subst e1 e2
    refine ⟨node.mk (cits ++ [sep]) [], up, node.mk sits1 [], hrun _ _ (by simp) (by simp),
      ?_, ?_, by simp, ?_⟩
    · rw [shaped_zero]
      have := shaped_hi hs
      simp only [node.items_mk, List.length_cons, node.children_mk] at this hst ⊢
      exact ⟨trivial, by omega, by omega⟩
    · rw [shaped_zero]
      simp only [node.items_mk, List.length_append, List.length_singleton, node.children_mk]
      exact ⟨trivial, by omega, by omega⟩
    · intro x hx
      simp only [inorder_leaf] at hx ⊢
      exact List.mem_append_left _ hx
  | succ d =>
    have hss := shaped_succ.1 hs
    have hcc := shaped_succ.1 hcs
    simp only [node.items_mk, node.children_mk] at hss hcc
    obtain ⟨mv, scs1, rfl⟩ : ∃ mv scs1, scs = mv :: scs1 := by
      cases scs with
      | nil => simp at hss
      | cons a l => exact ⟨a, l, rfl⟩
    have hsl1 : scs1.length = sits1.length + 1 := by simpa using hss.1
    have hB : (node.mk (cits ++ [sep]) (ccs ++ [mv])).inorder
        = (node.mk cits ccs).inorder ++ sep :: mv.inorder := by
      rw [inorder_mk, inorder_mk, inorderList_append]
      rw [interleave_append cits sep [] _ _ (by simp [hcc.1]) (by simp)]
      simp
    have hA : (node.mk (up :: sits1) (mv :: scs1)).inorder
        = mv.inorder ++ up :: (node.mk sits1 scs1).inorder := by
      cases scs1 with
      | nil => simp at hsl1
      | cons c0 l => simp [inorder_mk]
    refine ⟨node.mk (cits ++ [sep]) (ccs ++ [mv]), up, node.mk sits1 scs1,
      hrun _ _ (by simp) (by simp), ?_, ?_, ?_, ?_⟩
    · rw [shaped_succ]
      simp only [node.items_mk, List.length_cons, node.children_mk] at hss hst ⊢
      exact ⟨by omega, by omega, by omega, fun x hx => hss.2.2.2 x (by simp [hx])⟩
    · rw [shaped_succ]
      simp only [node.items_mk, List.length_append, List.length_singleton, node.children_mk]
      refine ⟨by omega, by omega, by omega, ?_⟩
      intro x hx
      rcases List.mem_append.1 hx with h | h
      · exact hcc.2.2.2 x h
      · simp at h; subst h; exact hss.2.2.2 x (by simp)
    · rw [hA, hB]
      simp
    · intro x hx
      rw [hB]
      simp [hx]

/-- No sibling can lend: `stealIfPossible` changes nothing. -/
theorem steal_none {t : Nat} (xs : List (Item K V)) (cs1 : List (node K V)) (c : node K V)
    (cs2 : List (node K V))
    (hleft : ∀ s0, 0 < cs1.length → (cs1 ++ c :: cs2)[cs1.length - 1]? = some s0 →
      s0.items.length < t)
    (hright : ∀ s0, (cs1 ++ c :: cs2)[cs1.length + 1]? = some s0 → s0.items.length < t) :
    stealIfPossible t (node.mk xs (cs1 ++ c :: cs2)) cs1.length
      = some (node.mk xs (cs1 ++ c :: cs2), false) := by
  have h1 : (cs1 ++ c :: cs2)[cs1.length]? = some c := getElem?_at _ _ _ _ rfl
  have hR : (cs1.length + 1 < (cs1 ++ c :: cs2).length) = False ∨
      ((cs1.length + 1 < (cs1 ++ c :: cs2).length) = True ∧
        ∃ s1, (cs1 ++ c :: cs2)[cs1.length + 1]? = some s1 ∧
          decide (t ≤ s1.items.length) = false) := by
    by_cases hlt : cs1.length + 1 < (cs1 ++ c :: cs2).length
    · right
      have hg : (cs1 ++ c :: cs2)[cs1.length + 1]? = some (cs1 ++ c :: cs2)[cs1.length + 1] :=
        List.getElem?_eq_getElem hlt
      have := hright _ hg
      exact ⟨eq_true hlt, _, hg, by simpa using this⟩
    · exact Or.inl (eq_false hlt)
  rcases getElem?_pred_cases (cs1 ++ c :: cs2) cs1.length (by simp) with h0 | ⟨h0, s0, hs0⟩
  · have hz : (0 < cs1.length) = False := by simp [h0]
    rcases hR with hlt | ⟨hlt, s1, hs1, hd1⟩
    · simp only [stealIfPossible, node.children_mk, node.items_mk, h1, hz, hlt,
        Option.bind_eq_bind, Option.some_bind, Option.pure_def, if_true, if_false,
        Bool.false_eq_true]
    · simp only [stealIfPossible, node.children_mk, node.items_mk, h1, hz, hlt, hs1, hd1,
        Option.bind_eq_bind, Option.some_bind, Option.pure_def, if_true, if_false,
        Bool.false_eq_true]
  · have := hleft s0 h0 hs0
    have hd : decide (t ≤ s0.items.length) = false := by simpa using this
    have hz : (0 < cs1.length) = True := eq_true h0
    rcases hR with hlt | ⟨hlt, s1, hs1, hd1⟩
    · simp only [stealIfPossible, node.children_mk, node.items_mk, h1, hz, hlt, hs0, hd,
        Option.bind_eq_bind, Option.some_bind, Option.pure_def, if_true, if_false,
        Bool.false_eq_true]
    · simp only [stealIfPossible, node.children_mk, node.items_mk, h1, hz, hlt, hs0, hd, hs1,
        hd1, Option.bind_eq_bind, Option.some_bind, Option.pure_def, if_true, if_false,
        Bool.false_eq_true]

end steal

/-! ## An iteration of `remove` -/

section removeStep

variable {K V : Type} {cmp : K → K → Int}

/-- The rest of an iteration of `remove` once the steal-or-merge step has left
the current node `nd` at position `pos` of the parent `p2`. -/
theorem remove_tail (t : Nat) (key : K) (f : Nat) (p2 : node K V) (pos : Nat)
    (nd nd2 : node K V) (r : Bool) (pcs : List (node K V))
    (h2 : p2.children[pos]? = some nd)
    (hbody : removeBody t cmp key f nd = some (nd2, r))
    (hset : setAt p2.children pos nd2 = some pcs) :
    (do
      let nd ← p2.children[pos]?
      let (ind, exist) ← nd.bSearch key cmp
      if exist then do
        let nd ← delete t cmp f nd ind
        let pchildren ← setAt p2.children pos nd
        pure (node.mk p2.items pchildren, true)
      else if nd.isLeaf then pure (p2, false)
      else do
        let (nd, r) ← remove t cmp key f nd ind
        let pchildren ← setAt p2.children pos nd
        pure (node.mk p2.items pchildren, r)) = some (node.mk p2.items pcs, r) := by
  simp only [removeBody, Option.bind_eq_bind] at hbody
  simp only [h2, Option.bind_eq_bind, Option.some_bind]
  cases h3 : nd.bSearch key cmp with
  | none => simp [h3] at hbody
  | some ie =>
    obtain ⟨ind, ex⟩ := ie
    simp only [h3, Option.some_bind] at hbody ⊢
    cases ex with
    | true =>
      simp only [if_true] at hbody ⊢
      cases h4 : delete t cmp f nd ind with
      | none => simp [h4] at hbody
      | some nd3 =>
        simp only [h4, Option.some_bind, Option.pure_def, Option.some.injEq, Prod.mk.injEq]
          at hbody ⊢
        obtain ⟨e1, e2⟩ := hbody
        subst e1 e2
        simp [hset]
    | false =>
      simp only [Bool.false_eq_true, if_false] at hbody ⊢
      by_cases hl : nd.isLeaf = true
      · simp only [hl, if_true, Option.pure_def, Option.some.injEq, Prod.mk.injEq] at hbody ⊢
        obtain ⟨e1, e2⟩ := hbody
        subst e1 e2
        rw [setAt_self _ _ _ h2] at hset
        simp only [Option.some.injEq] at hset
        subst hset
        simp [node.eta]
      · have hl2 : nd.isLeaf = false := by simpa using hl
        simp only [hl2, Bool.false_eq_true, if_false] at hbody ⊢
        simp [hbody, hset]

/-- An iteration of `remove`, from the outcome of its parts. -/
theorem remove_eval (t : Nat) (key : K) (f : Nat) (parent : node K V) (ci : Nat)
    (nd0 p2 : node K V) (pos : Nat) (nd nd2 : node K V) (r : Bool) (pcs : List (node K V))
    (h0 : parent.children[ci]? = some nd0)
    (hreb : rebalance t parent ci nd0 = some (p2, pos))
    (h2 : p2.children[pos]? = some nd)
    (hbody : removeBody t cmp key f nd = some (nd2, r))
    (hset : setAt p2.children pos nd2 = some pcs) :
    remove t cmp key (f + 1) parent ci = some (node.mk p2.items pcs, r) := by
  have htail := remove_tail t key f p2 pos nd nd2 r pcs h2 hbody hset
  rw [remove]
  simp only [h0, Option.bind_eq_bind, Option.some_bind]
  simp only [rebalance, Option.bind_eq_bind] at hreb
  simp only [Option.bind_eq_bind] at htail
  by_cases hc : (nd0.items.length == t - 1) = true
  · simp only [hc, if_true] at hreb ⊢
    cases hs : stealIfPossible t parent ci with
    | none => simp [hs] at hreb
    | some ps =>
      obtain ⟨p, stolen⟩ := ps
      simp only [hs, Option.some_bind] at hreb ⊢
      cases stolen with
      | true =>
        simp only [Bool.not_true, Bool.false_eq_true, if_false, Option.pure_def,
          Option.some.injEq, Prod.mk.injEq] at hreb ⊢
        obtain ⟨e1, e2⟩ := hreb
        subst e1 e2
        simp only [Option.some_bind]
        exact htail
      | false =>
        simp only [Bool.not_false, if_true] at hreb ⊢
        simp only [hreb, Option.some_bind]
        exact htail
  · simp only [hc, if_false, Option.pure_def, Option.some.injEq, Prod.mk.injEq,
      Bool.false_eq_true] at hreb ⊢
    obtain ⟨e1, e2⟩ := hreb
    subst e1 e2
    simp only [Option.some_bind]
    exact htail

end removeStep

/-! ## The steal-or-merge step -/

section rebalanceStep

variable {K V : Type} {cmp : K → K → Int}

theorem left_small {t : Nat} (cs1 : List (node K V))
    (h : ¬ ∃ cs0 s0, cs1 = cs0 ++ [s0] ∧ t ≤ s0.items.length) (rest : List (node K V)) :
    ∀ s0, 0 < cs1.length → (cs1 ++ rest)[cs1.length - 1]? = some s0 → s0.items.length < t := by
  intro s0 h0 hg
  obtain ⟨cs0, s1, rfl⟩ := exists_snoc cs1 h0
  have : (cs0 ++ [s1] ++ rest)[(cs0 ++ [s1]).length - 1]? = some s1 := by
    rw [List.append_assoc]
    exact getElem?_at cs0 s1 _ _ (by simp)
  rw [this] at hg
  simp only [Option.some.injEq] at hg
  subst hg
  by_contra hn
  exact h ⟨cs0, s1, rfl, by omega⟩

theorem right_small {t : Nat} (cs1 : List (node K V)) (c : node K V) (cs2 : List (node K V))
    (h : ¬ ∃ s cs3, cs2 = s :: cs3 ∧ t ≤ s.items.length) :
    ∀ s0, (cs1 ++ c :: cs2)[cs1.length + 1]? = some s0 → s0.items.length < t := by
  intro s0 hg
  cases cs2 with
  | nil =>
    rw [List.getElem?_eq_none (by simp)] at hg
    cases hg
  | cons s cs3 =>
    rw [getElem?_at_succ cs1 c s cs3 _ rfl] at hg
    simp only [Option.some.injEq] at hg
    subst hg
    by_contra hn
    exact h ⟨s, cs3, rfl, by omega⟩

theorem shaped_parent_iff {t d lo : Nat} (xs : List (Item K V)) (cs : List (node K V)) :
    (node.mk xs cs).shaped t (d + 1) lo = true ↔
      cs.length = xs.length + 1 ∧ lo ≤ xs.length ∧ xs.length ≤ 2 * t - 1 ∧
        ∀ c ∈ cs, c.shaped t d (t - 1) = true := by
  rw [shaped_succ]
  simp

/-- The steal-or-merge step on a child that holds `t-1` items: the sequence of
the parent is unchanged, the parent loses at most one item, and the current
node — which still holds everything the child held — has at least `t` items. -/
theorem rebalance_spec {t d lo : Nat} (ht : 2 ≤ t) (xs1 xs2 : List (Item K V))
    (cs1 : List (node K V)) (c : node K V) (cs2 : List (node K V))
    (hlen : cs1.length = xs1.length)
    (hsh : (node.mk (xs1 ++ xs2) (cs1 ++ c :: cs2)).shaped t (d + 1) lo = true)
    (hlo : 1 ≤ lo) (hct : c.items.length = t - 1) :
    ∃ ys1 ys2 ds1 c2 ds2,
      rebalance t (node.mk (xs1 ++ xs2) (cs1 ++ c :: cs2)) cs1.length c
        = some (node.mk (ys1 ++ ys2) (ds1 ++ c2 :: ds2), ds1.length) ∧
      ds1.length = ys1.length ∧
      (node.mk (ys1 ++ ys2) (ds1 ++ c2 :: ds2)).shaped t (d + 1) (lo - 1) = true ∧
      (node.mk (ys1 ++ ys2) (ds1 ++ c2 :: ds2)).inorder
        = (node.mk (xs1 ++ xs2) (cs1 ++ c :: cs2)).inorder ∧
      t ≤ c2.items.length ∧ (∀ x ∈ c.inorder, x ∈ c2.inorder) := by
  have hsh0 := (shaped_parent_iff _ _).1 hsh
  obtain ⟨hcl, hlo2, hhi, hch⟩ := hsh0
  simp only [List.length_append, List.length_cons] at hcl hlo2 hhi
  have hcsh : c.shaped t d (t - 1) = true := hch c (by simp)
  have hcond : (c.items.length == t - 1) = true := by simpa using hct
  by_cases hL : ∃ cs0 s0, cs1 = cs0 ++ [s0] ∧ t ≤ s0.items.length
  · -- steal from the left sibling
    obtain ⟨cs0, s0, rfl, hst⟩ := hL
    obtain ⟨xs0, sep, rfl⟩ := exists_snoc xs1 (by rw [← hlen]; simp)
    have hl0 : cs0.length = xs0.length := by simpa using hlen
    obtain ⟨s2, up, c2, hrun, hs2, hc2, hino, hsub⟩ := steal_left ht xs0 sep xs2 cs0 s0 c cs2 hl0
      (hch s0 (by simp)) hcsh hst hct
    have e1 : xs0 ++ [sep] ++ xs2 = xs0 ++ sep :: xs2 := by simp
    have e2 : cs0 ++ [s0] ++ c :: cs2 = cs0 ++ s0 :: c :: cs2 := by simp
    have e3 : (cs0 ++ [s0]).length = cs0.length + 1 := by simp
    refine ⟨xs0 ++ [up], xs2, cs0 ++ [s2], c2, cs2, ?_, by simp [hl0], ?_, ?_,
      shaped_lo hc2, hsub⟩
    · rw [e1, e2, e3]
      simp only [rebalance, hcond, if_true, hrun, Option.bind_eq_bind, Option.some_bind,
        Bool.not_true, Bool.false_eq_true, if_false, Option.pure_def]
      simp
    · rw [shaped_parent_iff]
      simp only [List.length_append, List.length_cons, List.length_singleton, List.length_nil]
        at hcl hlo2 hhi ⊢
      refine ⟨by omega, by omega, by omega, ?_⟩
      intro x hx
      simp only [List.mem_append, List.mem_cons, List.mem_singleton, List.not_mem_nil,
        or_false] at hx
      rcases hx with (h | h) | h | h
      · exact hch x (by simp [h])
      · subst h; exact hs2
      · subst h; exact shaped_mono hc2 (by omega)
      · exact hch x (by simp [h])
    · have f1 : (node.mk (xs0 ++ [up] ++ xs2) (cs0 ++ [s2] ++ c2 :: cs2)).inorder
          = weaveL (node.inorderList cs0) xs0 ++ s2.inorder
            ++ weaveR (up :: xs2) (node.inorderList (c2 :: cs2)) := by
        have := inorder_split xs0 (up :: xs2) cs0 s2 (c2 :: cs2) hl0
        simpa using this
      have f2 : (node.mk (xs0 ++ [sep] ++ xs2) (cs0 ++ [s0] ++ c :: cs2)).inorder
          = weaveL (node.inorderList cs0) xs0 ++ s0.inorder
            ++ weaveR (sep :: xs2) (node.inorderList (c :: cs2)) := by
        have := inorder_split xs0 (sep :: xs2) cs0 s0 (c :: cs2) hl0
        simpa using this
      rw [f1, f2]
      simp only [inorderList_cons, weaveR_cons, List.append_assoc]
      have := congrArg (fun l => l ++ weaveR xs2 (node.inorderList cs2)) hino
      simp only [List.append_assoc, List.cons_append] at this
      rw [this]
  by_cases hR : ∃ s cs3, cs2 = s :: cs3 ∧ t ≤ s.items.length
  · -- steal from the right sibling
    obtain ⟨s, cs3, rfl, hst⟩ := hR
    obtain ⟨sep, xs3, rfl⟩ : ∃ sep xs3, xs2 = sep :: xs3 := by
      cases xs2 with
      | nil => simp at hcl; omega
      | cons a l => exact ⟨a, l, rfl⟩
    obtain ⟨c2, up, s2, hrun, hs2, hc2, hino, hsub⟩ := steal_right ht xs1 sep xs3 cs1 c s cs3 hlen
      (hch s (by simp)) hcsh hst hct (left_small cs1 hL _)
    refine ⟨xs1, up :: xs3, cs1, c2, s2 :: cs3, ?_, hlen, ?_, ?_, shaped_lo hc2, hsub⟩
    · simp only [rebalance, hcond, if_true, hrun, Option.bind_eq_bind, Option.some_bind,
        Bool.not_true, Bool.false_eq_true, if_false, Option.pure_def]
    · rw [shaped_parent_iff]
      simp only [List.length_append, List.length_cons] at hcl hlo2 hhi ⊢
      refine ⟨by omega, by omega, by omega, ?_⟩
      intro x hx
      simp only [List.mem_append, List.mem_cons] at hx
      rcases hx with h | h | h | h
      · exact hch x (by simp [h])
      · subst h; exact shaped_mono hc2 (by omega)
      · subst h; exact hs2
      · exact hch x (by simp [h])
    · rw [inorder_split xs1 (up :: xs3) cs1 c2 (s2 :: cs3) hlen,
        inorder_split xs1 (sep :: xs3) cs1 c (s :: cs3) hlen]
      simp only [inorderList_cons, weaveR_cons, List.append_assoc]
      have := congrArg (fun l => l ++ weaveR xs3 (node.inorderList cs3)) hino
      simp only [List.append_assoc, List.cons_append] at this
      rw [this]
  -- merge
  have hnone := steal_none (t := t) (xs1 ++ xs2) cs1 c cs2 (left_small cs1 hL _)
    (right_small cs1 c cs2 hR)
  rcases List.eq_nil_or_concat cs1 with hnil | ⟨cs0, s0, hcs⟩
  · subst hnil
    have hx1 : xs1 = [] := List.length_eq_zero.1 hlen.symm
    subst hx1
    simp only [List.length_nil, Nat.zero_add] at hcl hlo2 hhi
    obtain ⟨s, cs3, rfl⟩ : ∃ s cs3, cs2 = s :: cs3 := by
      cases cs2 with
      | nil => simp only [List.length_nil] at hcl; omega
      | cons a l => exact ⟨a, l, rfl⟩
    obtain ⟨sep, xs3, rfl⟩ : ∃ sep xs3, xs2 = sep :: xs3 := by
      cases xs2 with
      | nil => simp only [List.length_nil] at hlo2; omega
      | cons a l => exact ⟨a, l, rfl⟩
    have hssh : s.shaped t d (t - 1) = true := hch s (by simp)
    have hsl : s.items.length = t - 1 := by
      have h1 := shaped_lo hssh
      have h2 : ¬ t ≤ s.items.length := fun h => hR ⟨s, cs3, rfl, h⟩
      omega
    obtain ⟨hm, hmsh, hmino⟩ := merge_spec (t := t) (by omega) [] sep xs3 [] c s cs3 0 rfl
      (Or.inr ⟨rfl, rfl⟩) hcsh hssh hct hsl
    refine ⟨[], xs3, [], node.mk (c.items ++ [sep] ++ s.items) (c.children ++ s.children), cs3,
      ?_, rfl, ?_, ?_, ?_, ?_⟩
    · simp only [rebalance, hcond, if_true, hnone, Option.bind_eq_bind, Option.some_bind,
        Bool.not_false]
      exact hm
    · rw [shaped_parent_iff]
      simp only [List.length_append, List.length_cons, List.length_nil, List.nil_append]
        at hcl hlo2 hhi ⊢
      refine ⟨by omega, by omega, by omega, ?_⟩
      intro x hx
      rcases List.mem_cons.1 hx with h | h
      · subst h; exact shaped_mono hmsh (by omega)
      · exact hch x (by simp [h])
    · rw [inorder_split [] xs3 [] _ cs3 rfl, inorder_split [] (sep :: xs3) [] c (s :: cs3) rfl,
        hmino]
      simp
    · simp only [node.items_mk, List.length_append, List.length_singleton]
      omega
    · intro x hx
      rw [hmino]
      simp [hx]
  · have hcs' : cs1 = cs0 ++ [s0] := by simpa using hcs
    subst hcs'
    obtain ⟨xs0, sep, rfl⟩ := exists_snoc xs1 (by rw [← hlen]; simp)
    have hl0 : cs0.length = xs0.length := by simpa using hlen
    have hssh : s0.shaped t d (t - 1) = true := hch s0 (by simp)
    have hsl : s0.items.length = t - 1 := by
      have h1 := shaped_lo hssh
      have h2 : ¬ t ≤ s0.items.length := fun h => hL ⟨cs0, s0, rfl, h⟩
      omega
    obtain ⟨hm, hmsh, hmino⟩ := merge_spec (t := t) (by omega) xs0 sep xs2 cs0 s0 c cs2
      (cs0.length + 1) hl0 (Or.inl rfl) hssh hcsh hsl hct
    have e1 : xs0 ++ [sep] ++ xs2 = xs0 ++ sep :: xs2 := by simp
    have e2 : cs0 ++ [s0] ++ c :: cs2 = cs0 ++ s0 :: c :: cs2 := by simp
    have e3 : (cs0 ++ [s0]).length = cs0.length + 1 := by simp
    refine ⟨xs0, xs2, cs0, node.mk (s0.items ++ [sep] ++ c.items) (s0.children ++ c.children), cs2,
      ?_, hl0, ?_, ?_, ?_, ?_⟩
    · simp only [rebalance, hcond, if_true, hnone, Option.bind_eq_bind, Option.some_bind,
        Bool.not_false]
      rw [e1, e2, e3]
      exact hm
    · rw [shaped_parent_iff]
      simp only [List.length_append, List.length_cons, List.length_singleton, List.length_nil]
        at hcl hlo2 hhi ⊢
      refine ⟨by omega, by omega, by omega, ?_⟩
      intro x hx
      simp only [List.mem_append, List.mem_cons] at hx
      rcases hx with h | h | h
      · exact hch x (by simp [h])
      · subst h; exact shaped_mono hmsh (by omega)
      · exact hch x (by simp [h])
    · have f2 : (node.mk (xs0 ++ [sep] ++ xs2) (cs0 ++ [s0] ++ c :: cs2)).inorder
          = weaveL (node.inorderList cs0) xs0 ++ s0.inorder
            ++ weaveR (sep :: xs2) (node.inorderList (c :: cs2)) := by
        have := inorder_split xs0 (sep :: xs2) cs0 s0 (c :: cs2) hl0
        simpa using this
      rw [inorder_split xs0 xs2 cs0 _ cs2 hl0, f2, hmino]
      simp
    · simp only [node.items_mk, List.length_append, List.length_singleton]
      omega
    · intro x hx
      rw [hmino]
      simp [hx]

end rebalanceStep

/-! ## `remove` -/

section removeSpec

variable {K V : Type} {cmp : K → K → Int}

/-- What `remove` does below a parent, from what the rest of an iteration does
on the current node. -/
theorem remove_spec (hc : StrictTotal cmp) {t : Nat} (ht : 2 ≤ t) (d : Nat)
    (hbody : BodyGoal (V := V) cmp t d) (key : K) (fuel lo : Nat) (xs1 xs2 : List (Item K V))
    (cs1 : List (node K V)) (c : node K V) (cs2 : List (node K V))
    (hlen : cs1.length = xs1.length)
    (hsh : (node.mk (xs1 ++ xs2) (cs1 ++ c :: cs2)).shaped t (d + 1) lo = true)
    (hlo : 1 ≤ lo)
    (hs : SortedItems cmp (node.mk (xs1 ++ xs2) (cs1 ++ c :: cs2)).inorder)
    (hA : ∀ e ∈ weaveL (node.inorderList cs1) xs1, e.Key ≠ key)
    (hB : ∀ e ∈ weaveR xs2 (node.inorderList cs2), e.Key ≠ key)
    (hfuel : 2 * d + 2 ≤ fuel) :
    ∃ p2 r, remove t cmp key fuel (node.mk (xs1 ++ xs2) (cs1 ++ c :: cs2)) cs1.length
        = some (p2, r) ∧
      p2.shaped t (d + 1) (lo - 1) = true ∧
      RemoveOutcome key (node.mk (xs1 ++ xs2) (cs1 ++ c :: cs2)).inorder p2.inorder r ∧
      (t ≤ c.items.length → ∃ c2, p2 = node.mk (xs1 ++ xs2) (cs1 ++ c2 :: cs2) ∧
        c2.shaped t d (t - 1) = true ∧ RemoveOutcome key c.inorder c2.inorder r) := by
  obtain ⟨f, rfl⟩ : ∃ f, fuel = f + 1 := ⟨fuel - 1, by omega⟩
  obtain ⟨hl2, hcsh, hcs, -, -, -, -⟩ := context_facts hlen hsh hs
  have h0 : (node.mk (xs1 ++ xs2) (cs1 ++ c :: cs2)).children[cs1.length]? = some c :=
    getElem?_at _ _ _ _ rfl
  by_cases hct : c.items.length = t - 1
  · obtain ⟨ys1, ys2, ds1, c2, ds2, hreb, hdl, hsh2, hino, hc2t, hsub⟩ :=
      rebalance_spec ht xs1 xs2 cs1 c cs2 hlen hsh hlo hct
    have hs2 : SortedItems cmp (node.mk (ys1 ++ ys2) (ds1 ++ c2 :: ds2)).inorder := by
      rw [hino]; exact hs
    obtain ⟨-, hc2sh, hc2s, -, -, hA2, hB2⟩ := context_facts hdl hsh2 hs2
    have hc2sh' : c2.shaped t d t = true := shaped_mono (shaped_exact hc2sh) hc2t
    obtain ⟨nd2, r, hrun, hnd2, hout⟩ := hbody key f t c2 hc2sh' (by omega) hc2s (by omega)
    have hmemP : ∀ e, e ∈ (node.mk (ys1 ++ ys2) (ds1 ++ c2 :: ds2)).inorder →
        e.Key = key → e ∈ c2.inorder := by
      intro e he hk
      rw [hino, inorder_split xs1 xs2 cs1 c cs2 hlen] at he
      simp only [List.mem_append] at he
      rcases he with (h | h) | h
      · exact absurd hk (hA e h)
      · exact hsub e h
      · exact absurd hk (hB e h)
    have hA' : ∀ e ∈ weaveL (node.inorderList ds1) ys1, e.Key ≠ key := by
      intro e he hk
      have hin : e ∈ c2.inorder := hmemP e (by
        rw [inorder_split ys1 ys2 ds1 c2 ds2 hdl]; simp [he]) hk
      exact hc.irrefl _ (hA2 e he e hin)
    have hB' : ∀ e ∈ weaveR ys2 (node.inorderList ds2), e.Key ≠ key := by
      intro e he hk
      have hin : e ∈ c2.inorder := hmemP e (by
        rw [inorder_split ys1 ys2 ds1 c2 ds2 hdl]; simp [he]) hk
      exact hc.irrefl _ (hB2 e hin e he)
    have h2 : (node.mk (ys1 ++ ys2) (ds1 ++ c2 :: ds2)).children[ds1.length]? = some c2 :=
      getElem?_at _ _ _ _ rfl
    have hset : setAt (node.mk (ys1 ++ ys2) (ds1 ++ c2 :: ds2)).children ds1.length nd2
        = some (ds1 ++ nd2 :: ds2) := setAt_at _ _ _ _ _ rfl
    refine ⟨node.mk (ys1 ++ ys2) (ds1 ++ nd2 :: ds2), r,
      remove_eval t key f _ _ c _ _ c2 nd2 r _ h0 hreb h2 hrun hset, ?_, ?_, ?_⟩
    · exact shaped_replace hsh2 (shaped_mono hnd2 (by omega))
    · rw [← hino, inorder_split ys1 ys2 ds1 c2 ds2 hdl, inorder_split ys1 ys2 ds1 nd2 ds2 hdl]
      exact hout.lift_ne _ _ hA' hB'
    · intro h
      omega
  · have hge : t ≤ c.items.length := by
      have := shaped_lo hcsh
      omega
    have hreb : rebalance t (node.mk (xs1 ++ xs2) (cs1 ++ c :: cs2)) cs1.length c
        = some (node.mk (xs1 ++ xs2) (cs1 ++ c :: cs2), cs1.length) := by
      have : (c.items.length == t - 1) = false := by simpa using hct
      simp [rebalance, this]
    obtain ⟨nd2, r, hrun, hnd2, hout⟩ := hbody key f c.items.length c (shaped_exact hcsh)
      (by omega) hcs (by omega)
    have hset : setAt (node.mk (xs1 ++ xs2) (cs1 ++ c :: cs2)).children cs1.length nd2
        = some (cs1 ++ nd2 :: cs2) := setAt_at _ _ _ _ _ rfl
    have hnd2' : nd2.shaped t d (t - 1) = true := shaped_mono hnd2 (by omega)
    refine ⟨node.mk (xs1 ++ xs2) (cs1 ++ nd2 :: cs2), r,
      remove_eval t key f _ _ c _ _ c nd2 r _ h0 hreb h0 hrun hset, ?_, ?_, ?_⟩
    · exact shaped_mono (shaped_replace hsh hnd2') (by omega)
    · rw [inorder_split xs1 xs2 cs1 c cs2 hlen, inorder_split xs1 xs2 cs1 nd2 cs2 hlen]
      exact hout.lift_ne _ _ hA hB
    · intro _
      exact ⟨nd2, rfl, hnd2', hout⟩

end removeSpec

/-! ## `delete` and the rest of an iteration of `remove` -/

section deleteSpec

variable {K V : Type} {cmp : K → K → Int}

theorem delete_zero {t : Nat} : DeleteGoal (V := V) cmp t 0 := by
  intro fuel lo xs1 x xs2 cs hsh hs hfuel
  obtain ⟨f, rfl⟩ : ∃ f, fuel = f + 1 := ⟨fuel - 1, by omega⟩
  have hz := shaped_zero.1 hsh
  simp only [node.children_mk, node.items_mk, List.length_append, List.length_cons] at hz
  obtain ⟨hcs, h1, h2⟩ := hz
  subst hcs
  have hdel : slicesDelete (xs1 ++ x :: xs2) xs1.length (xs1.length + 1) = some (xs1 ++ xs2) :=
    slicesDelete_one _ _ _ _ _ rfl rfl
  refine ⟨node.mk (xs1 ++ xs2) [], xs1, xs2, ?_, ?_, by simp, by simp⟩
  · simp [delete, node.isLeaf, hdel]
  · rw [shaped_zero]
    simp only [node.children_mk, node.items_mk, List.length_append]
    exact ⟨trivial, by omega, by omega⟩

theorem shaped_two {t d lo : Nat} {xs : List (Item K V)} {cs1 cs2 : List (node K V)}
    {a b a2 b2 : node K V} {ys : List (Item K V)}
    (hsh : (node.mk xs (cs1 ++ a :: b :: cs2)).shaped t (d + 1) lo = true)
    (hys : ys.length = xs.length)
    (ha : a2.shaped t d (t - 1) = true) (hb : b2.shaped t d (t - 1) = true) :
    (node.mk ys (cs1 ++ a2 :: b2 :: cs2)).shaped t (d + 1) lo = true := by
  rw [shaped_parent_iff] at hsh ⊢
  simp only [List.length_append, List.length_cons] at hsh ⊢
  refine ⟨by omega, by omega, by omega, ?_⟩
  intro y hy
  simp only [List.mem_append, List.mem_cons] at hy
  rcases hy with h | h | h | h
  · exact hsh.2.2.2 y (by simp [h])
  · subst h; exact ha
  · subst h; exact hb
  · exact hsh.2.2.2 y (by simp [h])

theorem delete_succ (hc : StrictTotal cmp) {t : Nat} (ht : 2 ≤ t) (d : Nat)
    (hb : BodyGoal (V := V) cmp t d) (hd : DeleteGoal (V := V) cmp t d) :
    DeleteGoal (V := V) cmp t (d + 1) := by
  intro fuel lo xs1 x xs2 cs hsh hs hfuel
  obtain ⟨f, rfl⟩ : ∃ f, fuel = f + 1 := ⟨fuel - 1, by omega⟩
  have hp := (shaped_parent_iff _ _).1 hsh
  obtain ⟨hcl, hlo2, hhi, hch⟩ := hp
  simp only [List.length_append, List.length_cons] at hcl hlo2 hhi
  obtain ⟨cs1, c, rest, rfl, hlen⟩ := exists_split_at cs xs1.length (by omega)
  obtain ⟨c2, cs2, rfl⟩ : ∃ c2 cs2, rest = c2 :: cs2 := by
    cases rest with
    | nil => simp only [List.length_append, List.length_cons, List.length_nil] at hcl; omega
    | cons a l => exact ⟨a, l, rfl⟩
  have hcsh : c.shaped t d (t - 1) = true := hch c (by simp)
  have hc2sh : c2.shaped t d (t - 1) = true := hch c2 (by simp)
  have hino : (node.mk (xs1 ++ x :: xs2) (cs1 ++ c :: c2 :: cs2)).inorder
      = weaveL (node.inorderList cs1) xs1 ++ c.inorder
        ++ x :: (c2.inorder ++ weaveR xs2 (node.inorderList cs2)) := by
    rw [inorder_split xs1 (x :: xs2) cs1 c (c2 :: cs2) hlen]
    simp
  have hleaf : (node.mk (xs1 ++ x :: xs2) (cs1 ++ c :: c2 :: cs2)).isLeaf = false := by
    simp [node.isLeaf]
  have hgc : (cs1 ++ c :: c2 :: cs2)[xs1.length]? = some c := getElem?_at _ _ _ _ hlen.symm
  have hgc2 : (cs1 ++ c :: c2 :: cs2)[xs1.length + 1]? = some c2 :=
    getElem?_at_succ _ _ _ _ _ (by rw [hlen])
  have hsx := shaped_exact hsh
  simp only [node.items_mk] at hsx
  have hs' := hs
  rw [hino] at hs'
  have hsc : SortedItems cmp c.inorder := hs'.append_left.append_right
  have hsc2 : SortedItems cmp c2.inorder :=
    SortedItems.append_left (List.pairwise_cons.1 hs'.append_right).2
  by_cases h1 : t - 1 < c.items.length
  · -- the largest item below the left child takes the place of the item
    obtain ⟨pc, m, hpc, hmax⟩ := max_spec ht d (t - 1) (c.height + 1) c hcsh (by omega)
      (by rw [shaped_height d _ c hcsh])
    have hmc : m ∈ c.inorder := by rw [hpc]; simp
    obtain ⟨hl2, -, -, -, -, hA, hB⟩ := context_facts hlen hsh hs
    obtain ⟨p2, r, hrun, -, -, hfour⟩ := remove_spec hc ht d hb m.Key f _ xs1 (x :: xs2) cs1 c
      (c2 :: cs2) hlen hsx (by simp; omega) hs
      (fun e he => hc.ne_of_lt (hA e he m hmc))
      (fun e he hk => hc.ne_of_lt (hB m hmc e he) hk.symm) (by omega)
    obtain ⟨c3, rfl, hc3sh, hout⟩ := hfour (by omega)
    have hc3 : c3.inorder = pc := by
      rcases hout with ⟨-, p, y, q, e1, hk, e2⟩ | ⟨-, -, hno⟩
      · have hsplit := sorted_split_unique hc (e1 ▸ hsc) (e1.symm.trans hpc) hk
        rw [e2, hsplit.1, hsplit.2.2]
        simp
      · exact absurd rfl (hno m hmc)
    have hset : setAt (xs1 ++ x :: xs2) xs1.length m = some (xs1 ++ m :: xs2) :=
      setAt_at _ _ _ _ _ rfl
    refine ⟨node.mk (xs1 ++ m :: xs2) (cs1 ++ c3 :: c2 :: cs2),
      weaveL (node.inorderList cs1) xs1 ++ pc ++ [m],
      c2.inorder ++ weaveR xs2 (node.inorderList cs2), ?_, ?_, ?_, ?_⟩
    · rw [← hlen] at hgc hset ⊢
      simp [delete, hleaf, hgc, h1, hmax, hrun, hset]
    · exact shaped_mono (shaped_two hsh (by simp) hc3sh hc2sh) (by omega)
    · rw [hino, hpc]; simp
    · rw [inorder_split xs1 (m :: xs2) cs1 c3 (c2 :: cs2) hlen, hc3]
      simp
  by_cases h2 : t - 1 < c2.items.length
  · -- the smallest item below the right child takes the place of the item
    obtain ⟨m, qc, hqc, hmin⟩ := min_spec ht d (t - 1) (c2.height + 1) c2 hc2sh (by omega)
      (by rw [shaped_height d _ c2 hc2sh])
    have hmc : m ∈ c2.inorder := by rw [hqc]; simp
    have e1 : (xs1 ++ [x]) ++ xs2 = xs1 ++ x :: xs2 := by simp
    have e2 : (cs1 ++ [c]) ++ c2 :: cs2 = cs1 ++ c :: c2 :: cs2 := by simp
    have e3 : (cs1 ++ [c]).length = xs1.length + 1 := by simp [hlen]
    have hlen' : (cs1 ++ [c]).length = (xs1 ++ [x]).length := by simp [hlen]
    have hsh' : (node.mk ((xs1 ++ [x]) ++ xs2) ((cs1 ++ [c]) ++ c2 :: cs2)).shaped t (d + 1)
        (xs1 ++ x :: xs2).length = true := by rw [e1, e2]; exact hsx
    have hss' : SortedItems cmp (node.mk ((xs1 ++ [x]) ++ xs2) ((cs1 ++ [c]) ++ c2 :: cs2)).inorder
        := by rw [e1, e2]; exact hs
    obtain ⟨hl2, -, -, -, -, hA, hB⟩ := context_facts hlen' hsh' hss'
    obtain ⟨p2, r, hrun, -, -, hfour⟩ := remove_spec hc ht d hb m.Key f _ (xs1 ++ [x]) xs2
      (cs1 ++ [c]) c2 cs2 hlen' hsh' (by simp; omega) hss'
      (fun e he => hc.ne_of_lt (hA e he m hmc))
      (fun e he hk => hc.ne_of_lt (hB m hmc e he) hk.symm) (by omega)
    obtain ⟨c3, rfl, hc3sh, hout⟩ := hfour (by omega)
    rw [e1, e3] at hrun
    rw [e2] at hrun
    have hc3 : c3.inorder = qc := by
      rcases hout with ⟨-, p, y, q, e1, hk, e2⟩ | ⟨-, -, hno⟩
      · have hsplit := sorted_split_unique hc (e1 ▸ hsc2) (e1.symm.trans
          (show c2.inorder = [] ++ m :: qc by simpa using hqc)) hk
        rw [e2, hsplit.1, hsplit.2.2]
        simp
      · exact absurd rfl (hno m hmc)
    have hset : setAt (xs1 ++ x :: xs2) xs1.length m = some (xs1 ++ m :: xs2) :=
      setAt_at _ _ _ _ _ rfl
    have h1' : ¬ (t - 1 < c.items.length) := h1
    refine ⟨node.mk (xs1 ++ m :: xs2) (cs1 ++ c :: c3 :: cs2),
      weaveL (node.inorderList cs1) xs1 ++ c.inorder,
      m :: qc ++ weaveR xs2 (node.inorderList cs2), ?_, ?_, ?_, ?_⟩
    · simp [delete, hleaf, hgc, h1, hgc2, h2, hmin, hrun, hset]
    · exact shaped_mono (shaped_two hsh (by simp) hcsh hc3sh) (by omega)
    · rw [hino, hqc]
    · rw [inorder_split xs1 (m :: xs2) cs1 c (c3 :: cs2) hlen]
      simp [hc3]
  -- both children hold t-1 items: they are merged and the item is deleted below
  have hct : c.items.length = t - 1 := by
    have := shaped_lo hcsh
    omega
  have hc2t : c2.items.length = t - 1 := by
    have := shaped_lo hc2sh
    omega
  obtain ⟨hm, hmsh, hmino⟩ := merge_spec (t := t) (by omega) xs1 x xs2 cs1 c c2 cs2
    (xs1.length + 1) hlen (Or.inl (by rw [hlen])) hcsh hc2sh hct hc2t
  have hmi : c.items ++ [x] ++ c2.items = c.items ++ x :: c2.items := by simp
  rw [hmi] at hm hmsh hmino
  have hsm : SortedItems cmp (node.mk (c.items ++ x :: c2.items) (c.children ++ c2.children)).inorder
      := by
    rw [hmino]
    have := hs'.append_left.append_right
    apply List.pairwise_append.2
    refine ⟨hsc, List.pairwise_cons.2 ⟨?_, hsc2⟩, ?_⟩
    · intro y hy
      exact (List.pairwise_cons.1 hs'.append_right).1 y (by simp [hy])
    · intro a ha b hb
      exact hs'.lt_of_append (by simp [ha]) (by
        rcases List.mem_cons.1 hb with h | h
        · subst h; simp
        · simp [h])
  obtain ⟨m2, p, q, hdel, hm2sh, hpq, hm2⟩ := hd f (2 * t - 1) c.items x c2.items
    (c.children ++ c2.children) hmsh hsm (by omega)
  have hgm : (cs1 ++ node.mk (c.items ++ x :: c2.items) (c.children ++ c2.children) :: cs2)[
      xs1.length]? = some (node.mk (c.items ++ x :: c2.items) (c.children ++ c2.children)) :=
    getElem?_at _ _ _ _ hlen.symm
  have hset : setAt (cs1 ++ node.mk (c.items ++ x :: c2.items) (c.children ++ c2.children) :: cs2)
      xs1.length m2 = some (cs1 ++ m2 :: cs2) := setAt_at _ _ _ _ _ hlen.symm
  refine ⟨node.mk (xs1 ++ xs2) (cs1 ++ m2 :: cs2),
    weaveL (node.inorderList cs1) xs1 ++ p, q ++ weaveR xs2 (node.inorderList cs2),
    ?_, ?_, ?_, ?_⟩
  · simp [delete, hleaf, hgc, h1, hgc2, h2, hm, hgm, hdel, hset]
  · rw [shaped_parent_iff]
    simp only [List.length_append, List.length_cons] at hcl ⊢
    refine ⟨by omega, by omega, by omega, ?_⟩
    intro y hy
    simp only [List.mem_append, List.mem_cons] at hy
    rcases hy with h | h | h
    · exact hch y (by simp [h])
    · subst h; exact shaped_mono hm2sh (by omega)
    · exact hch y (by simp [h])
  · rw [hino]
    have : c.inorder ++ x :: c2.inorder = p ++ x :: q := by rw [← hmino, hpq]
    have := congrArg (fun l => weaveL (node.inorderList cs1) xs1 ++ l
      ++ weaveR xs2 (node.inorderList cs2)) this
    simpa using this
  · rw [inorder_split xs1 xs2 cs1 m2 cs2 hlen, hm2]
    simp

end deleteSpec

section bodySpec

variable {K V : Type} {cmp : K → K → Int}

theorem body_found {t d : Nat} (hd : DeleteGoal (V := V) cmp t d) (key : K) (fuel lo : Nat)
    (nd : node K V) (hsh : nd.shaped t d lo = true) (hs : SortedItems cmp nd.inorder)
    (hfuel : 2 * d + 1 ≤ fuel) (xs1 : List (Item K V)) (x : Item K V) (xs2 : List (Item K V))
    (hits : nd.items = xs1 ++ x :: xs2) (hk : x.Key = key)
    (hb : nd.bSearch key cmp = some (xs1.length, true)) :
    ∃ nd2 r, removeBody t cmp key fuel nd = some (nd2, r) ∧
      nd2.shaped t d (lo - 1) = true ∧ RemoveOutcome key nd.inorder nd2.inorder r := by
  cases nd with
  | mk its cs =>
  simp only [node.items_mk] at hits
  subst hits
  obtain ⟨nd2, p, q, hdel, hsh2, hpq, hq⟩ := hd fuel lo xs1 x xs2 cs hsh hs hfuel
  refine ⟨nd2, true, ?_, hsh2, Or.inl ⟨rfl, p, x, q, hpq, hk, hq⟩⟩
  simp [removeBody, hb, hdel]

theorem body_zero {t : Nat} (hc : StrictTotal cmp) : BodyGoal (V := V) cmp t 0 := by
  intro key fuel lo nd hsh hlo hs hfuel
  rcases bSearch_cases hc nd (sorted_items_of_inorder hsh hs) key with
    ⟨xs1, xs2, hits, h1, h2, hb⟩ | ⟨xs1, x, xs2, hits, hk, hb⟩
  · have hcs : nd.children = [] := (shaped_zero.1 hsh).1
    have hleaf : nd.isLeaf = true := (node.isLeaf_iff nd).2 hcs
    refine ⟨nd, false, by simp [removeBody, hb, hleaf], shaped_mono hsh (by omega),
      Or.inr ⟨rfl, rfl, ?_⟩⟩
    cases nd with
    | mk its cs =>
      simp only [node.children_mk, node.items_mk] at hcs hits
      subst hcs hits
      intro y hy hk
      simp only [inorder_leaf] at hy
      rcases List.mem_append.1 hy with h | h
      · have := h1 y h; rw [hk] at this; exact hc.irrefl _ this
      · have := h2 y h; rw [hk] at this; exact hc.irrefl _ this
  · exact body_found delete_zero key fuel lo nd hsh hs hfuel xs1 x xs2 hits hk hb

theorem body_succ (hc : StrictTotal cmp) {t : Nat} (ht : 2 ≤ t) (d : Nat)
    (hb : BodyGoal (V := V) cmp t d) (hd : DeleteGoal (V := V) cmp t (d + 1)) :
    BodyGoal (V := V) cmp t (d + 1) := by
  intro key fuel lo nd hsh hlo hs hfuel
  rcases bSearch_cases hc nd (sorted_items_of_inorder hsh hs) key with
    ⟨xs1, xs2, hits, h1, h2, hbs⟩ | ⟨xs1, x, xs2, hits, hk, hbs⟩
  · cases nd with
    | mk its cs =>
    simp only [node.items_mk] at hits
    subst hits
    have hp := (shaped_parent_iff _ _).1 hsh
    obtain ⟨cs1, c, cs2, rfl, hlen⟩ := exists_split_at cs xs1.length
      (by rw [hp.1]; simp; omega)
    have hleaf : (node.mk (xs1 ++ xs2) (cs1 ++ c :: cs2)).isLeaf = false := by
      simp [node.isLeaf]
    obtain ⟨hA, hB⟩ := context_bounds hc hlen hsh hs key h1 h2
    obtain ⟨p2, r, hrun, hsh2, hout, -⟩ := remove_spec hc ht d hb key fuel lo xs1 xs2 cs1 c cs2
      hlen hsh hlo hs
      (fun e he hk => by have := hA e he; rw [hk] at this; exact hc.irrefl _ this)
      (fun e he hk => by have := hB e he; rw [hk] at this; exact hc.irrefl _ this)
      (by omega)
    rw [hlen] at hrun
    exact ⟨p2, r, by simp [removeBody, hbs, hleaf, hrun], hsh2, hout⟩
  · exact body_found hd key fuel lo nd hsh hs hfuel xs1 x xs2 hits hk hbs

/-- `delete` and the rest of an iteration of `remove`, at every depth. -/
theorem delete_body_spec (hc : StrictTotal cmp) {t : Nat} (ht : 2 ≤ t) :
    ∀ d, DeleteGoal (V := V) cmp t d ∧ BodyGoal (V := V) cmp t d := by
  intro d
  induction d with
  | zero => exact ⟨delete_zero, body_zero hc⟩
  | succ d ih =>
    have hd := delete_succ hc ht d ih.2 ih.1
    exact ⟨hd, body_succ hc ht d ih.2 hd⟩

end bodySpec

/-! ## `TryRemove` on a tree -/

section removeTree

variable {K V : Type}

/-- A root that lost its last item, and its only child. -/
theorem collapse_spec {t d : Nat} (root : node K V) (hsh : root.shaped t (d + 1) 0 = true)
    (h0 : root.items.length = 0) :
    ∃ c, root.children[0]? = some c ∧ c.shaped t d (t - 1) = true ∧ c.inorder = root.inorder ∧
      root.isLeaf = false := by
  cases root with
  | mk its cs =>
    simp only [node.items_mk] at h0
    have hits : its = [] := List.length_eq_zero.1 h0
    subst hits
    have hp := (shaped_parent_iff _ _).1 hsh
    obtain ⟨c, rfl⟩ : ∃ c, cs = [c] := by
      cases cs with
      | nil => simp at hp
      | cons c cs =>
        cases cs with
        | nil => exact ⟨c, rfl⟩
        | cons c2 cs => simp at hp
    exact ⟨c, by simp, hp.2.2.2 c (by simp), by simp [inorder_mk], by simp [node.isLeaf]⟩

theorem rootNonEmpty_some (root : node K V) (t count : Nat) (cmp : K → K → Int) :
    (BTree.mk (some root) t count cmp).rootNonEmpty = true ↔ 0 < root.items.length := by
  simp [BTree.rootNonEmpty]

/-- The behaviour of `TryRemove` on a tree that satisfies the invariant, in one statement. -/
theorem TryRemove_core (b : BTree K V) (key : K) (ht : 2 ≤ b.t)
    (hc : StrictTotal b.compare) (hinv : b.invariant = true) (hne : b.rootNonEmpty = true) :
    ∃ b2 r l l2, TryRemove b key = some (b2, r) ∧ InorderTraverse b = some l ∧
      InorderTraverse b2 = some l2 ∧ SortedItems b.compare l ∧
      RemoveOutcome key l l2 r ∧ b2.invariant = true ∧ b2.rootNonEmpty = true ∧
      b2.t = b.t ∧ b2.compare = b.compare ∧
      (r = true → b2.count = (b.count + 2 ^ 64 - 1) % 2 ^ 64) ∧
      (r = false → b2.count = b.count) := by
  obtain ⟨root, t, count, cmp⟩ := b
  simp only at ht hc
  cases root with
  | none =>
    exact ⟨_, false, [], [], rfl, rfl, rfl, List.Pairwise.nil, Or.inr ⟨rfl, rfl, by simp⟩,
      hinv, hne, rfl, rfl, fun h => Bool.noConfusion h, fun _ => rfl⟩
  | some root =>
    obtain ⟨d, hsh, hs⟩ := (invariant_iff cmp hc root t count).1 hinv
    have hd := shaped_height d 0 root hsh
    have hpos : 0 < root.items.length := (rootNonEmpty_some root t count cmp).1 hne
    have hsh1 : root.shaped t d 1 = true := shaped_mono (shaped_exact hsh) hpos
    have htrav : InorderTraverse (BTree.mk (some root) t count cmp) = some root.inorder := by
      simp [InorderTraverse, inorderTraverse_eq d 0 root hsh]
    obtain ⟨hdel, hbody⟩ := delete_body_spec (V := V) hc ht d
    -- the tree after the call, from the root that `delete` or `remove` leaves
    have finish : ∀ (root2 : node K V) (r : Bool), root2.shaped t d 0 = true →
        RemoveOutcome key root.inorder root2.inorder r →
        ∃ newRoot : Option (node K V),
          (if (root2.items.length == 0) = true then
              (if root2.isLeaf = true then some none
                else (root2.children[0]?).bind fun c => some (some c))
            else some (some root2)) = some newRoot ∧
          ((root2.items.length == 0) = true → root2.isLeaf = false →
            root2.children[0]? = newRoot) ∧
          ((root2.items.length == 0) = false → newRoot = some root2) ∧
          ∃ l2, (∀ n, InorderTraverse (BTree.mk newRoot t n cmp) = some l2) ∧
            RemoveOutcome key root.inorder l2 r ∧
            (∀ n, (BTree.mk newRoot t n cmp).invariant = true ∧
              (BTree.mk newRoot t n cmp).rootNonEmpty = true) := by
      intro root2 r hsh2 hout
      have hs2 : SortedItems cmp root2.inorder := hout.sorted_remove hs
      by_cases h0 : root2.items.length = 0
      · have hb0 : (root2.items.length == 0) = true := by simpa using h0
        cases d with
        | zero =>
          have hcs : root2.children = [] := (shaped_zero.1 hsh2).1
          have hleaf : root2.isLeaf = true := (node.isLeaf_iff root2).2 hcs
          have hin : root2.inorder = [] := by
            cases root2 with
            | mk its cs =>
              simp only [node.children_mk, node.items_mk] at hcs h0
              subst hcs
              simp [List.length_eq_zero.1 h0]
          refine ⟨none, by simp [hb0, hleaf], ?_, ?_, [], fun _ => rfl,
            by rw [← hin]; exact hout, fun n => ⟨rfl, rfl⟩⟩
          · intro _ h
            rw [hleaf] at h
            cases h
          · intro h
            rw [hb0] at h
            cases h
        | succ d2 =>
          obtain ⟨c, hgc, hcsh, hcin, hleaf⟩ := collapse_spec root2 hsh2 h0
          refine ⟨some c, by simp [hb0, hleaf, hgc], fun _ _ => hgc,
            ?_, c.inorder, ?_, by rw [hcin]; exact hout, fun n => ⟨?_, ?_⟩⟩
          · intro h
            rw [hb0] at h
            cases h
          · intro n
            simp [InorderTraverse, inorderTraverse_eq d2 _ c hcsh]
          · exact (invariant_iff cmp hc c t n).2 ⟨d2, shaped_mono hcsh (Nat.zero_le _),
              by rw [hcin]; exact hs2⟩
          · have := shaped_lo hcsh
            exact (rootNonEmpty_some c t n cmp).2 (by omega)
      · have hb0 : (root2.items.length == 0) = false := by simpa using h0
        refine ⟨some root2, by simp [hb0], ?_, fun _ => rfl,
          root2.inorder, ?_, hout, fun n => ⟨?_, ?_⟩⟩
        · intro h
          rw [hb0] at h
          cases h
        · intro n
          simp [InorderTraverse, inorderTraverse_eq d 0 root2 hsh2]
        · exact (invariant_iff cmp hc root2 t n).2 ⟨d, hsh2, hs2⟩
        · exact (rootNonEmpty_some root2 t n cmp).2 (by omega)
    rcases bSearch_cases hc root (sorted_items_of_inorder hsh hs) key with
      ⟨xs1, xs2, hits, h1, h2, hb⟩ | ⟨xs1, x, xs2, hits, hk, hb⟩
    · -- the key is not in the root
      cases d with
      | zero =>
        have hcs : root.children = [] := (shaped_zero.1 hsh).1
        have hleaf : root.isLeaf = true := (node.isLeaf_iff root).2 hcs
        refine ⟨_, false, root.inorder, root.inorder, ?_, htrav, htrav, hs,
          Or.inr ⟨rfl, rfl, ?_⟩, hinv, hne, rfl, rfl, fun h => Bool.noConfusion h, fun _ => rfl⟩
        · simp only [TryRemove, hb, hleaf, Option.bind_eq_bind, Option.some_bind,
            Bool.false_eq_true, if_false, if_true, Option.pure_def]
        · cases root with
          | mk its cs =>
            simp only [node.children_mk, node.items_mk] at hcs hits
            subst hcs hits
            intro y hy hk
            simp only [inorder_leaf] at hy
            rcases List.mem_append.1 hy with h | h
            · have := h1 y h; rw [hk] at this; exact hc.irrefl _ this
            · have := h2 y h; rw [hk] at this; exact hc.irrefl _ this
      | succ d2 =>
        cases root with
        | mk its cs =>
        simp only [node.items_mk] at hits hpos
        subst hits
        have hp := (shaped_parent_iff _ _).1 hsh
        obtain ⟨cs1, c, cs2, rfl, hlen⟩ := exists_split_at cs xs1.length
          (by rw [hp.1]; simp; omega)
        have hleaf : (node.mk (xs1 ++ xs2) (cs1 ++ c :: cs2)).isLeaf = false := by
          simp [node.isLeaf]
        obtain ⟨hA, hB⟩ := context_bounds hc hlen hsh hs key h1 h2
        obtain ⟨hdel2, hbody2⟩ := delete_body_spec (V := V) hc ht d2
        obtain ⟨p2, r, hrun, hsh2, hout, -⟩ := remove_spec hc ht d2 hbody2 key
          (2 * (node.mk (xs1 ++ xs2) (cs1 ++ c :: cs2)).height + 2) 1 xs1 xs2 cs1 c cs2
          hlen hsh1 (Nat.le_refl _) hs
          (fun e he hk => by have := hA e he; rw [hk] at this; exact hc.irrefl _ this)
          (fun e he hk => by have := hB e he; rw [hk] at this; exact hc.irrefl _ this)
          (by omega)
        rw [hlen] at hrun
        obtain ⟨newRoot, hnew, hnew1, hnew2, l2, htr2, hout2, hinv2⟩ := finish p2 r hsh2 hout
        have hp2leaf : p2.isLeaf = false := by
          have := (@shaped_parent_iff _ _ t d2 0 p2.items p2.children).1
            (by rw [node.eta]; exact hsh2)
          simp only [node.isLeaf, beq_eq_false_iff_ne, ne_eq]
          omega
        obtain ⟨nr, hnr⟩ : ∃ nr, newRoot = some nr ∧
            (if (p2.items.length == 0) = true then p2.children[0]? else some p2) = some nr := by
          by_cases h0 : (p2.items.length == 0) = true
          · have := hnew1 h0 hp2leaf
            rw [h0, hp2leaf] at hnew
            simp only [if_true, Bool.false_eq_true, if_false] at hnew
            cases hg : p2.children[0]? with
            | none => rw [hg] at hnew; simp at hnew
            | some c0 =>
              rw [hg] at this
              exact ⟨c0, this.symm, by simp [h0]⟩
          · have h0' : (p2.items.length == 0) = false := by simpa using h0
            exact ⟨p2, hnew2 h0', by simp [h0']⟩
        obtain ⟨hnr1, hnr2⟩ := hnr
        subst hnr1
        cases r with
        | true =>
          refine ⟨⟨some nr, t, (count + 2 ^ 64 - 1) % 2 ^ 64, cmp⟩, true, _, l2, ?_, htrav,
            ?_, hs, hout2, (hinv2 _).1, (hinv2 _).2, rfl, rfl, fun _ => rfl, fun h => Bool.noConfusion h⟩
          · simp only [TryRemove, hb, hleaf, hrun, Option.bind_eq_bind, Option.some_bind,
              Bool.false_eq_true, if_false, Option.pure_def, if_true]
            by_cases h0 : (p2.items.length == 0) = true
            · simp only [h0, if_true] at hnr2 ⊢
              rw [hnr2]
              simp only [Option.some_bind]
            · have h0' : (p2.items.length == 0) = false := by simpa using h0
              simp only [h0', Bool.false_eq_true, if_false, Option.some.injEq] at hnr2 ⊢
              rw [hnr2]
          · exact htr2 _
        | false =>
          refine ⟨⟨some nr, t, count, cmp⟩, false, _, l2, ?_, htrav,
            ?_, hs, hout2, (hinv2 _).1, (hinv2 _).2, rfl, rfl, fun h => Bool.noConfusion h, fun _ => rfl⟩
          · simp only [TryRemove, hb, hleaf, hrun, Option.bind_eq_bind, Option.some_bind,
              Bool.false_eq_true, if_false, Option.pure_def]
            by_cases h0 : (p2.items.length == 0) = true
            · simp only [h0, if_true] at hnr2 ⊢
              rw [hnr2]
              simp only [Option.some_bind]
            · have h0' : (p2.items.length == 0) = false := by simpa using h0
              simp only [h0', Bool.false_eq_true, if_false, Option.some.injEq] at hnr2 ⊢
              rw [hnr2]
          · exact htr2 _
    · -- the key is in the root
      cases root with
      | mk its cs =>
      simp only [node.items_mk] at hits
      subst hits
      obtain ⟨root2, p, q, hrun, hsh2, hpq, hq⟩ := hdel
        (2 * (node.mk (xs1 ++ x :: xs2) cs).height + 2) 1 xs1 x xs2 cs hsh1 hs (by omega)
      have hout : RemoveOutcome key (node.mk (xs1 ++ x :: xs2) cs).inorder root2.inorder true :=
        Or.inl ⟨rfl, p, x, q, hpq, hk, hq⟩
      obtain ⟨newRoot, hnew, -, -, l2, htr2, hout2, hinv2⟩ := finish root2 true hsh2 hout
      refine ⟨⟨newRoot, t, (count + 2 ^ 64 - 1) % 2 ^ 64, cmp⟩, true, _, l2, ?_, htrav,
        ?_, hs, hout2, (hinv2 _).1, (hinv2 _).2, rfl, rfl, fun _ => rfl, fun h => Bool.noConfusion h⟩
      · simp only [TryRemove, hb, hrun, Option.bind_eq_bind, Option.some_bind, if_true,
          Option.pure_def]
        by_cases h0 : (root2.items.length == 0) = true
        · by_cases hl : root2.isLeaf = true
          · simp only [h0, hl, if_true] at hnew ⊢
            simp only [Option.some.injEq] at hnew
            subst hnew
            rfl
          · have hl' : root2.isLeaf = false := by simpa using hl
            simp only [h0, hl', if_true, Bool.false_eq_true, if_false] at hnew ⊢
            cases hg : root2.children[0]? with
            | none => rw [hg] at hnew; simp at hnew
            | some c0 =>
              rw [hg] at hnew
              simp only [Option.some_bind, Option.some.injEq] at hnew
              subst hnew
              simp
        · have h0' : (root2.items.length == 0) = false := by simpa using h0
          simp only [h0', Bool.false_eq_true, if_false, Option.some.injEq] at hnew ⊢
          subst hnew
          simp
      · exact htr2 _

end removeTree

/-! ## `TryGet` -/

section getSpec

variable {K V : Type} {cmp : K → K → Int}

theorem TryGet_loop_spec (hc : StrictTotal cmp) {t : Nat} (key : K) (zero : V) :
    ∀ (d lo fuel : Nat) (nd : node K V), nd.shaped t d lo = true →
      SortedItems cmp nd.inorder → d + 1 ≤ fuel →
      ∃ r, TryGet.loop cmp key zero fuel nd = some r ∧
        ((∃ x ∈ nd.inorder, x.Key = key ∧ r = (true, x.Value)) ∨
          ((∀ x ∈ nd.inorder, x.Key ≠ key) ∧ r = (false, zero))) := by
  intro d
  induction d with
  | zero =>
    intro lo fuel nd hsh hs hfuel
    obtain ⟨f, rfl⟩ : ∃ f, fuel = f + 1 := ⟨fuel - 1, by omega⟩
    rcases bSearch_cases hc nd (sorted_items_of_inorder hsh hs) key with
      ⟨xs1, xs2, hits, h1, h2, hb⟩ | ⟨xs1, x, xs2, hits, hk, hb⟩
    · have hcs : nd.children = [] := (shaped_zero.1 hsh).1
      have hleaf : nd.isLeaf = true := (node.isLeaf_iff nd).2 hcs
      refine ⟨(false, zero), by simp [TryGet.loop, hb, hleaf], Or.inr ⟨?_, rfl⟩⟩
      cases nd with
      | mk its cs =>
        simp only [node.children_mk, node.items_mk] at hcs hits
        subst hcs hits
        intro y hy hk
        simp only [inorder_leaf] at hy
        rcases List.mem_append.1 hy with h | h
        · have := h1 y h; rw [hk] at this; exact hc.irrefl _ this
        · have := h2 y h; rw [hk] at this; exact hc.irrefl _ this
    · have hget : nd.items[xs1.length]? = some x := by
        rw [hits]; exact getElem?_at _ _ _ _ rfl
      exact ⟨(true, x.Value), by simp [TryGet.loop, hb, hget],
        Or.inl ⟨x, mem_items_inorder hsh (by rw [hits]; simp), hk, rfl⟩⟩
  | succ d ih =>
    intro lo fuel nd hsh hs hfuel
    obtain ⟨f, rfl⟩ : ∃ f, fuel = f + 1 := ⟨fuel - 1, by omega⟩
    rcases bSearch_cases hc nd (sorted_items_of_inorder hsh hs) key with
      ⟨xs1, xs2, hits, h1, h2, hb⟩ | ⟨xs1, x, xs2, hits, hk, hb⟩
    · cases nd with
      | mk its cs =>
      simp only [node.items_mk] at hits
      subst hits
      have hp := (shaped_parent_iff _ _).1 hsh
      obtain ⟨cs1, c, cs2, rfl, hlen⟩ := exists_split_at cs xs1.length
        (by rw [hp.1]; simp; omega)
      have hleaf : (node.mk (xs1 ++ xs2) (cs1 ++ c :: cs2)).isLeaf = false := by
        simp [node.isLeaf]
      obtain ⟨-, hcsh, hcs, -, -, -, -⟩ := context_facts hlen hsh hs
      obtain ⟨hA, hB⟩ := context_bounds hc hlen hsh hs key h1 h2
      obtain ⟨r, hrun, hr⟩ := ih (t - 1) f c hcsh hcs (by omega)
      have hget : (cs1 ++ c :: cs2)[xs1.length]? = some c := getElem?_at _ _ _ _ hlen.symm
      refine ⟨r, by simp [TryGet.loop, hb, hleaf, hget, hrun], ?_⟩
      rw [inorder_split xs1 xs2 cs1 c cs2 hlen]
      rcases hr with ⟨x, hx, hk, e⟩ | ⟨hno, e⟩
      · exact Or.inl ⟨x, by simp [hx], hk, e⟩
      · refine Or.inr ⟨?_, e⟩
        intro y hy hk
        simp only [List.mem_append] at hy
        rcases hy with (h | h) | h
        · have := hA y h; rw [hk] at this; exact hc.irrefl _ this
        · exact hno y h hk
        · have := hB y h; rw [hk] at this; exact hc.irrefl _ this
    · have hget : nd.items[xs1.length]? = some x := by
        rw [hits]; exact getElem?_at _ _ _ _ rfl
      exact ⟨(true, x.Value), by simp [TryGet.loop, hb, hget],
        Or.inl ⟨x, mem_items_inorder hsh (by rw [hits]; simp), hk, rfl⟩⟩

end getSpec

/-! ## Rejected calls that leave the nodes as they are -/

section unchanged

variable {K V : Type} {cmp : K → K → Int}

theorem loop_false_unchanged (t : Nat) (key : K) (value : V) :
    ∀ (fuel : Nat) (parent : node K V) (ci : Nat) (curr p : node K V),
      parent.children[ci]? = some curr →
      TryAdd.meetsFull t cmp key fuel curr = false →
      TryAdd.loop t cmp key value fuel parent ci = some (p, false) → p = parent := by
  intro fuel
  induction fuel with
  | zero => intro parent ci curr p _ _ h; simp [TryAdd.loop] at h
  | succ f ih =>
    intro parent ci curr p hget hm h
    simp only [TryAdd.loop, hget, Option.bind_eq_bind, Option.some_bind] at h
    simp only [TryAdd.meetsFull] at hm
    cases hb : curr.bSearch key cmp with
    | none => simp [hb] at h
    | some ie =>
      obtain ⟨ind, ex⟩ := ie
      simp only [hb, Option.some_bind] at h hm
      cases ex with
      | true =>
        simp only [if_true, Option.pure_def, Option.some.injEq, Prod.mk.injEq, and_true] at h
        exact h.symm
      | false =>
        simp only [Bool.false_eq_true, if_false] at h hm
        by_cases hfill : curr.isFilled t = true
        · simp [hfill] at hm
        · have hfill' : curr.isFilled t = false := by simpa using hfill
          simp only [hfill', Bool.false_eq_true, if_false] at h hm
          by_cases hleaf : curr.isLeaf = true
          · simp only [hleaf, if_true] at h
            cases h1 : slicesInsert curr.items ind (NewItem key value) with
            | none => simp [h1] at h
            | some a =>
              simp only [h1, Option.some_bind] at h
              cases h2 : setAt parent.children ci (node.mk a curr.children) with
              | none => simp [h2] at h
              | some a2 => simp [h2] at h
          · have hleaf' : curr.isLeaf = false := by simpa using hleaf
            simp only [hleaf', Bool.false_eq_true, if_false] at h hm
            cases hc : curr.children[ind]? with
            | none =>
              cases f with
              | zero => simp [TryAdd.loop] at h
              | succ g => simp [TryAdd.loop, hc] at h
            | some c =>
              simp only [hc] at hm
              cases hl : TryAdd.loop t cmp key value f curr ind with
              | none => simp [hl] at h
              | some q =>
                obtain ⟨curr2, ok⟩ := q
                simp only [hl, Option.some_bind] at h
                cases hs : setAt parent.children ci curr2 with
                | none => simp [hs] at h
                | some pcs =>
                  simp only [hs, Option.some_bind, Option.pure_def, Option.some.injEq,
                    Prod.mk.injEq] at h
                  obtain ⟨e1, e2⟩ := h
                  subst e2
                  have hcurr := ih curr ind c curr2 hc hm hl
                  subst hcurr
                  rw [setAt_self _ _ _ hget] at hs
                  simp only [Option.some.injEq] at hs
                  subst hs
                  rw [← e1, node.eta]

theorem remove_false_unchanged (t : Nat) (key : K) :
    ∀ (fuel : Nat) (parent : node K V) (ci : Nat) (c p : node K V),
      parent.children[ci]? = some c → (c.items.length == t - 1) = false →
      remove.meetsMinimal t cmp key fuel c = false →
      remove t cmp key fuel parent ci = some (p, false) → p = parent := by
  intro fuel
  induction fuel with
  | zero => intro parent ci c p _ _ _ h; simp [remove] at h
  | succ f ih =>
    intro parent ci c p hget hlen hm h
    simp only [remove, hget, hlen, Option.bind_eq_bind, Option.some_bind, Bool.false_eq_true,
      if_false, Option.pure_def] at h
    simp only [remove.meetsMinimal] at hm
    cases hb : c.bSearch key cmp with
    | none => simp [hb] at h
    | some ie =>
      obtain ⟨ind, ex⟩ := ie
      simp only [hb, Option.some_bind] at h hm
      cases ex with
      | true =>
        simp only [if_true] at h
        cases hd : delete t cmp f c ind with
        | none => simp [hd] at h
        | some nd2 =>
          simp only [hd, Option.some_bind] at h
          cases hs : setAt parent.children ci nd2 with
          | none => simp [hs] at h
          | some pcs => simp [hs] at h
      | false =>
        simp only [Bool.false_eq_true, if_false] at h hm
        by_cases hleaf : c.isLeaf = true
        · simp only [hleaf, if_true, Option.some.injEq, Prod.mk.injEq, and_true] at h
          exact h.symm
        · have hleaf' : c.isLeaf = false := by simpa using hleaf
          simp only [hleaf', Bool.false_eq_true, if_false] at h hm
          cases hc : c.children[ind]? with
          | none =>
            cases f with
            | zero => simp [remove] at h
            | succ g => simp [remove, hc] at h
          | some c2 =>
            simp only [hc] at hm
            by_cases hmin : (c2.items.length == t - 1) = true
            · simp [hmin] at hm
            · have hmin' : (c2.items.length == t - 1) = false := by simpa using hmin
              simp only [hmin', Bool.false_eq_true, if_false] at hm
              cases hl : remove t cmp key f c ind with
              | none => simp [hl] at h
              | some q =>
                obtain ⟨nd2, r⟩ := q
                simp only [hl, Option.some_bind] at h
                cases hs : setAt parent.children ci nd2 with
                | none => simp [hs] at h
                | some pcs =>
                  simp only [hs, Option.some_bind, Option.some.injEq, Prod.mk.injEq] at h
                  obtain ⟨e1, e2⟩ := h
                  subst e2
                  have hnd := ih c ind c2 nd2 hc hmin' hm hl
                  subst hnd
                  rw [setAt_self _ _ _ hget] at hs
                  simp only [Option.some.injEq] at hs
                  subst hs
                  rw [← e1, node.eta]

end unchanged

/-! ## The public operations -/

section operations

variable {K V : Type}

theorem item_eta (x : Item K V) : NewItem x.Key x.Value = x := by
  cases x; rfl

theorem Inserted.perm {cmp : K → K → Int} {key : K} {value : V} {l1 l2 : List (Item K V)}
    (h : Inserted cmp key value l1 l2) : l2.Perm (NewItem key value :: l1) := by
  obtain ⟨p, q, e1, e2, -, -⟩ := h
  subst e1 e2
  exact List.perm_middle

/-- C1: for every minimum degree `t ≥ 2`, every strict-total-order comparator
and every tree that satisfies the structural invariant, `TryAdd(key, value)`
returns (with `true` or with `false`) and the tree after the call satisfies the
same invariant; a root that held an item still holds one. -/
theorem TryAdd_preserves_invariant (b : BTree K V) (key : K) (value : V) (ht : 2 ≤ b.t)
    (hc : StrictTotal b.compare) (hinv : b.invariant = true) :
    ∃ b2 r, TryAdd b key value = some (b2, r) ∧ b2.invariant = true ∧ b2.t = b.t ∧
      b2.compare = b.compare ∧ (b.rootNonEmpty = true → b2.rootNonEmpty = true) := by
  obtain ⟨b2, r, l, l2, hrun, -, -, -, -, hinv2, ht2, hc2, -, hne⟩ :=
    TryAdd_core b key value ht hc hinv
  exact ⟨b2, r, hrun, hinv2, ht2, hc2, hne⟩

theorem TryAdd_preserves_invariant_witness :
    (2 ≤ fullRootTree.t ∧ StrictTotal fullRootTree.compare ∧ fullRootTree.invariant = true) ∧
    ∃ b2 r, TryAdd fullRootTree 8 80 = some (b2, r) ∧ b2.invariant = true ∧
      b2.t = fullRootTree.t ∧ b2.compare = fullRootTree.compare ∧
      (fullRootTree.rootNonEmpty = true → b2.rootNonEmpty = true) :=
  ⟨⟨by decide, intCompare_strictTotal, by decide⟩,
    TryAdd_preserves_invariant fullRootTree 8 80 (by decide) intCompare_strictTotal (by decide)⟩

/-- C2: for every `t ≥ 2`, every strict-total-order comparator and every tree
that satisfies the structural invariant and whose root, if present, holds an
item, `TryRemove(key)` returns (with `true` or with `false`) and the tree after
the call satisfies the same invariant; its root, if present, is never a node
with zero items. -/
theorem TryRemove_preserves_invariant (b : BTree K V) (key : K) (ht : 2 ≤ b.t)
    (hc : StrictTotal b.compare) (hinv : b.invariant = true) (hne : b.rootNonEmpty = true) :
    ∃ b2 r, TryRemove b key = some (b2, r) ∧ b2.invariant = true ∧
      b2.rootNonEmpty = true ∧ b2.t = b.t ∧ b2.compare = b.compare := by
  obtain ⟨b2, r, l, l2, hrun, -, -, -, -, hinv2, hne2, ht2, hc2, -, -⟩ :=
    TryRemove_core b key ht hc hinv hne
  exact ⟨b2, r, hrun, hinv2, hne2, ht2, hc2⟩

theorem TryRemove_preserves_invariant_witness :
    (2 ≤ tenTree.t ∧ StrictTotal tenTree.compare ∧ tenTree.invariant = true ∧
      tenTree.rootNonEmpty = true) ∧
    ∃ b2 r, TryRemove tenTree 4 = some (b2, r) ∧ b2.invariant = true ∧
      b2.rootNonEmpty = true ∧ b2.t = tenTree.t ∧ b2.compare = tenTree.compare :=
  ⟨⟨by decide, intCompare_strictTotal, by decide, by decide⟩,
    TryRemove_preserves_invariant tenTree 4 (by decide) intCompare_strictTotal (by decide)
      (by decide)⟩

/-- C3: for every `t ≥ 2`, every tree that satisfies the structural invariant
and every key that does not occur in `InorderTraverse()`, `TryAdd(key, value)`
returns `true`, `Count()` grows by exactly 1 (the `uint64` counter not being at
its maximum), and the new `InorderTraverse()` is the old sequence with the pair
`(key, value)` inserted at its sorted position, everything else unchanged and
in the same order. -/
theorem TryAdd_absent_key (b : BTree K V) (key : K) (value : V) (l : List (Item K V))
    (ht : 2 ≤ b.t) (hc : StrictTotal b.compare) (hinv : b.invariant = true)
    (hl : InorderTraverse b = some l) (hkey : ∀ x ∈ l, x.Key ≠ key)
    (hcount : b.Count + 1 < 2 ^ 64) :
    ∃ b2 l2, TryAdd b key value = some (b2, true) ∧ b2.Count = b.Count + 1 ∧
      InorderTraverse b2 = some l2 ∧ Inserted b.compare key value l l2 := by
  obtain ⟨b2, r, l1, l2, hrun, hl1, hl2, -, hout, -, -, -, hcnt, -⟩ :=
    TryAdd_core b key value ht hc hinv
  rw [hl] at hl1
  simp only [Option.some.injEq] at hl1
  subst hl1
  rcases hout with ⟨hr, hins⟩ | ⟨-, -, x, hx, hk⟩
  · subst hr
    refine ⟨b2, l2, hrun, ?_, hl2, hins⟩
    simp only [BTree.Count] at hcount ⊢
    rw [hcnt]
    simp only [if_true]
    omega
  · exact absurd hk (hkey x hx)

theorem TryAdd_absent_key_witness :
    (2 ≤ tenTree.t ∧ StrictTotal tenTree.compare ∧ tenTree.invariant = true ∧
      InorderTraverse tenTree = some tenItems ∧ (∀ x ∈ tenItems, x.Key ≠ 11) ∧
      tenTree.Count + 1 < 2 ^ 64) ∧
    ∃ b2 l2, TryAdd tenTree 11 110 = some (b2, true) ∧ b2.Count = tenTree.Count + 1 ∧
      InorderTraverse b2 = some l2 ∧ Inserted tenTree.compare 11 110 tenItems l2 :=
  ⟨⟨by decide, intCompare_strictTotal, by decide, rfl, by decide, by decide⟩,
    TryAdd_absent_key tenTree 11 110 tenItems (by decide) intCompare_strictTotal (by decide)
      rfl (by decide) (by decide)⟩

/-- C4: for every `t ≥ 2`, every tree that satisfies the structural invariant
(its counter equal to the number of stored items, within `uint64`) and every
key that occurs in `InorderTraverse()`, `TryRemove(key)` returns `true`,
`Count()` drops by exactly 1, and the new `InorderTraverse()` is the old
sequence with exactly the pair of that key taken out, everything else
unchanged and in the same order, whichever path `delete` takes. -/
theorem TryRemove_present_key (b : BTree K V) (key : K) (l : List (Item K V))
    (ht : 2 ≤ b.t) (hc : StrictTotal b.compare) (hinv : b.invariant = true)
    (hne : b.rootNonEmpty = true)
    (hl : InorderTraverse b = some l) (hkey : ∃ x ∈ l, x.Key = key)
    (hcount : b.Count = l.length) (hrange : b.Count < 2 ^ 64) :
    ∃ b2 l2, TryRemove b key = some (b2, true) ∧ b2.Count + 1 = b.Count ∧
      InorderTraverse b2 = some l2 ∧ Removed key l l2 := by
  obtain ⟨b2, r, l1, l2, hrun, hl1, hl2, -, hout, -, -, -, -, hcnt, -⟩ :=
    TryRemove_core b key ht hc hinv hne
  rw [hl] at hl1
  simp only [Option.some.injEq] at hl1
  subst hl1
  rcases hout with ⟨hr, hrem⟩ | ⟨-, -, hno⟩
  · subst hr
    refine ⟨b2, l2, hrun, ?_, hl2, hrem⟩
    have hpos : 0 < l.length := by
      obtain ⟨x, hx, -⟩ := hkey
      exact List.length_pos_of_mem hx
    simp only [BTree.Count] at hcount hrange ⊢
    rw [hcnt rfl]
    omega
  · obtain ⟨x, hx, hk⟩ := hkey
    exact absurd hk (hno x hx)

theorem TryRemove_present_key_witness :
    (2 ≤ tenTree.t ∧ StrictTotal tenTree.compare ∧ tenTree.invariant = true ∧
      tenTree.rootNonEmpty = true ∧ InorderTraverse tenTree = some tenItems ∧
      (∃ x ∈ tenItems, x.Key = 4) ∧ tenTree.Count = tenItems.length ∧
      tenTree.Count < 2 ^ 64) ∧
    ∃ b2 l2, TryRemove tenTree 4 = some (b2, true) ∧ b2.Count + 1 = tenTree.Count ∧
      InorderTraverse b2 = some l2 ∧ Removed 4 tenItems l2 :=
  ⟨⟨by decide, intCompare_strictTotal, by decide, by decide, rfl, by decide, by decide,
      by decide⟩,
    TryRemove_present_key tenTree 4 tenItems (by decide) intCompare_strictTotal (by decide)
      (by decide) rfl (by decide) (by decide) (by decide)⟩

/-- C5: for every tree that satisfies the structural invariant (the empty tree
included) and every key, `TryGet(key)` returns `(true, v)` if and only if the
pair `(key, v)` occurs in `InorderTraverse()`, and when the key does not occur
it returns `false` with the zero value of `V`.  `TryGet` writes nothing: in the
embedding it has no tree to return. -/
theorem TryGet_correct [Inhabited V] (b : BTree K V) (key : K) (hc : StrictTotal b.compare)
    (hinv : b.invariant = true) :
    ∃ r l, TryGet b key = some r ∧ InorderTraverse b = some l ∧
      (∀ v, r = (true, v) ↔ (⟨key, v⟩ : Item K V) ∈ l) ∧
      ((∀ x ∈ l, x.Key ≠ key) → r = (false, default)) := by
  obtain ⟨root, t, count, cmp⟩ := b
  simp only at hc
  cases root with
  | none =>
    refine ⟨(false, default), [], rfl, rfl, ?_, fun _ => rfl⟩
    intro v
    simp
  | some root =>
    obtain ⟨d, hsh, hs⟩ := (invariant_iff cmp hc root t count).1 hinv
    have hd := shaped_height d 0 root hsh
    obtain ⟨r, hrun, hr⟩ := TryGet_loop_spec hc key (default : V) d 0 (root.height + 1) root
      hsh hs (by omega)
    refine ⟨r, root.inorder, by simp [TryGet, hrun],
      by simp [InorderTraverse, inorderTraverse_eq d 0 root hsh], ?_, ?_⟩
    · intro v
      rcases hr with ⟨x, hx, hk, e⟩ | ⟨hno, e⟩
      · constructor
        · intro h
          rw [e] at h
          simp only [Prod.mk.injEq, true_and] at h
          have : (⟨key, v⟩ : Item K V) = x := by
            cases x
            simp only at hk h
            rw [hk, h]
          rw [this]
          exact hx
        · intro h
          have : x = (⟨key, v⟩ : Item K V) := sorted_key_unique hc hs hx h hk
          rw [e, this]
      · constructor
        · intro h
          rw [e] at h
          simp at h
        · intro h
          exact absurd rfl (hno _ h)
    · intro hno
      rcases hr with ⟨x, hx, hk, -⟩ | ⟨-, e⟩
      · exact absurd hk (hno x hx)
      · exact e

theorem TryGet_correct_witness :
    (StrictTotal tenTree.compare ∧ tenTree.invariant = true) ∧
    ∃ r l, TryGet tenTree 7 = some r ∧ InorderTraverse tenTree = some l ∧
      (∀ v, r = (true, v) ↔ (⟨7, v⟩ : Item Int Int) ∈ l) ∧
      ((∀ x ∈ l, x.Key ≠ 7) → r = (false, default)) :=
  ⟨⟨intCompare_strictTotal, by decide⟩,
    TryGet_correct tenTree 7 intCompare_strictTotal (by decide)⟩

theorem addAll_length :
    ∀ (kvs : List (Item K V)) (b b2 : BTree K V) (rs : List Bool),
      addAll b kvs = some (b2, rs) → rs.length = kvs.length := by
  intro kvs
  induction kvs with
  | nil =>
    intro b b2 rs h
    simp only [addAll, Option.some.injEq, Prod.mk.injEq] at h
    rw [← h.2]
    rfl
  | cons kv rest ih =>
    intro b b2 rs h
    simp only [addAll, Option.bind_eq_bind, Option.pure_def] at h
    cases h1 : TryAdd b kv.Key kv.Value with
    | none => simp [h1] at h
    | some p1 =>
      obtain ⟨b1, r⟩ := p1
      rw [h1] at h
      simp only [Option.some_bind] at h
      cases h2 : addAll b1 rest with
      | none => simp [h2] at h
      | some p2 =>
        obtain ⟨b3, rs3⟩ := p2
        rw [h2] at h
        simp only [Option.some_bind, Option.some.injEq, Prod.mk.injEq] at h
        rw [← h.2, List.length_cons, List.length_cons, ih b1 b3 rs3 h2]

theorem traverse_sorted (b : BTree K V) (hc : StrictTotal b.compare)
    (hinv : b.invariant = true) :
    ∃ l, InorderTraverse b = some l ∧ SortedItems b.compare l := by
  obtain ⟨root, t, count, cmp⟩ := b
  simp only at hc
  cases root with
  | none => exact ⟨[], rfl, List.Pairwise.nil⟩
  | some root =>
    obtain ⟨d, hsh, hs⟩ := (invariant_iff cmp hc root t count).1 hinv
    exact ⟨root.inorder, by simp [InorderTraverse, inorderTraverse_eq d 0 root hsh], hs⟩

theorem addAll_spec (t : Nat) (cmp : K → K → Int) (ht : 2 ≤ t) (hc : StrictTotal cmp) :
    ∀ (kvs : List (Item K V)) (b : BTree K V) (l : List (Item K V)),
      b.t = t → b.compare = cmp → b.invariant = true → InorderTraverse b = some l →
      (kvs.map Item.Key).Nodup → (∀ x ∈ l, ∀ kv ∈ kvs, x.Key ≠ kv.Key) →
      ∃ b2 rs l2, addAll b kvs = some (b2, rs) ∧ (∀ r ∈ rs, r = true) ∧
        InorderTraverse b2 = some l2 ∧ SortedItems cmp l2 ∧ l2.Perm (l ++ kvs) := by
  intro kvs
  induction kvs with
  | nil =>
    intro b l hbt hbc hinv hl _ _
    subst hbt hbc
    obtain ⟨l1, hl1, hs⟩ := traverse_sorted b hc hinv
    rw [hl] at hl1
    simp only [Option.some.injEq] at hl1
    subst hl1
    refine ⟨b, [], l, rfl, ?_, hl, hs, ?_⟩
    · intro r hr
      cases hr
    · simp
  | cons kv rest ih =>
    intro b l hbt hbc hinv hl hnd hdis
    subst hbt hbc
    obtain ⟨b1, r, l1, l2, hrun, hl1, hl2, -, hout, hinv1, ht1, hc1, -, -⟩ :=
      TryAdd_core b kv.Key kv.Value ht hc hinv
    rw [hl] at hl1
    simp only [Option.some.injEq] at hl1
    subst hl1
    have hnd2 : kv.Key ∉ rest.map Item.Key ∧ (rest.map Item.Key).Nodup := by
      simpa using hnd
    rcases hout with ⟨hr, hins⟩ | ⟨-, -, x, hx, hk⟩
    · subst hr
      have hperm := hins.perm
      rw [item_eta] at hperm
      have hdis1 : ∀ x ∈ l2, ∀ kv2 ∈ rest, x.Key ≠ kv2.Key := by
        intro x hx kv2 hkv2
        have hx2 := hperm.mem_iff.1 hx
        rcases List.mem_cons.1 hx2 with e | hm
        · subst e
          intro he
          exact hnd2.1 (List.mem_map.2 ⟨kv2, hkv2, he.symm⟩)
        · exact hdis x hm kv2 (List.mem_cons_of_mem _ hkv2)
      obtain ⟨b2, rs, l3, hrun2, hrs, hl3, hs3, hp3⟩ :=
        ih b1 l2 ht1 hc1 hinv1 hl2 hnd2.2 hdis1
      refine ⟨b2, true :: rs, l3, ?_, ?_, hl3, hs3, ?_⟩
      · simp [addAll, hrun, hrun2]
      · intro r hr
        rcases List.mem_cons.1 hr with e | hm
        · exact e
        · exact hrs r hm
      · refine hp3.trans ?_
        refine (List.Perm.append_right rest hperm).trans ?_
        simp only [List.cons_append]
        exact List.perm_middle.symm
    · exact absurd hk (hdis x hx kv (List.mem_cons_self _ _))

/-- C6: for every `t ≥ 2`, every strict-total-order comparator and every finite
list of key-value pairs with pairwise distinct keys, adding the pairs one by
one with `TryAdd` to a new tree returns `true` every time, and
`InorderTraverse()` then returns exactly those pairs (a permutation of the
list), ordered strictly ascending by key under the comparator. -/
theorem insert_round_trip (t : Nat) (cmp : K → K → Int) (kvs : List (Item K V))
    (ht : 2 ≤ t) (hc : StrictTotal cmp) (hd : (kvs.map Item.Key).Nodup) :
    ∃ b2 rs l, addAll (NewWith t cmp) kvs = some (b2, rs) ∧ rs.length = kvs.length ∧
      (∀ r ∈ rs, r = true) ∧ InorderTraverse b2 = some l ∧ SortedItems cmp l ∧
      l.Perm kvs := by
  obtain ⟨b2, rs, l2, hrun, hrs, hl2, hs, hp⟩ :=
    addAll_spec t cmp ht hc kvs (NewWith t cmp) [] rfl rfl rfl rfl hd
      (fun x hx => by cases hx)
  refine ⟨b2, rs, l2, hrun, ?_, hrs, hl2, hs, by simpa using hp⟩
  exact addAll_length kvs (NewWith t cmp) b2 rs hrun

theorem insert_round_trip_witness :
    (2 ≤ 2 ∧ StrictTotal intCompare ∧
      ((([⟨3, 30⟩, ⟨1, 10⟩, ⟨2, 20⟩, ⟨5, 50⟩, ⟨4, 40⟩] : List (Item Int Int))).map
        Item.Key).Nodup) ∧
    ∃ b2 rs l, addAll (NewWith 2 intCompare)
        ([⟨3, 30⟩, ⟨1, 10⟩, ⟨2, 20⟩, ⟨5, 50⟩, ⟨4, 40⟩] : List (Item Int Int)) = some (b2, rs) ∧
      rs.length = ([⟨3, 30⟩, ⟨1, 10⟩, ⟨2, 20⟩, ⟨5, 50⟩, ⟨4, 40⟩] : List (Item Int Int)).length ∧
      (∀ r ∈ rs, r = true) ∧ InorderTraverse b2 = some l ∧ SortedItems intCompare l ∧
      l.Perm [⟨3, 30⟩, ⟨1, 10⟩, ⟨2, 20⟩, ⟨5, 50⟩, ⟨4, 40⟩] :=
  ⟨⟨by decide, intCompare_strictTotal, by decide⟩,
    insert_round_trip 2 intCompare _ (by decide) intCompare_strictTotal (by decide)⟩

/-- C7: for every `t ≥ 2`, every tree that satisfies the structural invariant
and every key that already occurs in the tree (at any depth),
`TryAdd(key, value)` returns `false`, `Count()` is unchanged, and
`InorderTraverse()` returns exactly the same sequence of pairs as before: the
stored value of the key is not replaced. -/
theorem TryAdd_present_key (b : BTree K V) (key : K) (value : V) (l : List (Item K V))
    (ht : 2 ≤ b.t) (hc : StrictTotal b.compare) (hinv : b.invariant = true)
    (hl : InorderTraverse b = some l) (hkey : ∃ x ∈ l, x.Key = key) :
    ∃ b2, TryAdd b key value = some (b2, false) ∧ b2.Count = b.Count ∧
      InorderTraverse b2 = some l := by
  obtain ⟨b2, r, l1, l2, hrun, hl1, hl2, -, hout, -, -, -, hcnt, -⟩ :=
    TryAdd_core b key value ht hc hinv
  rw [hl] at hl1
  simp only [Option.some.injEq] at hl1
  subst hl1
  rcases hout with ⟨-, hins⟩ | ⟨hr, e, -⟩
  · obtain ⟨x, hx, hk⟩ := hkey
    exact absurd hk (hins.not_mem hc x hx)
  · subst hr e
    refine ⟨b2, hrun, ?_, hl2⟩
    simp only [BTree.Count]
    rw [hcnt]
    simp

theorem TryAdd_present_key_witness :
    (2 ≤ tenTree.t ∧ StrictTotal tenTree.compare ∧ tenTree.invariant = true ∧
      InorderTraverse tenTree = some tenItems ∧ (∃ x ∈ tenItems, x.Key = 5)) ∧
    ∃ b2, TryAdd tenTree 5 99 = some (b2, false) ∧ b2.Count = tenTree.Count ∧
      InorderTraverse b2 = some tenItems :=
  ⟨⟨by decide, intCompare_strictTotal, by decide, rfl, by decide⟩,
    TryAdd_present_key tenTree 5 99 tenItems (by decide) intCompare_strictTotal (by decide)
      rfl (by decide)⟩

/-- C8: for every `t ≥ 2`, every tree that satisfies the structural invariant
(leaf root, internal root, or empty; a root that is present holds an item) and
every key that does not occur in the tree, `TryRemove(key)` returns `false`,
`Count()` is unchanged and `InorderTraverse()` returns exactly the same
sequence as before. -/
theorem TryRemove_absent_key (b : BTree K V) (key : K) (l : List (Item K V))
    (ht : 2 ≤ b.t) (hc : StrictTotal b.compare) (hinv : b.invariant = true)
    (hne : b.rootNonEmpty = true)
    (hl : InorderTraverse b = some l) (hkey : ∀ x ∈ l, x.Key ≠ key) :
    ∃ b2, TryRemove b key = some (b2, false) ∧ b2.Count = b.Count ∧
      InorderTraverse b2 = some l := by
  obtain ⟨b2, r, l1, l2, hrun, hl1, hl2, -, hout, -, -, -, -, -, hcnt⟩ :=
    TryRemove_core b key ht hc hinv hne
  rw [hl] at hl1
  simp only [Option.some.injEq] at hl1
  subst hl1
  rcases hout with ⟨-, p, x, q, e, hk, -⟩ | ⟨hr, e, -⟩
  · exact absurd hk (hkey x (by rw [e]; simp))
  · subst hr e
    exact ⟨b2, hrun, hcnt rfl, hl2⟩

theorem TryRemove_absent_key_witness :
    (2 ≤ tenTree.t ∧ StrictTotal tenTree.compare ∧ tenTree.invariant = true ∧
      tenTree.rootNonEmpty = true ∧ InorderTraverse tenTree = some tenItems ∧
      (∀ x ∈ tenItems, x.Key ≠ 0)) ∧
    ∃ b2, TryRemove tenTree 0 = some (b2, false) ∧ b2.Count = tenTree.Count ∧
      InorderTraverse b2 = some tenItems :=
  ⟨⟨by decide, intCompare_strictTotal, by decide, by decide, rfl, by decide⟩,
    TryRemove_absent_key tenTree 0 tenItems (by decide) intCompare_strictTotal (by decide)
      (by decide) rfl (by decide)⟩

theorem loopNil_false_unchanged (t : Nat) (cmp : K → K → Int) (key : K) (value : V)
    (fuel : Nat) (root p : node K V)
    (hm : TryAdd.meetsFull t cmp key (fuel + 1) root = false)
    (h : TryAdd.loopNil t cmp key value (fuel + 1) root none = some (p, false)) : p = root := by
  simp only [TryAdd.loopNil, Option.bind_eq_bind] at h
  simp only [TryAdd.meetsFull] at hm
  cases hb : root.bSearch key cmp with
  | none => simp [hb] at h
  | some ie =>
    obtain ⟨ind, ex⟩ := ie
    simp only [hb, Option.some_bind] at h hm
    cases ex with
    | true =>
      simp only [if_true, Option.pure_def, Option.some.injEq, Prod.mk.injEq, and_true] at h
      exact h.symm
    | false =>
      simp only [Bool.false_eq_true, if_false] at h hm
      by_cases hfill : root.isFilled t = true
      · simp [hfill] at hm
      · have hfill2 : root.isFilled t = false := by simpa using hfill
        simp only [hfill2, Bool.false_eq_true, if_false] at h hm
        by_cases hleaf : root.isLeaf = true
        · simp only [hleaf, if_true] at h
          cases h1 : slicesInsert root.items ind (NewItem key value) with
          | none => simp [h1] at h
          | some a => simp [h1] at h
        · have hleaf2 : root.isLeaf = false := by simpa using hleaf
          simp only [hleaf2, Bool.false_eq_true, if_false] at h hm
          cases hc : root.children[ind]? with
          | none =>
            cases fuel with
            | zero => simp [TryAdd.loop] at h
            | succ g => simp [TryAdd.loop, hc] at h
          | some c =>
            simp only [hc] at hm
            exact loop_false_unchanged t key value fuel root ind c p hc hm h

theorem TryAdd_false_unchanged (b b2 : BTree K V) (key : K) (value : V)
    (hm : b.meetsFull key = false) (h : TryAdd b key value = some (b2, false)) : b2 = b := by
  obtain ⟨root, t, count, cmp⟩ := b
  cases root with
  | none => simp [TryAdd] at h
  | some root =>
    simp only [BTree.meetsFull] at hm
    simp only [TryAdd, Option.bind_eq_bind] at h
    cases hl : TryAdd.loopNil t cmp key value (2 * root.height + 2) root none with
    | none => simp [hl] at h
    | some q =>
      obtain ⟨root2, ok⟩ := q
      rw [hl] at h
      cases ok with
      | true =>
        simp only [Option.some_bind, if_true, Option.pure_def, Option.some.injEq,
          Prod.mk.injEq, Bool.true_eq_false, and_false] at h
      | false =>
        simp only [Option.some_bind, Bool.false_eq_true, if_false, Option.pure_def,
          Option.some.injEq, Prod.mk.injEq, and_true] at h
        have e := loopNil_false_unchanged t cmp key value (2 * root.height + 1) root root2 hm hl
        subst e
        exact h.symm

/-- C9 (amended): for every `t ≥ 2`, every tree that satisfies the structural
invariant and every key already present in it, `TryAdd(key, value)` returns
`false` and leaves `Count()`, `InorderTraverse()` and the invariant as they
were; the tree after the call is identical to the tree before it, node for
node, whenever the search for the key meets no full node before it finds the
key. -/
theorem TryAdd_duplicate_structure (b : BTree K V) (key : K) (value : V)
    (l : List (Item K V)) (ht : 2 ≤ b.t) (hc : StrictTotal b.compare)
    (hinv : b.invariant = true) (hl : InorderTraverse b = some l)
    (hkey : ∃ x ∈ l, x.Key = key) :
    ∃ b2, TryAdd b key value = some (b2, false) ∧ b2.Count = b.Count ∧
      InorderTraverse b2 = some l ∧ b2.invariant = true ∧
      (b.meetsFull key = false → b2 = b) := by
  obtain ⟨b2, r, l1, l2, hrun, hl1, hl2, -, hout, hinv2, -, -, hcnt, -⟩ :=
    TryAdd_core b key value ht hc hinv
  rw [hl] at hl1
  simp only [Option.some.injEq] at hl1
  subst hl1
  rcases hout with ⟨-, hins⟩ | ⟨hr, e, -⟩
  · obtain ⟨x, hx, hk⟩ := hkey
    exact absurd hk (hins.not_mem hc x hx)
  · subst hr e
    refine ⟨b2, hrun, ?_, hl2, hinv2, fun hm => TryAdd_false_unchanged b b2 key value hm hrun⟩
    simp only [BTree.Count]
    rw [hcnt]
    simp

theorem TryAdd_duplicate_structure_witness :
    (2 ≤ tenTree.t ∧ StrictTotal tenTree.compare ∧ tenTree.invariant = true ∧
      InorderTraverse tenTree = some tenItems ∧ (∃ x ∈ tenItems, x.Key = 7)) ∧
    tenTree.meetsFull 7 = false ∧
    ∃ b2, TryAdd tenTree 7 99 = some (b2, false) ∧ b2.Count = tenTree.Count ∧
      InorderTraverse b2 = some tenItems ∧ b2.invariant = true ∧
      (tenTree.meetsFull 7 = false → b2 = tenTree) :=
  ⟨⟨by decide, intCompare_strictTotal, by decide, rfl, by decide⟩, by decide,
    TryAdd_duplicate_structure tenTree 7 99 tenItems (by decide) intCompare_strictTotal
      (by decide) rfl (by decide)⟩

/-- C9 as stated fails: the tree `fullRootTree` (minimum degree 2, root
`[2 4 6]` over the leaves `[1] [3] [5] [7]`) satisfies the invariant and holds
the key 7, and `TryAdd(7, 0)` returns `false` after it has split the full
root: the tree after the call has another root and is one level higher. -/
theorem TryAdd_duplicate_splits_root :
    2 ≤ fullRootTree.t ∧ StrictTotal fullRootTree.compare ∧ fullRootTree.invariant = true ∧
    InorderTraverse fullRootTree = some fullRootItems ∧ (∃ x ∈ fullRootItems, x.Key = 7) ∧
    TryAdd fullRootTree 7 0 = some (fullRootTreeSplit, false) ∧
    fullRootTreeSplit.root ≠ fullRootTree.root ∧
    fullRootTree.root.map node.height = some 1 ∧
    fullRootTreeSplit.root.map node.height = some 2 :=
  ⟨by decide, intCompare_strictTotal, by decide, rfl, by decide, rfl,
    by simp [fullRootTreeSplit, fullRootTree], rfl, rfl⟩

theorem remove_child_none (t : Nat) (cmp : K → K → Int) (key : K) (parent : node K V)
    (ci : Nat) (h : parent.children[ci]? = none) :
    ∀ fuel, remove t cmp key fuel parent ci = none := by
  intro fuel
  cases fuel with
  | zero => simp [remove]
  | succ f => simp [remove, h]

theorem TryRemove_false_unchanged (b b2 : BTree K V) (key : K)
    (hne : b.rootNonEmpty = true) (hm : b.meetsMinimal key = false)
    (h : TryRemove b key = some (b2, false)) : b2 = b := by
  obtain ⟨root, t, count, cmp⟩ := b
  cases root with
  | none =>
    simp only [TryRemove, Option.some.injEq, Prod.mk.injEq, and_true] at h
    exact h.symm
  | some root =>
    have hpos : 0 < root.items.length := (rootNonEmpty_some root t count cmp).1 hne
    simp only [BTree.meetsMinimal, remove.meetsMinimal] at hm
    simp only [TryRemove, Option.bind_eq_bind] at h
    cases hb : root.bSearch key cmp with
    | none => simp only [hb, Option.none_bind] at h; cases h
    | some ie =>
      obtain ⟨ind, ex⟩ := ie
      simp only [hb, Option.some_bind] at h hm
      cases ex with
      | true =>
        simp only [if_true] at h
        cases hd : delete t cmp (2 * root.height + 2) root ind with
        | none => simp only [hd, Option.none_bind] at h; cases h
        | some r2 =>
          simp only [hd, Option.some_bind] at h
          by_cases h0 : (r2.items.length == 0) = true
          · simp only [h0, if_true] at h
            by_cases hlf : r2.isLeaf = true
            · simp only [hlf, if_true, Option.pure_def, Option.some_bind, Option.some.injEq,
                Prod.mk.injEq, Bool.true_eq_false, and_false] at h
            · have hlf2 : r2.isLeaf = false := by simpa using hlf
              simp only [hlf2, Bool.false_eq_true, if_false] at h
              cases hc0 : r2.children[0]? with
              | none => simp only [hc0, Option.none_bind] at h; cases h
              | some c0 =>
                simp only [hc0, Option.some_bind, Option.pure_def, Option.some.injEq,
                  Prod.mk.injEq, Bool.true_eq_false, and_false] at h
          · have h02 : (r2.items.length == 0) = false := by simpa using h0
            simp only [h02, Bool.false_eq_true, if_false, Option.pure_def, Option.some_bind,
              Option.some.injEq, Prod.mk.injEq, Bool.true_eq_false, and_false] at h
      | false =>
        simp only [Bool.false_eq_true, if_false] at h hm
        by_cases hleaf : root.isLeaf = true
        · simp only [hleaf, if_true, Option.pure_def, Option.some.injEq, Prod.mk.injEq,
            and_true] at h
          exact h.symm
        · have hleaf2 : root.isLeaf = false := by simpa using hleaf
          simp only [hleaf2, Bool.false_eq_true, if_false] at h hm
          cases hr : remove t cmp key (2 * root.height + 2) root ind with
          | none => simp only [hr, Option.none_bind] at h; cases h
          | some q =>
            obtain ⟨root2, removed⟩ := q
            simp only [hr, Option.some_bind] at h
            cases hc : root.children[ind]? with
            | none =>
              rw [remove_child_none t cmp key root ind hc] at hr
              cases hr
            | some c =>
              simp only [hc] at hm
              by_cases hmin : (c.items.length == t - 1) = true
              · simp [hmin] at hm
              · have hmin2 : (c.items.length == t - 1) = false := by simpa using hmin
                simp only [hmin2, Bool.false_eq_true, if_false] at hm
                cases removed with
                | true =>
                  by_cases h0 : (root2.items.length == 0) = true
                  · simp only [h0, if_true] at h
                    cases hc0 : root2.children[0]? with
                    | none => simp only [hc0, Option.none_bind] at h; cases h
                    | some c0 =>
                      simp only [hc0, Option.some_bind, if_true, Option.pure_def,
                        Option.some.injEq, Prod.mk.injEq, Bool.true_eq_false, and_false] at h
                  · have h02 : (root2.items.length == 0) = false := by simpa using h0
                    simp only [h02, Bool.false_eq_true, if_false, Option.pure_def,
                      Option.some_bind, if_true, Option.some.injEq, Prod.mk.injEq,
                      Bool.true_eq_false, and_false] at h
                | false =>
                  have e := remove_false_unchanged t key (2 * root.height + 2) root ind c
                    root2 hc hmin2 hm hr
                  subst e
                  have h0 : (root2.items.length == 0) = false := by
                    simp only [beq_eq_false_iff_ne, ne_eq]
                    omega
                  simp only [h0, Bool.false_eq_true, if_false, Option.pure_def,
                    Option.some_bind, Option.some.injEq, Prod.mk.injEq, and_true] at h
                  exact h.symm

/-- C10 (amended): for every `t ≥ 2`, every tree that satisfies the structural
invariant (a root that is present holds an item) and every key absent from it,
`TryRemove(key)` returns `false` and leaves `Count()`, `InorderTraverse()` and
the invariant as they were; the tree after the call is identical to the tree
before it, node for node, whenever the search for the key descends into no
node that holds only `t-1` items. -/
theorem TryRemove_absent_structure (b : BTree K V) (key : K) (l : List (Item K V))
    (ht : 2 ≤ b.t) (hc : StrictTotal b.compare) (hinv : b.invariant = true)
    (hne : b.rootNonEmpty = true)
    (hl : InorderTraverse b = some l) (hkey : ∀ x ∈ l, x.Key ≠ key) :
    ∃ b2, TryRemove b key = some (b2, false) ∧ b2.Count = b.Count ∧
      InorderTraverse b2 = some l ∧ b2.invariant = true ∧
      (b.meetsMinimal key = false → b2 = b) := by
  obtain ⟨b2, r, l1, l2, hrun, hl1, hl2, -, hout, hinv2, -, -, -, -, hcnt⟩ :=
    TryRemove_core b key ht hc hinv hne
  rw [hl] at hl1
  simp only [Option.some.injEq] at hl1
  subst hl1
  rcases hout with ⟨-, p, x, q, e, hk, -⟩ | ⟨hr, e, -⟩
  · exact absurd hk (hkey x (by rw [e]; simp))
  · subst hr e
    exact ⟨b2, hrun, hcnt rfl, hl2, hinv2,
      fun hm => TryRemove_false_unchanged b b2 key hne hm hrun⟩

theorem TryRemove_absent_structure_witness :
    (2 ≤ tenTree.t ∧ StrictTotal tenTree.compare ∧ tenTree.invariant = true ∧
      tenTree.rootNonEmpty = true ∧ InorderTraverse tenTree = some tenItems ∧
      (∀ x ∈ tenItems, x.Key ≠ 11)) ∧
    tenTree.meetsMinimal 11 = false ∧
    ∃ b2, TryRemove tenTree 11 = some (b2, false) ∧ b2.Count = tenTree.Count ∧
      InorderTraverse b2 = some tenItems ∧ b2.invariant = true ∧
      (tenTree.meetsMinimal 11 = false → b2 = tenTree) :=
  ⟨⟨by decide, intCompare_strictTotal, by decide, by decide, rfl, by decide⟩, by decide,
    TryRemove_absent_structure tenTree 11 tenItems (by decide) intCompare_strictTotal
      (by decide) (by decide) rfl (by decide)⟩

/-- C10 as stated fails: the tree `tenTree` (minimum degree 2, the keys 1..10)
satisfies the invariant and does not hold the key 0, and `TryRemove(0)` returns
`false` after a steal from the right child of the root and a merge of two
leaves have taken effect: the tree after the call has other nodes. -/
theorem TryRemove_absent_restructures :
    2 ≤ tenTree.t ∧ StrictTotal tenTree.compare ∧ tenTree.invariant = true ∧
    tenTree.rootNonEmpty = true ∧
    InorderTraverse tenTree = some tenItems ∧ (∀ x ∈ tenItems, x.Key ≠ 0) ∧
    TryRemove tenTree 0 = some (tenTreeRestructured, false) ∧
    tenTreeRestructured.root ≠ tenTree.root :=
  ⟨by decide, intCompare_strictTotal, by decide, by decide, rfl, by decide, rfl,
    by simp [tenTreeRestructured, tenTree]⟩

end operations

/-! ## `TryUpdate` -/

section updateSpec

variable {K V : Type} {cmp : K → K → Int}

theorem map_fixed {α : Type} (f : α → α) (l : List α) (h : ∀ x ∈ l, f x = x) :
    l.map f = l := by
  induction l with
  | nil => rfl
  | cons a l ih =>
    simp only [List.map_cons]
    rw [h a (List.mem_cons_self _ _), ih (fun x hx => h x (List.mem_cons_of_mem _ hx))]

theorem mapItemsList_eq (f : Item K V → Item K V) (cs : List (node K V)) :
    node.mapItemsList f cs = cs.map (node.mapItems f) := by
  induction cs with
  | nil => simp [node.mapItemsList]
  | cons c cs ih => simp [node.mapItemsList, ih]

theorem mapItems_mk (f : Item K V → Item K V) (its : List (Item K V)) (cs : List (node K V)) :
    (node.mk its cs).mapItems f = node.mk (its.map f) (cs.map (node.mapItems f)) := by
  simp [node.mapItems, mapItemsList_eq]

theorem map_weaveR {α : Type} (f : α → α) : ∀ (xs : List α) (bs : List (List α)),
    (weaveR xs bs).map f = weaveR (xs.map f) (bs.map (List.map f)) := by
  intro xs
  induction xs with
  | nil => intro bs; simp
  | cons x xs ih =>
    intro bs
    cases bs with
    | nil => simp
    | cons b bs => simp [ih]

theorem map_interleave {α : Type} (f : α → α) (xs : List α) (bs : List (List α)) :
    (interleave xs bs).map f = interleave (xs.map f) (bs.map (List.map f)) := by
  cases bs with
  | nil => simp
  | cons b bs => simp [map_weaveR]

theorem inorderList_map (f : Item K V → Item K V) (cs : List (node K V))
    (h : ∀ c ∈ cs, (c.mapItems f).inorder = c.inorder.map f) :
    node.inorderList (cs.map (node.mapItems f)) = (node.inorderList cs).map (List.map f) := by
  induction cs with
  | nil => simp
  | cons c cs ih =>
    simp only [List.map_cons, inorderList_cons]
    rw [h c (List.mem_cons_self _ _), ih (fun x hx => h x (List.mem_cons_of_mem _ hx))]

/-- Applying a function to the items of a node keeps its shape. -/
theorem mapItems_shaped (f : Item K V → Item K V) {t : Nat} :
    ∀ (d lo : Nat) (n : node K V), n.shaped t d lo = true →
      (n.mapItems f).shaped t d lo = true := by
  intro d
  induction d with
  | zero =>
    intro lo n h
    cases n with
    | mk its cs =>
      rw [shaped_zero] at h ⊢
      simp only [node.children_mk, node.items_mk] at h
      rw [mapItems_mk]
      simp only [node.children_mk, node.items_mk, List.length_map, List.map_eq_nil_iff]
      exact h
  | succ d ih =>
    intro lo n h
    cases n with
    | mk its cs =>
      rw [shaped_succ] at h ⊢
      simp only [node.children_mk, node.items_mk] at h
      rw [mapItems_mk]
      simp only [node.children_mk, node.items_mk, List.length_map]
      refine ⟨h.1, h.2.1, h.2.2.1, ?_⟩
      intro c hc
      obtain ⟨c0, hc0, rfl⟩ := List.mem_map.1 hc
      exact ih _ c0 (h.2.2.2 c0 hc0)

/-- Applying a function to the items of a node applies it to its sequence. -/
theorem mapItems_inorder (f : Item K V → Item K V) {t : Nat} :
    ∀ (d lo : Nat) (n : node K V), n.shaped t d lo = true →
      (n.mapItems f).inorder = n.inorder.map f := by
  intro d
  induction d with
  | zero =>
    intro lo n h
    cases n with
    | mk its cs =>
      rw [shaped_zero] at h
      simp only [node.children_mk] at h
      obtain ⟨rfl, -⟩ := h
      rw [mapItems_mk]
      simp
  | succ d ih =>
    intro lo n h
    cases n with
    | mk its cs =>
      rw [shaped_succ] at h
      simp only [node.children_mk] at h
      rw [mapItems_mk, inorder_mk, inorder_mk, map_interleave,
        inorderList_map f cs (fun c hc => ih _ c (h.2.2.2 c hc))]

/-- A function that fixes every item of the sequence of a node fixes the node. -/
theorem mapItems_id (f : Item K V → Item K V) {t : Nat} :
    ∀ (d lo : Nat) (n : node K V), n.shaped t d lo = true →
      (∀ x ∈ n.inorder, f x = x) → n.mapItems f = n := by
  intro d
  induction d with
  | zero =>
    intro lo n h hf
    cases n with
    | mk its cs =>
      rw [shaped_zero] at h
      simp only [node.children_mk] at h
      obtain ⟨rfl, -⟩ := h
      rw [mapItems_mk]
      simp only [inorder_leaf] at hf
      simp only [List.map_nil, node.mk.injEq, and_true]
      exact map_fixed f its hf
  | succ d ih =>
    intro lo n h hf
    have hmem := fun x => mem_inorder h x
    cases n with
    | mk its cs =>
      rw [shaped_succ] at h
      simp only [node.children_mk, node.items_mk] at h hmem
      rw [mapItems_mk]
      simp only [node.mk.injEq]
      constructor
      · exact map_fixed f its (fun x hx => hf x ((hmem x).2 (Or.inl hx)))
      · apply map_fixed
        intro c hc
        exact ih _ c (h.2.2.2 c hc) (fun x hx => hf x ((hmem x).2 (Or.inr ⟨c, hc, hx⟩)))

theorem setValue_key (key : K) (new : V) (x : Item K V) :
    (setValue cmp key new x).Key = x.Key := by
  unfold setValue
  split <;> rfl

theorem setValue_ne (hc : StrictTotal cmp) (key : K) (new : V) (x : Item K V)
    (h : x.Key ≠ key) : setValue cmp key new x = x := by
  unfold setValue
  rw [if_neg]
  intro h0
  exact h ((hc.eq_iff _ _).1 h0)

theorem setValue_eq (hc : StrictTotal cmp) (key : K) (new : V) (x : Item K V)
    (h : x.Key = key) : setValue cmp key new x = { x with Value := new } := by
  unfold setValue
  rw [if_pos]
  exact (hc.eq_iff _ _).2 h

theorem sorted_map_setValue (key : K) (new : V) {l : List (Item K V)}
    (hs : SortedItems cmp l) : SortedItems cmp (l.map (setValue cmp key new)) := by
  unfold SortedItems at hs ⊢
  rw [List.pairwise_map]
  exact hs.imp (fun {a b} h => by rw [setValue_key, setValue_key]; exact h)

/-- The sequence of a node around one of its own items. -/
theorem inorder_at_item {t d lo : Nat} (xs1 : List (Item K V)) (x : Item K V)
    (xs2 : List (Item K V)) (cs : List (node K V))
    (hsh : (node.mk (xs1 ++ x :: xs2) cs).shaped t d lo = true) :
    ∃ A B, (node.mk (xs1 ++ x :: xs2) cs).inorder = A ++ x :: B ∧
      (∀ y ∈ xs1, y ∈ A) ∧ (∀ y ∈ xs2, y ∈ B) ∧
      (∀ c ∈ cs, ∀ y ∈ c.inorder, y ∈ A ∨ y ∈ B) := by
  cases d with
  | zero =>
    rw [shaped_zero] at hsh
    simp only [node.children_mk] at hsh
    obtain ⟨rfl, -⟩ := hsh
    exact ⟨xs1, xs2, by simp, fun y hy => hy, fun y hy => hy, fun c hc => by cases hc⟩
  | succ d =>
    have hp := (shaped_parent_iff _ _).1 hsh
    obtain ⟨cs1, cs2, rfl, hlen⟩ := exists_split_le cs (xs1.length + 1)
      (by rw [hp.1]; simp)
    have hl2 : cs2.length = xs2.length + 1 := by
      have := hp.1
      simp only [List.length_append, List.length_cons] at this
      omega
    have hne : cs2 ≠ [] := by
      intro e; rw [e] at hl2; simp at hl2
    refine ⟨interleave xs1 (node.inorderList cs1), interleave xs2 (node.inorderList cs2),
      ?_, ?_, ?_, ?_⟩
    · rw [inorder_mk, inorderList_append]
      exact interleave_append xs1 x xs2 _ _ (by simpa using hlen) (by
        intro e
        apply hne
        have := congrArg List.length e
        simp only [length_inorderList, List.length_nil] at this
        exact List.length_eq_zero.1 this)
    · intro y hy
      exact (mem_interleave y xs1 _ (Or.inr (by simpa using hlen))).2 (Or.inl hy)
    · intro y hy
      exact (mem_interleave y xs2 _ (Or.inr (by simpa using hl2))).2 (Or.inl hy)
    · intro c hc y hy
      rcases List.mem_append.1 hc with h | h
      · exact Or.inl ((mem_interleave y xs1 _ (Or.inr (by simpa using hlen))).2
          (Or.inr ⟨c.inorder, (mem_inorderList cs1 _).2 ⟨c, h, rfl⟩, hy⟩))
      · exact Or.inr ((mem_interleave y xs2 _ (Or.inr (by simpa using hl2))).2
          (Or.inr ⟨c.inorder, (mem_inorderList cs2 _).2 ⟨c, h, rfl⟩, hy⟩))

end updateSpec

section updateLoop

variable {K V : Type} {cmp : K → K → Int}

theorem mem_weaveL_block {α : Type} : ∀ (bs : List (List α)) (xs : List α),
    bs.length = xs.length → ∀ b ∈ bs, ∀ y ∈ b, y ∈ weaveL bs xs := by
  intro bs
  induction bs with
  | nil => intro xs _ b hb; cases hb
  | cons b0 bs ih =>
    intro xs hlen b hb y hy
    cases xs with
    | nil => simp at hlen
    | cons x xs =>
      simp only [weaveL_cons, List.mem_append, List.mem_cons]
      rcases List.mem_cons.1 hb with e | h
      · subst e; exact Or.inl hy
      · exact Or.inr (Or.inr (ih xs (by simpa using hlen) b h y hy))

/-- The node that holds the key, with the value of that item replaced. -/
theorem mapItems_at_item (hc : StrictTotal cmp) (key : K) (new : V) {t d lo : Nat}
    (xs1 : List (Item K V)) (x : Item K V) (xs2 : List (Item K V)) (cs : List (node K V))
    (hsh : (node.mk (xs1 ++ x :: xs2) cs).shaped t d lo = true)
    (hs : SortedItems cmp (node.mk (xs1 ++ x :: xs2) cs).inorder) (hk : x.Key = key) :
    (node.mk (xs1 ++ x :: xs2) cs).mapItems (setValue cmp key new)
      = node.mk (xs1 ++ { x with Value := new } :: xs2) cs := by
  obtain ⟨A, B, hino, h1, h2, h3⟩ := inorder_at_item xs1 x xs2 cs hsh
  rw [hino] at hs
  have hA : ∀ y ∈ A, setValue cmp key new y = y := by
    intro y hy
    apply setValue_ne hc
    have := hs.lt_of_append hy (List.mem_cons_self _ _)
    rw [hk] at this
    exact hc.ne_of_lt this
  have hB : ∀ y ∈ B, setValue cmp key new y = y := by
    intro y hy
    apply setValue_ne hc
    have := List.rel_of_pairwise_cons hs.append_right hy
    rw [hk] at this
    exact fun e => hc.ne_of_lt this e.symm
  rw [mapItems_mk]
  simp only [node.mk.injEq, List.map_append, List.map_cons]
  constructor
  · rw [map_fixed _ xs1 (fun y hy => hA y (h1 y hy)), map_fixed _ xs2 (fun y hy => hB y (h2 y hy)),
      setValue_eq hc key new x hk]
  · apply map_fixed
    intro c hcm
    cases d with
    | zero =>
      rw [shaped_zero] at hsh
      simp only [node.children_mk] at hsh
      rw [hsh.1] at hcm
      cases hcm
    | succ d =>
      have hp := (shaped_parent_iff _ _).1 hsh
      apply mapItems_id _ d (t - 1) c (hp.2.2.2 c hcm)
      intro y hy
      rcases h3 c hcm y hy with h | h
      · exact hA y h
      · exact hB y h

/-- The loop of `TryUpdate` replaces the value of the item that has the key and
nothing else; it reports whether there is such an item. -/
theorem TryUpdate_loop_spec (hc : StrictTotal cmp) {t : Nat} (key : K) (new : V) :
    ∀ (d lo fuel : Nat) (nd : node K V), nd.shaped t d lo = true →
      SortedItems cmp nd.inorder → d + 1 ≤ fuel →
      ∃ r, TryUpdate.loop cmp key new fuel nd
          = some (nd.mapItems (setValue cmp key new), r) ∧
        ((r = true ∧ ∃ x ∈ nd.inorder, x.Key = key) ∨
          (r = false ∧ (∀ x ∈ nd.inorder, x.Key ≠ key) ∧
            nd.mapItems (setValue cmp key new) = nd)) := by
  intro d
  induction d with
  | zero =>
    intro lo fuel nd hsh hs hfuel
    obtain ⟨f, rfl⟩ : ∃ f, fuel = f + 1 := ⟨fuel - 1, by omega⟩
    rcases bSearch_cases hc nd (sorted_items_of_inorder hsh hs) key with
      ⟨xs1, xs2, hits, h1, h2, hb⟩ | ⟨xs1, x, xs2, hits, hk, hb⟩
    · have hcs : nd.children = [] := (shaped_zero.1 hsh).1
      have hleaf : nd.isLeaf = true := (node.isLeaf_iff nd).2 hcs
      have hno : ∀ y ∈ nd.inorder, y.Key ≠ key := by
        cases nd with
        | mk its cs =>
          simp only [node.children_mk, node.items_mk] at hcs hits
          subst hcs hits
          intro y hy hk
          simp only [inorder_leaf] at hy
          rcases List.mem_append.1 hy with h | h
          · have := h1 y h; rw [hk] at this; exact hc.irrefl _ this
          · have := h2 y h; rw [hk] at this; exact hc.irrefl _ this
      have hid : nd.mapItems (setValue cmp key new) = nd :=
        mapItems_id _ 0 lo nd hsh (fun y hy => setValue_ne hc key new y (hno y hy))
      refine ⟨false, ?_, Or.inr ⟨rfl, hno, hid⟩⟩
      rw [hid]
      simp [TryUpdate.loop, hb, hleaf]
    · cases nd with
      | mk its cs =>
        simp only [node.items_mk] at hits
        subst hits
        have hget : (xs1 ++ x :: xs2)[xs1.length]? = some x := getElem?_at _ _ _ _ rfl
        have hset : setAt (xs1 ++ x :: xs2) xs1.length { x with Value := new }
            = some (xs1 ++ { x with Value := new } :: xs2) := setAt_at _ _ _ _ _ rfl
        refine ⟨true, ?_, Or.inl ⟨rfl, x, mem_items_inorder hsh (by simp), hk⟩⟩
        rw [mapItems_at_item hc key new xs1 x xs2 cs hsh hs hk]
        simp [TryUpdate.loop, hb, hget, hset]
  | succ d ih =>
    intro lo fuel nd hsh hs hfuel
    obtain ⟨f, rfl⟩ : ∃ f, fuel = f + 1 := ⟨fuel - 1, by omega⟩
    rcases bSearch_cases hc nd (sorted_items_of_inorder hsh hs) key with
      ⟨xs1, xs2, hits, h1, h2, hb⟩ | ⟨xs1, x, xs2, hits, hk, hb⟩
    · cases nd with
      | mk its cs =>
      simp only [node.items_mk] at hits
      subst hits
      have hp := (shaped_parent_iff _ _).1 hsh
      obtain ⟨cs1, c, cs2, rfl, hlen⟩ := exists_split_at cs xs1.length
        (by rw [hp.1]; simp; omega)
      have hleaf : (node.mk (xs1 ++ xs2) (cs1 ++ c :: cs2)).isLeaf = false := by
        simp [node.isLeaf]
      obtain ⟨hl2, hcsh, hcs, -, -, -, -⟩ := context_facts hlen hsh hs
      obtain ⟨hA, hB⟩ := context_bounds hc hlen hsh hs key h1 h2
      obtain ⟨r, hrun, hr⟩ := ih (t - 1) f c hcsh hcs (by omega)
      have hget : (cs1 ++ c :: cs2)[xs1.length]? = some c := getElem?_at _ _ _ _ hlen.symm
      have hset : setAt (cs1 ++ c :: cs2) xs1.length (c.mapItems (setValue cmp key new))
          = some (cs1 ++ c.mapItems (setValue cmp key new) :: cs2) :=
        setAt_at _ _ _ _ _ hlen.symm
      have hfixA : ∀ y ∈ weaveL (node.inorderList cs1) xs1, setValue cmp key new y = y := by
        intro y hy
        exact setValue_ne hc key new y (hc.ne_of_lt (hA y hy))
      have hfixB : ∀ y ∈ weaveR xs2 (node.inorderList cs2), setValue cmp key new y = y := by
        intro y hy
        exact setValue_ne hc key new y (fun e => hc.ne_of_lt (hB y hy) e.symm)
      have hmap : (node.mk (xs1 ++ xs2) (cs1 ++ c :: cs2)).mapItems (setValue cmp key new)
          = node.mk (xs1 ++ xs2) (cs1 ++ c.mapItems (setValue cmp key new) :: cs2) := by
        rw [mapItems_mk]
        simp only [node.mk.injEq, List.map_append, List.map_cons]
        constructor
        · rw [map_fixed _ xs1 (fun y hy => setValue_ne hc key new y (hc.ne_of_lt (h1 y hy))),
            map_fixed _ xs2
              (fun y hy => setValue_ne hc key new y (fun e => hc.ne_of_lt (h2 y hy) e.symm))]
        · have hall : ∀ c0 ∈ cs1 ++ c :: cs2, c0.shaped t d (t - 1) = true := hp.2.2.2
          rw [map_fixed _ cs1, map_fixed _ cs2]
          · intro c0 h0
            apply mapItems_id _ d (t - 1) c0 (hall c0 (by simp [h0]))
            intro y hy
            exact hfixB y ((mem_weaveR y xs2 _ (by simpa using hl2)).2
              (Or.inr ⟨c0.inorder, (mem_inorderList cs2 _).2 ⟨c0, h0, rfl⟩, hy⟩))
          · intro c0 h0
            apply mapItems_id _ d (t - 1) c0 (hall c0 (by simp [h0]))
            intro y hy
            exact hfixA y (mem_weaveL_block _ _ (by simpa using hlen) c0.inorder
              ((mem_inorderList cs1 _).2 ⟨c0, h0, rfl⟩) y hy)
      refine ⟨r, ?_, ?_⟩
      · rw [hmap]
        simp [TryUpdate.loop, hb, hleaf, hget, hrun, hset]
      · rw [hmap, inorder_split xs1 xs2 cs1 c cs2 hlen]
        rcases hr with ⟨e, x, hx, hk⟩ | ⟨e, hno, hid⟩
        · exact Or.inl ⟨e, x, by simp [hx], hk⟩
        · refine Or.inr ⟨e, ?_, by rw [hid]⟩
          intro y hy hk
          simp only [List.mem_append] at hy
          rcases hy with (h | h) | h
          · have := hA y h; rw [hk] at this; exact hc.irrefl _ this
          · exact hno y h hk
          · have := hB y h; rw [hk] at this; exact hc.irrefl _ this
    · cases nd with
      | mk its cs =>
        simp only [node.items_mk] at hits
        subst hits
        have hget : (xs1 ++ x :: xs2)[xs1.length]? = some x := getElem?_at _ _ _ _ rfl
        have hset : setAt (xs1 ++ x :: xs2) xs1.length { x with Value := new }
            = some (xs1 ++ { x with Value := new } :: xs2) := setAt_at _ _ _ _ _ rfl
        refine ⟨true, ?_, Or.inl ⟨rfl, x, mem_items_inorder hsh (by simp), hk⟩⟩
        rw [mapItems_at_item hc key new xs1 x xs2 cs hsh hs hk]
        simp [TryUpdate.loop, hb, hget, hset]

end updateLoop

section updateTree

variable {K V : Type}

/-- The behaviour of `TryUpdate` on a tree that satisfies the invariant, in one
statement. -/
theorem TryUpdate_core (b : BTree K V) (key : K) (new : V)
    (hc : StrictTotal b.compare) (hinv : b.invariant = true) :
    ∃ b2 r l, TryUpdate b key new = some (b2, r) ∧ InorderTraverse b = some l ∧
      b2 = { b with root := b.root.map (node.mapItems (setValue b.compare key new)) } ∧
      InorderTraverse b2 = some (l.map (setValue b.compare key new)) ∧
      SortedItems b.compare l ∧ b2.invariant = true ∧
      (b.rootNonEmpty = true → b2.rootNonEmpty = true) ∧
      ((r = true ∧ ∃ x ∈ l, x.Key = key) ∨
        (r = false ∧ (∀ x ∈ l, x.Key ≠ key) ∧ b2 = b)) := by
  obtain ⟨root, t, count, cmp⟩ := b
  simp only at hc
  cases root with
  | none =>
    refine ⟨⟨none, t, count, cmp⟩, false, [], rfl, rfl, rfl, rfl, List.Pairwise.nil, hinv,
      fun h => h, Or.inr ⟨rfl, ?_, rfl⟩⟩
    intro x hx
    cases hx
  | some root =>
    obtain ⟨d, hsh, hs⟩ := (invariant_iff cmp hc root t count).1 hinv
    have hd := shaped_height d 0 root hsh
    obtain ⟨r, hrun, hr⟩ := TryUpdate_loop_spec hc key new d 0 (root.height + 1) root hsh hs
      (by omega)
    have hsh2 := mapItems_shaped (setValue cmp key new) d 0 root hsh
    have hino := mapItems_inorder (setValue cmp key new) d 0 root hsh
    refine ⟨⟨some (root.mapItems (setValue cmp key new)), t, count, cmp⟩, r, root.inorder,
      ?_, ?_, rfl, ?_, hs, ?_, ?_, ?_⟩
    · simp [TryUpdate, hrun]
    · simp [InorderTraverse, inorderTraverse_eq d 0 root hsh]
    · simp [InorderTraverse, inorderTraverse_eq d 0 _ hsh2, hino]
    · apply (invariant_iff cmp hc _ _ _).2
      refine ⟨d, hsh2, ?_⟩
      rw [hino]
      exact sorted_map_setValue key new hs
    · intro h
      have h1 : 0 < root.items.length := (rootNonEmpty_some root t count cmp).1 h
      apply (rootNonEmpty_some _ t count cmp).2
      cases root with
      | mk its cs =>
        rw [mapItems_mk]
        simpa using h1
    · rcases hr with ⟨e, hx⟩ | ⟨e, hno, hid⟩
      · exact Or.inl ⟨e, hx⟩
      · exact Or.inr ⟨e, hno, by rw [hid]⟩

theorem Inserted.length_succ {cmp : K → K → Int} {key : K} {value : V}
    {l1 l2 : List (Item K V)} (h : Inserted cmp key value l1 l2) :
    l2.length = l1.length + 1 := by
  obtain ⟨p, q, e1, e2, -, -⟩ := h
  subst e1 e2
  simp
  omega

theorem Removed.length_pred {key : K} {l1 l2 : List (Item K V)} (h : Removed key l1 l2) :
    l2.length + 1 = l1.length := by
  obtain ⟨p, x, q, e1, -, e2⟩ := h
  subst e1 e2
  simp
  omega

end updateTree

/-! ## Sequences of calls -/

section sequences

variable {K V : Type}

/-- A call on a tree that satisfies the invariant and whose counter is the
length of its sequence leaves such a tree. -/
theorem run_state [Inhabited V] (b : BTree K V) (c : Call K V) (l : List (Item K V))
    (ht : 2 ≤ b.t) (hc : StrictTotal b.compare) (hinv : b.invariant = true)
    (hne : b.rootNonEmpty = true) (hl : InorderTraverse b = some l)
    (hcount : b.count = l.length) (hlen : l.length + 1 < 2 ^ 64) :
    ∃ b2 l2, c.run b = some b2 ∧ b2.t = b.t ∧ b2.compare = b.compare ∧
      b2.invariant = true ∧ b2.rootNonEmpty = true ∧ InorderTraverse b2 = some l2 ∧
      b2.count = l2.length ∧ l2.length ≤ l.length + 1 := by
  cases c with
  | add key value =>
    obtain ⟨b2, r, l1, l2, hrun, hl1, hl2, -, hout, hinv2, ht2, hc2, hcnt, hne2⟩ :=
      TryAdd_core b key value ht hc hinv
    rw [hl] at hl1
    simp only [Option.some.injEq] at hl1
    subst hl1
    refine ⟨b2, l2, by simp [Call.run, hrun], ht2, hc2, hinv2, hne2 hne, hl2, ?_, ?_⟩
    · rcases hout with ⟨hr, hins⟩ | ⟨hr, e, -⟩
      · subst hr
        rw [hcnt, hins.length_succ, hcount]
        simp only [if_true]
        omega
      · subst hr e
        rw [hcnt]
        simpa using hcount
    · rcases hout with ⟨-, hins⟩ | ⟨-, e, -⟩
      · rw [hins.length_succ]
      · rw [e]; omega
  | update key new =>
    obtain ⟨b2, r, l1, hrun, hl1, hb2, hl2, -, hinv2, hne2, -⟩ :=
      TryUpdate_core b key new hc hinv
    rw [hl] at hl1
    simp only [Option.some.injEq] at hl1
    subst hl1
    refine ⟨b2, _, by simp [Call.run, hrun], by rw [hb2], by rw [hb2], hinv2, hne2 hne, hl2,
      ?_, ?_⟩
    · rw [hb2]
      simpa using hcount
    · simp
  | get key =>
    obtain ⟨r, l1, hrun, -⟩ : ∃ r l1, TryGet b key = some r ∧ InorderTraverse b = some l1 := by
      obtain ⟨root, t, count, cmp⟩ := b
      simp only at hc
      cases root with
      | none => exact ⟨(false, default), [], rfl, rfl⟩
      | some root =>
        obtain ⟨d, hsh, hs⟩ := (invariant_iff cmp hc root t count).1 hinv
        have hd := shaped_height d 0 root hsh
        obtain ⟨r, hrun, -⟩ := TryGet_loop_spec hc key (default : V) d 0 (root.height + 1)
          root hsh hs (by omega)
        exact ⟨r, root.inorder, by simp [TryGet, hrun],
          by simp [InorderTraverse, inorderTraverse_eq d 0 root hsh]⟩
    exact ⟨b, l, by simp [Call.run, hrun], rfl, rfl, hinv, hne, hl, hcount, by omega⟩
  | remove key =>
    obtain ⟨b2, r, l1, l2, hrun, hl1, hl2, -, hout, hinv2, hne2, ht2, hc2, hcnt1, hcnt2⟩ :=
      TryRemove_core b key ht hc hinv hne
    rw [hl] at hl1
    simp only [Option.some.injEq] at hl1
    subst hl1
    refine ⟨b2, l2, by simp [Call.run, hrun], ht2, hc2, hinv2, hne2, hl2, ?_, ?_⟩
    · rcases hout with ⟨hr, hrem⟩ | ⟨hr, e, -⟩
      · have := hrem.length_pred
        rw [hcnt1 hr, hcount]
        omega
      · rw [hcnt2 hr, e]
        exact hcount
    · rcases hout with ⟨-, hrem⟩ | ⟨-, e, -⟩
      · have := hrem.length_pred
        omega
      · rw [e]; omega

/-- A sequence of calls on such a tree leaves such a tree. -/
theorem runCalls_state [Inhabited V] (t : Nat) (cmp : K → K → Int) (ht : 2 ≤ t)
    (hc : StrictTotal cmp) :
    ∀ (calls : List (Call K V)) (b : BTree K V) (l : List (Item K V)),
      b.t = t → b.compare = cmp → b.invariant = true → b.rootNonEmpty = true →
      InorderTraverse b = some l → b.count = l.length →
      l.length + calls.length < 2 ^ 64 →
      ∃ b2 l2, runCalls b calls = some b2 ∧ b2.t = t ∧ b2.compare = cmp ∧
        b2.invariant = true ∧ b2.rootNonEmpty = true ∧ InorderTraverse b2 = some l2 ∧
        b2.count = l2.length ∧ l2.length ≤ l.length + calls.length := by
  intro calls
  induction calls with
  | nil =>
    intro b l hbt hbc hinv hne hl hcount _
    exact ⟨b, l, rfl, hbt, hbc, hinv, hne, hl, hcount, by simp⟩
  | cons c rest ih =>
    intro b l hbt hbc hinv hne hl hcount hlen
    simp only [List.length_cons] at hlen
    subst hbt hbc
    obtain ⟨b1, l1, hrun, ht1, hc1, hinv1, hne1, hl1, hcount1, hle1⟩ :=
      run_state b c l ht hc hinv hne hl hcount (by omega)
    obtain ⟨b2, l2, hrun2, ht2, hc2, hinv2, hne2, hl2, hcount2, hle2⟩ :=
      ih b1 l1 ht1 hc1 hinv1 hne1 hl1 hcount1 (by omega)
    refine ⟨b2, l2, by simp [runCalls, hrun, hrun2], ht2, hc2, hinv2, hne2, hl2, hcount2, ?_⟩
    simp only [List.length_cons]
    omega

/-- The state of the tree after `addAll`. -/
theorem addAll_state (t : Nat) (cmp : K → K → Int) (ht : 2 ≤ t) (hc : StrictTotal cmp) :
    ∀ (kvs : List (Item K V)) (b : BTree K V) (l : List (Item K V)),
      b.t = t → b.compare = cmp → b.invariant = true → b.rootNonEmpty = true →
      InorderTraverse b = some l → b.count = l.length →
      l.length + kvs.length < 2 ^ 64 →
      ∃ b2 rs l2, addAll b kvs = some (b2, rs) ∧ b2.t = t ∧ b2.compare = cmp ∧
        b2.invariant = true ∧ b2.rootNonEmpty = true ∧ InorderTraverse b2 = some l2 ∧
        b2.count = l2.length ∧ l2.length ≤ l.length + kvs.length := by
  intro kvs
  induction kvs with
  | nil =>
    intro b l hbt hbc hinv hne hl hcount _
    exact ⟨b, [], l, rfl, hbt, hbc, hinv, hne, hl, hcount, by simp⟩
  | cons kv rest ih =>
    intro b l hbt hbc hinv hne hl hcount hlen
    simp only [List.length_cons] at hlen
    subst hbt hbc
    obtain ⟨b1, r, l0, l1, hrun, hl0, hl1, -, hout, hinv1, ht1, hc1, hcnt, hne1⟩ :=
      TryAdd_core b kv.Key kv.Value ht hc hinv
    rw [hl] at hl0
    simp only [Option.some.injEq] at hl0
    subst hl0
    have hcount1 : b1.count = l1.length ∧ l1.length ≤ l.length + 1 := by
      rcases hout with ⟨hr, hins⟩ | ⟨hr, e, -⟩
      · subst hr
        rw [hcnt, hins.length_succ, hcount]
        simp only [if_true]
        constructor <;> omega
      · subst hr e
        rw [hcnt]
        exact ⟨by simpa using hcount, by omega⟩
    obtain ⟨b2, rs, l2, hrun2, ht2, hc2, hinv2, hne2, hl2, hcount2, hle2⟩ :=
      ih b1 l1 ht1 hc1 hinv1 (hne1 hne) hl1 hcount1.1 (by omega)
    refine ⟨b2, r :: rs, l2, by simp [addAll, hrun, hrun2], ht2, hc2, hinv2, hne2, hl2,
      hcount2, ?_⟩
    simp only [List.length_cons]
    omega

/-- A tree whose sequence is empty has no root. -/
theorem root_none_of_empty (b : BTree K V) (hc : StrictTotal b.compare)
    (hinv : b.invariant = true) (hne : b.rootNonEmpty = true)
    (hl : InorderTraverse b = some []) : b.root = none := by
  obtain ⟨root, t, count, cmp⟩ := b
  simp only at hc
  cases root with
  | none => rfl
  | some root =>
    exfalso
    obtain ⟨d, hsh, -⟩ := (invariant_iff cmp hc root t count).1 hinv
    have h1 : 0 < root.items.length := (rootNonEmpty_some root t count cmp).1 hne
    simp only [InorderTraverse, inorderTraverse_eq d 0 root hsh, Option.some.injEq] at hl
    obtain ⟨x, hx⟩ := List.exists_mem_of_length_pos h1
    have := mem_items_inorder hsh hx
    rw [hl] at this
    cases this

/-- Removing every key of a tree, in any order, empties it. -/
theorem removeAll_spec (t : Nat) (cmp : K → K → Int) (ht : 2 ≤ t) (hc : StrictTotal cmp) :
    ∀ (ks : List K) (b : BTree K V) (l : List (Item K V)),
      b.t = t → b.compare = cmp → b.invariant = true → b.rootNonEmpty = true →
      InorderTraverse b = some l → b.count = l.length → l.length < 2 ^ 64 →
      ks.Perm (l.map Item.Key) →
      ∃ b2 rs, removeAll b ks = some (b2, rs) ∧ rs.length = ks.length ∧
        (∀ r ∈ rs, r = true) ∧ b2.root = none ∧ b2.count = 0 ∧
        InorderTraverse b2 = some [] := by
  intro ks
  induction ks with
  | nil =>
    intro b l hbt hbc hinv hne hl hcount _ hp
    have hl0 : l = [] := by
      have := hp.length_eq
      simp only [List.length_nil, List.length_map] at this
      exact List.length_eq_zero.1 this.symm
    subst hl0 hbc
    refine ⟨b, [], rfl, rfl, ?_, root_none_of_empty b hc hinv hne hl, ?_, hl⟩
    · intro r hr
      cases hr
    · simpa using hcount
  | cons k rest ih =>
    intro b l hbt hbc hinv hne hl hcount hlen hp
    subst hbt hbc
    obtain ⟨b1, r, l0, l1, hrun, hl0, hl1, -, hout, hinv1, hne1, ht1, hc1, hcnt1, -⟩ :=
      TryRemove_core b k ht hc hinv hne
    rw [hl] at hl0
    simp only [Option.some.injEq] at hl0
    subst hl0
    have hk : k ∈ l.map Item.Key := hp.mem_iff.1 (List.mem_cons_self _ _)
    obtain ⟨x0, hx0, hk0⟩ := List.mem_map.1 hk
    rcases hout with ⟨hr, hrem⟩ | ⟨-, -, hno⟩
    · subst hr
      have hlen1 := hrem.length_pred
      obtain ⟨p, x, q, e1, hxk, e2⟩ := hrem
      have hp1 : rest.Perm (l1.map Item.Key) := by
        rw [e1] at hp
        simp only [List.map_append, List.map_cons, hxk] at hp
        have := hp.trans List.perm_middle
        rw [e2]
        simpa using this.cons_inv
      obtain ⟨b2, rs, hrun2, hrl, hrs, hroot, hcnt2, hl2⟩ :=
        ih b1 l1 ht1 hc1 hinv1 hne1 hl1 (by rw [hcnt1 rfl, hcount]; omega) (by omega) hp1
      refine ⟨b2, true :: rs, by simp [removeAll, hrun, hrun2], by simp [hrl], ?_, hroot,
        hcnt2, hl2⟩
      intro r hr
      rcases List.mem_cons.1 hr with e | h
      · exact e
      · exact hrs r h
    · exact absurd hk0 (hno x0 hx0)

end sequences

/-! ## Sequences of calls, update, drain, panics and local search -/

section contracts

variable {K V : Type}

/-- C11: for every `t ≥ 2`, every strict-total-order comparator and every
finite sequence of `TryAdd`, `TryUpdate`, `TryGet` and `TryRemove` calls
(of fewer than `2^64` calls, `count` being a `uint64`) applied to a tree made
by `New`/`NewWith`, every call returns and `Count()` after the sequence equals
the length of `InorderTraverse()`. -/
theorem count_consistency [Inhabited V] (t : Nat) (cmp : K → K → Int)
    (calls : List (Call K V)) (ht : 2 ≤ t) (hc : StrictTotal cmp)
    (hlen : calls.length < 2 ^ 64) :
    ∃ b l, runCalls (NewWith t cmp) calls = some b ∧ InorderTraverse b = some l ∧
      b.Count = l.length := by
  obtain ⟨b2, l2, hrun, -, -, -, -, hl2, hcount, -⟩ :=
    runCalls_state t cmp ht hc calls (NewWith t cmp) [] rfl rfl rfl rfl rfl rfl
      (by simpa using hlen)
  exact ⟨b2, l2, hrun, hl2, hcount⟩

theorem count_consistency_witness :
    (2 ≤ 2 ∧ StrictTotal intCompare ∧
      ([Call.add 3 30, Call.add 1 10, Call.add 3 31, Call.update 1 11, Call.get 2,
        Call.add 2 20, Call.add 4 40, Call.remove 3, Call.remove 7] :
          List (Call Int Int)).length < 2 ^ 64) ∧
    ∃ b l, runCalls (NewWith 2 intCompare)
        ([Call.add 3 30, Call.add 1 10, Call.add 3 31, Call.update 1 11, Call.get 2,
          Call.add 2 20, Call.add 4 40, Call.remove 3, Call.remove 7] :
            List (Call Int Int)) = some b ∧
      InorderTraverse b = some l ∧ b.Count = l.length :=
  ⟨⟨by decide, intCompare_strictTotal, by decide⟩,
    count_consistency 2 intCompare _ (by decide) intCompare_strictTotal (by decide)⟩

/-- C12: for every tree that satisfies the structural invariant and every key,
`TryUpdate(key, new)` returns `true` if and only if the key occurs in the tree.
`Count()` is unchanged and the tree after the call has the same nodes with the
same keys at the same places (only the value of the item with the key differs).
When it returns `true` the new `InorderTraverse()` is the old one with the
value paired with that key replaced by `new`; when it returns `false` the tree
and `InorderTraverse()` are unchanged. -/
theorem TryUpdate_contract (b : BTree K V) (key : K) (new : V) (l : List (Item K V))
    (hc : StrictTotal b.compare) (hinv : b.invariant = true)
    (hl : InorderTraverse b = some l) :
    ∃ b2 r, TryUpdate b key new = some (b2, r) ∧ (r = true ↔ ∃ x ∈ l, x.Key = key) ∧
      b2.Count = b.Count ∧
      b2.root = b.root.map (node.mapItems (setValue b.compare key new)) ∧
      (r = true → ∃ p x q, l = p ++ x :: q ∧ x.Key = key ∧
        InorderTraverse b2 = some (p ++ ⟨key, new⟩ :: q)) ∧
      (r = false → b2 = b ∧ InorderTraverse b2 = some l) := by
  obtain ⟨b2, r, l1, hrun, hl1, hb2, hl2, hs, -, -, hr⟩ := TryUpdate_core b key new hc hinv
  rw [hl] at hl1
  simp only [Option.some.injEq] at hl1
  subst hl1
  refine ⟨b2, r, hrun, ?_, by rw [hb2]; rfl, by rw [hb2], ?_, ?_⟩
  · rcases hr with ⟨e, hx⟩ | ⟨e, hno, -⟩
    · exact ⟨fun _ => hx, fun _ => e⟩
    · constructor
      · intro h; rw [e] at h; cases h
      · rintro ⟨x, hx, hk⟩
        exact absurd hk (hno x hx)
  · intro hrt
    rcases hr with ⟨-, x, hx, hk⟩ | ⟨e, -, -⟩
    · obtain ⟨p, q, e⟩ := List.append_of_mem hx
      subst e
      refine ⟨p, x, q, rfl, hk, ?_⟩
      rw [hl2]
      have hp : ∀ y ∈ p, setValue b.compare key new y = y := by
        intro y hy
        apply setValue_ne hc
        have := hs.lt_of_append hy (List.mem_cons_self _ _)
        rw [hk] at this
        exact hc.ne_of_lt this
      have hq : ∀ y ∈ q, setValue b.compare key new y = y := by
        intro y hy
        apply setValue_ne hc
        have := List.rel_of_pairwise_cons hs.append_right hy
        rw [hk] at this
        exact fun e => hc.ne_of_lt this e.symm
      rw [List.map_append, List.map_cons, map_fixed _ p hp, map_fixed _ q hq,
        setValue_eq hc key new x hk, ← hk]
    · rw [e] at hrt; cases hrt
  · intro hrf
    rcases hr with ⟨e, -⟩ | ⟨-, -, hid⟩
    · rw [e] at hrf; cases hrf
    · subst hid
      exact ⟨rfl, hl⟩

theorem TryUpdate_contract_witness :
    (StrictTotal tenTree.compare ∧ tenTree.invariant = true ∧
      InorderTraverse tenTree = some tenItems) ∧
    ∃ b2 r, TryUpdate tenTree 7 99 = some (b2, r) ∧ (r = true ↔ ∃ x ∈ tenItems, x.Key = 7) ∧
      b2.Count = tenTree.Count ∧
      b2.root = tenTree.root.map (node.mapItems (setValue tenTree.compare 7 99)) ∧
      (r = true → ∃ p x q, tenItems = p ++ x :: q ∧ x.Key = 7 ∧
        InorderTraverse b2 = some (p ++ ⟨7, 99⟩ :: q)) ∧
      (r = false → b2 = tenTree ∧ InorderTraverse b2 = some tenItems) :=
  ⟨⟨intCompare_strictTotal, by decide, rfl⟩,
    TryUpdate_contract tenTree 7 99 tenItems intCompare_strictTotal (by decide) rfl⟩

/-- C13: for every `t ≥ 2`, every strict-total-order comparator and every
finite list of pairs with pairwise distinct keys (fewer than `2^64`), adding
all of them to a new tree and then calling `TryRemove` once for each key, in
any order, makes every `TryRemove` return `true` and leaves the tree empty:
`Count()` is 0, `InorderTraverse()` is the empty sequence and the root is
absent. -/
theorem exhaustive_drain (t : Nat) (cmp : K → K → Int) (kvs : List (Item K V)) (ks : List K)
    (ht : 2 ≤ t) (hc : StrictTotal cmp) (hd : (kvs.map Item.Key).Nodup)
    (hp : ks.Perm (kvs.map Item.Key)) (hlen : kvs.length < 2 ^ 64) :
    ∃ b1 rs1 b2 rs2, addAll (NewWith t cmp) kvs = some (b1, rs1) ∧
      removeAll b1 ks = some (b2, rs2) ∧ rs2.length = ks.length ∧ (∀ r ∈ rs2, r = true) ∧
      b2.root = none ∧ b2.Count = 0 ∧ InorderTraverse b2 = some [] := by
  obtain ⟨b1, rs1, l1, hrun1, -, hl1, -, hperm⟩ :=
    addAll_spec t cmp ht hc kvs (NewWith t cmp) [] rfl rfl rfl rfl hd
      (fun x hx => by cases hx)
  obtain ⟨b1', rs1', l1', hrun1', ht1, hc1, hinv1, hne1, hl1', hcount1, hle1⟩ :=
    addAll_state t cmp ht hc kvs (NewWith t cmp) [] rfl rfl rfl rfl rfl rfl
      (by simpa using hlen)
  rw [hrun1] at hrun1'
  simp only [Option.some.injEq, Prod.mk.injEq] at hrun1'
  obtain ⟨e1, e2⟩ := hrun1'
  subst e1 e2
  rw [hl1] at hl1'
  simp only [Option.some.injEq] at hl1'
  subst hl1'
  simp only [List.nil_append] at hperm
  have hp1 : ks.Perm (l1.map Item.Key) := hp.trans (hperm.map Item.Key).symm
  obtain ⟨b2, rs2, hrun2, hrl, hrs, hroot, hcnt, hl2⟩ :=
    removeAll_spec t cmp ht hc ks b1 l1 ht1 hc1 hinv1 hne1 hl1 hcount1
      (by simp only [List.length_nil, Nat.zero_add] at hle1; omega) hp1
  exact ⟨b1, rs1, b2, rs2, hrun1, hrun2, hrl, hrs, hroot, hcnt, hl2⟩

theorem exhaustive_drain_witness :
    (2 ≤ 2 ∧ StrictTotal intCompare ∧
      (([⟨3, 30⟩, ⟨1, 10⟩, ⟨2, 20⟩, ⟨5, 50⟩, ⟨4, 40⟩] : List (Item Int Int)).map
        Item.Key).Nodup ∧
      ([4, 1, 5, 3, 2] : List Int).Perm
        (([⟨3, 30⟩, ⟨1, 10⟩, ⟨2, 20⟩, ⟨5, 50⟩, ⟨4, 40⟩] : List (Item Int Int)).map Item.Key) ∧
      ([⟨3, 30⟩, ⟨1, 10⟩, ⟨2, 20⟩, ⟨5, 50⟩, ⟨4, 40⟩] : List (Item Int Int)).length < 2 ^ 64) ∧
    ∃ b1 rs1 b2 rs2, addAll (NewWith 2 intCompare)
        ([⟨3, 30⟩, ⟨1, 10⟩, ⟨2, 20⟩, ⟨5, 50⟩, ⟨4, 40⟩] : List (Item Int Int)) = some (b1, rs1) ∧
      removeAll b1 [4, 1, 5, 3, 2] = some (b2, rs2) ∧
      rs2.length = ([4, 1, 5, 3, 2] : List Int).length ∧ (∀ r ∈ rs2, r = true) ∧
      b2.root = none ∧ b2.Count = 0 ∧ InorderTraverse b2 = some [] :=
  ⟨⟨by decide, intCompare_strictTotal, by decide, by decide, by decide⟩,
    exhaustive_drain 2 intCompare _ _ (by decide) intCompare_strictTotal (by decide)
      (by decide) (by decide)⟩

theorem TryGet_returns [Inhabited V] (b : BTree K V) (key : K) (hc : StrictTotal b.compare)
    (hinv : b.invariant = true) : ∃ r, TryGet b key = some r := by
  obtain ⟨root, t, count, cmp⟩ := b
  simp only at hc
  cases root with
  | none => exact ⟨(false, default), rfl⟩
  | some root =>
    obtain ⟨d, hsh, hs⟩ := (invariant_iff cmp hc root t count).1 hinv
    have hd := shaped_height d 0 root hsh
    obtain ⟨r, hrun, -⟩ := TryGet_loop_spec hc key (default : V) d 0 (root.height + 1)
      root hsh hs (by omega)
    exact ⟨r, by simp [TryGet, hrun]⟩

/-- C14: for every `t ≥ 2`, every tree that satisfies the structural invariant
(the empty tree with absent root included; a root that is present holds an
item) and every key, each of `TryAdd`, `TryGet`, `TryUpdate`, `TryRemove` and
`InorderTraverse` returns a result: no slice index or slice expression in them
or in `splitNode`, `stealIfPossible`, `merge`, `delete`, `remove`, `min` and
`max` is out of range, and the loops end. -/
theorem no_fatal_error [Inhabited V] (b : BTree K V) (key : K) (value : V) (ht : 2 ≤ b.t)
    (hc : StrictTotal b.compare) (hinv : b.invariant = true) (hne : b.rootNonEmpty = true) :
    (TryAdd b key value).isSome = true ∧ (TryGet b key).isSome = true ∧
      (TryUpdate b key value).isSome = true ∧ (TryRemove b key).isSome = true ∧
      (InorderTraverse b).isSome = true := by
  obtain ⟨b1, r1, l, l1, hadd, htr, -⟩ := TryAdd_core b key value ht hc hinv
  obtain ⟨b2, r2, l2, hupd, -⟩ := TryUpdate_core b key value hc hinv
  obtain ⟨b3, r3, l3, l4, hrem, -⟩ := TryRemove_core b key ht hc hinv hne
  obtain ⟨r4, hget⟩ := TryGet_returns b key hc hinv
  exact ⟨by rw [hadd]; rfl, by rw [hget]; rfl, by rw [hupd]; rfl, by rw [hrem]; rfl,
    by rw [htr]; rfl⟩

theorem no_fatal_error_witness :
    (2 ≤ tenTree.t ∧ StrictTotal tenTree.compare ∧ tenTree.invariant = true ∧
      tenTree.rootNonEmpty = true) ∧
    ((TryAdd tenTree 0 5).isSome = true ∧ (TryGet tenTree 0).isSome = true ∧
      (TryUpdate tenTree 0 5).isSome = true ∧ (TryRemove tenTree 0).isSome = true ∧
      (InorderTraverse tenTree).isSome = true) :=
  ⟨⟨by decide, intCompare_strictTotal, by decide, by decide⟩,
    no_fatal_error tenTree 0 5 (by decide) intCompare_strictTotal (by decide) (by decide)⟩

/-- C15: for every node whose item keys are strictly ascending under a
strict-total-order comparator and every key, `bSearch` returns `(i, found)`
with `0 ≤ i ≤ len(items)`; every item at an index below `i` has a key smaller
than the search key and every item at an index from `i` on has a key that is
not smaller, so `i` is the smallest index whose key is at least the search key
(or `len(items)`); `found` is true exactly when `i < len(items)` and
`items[i].Key` compares equal to the search key; on an empty node the result is
`(0, false)`. -/
theorem bSearch_lower_bound {cmp : K → K → Int} (hc : StrictTotal cmp) (n : node K V)
    (key : K) (hs : SortedItems cmp n.items) :
    ∃ i found, n.bSearch key cmp = some (i, found) ∧ i ≤ n.items.length ∧
      (∀ j x, n.items[j]? = some x → j < i → cmp x.Key key < 0) ∧
      (∀ j x, n.items[j]? = some x → i ≤ j → ¬ cmp x.Key key < 0) ∧
      (found = true ↔ ∃ x, n.items[i]? = some x ∧ cmp x.Key key = 0) ∧
      (n.items = [] → i = 0 ∧ found = false) := by
  obtain ⟨i, e, l1, l2, hb, hits, hl1, h1, htrue, hfalse⟩ := bSearch_spec hc n hs key
  have hle : i ≤ n.items.length := by rw [hits, ← hl1]; simp
  have hlow : ∀ j x, n.items[j]? = some x → j < i → cmp x.Key key < 0 := by
    intro j x hj hji
    rw [hits, List.getElem?_append_left (by omega)] at hj
    exact h1 x (List.getElem?_mem hj)
  have hhigh : ∀ x ∈ l2, ¬ cmp x.Key key < 0 := by
    intro x hx
    cases e with
    | true =>
      obtain ⟨x0, l3, e2, hk⟩ := htrue rfl
      subst e2
      rcases List.mem_cons.1 hx with h | h
      · subst h; rw [hk]; exact hc.irrefl _
      · rw [hits] at hs
        have := List.rel_of_pairwise_cons hs.append_right h
        rw [hk] at this
        exact hc.asymm this
    | false => exact hc.asymm (hfalse rfl x hx)
  have hfound : e = true ↔ ∃ x, n.items[i]? = some x ∧ cmp x.Key key = 0 := by
    constructor
    · intro he
      obtain ⟨x0, l3, e2, hk⟩ := htrue he
      refine ⟨x0, ?_, (hc.eq_iff _ _).2 hk⟩
      rw [hits, e2]
      exact getElem?_at _ _ _ _ hl1.symm
    · rintro ⟨x, hx, hk⟩
      cases e with
      | true => rfl
      | false =>
        exfalso
        rw [hits, List.getElem?_append_right (by omega)] at hx
        have hmem := List.getElem?_mem hx
        have := hfalse rfl x hmem
        rw [(hc.eq_iff _ _).1 hk] at this
        exact hc.irrefl _ this
  refine ⟨i, e, hb, hle, hlow, ?_, hfound, ?_⟩
  · intro j x hj hij
    rw [hits, List.getElem?_append_right (by omega)] at hj
    exact hhigh x (List.getElem?_mem hj)
  · intro h0
    rw [h0] at hle
    have hi0 : i = 0 := by simpa using hle
    refine ⟨hi0, ?_⟩
    cases e with
    | false => rfl
    | true =>
      obtain ⟨x, hx, -⟩ := hfound.1 rfl
      rw [h0] at hx
      simp at hx

theorem bSearch_lower_bound_witness :
    SortedItems intCompare
        (node.mk ([⟨1, 1⟩, ⟨3, 3⟩, ⟨5, 5⟩] : List (Item Int Int)) []).items ∧
    ∃ i found, (node.mk ([⟨1, 1⟩, ⟨3, 3⟩, ⟨5, 5⟩] : List (Item Int Int)) []).bSearch 4
        intCompare = some (i, found) ∧
      i ≤ (node.mk ([⟨1, 1⟩, ⟨3, 3⟩, ⟨5, 5⟩] : List (Item Int Int)) []).items.length ∧
      (∀ j x, (node.mk ([⟨1, 1⟩, ⟨3, 3⟩, ⟨5, 5⟩] : List (Item Int Int)) []).items[j]? = some x →
        j < i → intCompare x.Key 4 < 0) ∧
      (∀ j x, (node.mk ([⟨1, 1⟩, ⟨3, 3⟩, ⟨5, 5⟩] : List (Item Int Int)) []).items[j]? = some x →
        i ≤ j → ¬ intCompare x.Key 4 < 0) ∧
      (found = true ↔ ∃ x, (node.mk ([⟨1, 1⟩, ⟨3, 3⟩, ⟨5, 5⟩] : List (Item Int Int))
        []).items[i]? = some x ∧ intCompare x.Key 4 = 0) ∧
      ((node.mk ([⟨1, 1⟩, ⟨3, 3⟩, ⟨5, 5⟩] : List (Item Int Int)) []).items = [] →
        i = 0 ∧ found = false) :=
  ⟨by simp [SortedItems, intCompare],
    bSearch_lower_bound intCompare_strictTotal _ 4 (by simp [SortedItems, intCompare])⟩

end contracts

/-! ## `merge` and `splitNode` on one parent -/

section oneParent

variable {K V : Type} {cmp : K → K → Int}

/-- The sequence of the node that `merge` makes of two neighbours that are both
leaves or both internal. -/
theorem merged_inorder (a b : node K V) (sep : Item K V)
    (h : (a.children = [] ∧ b.children = []) ∨
      (a.children.length = a.items.length + 1 ∧ b.children.length = b.items.length + 1)) :
    (node.mk (a.items ++ [sep] ++ b.items) (a.children ++ b.children)).inorder
      = a.inorder ++ sep :: b.inorder := by
  cases a with
  | mk aits acs =>
  cases b with
  | mk bits bcs =>
  simp only [node.items_mk, node.children_mk] at h ⊢
  rcases h with ⟨h1, h2⟩ | ⟨h1, h2⟩
  · subst h1 h2
    simp
  · rw [inorder_mk, inorder_mk, inorder_mk, inorderList_append, List.append_assoc,
      List.singleton_append]
    apply interleave_append
    · simp [h1]
    · intro h
      have := congrArg List.length h
      simp only [length_inorderList, List.length_nil] at this
      omega

/-- The result of `merge` on the children at positions `left` and `left+1`. -/
theorem merge_eval (xs1 : List (Item K V)) (sep : Item K V) (xs2 : List (Item K V))
    (cs1 : List (node K V)) (a b : node K V) (cs2 : List (node K V)) (ci : Nat)
    (hlen : cs1.length = xs1.length) (hci : ci = cs1.length + 1 ∨ (ci = 0 ∧ cs1 = [])) :
    merge (node.mk (xs1 ++ sep :: xs2) (cs1 ++ a :: b :: cs2)) ci
        = some (node.mk (xs1 ++ xs2)
            (cs1 ++ node.mk (a.items ++ [sep] ++ b.items) (a.children ++ b.children) :: cs2),
          cs1.length) := by
  have hleft : (if 0 < ci then ci - 1 else ci) = cs1.length := by
    rcases hci with h | ⟨h1, h2⟩
    · subst h; simp
    · subst h1 h2; simp
  have hright : (if 0 < ci then ci else ci + 1) = cs1.length + 1 := by
    rcases hci with h | ⟨h1, h2⟩
    · subst h; simp
    · subst h1 h2; simp
  have h1 : (cs1 ++ a :: b :: cs2)[cs1.length]? = some a := getElem?_at _ _ _ _ rfl
  have h2 : (xs1 ++ sep :: xs2)[cs1.length]? = some sep := getElem?_at _ _ _ _ hlen
  have h3 : (cs1 ++ a :: b :: cs2)[cs1.length + 1]? = some b := getElem?_at_succ _ _ _ _ _ rfl
  have h4 : slicesDelete (xs1 ++ sep :: xs2) cs1.length (cs1.length + 1) = some (xs1 ++ xs2) :=
    slicesDelete_one _ _ _ _ _ hlen (by rw [hlen])
  have h5 : ∀ m : node K V, setAt (cs1 ++ a :: b :: cs2) cs1.length m
      = some (cs1 ++ m :: b :: cs2) := fun m => setAt_at _ _ _ _ _ rfl
  have h6 : ∀ m : node K V, slicesDelete (cs1 ++ m :: b :: cs2) (cs1.length + 1)
      (cs1.length + 1 + 1) = some (cs1 ++ m :: cs2) := fun m => by
    have := slicesDelete_one (cs1 ++ [m]) b cs2 (cs1.length + 1) (cs1.length + 1 + 1)
      (by simp) (by simp)
    simpa using this
  simp only [merge, hleft, hright, node.children_mk, node.items_mk, h1, h2, h3, h4, h5, h6,
    Option.bind_eq_bind, Option.some_bind, Option.pure_def]

/-- Two neighbouring children and the item between them, at a position below
the number of items. -/
theorem exists_split_two (its : List (Item K V)) (cs : List (node K V)) (left : Nat)
    (hch : cs.length = its.length + 1) (hl : left < its.length) :
    ∃ xs1 sep xs2 cs1 a b cs2, its = xs1 ++ sep :: xs2 ∧ xs1.length = left ∧
      cs = cs1 ++ a :: b :: cs2 ∧ cs1.length = left := by
  obtain ⟨xs1, sep, xs2, e1, h1⟩ := exists_split_at its left hl
  obtain ⟨cs1, a, rest, e2, h2⟩ := exists_split_at cs left (by omega)
  subst e1 e2
  cases rest with
  | nil =>
    simp only [List.length_append, List.length_cons, List.length_nil] at hch
    omega
  | cons b cs2 => exact ⟨xs1, sep, xs2, cs1, a, b, cs2, rfl, h1, rfl, h2⟩

end oneParent

section splitLocal

variable {K V : Type} {cmp : K → K → Int}

/-- The two halves and the promoted item that `splitNode` makes of a node with
`2t-1` items (and `2t` children when it is internal), and what it returns with
a parent. -/
theorem splitNode_local {t : Nat} (ht : 1 ≤ t) (c : node K V)
    (hfull : c.items.length = 2 * t - 1)
    (hcc : c.children = [] ∨ c.children.length = 2 * t) :
    ∃ left item right,
      c.items = left.items ++ item :: right.items ∧
      left.items.length = t - 1 ∧ right.items.length = t - 1 ∧
      c.children = left.children ++ right.children ∧
      (c.children = [] → left.children = [] ∧ right.children = []) ∧
      (c.children.length = 2 * t → left.children.length = t ∧ right.children.length = t) ∧
      c.inorder = left.inorder ++ item :: right.inorder ∧
      ∀ (xs1 xs2 : List (Item K V)) (cs1 cs2 : List (node K V)) (x : node K V),
        cs1.length = xs1.length →
        (node.mk (xs1 ++ xs2) (cs1 ++ x :: cs2)).bSearch item.Key cmp = some (xs1.length, false) →
        splitNode t cmp c (some (node.mk (xs1 ++ xs2) (cs1 ++ x :: cs2)))
          = some (cs1.length, cs1.length + 1,
              node.mk (xs1 ++ item :: xs2) (cs1 ++ left :: right :: cs2)) := by
  cases c with
  | mk its cs =>
  simp only [node.items_mk, node.children_mk] at hfull hcc
  obtain ⟨li, item, ri, e, hli⟩ := exists_split_at its (t - 1) (by omega)
  subst e
  have hri : ri.length = t - 1 := by
    simp only [List.length_append, List.length_cons] at hfull
    omega
  have h1 : sliceTo (li ++ item :: ri) (t - 1) = some li := sliceTo_at _ _ _ hli.symm
  have h2 : (li ++ item :: ri)[t - 1]? = some item := getElem?_at _ _ _ _ hli.symm
  have h3 : sliceFrom (li ++ item :: ri) t = some ri := by
    have : li ++ item :: ri = (li ++ [item]) ++ ri := by simp
    rw [this]
    exact sliceFrom_at _ _ _ (by simp; omega)
  by_cases hcs : cs = []
  · subst hcs
    refine ⟨node.mk li [], item, node.mk ri [], rfl, hli, hri, by simp, fun _ => ⟨rfl, rfl⟩,
      ?_, by simp, ?_⟩
    · intro h
      simp only [node.children_mk, List.length_nil] at h
      omega
    · intro xs1 xs2 cs1 cs2 x hlen hb
      have h4 : slicesInsert (xs1 ++ xs2) xs1.length item = some (xs1 ++ item :: xs2) :=
        slicesInsert_at _ _ _ _ rfl
      have h5 : setAt (cs1 ++ x :: cs2) xs1.length (node.mk li [])
          = some (cs1 ++ node.mk li [] :: cs2) := setAt_at _ _ _ _ _ hlen.symm
      have h6 : slicesInsert (cs1 ++ node.mk li [] :: cs2) (xs1.length + 1) (node.mk ri [])
          = some (cs1 ++ node.mk li [] :: node.mk ri [] :: cs2) := by
        have : cs1 ++ node.mk li [] :: cs2 = (cs1 ++ [node.mk li []]) ++ cs2 := by simp
        rw [this, slicesInsert_at _ _ _ _ (by simp [hlen])]
        simp
      simp [splitNode, h1, h2, h3, node.isLeaf, hb, h4, h5, h6, hlen]
  · have hcl : cs.length = 2 * t := by
      rcases hcc with h | h
      · exact absurd h hcs
      · exact h
    obtain ⟨lcs, rcs, e, hlcs⟩ := exists_split_le cs t (by omega)
    subst e
    have hrcs : rcs.length = t := by
      simp only [List.length_append] at hcl
      omega
    have h7 : sliceTo (lcs ++ rcs) t = some lcs := sliceTo_at _ _ _ hlcs.symm
    have h8 : sliceFrom (lcs ++ rcs) t = some rcs := sliceFrom_at _ _ _ hlcs.symm
    have hleaf : (node.mk (li ++ item :: ri) (lcs ++ rcs)).isLeaf = false := by
      have : lcs.length + rcs.length ≠ 0 := by omega
      simp only [node.isLeaf, node.children_mk, List.length_append]
      simpa using this
    refine ⟨node.mk li lcs, item, node.mk ri rcs, rfl, hli, hri, rfl, ?_, fun _ => ⟨hlcs, hrcs⟩,
      ?_, ?_⟩
    · intro h
      exact absurd h hcs
    · rw [inorder_mk, inorder_mk, inorder_mk, inorderList_append]
      apply interleave_append
      · simp; omega
      · intro h
        have := congrArg List.length h
        simp only [length_inorderList, List.length_nil] at this
        omega
    · intro xs1 xs2 cs1 cs2 x hlen hb
      have h4 : slicesInsert (xs1 ++ xs2) xs1.length item = some (xs1 ++ item :: xs2) :=
        slicesInsert_at _ _ _ _ rfl
      have h5 : setAt (cs1 ++ x :: cs2) xs1.length (node.mk li lcs)
          = some (cs1 ++ node.mk li lcs :: cs2) := setAt_at _ _ _ _ _ hlen.symm
      have h6 : slicesInsert (cs1 ++ node.mk li lcs :: cs2) (xs1.length + 1) (node.mk ri rcs)
          = some (cs1 ++ node.mk li lcs :: node.mk ri rcs :: cs2) := by
        have : cs1 ++ node.mk li lcs :: cs2 = (cs1 ++ [node.mk li lcs]) ++ cs2 := by simp
        rw [this, slicesInsert_at _ _ _ _ (by simp [hlen])]
        simp
      simp [splitNode, h1, h2, h3, hleaf, h7, h8, hb, h4, h5, h6, hlen]

/-- What the ordering invariant of a parent says about the keys below one of
its children: they lie above the items before the child and below the items
after it. -/
theorem separated_at (hc : StrictTotal cmp) :
    ∀ (xs1 : List (Item K V)) (cs1 : List (node K V)) (lo : Option K)
      (xs2 : List (Item K V)) (c : node K V) (cs2 : List (node K V)),
      cs1.length = xs1.length → SortedItems cmp (xs1 ++ xs2) →
      node.separated cmp lo ((xs1 ++ xs2).map Item.Key) (cs1 ++ c :: cs2) = true →
      ∀ k ∈ c.allKeys, (xs1 = [] → Above cmp lo k) ∧ (∀ x ∈ xs1, cmp x.Key k < 0) ∧
        (∀ x ∈ xs2, cmp k x.Key < 0) := by
  intro xs1
  induction xs1 with
  | nil =>
    intro cs1 lo xs2 c cs2 hlen hs hsep k hk
    have hcs1 : cs1 = [] := List.length_eq_zero.1 (by simpa using hlen)
    subst hcs1
    simp only [List.nil_append] at hs hsep
    cases xs2 with
    | nil =>
      refine ⟨fun _ => ?_, ?_, ?_⟩
      · simp only [List.map_nil, node.separated, Bool.and_eq_true, List.all_eq_true] at hsep
        have := hsep.1 k hk
        intro l hl
        subst hl
        simpa using this
      · intro x hx
        cases hx
      · intro x hx
        cases hx
    | cons x xs2 =>
      simp only [List.map_cons] at hsep
      have h := ((separated_cons_iff lo x.Key _ c cs2).1 hsep).1 k hk
      refine ⟨fun _ => h.1, ?_, ?_⟩
      · intro y hy
        cases hy
      · intro y hy
        rcases List.mem_cons.1 hy with e | hm
        · subst e; exact h.2
        · exact hc.trans _ _ _ h.2 (List.rel_of_pairwise_cons hs hm)
  | cons x1 xs1 ih =>
    intro cs1 lo xs2 c cs2 hlen hs hsep k hk
    cases cs1 with
    | nil => simp at hlen
    | cons c1 cs1 =>
      simp only [List.cons_append, List.map_cons] at hs hsep
      have hrest := ((separated_cons_iff lo x1.Key _ c1 (cs1 ++ c :: cs2)).1 hsep).2
      have hs2 : SortedItems cmp (xs1 ++ xs2) := (List.pairwise_cons.1 hs).2
      obtain ⟨hA, hB, hC⟩ := ih cs1 (some x1.Key) xs2 c cs2 (by simpa using hlen) hs2 hrest k hk
      have hx1 : cmp x1.Key k < 0 := by
        cases xs1 with
        | nil => exact hA rfl x1.Key rfl
        | cons x2 xs1 =>
          have h12 : cmp x1.Key x2.Key < 0 :=
            List.rel_of_pairwise_cons hs (by simp)
          exact hc.trans _ _ _ h12 (hB x2 (List.mem_cons_self _ _))
      refine ⟨?_, ?_, hC⟩
      · intro h
        cases h
      · intro y hy
        rcases List.mem_cons.1 hy with e | hm
        · subst e; exact hx1
        · exact hB y hm

end splitLocal

/-! ## `stealIfPossible` on one parent -/

section stealLocal

variable {K V : Type}

/-- The result of stealing from a left sibling that holds at least `t` items. -/
theorem steal_left_eval {t : Nat} (xs1 : List (Item K V)) (sep : Item K V)
    (xs2 : List (Item K V)) (cs1 : List (node K V)) (sits1 : List (Item K V)) (up : Item K V)
    (scs : List (node K V)) (cits : List (Item K V)) (ccs cs2 s2c c2c : List (node K V))
    (hlen : cs1.length = xs1.length) (hst : t ≤ sits1.length + 1)
    (hcase : (scs = [] ∧ s2c = [] ∧ c2c = ccs) ∨ (∃ mv, scs = s2c ++ [mv] ∧ c2c = mv :: ccs)) :
    stealIfPossible t (node.mk (xs1 ++ sep :: xs2)
        (cs1 ++ node.mk (sits1 ++ [up]) scs :: node.mk cits ccs :: cs2)) (cs1.length + 1)
      = some (node.mk (xs1 ++ up :: xs2)
          (cs1 ++ node.mk sits1 s2c :: node.mk (sep :: cits) c2c :: cs2), true) := by
  have h1 : (cs1 ++ node.mk (sits1 ++ [up]) scs :: node.mk cits ccs :: cs2)[cs1.length + 1]?
      = some (node.mk cits ccs) := getElem?_at_succ _ _ _ _ _ rfl
  have h2 : (cs1 ++ node.mk (sits1 ++ [up]) scs :: node.mk cits ccs :: cs2)[cs1.length]?
      = some (node.mk (sits1 ++ [up]) scs) := getElem?_at _ _ _ _ rfl
  have h3 : (xs1 ++ sep :: xs2)[cs1.length]? = some sep := getElem?_at _ _ _ _ hlen
  have h4 : slicesInsert cits 0 sep = some (sep :: cits) := by simp [slicesInsert]
  have h5 : (sits1 ++ [up])[(sits1 ++ [up]).length - 1]? = some up := getElem?_last _ _
  have h6 : setAt (xs1 ++ sep :: xs2) cs1.length up = some (xs1 ++ up :: xs2) :=
    setAt_at _ _ _ _ _ hlen
  have h7 : slicesDelete (sits1 ++ [up]) ((sits1 ++ [up]).length - 1) (sits1 ++ [up]).length
      = some sits1 := by
    have := slicesDelete_one sits1 up [] ((sits1 ++ [up]).length - 1) (sits1 ++ [up]).length
      (by simp) (by simp)
    simpa using this
  have h8 : ∀ m : node K V,
      setAt (cs1 ++ node.mk (sits1 ++ [up]) scs :: node.mk cits ccs :: cs2) (cs1.length + 1) m
        = some (cs1 ++ node.mk (sits1 ++ [up]) scs :: m :: cs2) :=
    fun m => setAt_at_succ _ _ _ _ _ _ rfl
  have h9 : ∀ m m2 : node K V,
      setAt (cs1 ++ node.mk (sits1 ++ [up]) scs :: m2 :: cs2) cs1.length m
        = some (cs1 ++ m :: m2 :: cs2) :=
    fun m m2 => setAt_at _ _ _ _ _ rfl
  have hdec : decide (t ≤ (sits1 ++ [up]).length) = true := by simpa using hst
  rcases hcase with ⟨e1, e2, e3⟩ | ⟨mv, e1, e2⟩
  · subst e1 e2 e3
    simp only [stealIfPossible, node.children_mk, node.items_mk, h1, h2, h3, h4, h5, h6, h7, h8,
      h9, hdec, node.isLeaf, Nat.add_sub_cancel, Nat.zero_lt_succ,
      Option.bind_eq_bind, Option.some_bind, Option.pure_def, if_true, List.length_nil,
      beq_self_eq_true, Bool.not_true, Bool.false_eq_true, if_false]
  · subst e1 e2
    have hl : ((s2c ++ [mv]).length == 0) = false := by simp
    have h10 : (s2c ++ [mv])[(s2c ++ [mv]).length - 1]? = some mv := getElem?_last _ _
    have h11 : slicesInsert ccs 0 mv = some (mv :: ccs) := by simp [slicesInsert]
    have h12 : slicesDelete (s2c ++ [mv]) ((s2c ++ [mv]).length - 1) (s2c ++ [mv]).length
        = some s2c := by
      have := slicesDelete_one s2c mv [] ((s2c ++ [mv]).length - 1) (s2c ++ [mv]).length
        (by simp) (by simp)
      simpa using this
    simp only [stealIfPossible, node.children_mk, node.items_mk, h1, h2, h3, h4, h5, h6, h7, h8,
      h9, h10, h11, h12, hdec, node.isLeaf, hl, Nat.add_sub_cancel, Nat.zero_lt_succ,
      Option.bind_eq_bind, Option.some_bind, Option.pure_def, if_true,
      Bool.not_false]

/-- The result of stealing from a right sibling that holds at least `t` items,
when the left sibling cannot lend. -/
theorem steal_right_eval {t : Nat} (xs1 : List (Item K V)) (sep : Item K V)
    (xs2 : List (Item K V)) (cs1 : List (node K V)) (cits : List (Item K V))
    (ccs : List (node K V)) (up : Item K V) (sits1 : List (Item K V))
    (scs cs2 s2c c2c : List (node K V))
    (hlen : cs1.length = xs1.length) (hst : t ≤ sits1.length + 1)
    (hleft : ∀ s0, 0 < cs1.length →
      (cs1 ++ node.mk cits ccs :: node.mk (up :: sits1) scs :: cs2)[cs1.length - 1]? = some s0 →
      s0.items.length < t)
    (hcase : (scs = [] ∧ s2c = [] ∧ c2c = ccs) ∨ (∃ mv, scs = mv :: s2c ∧ c2c = ccs ++ [mv])) :
    stealIfPossible t (node.mk (xs1 ++ sep :: xs2)
        (cs1 ++ node.mk cits ccs :: node.mk (up :: sits1) scs :: cs2)) cs1.length
      = some (node.mk (xs1 ++ up :: xs2)
          (cs1 ++ node.mk (cits ++ [sep]) c2c :: node.mk sits1 s2c :: cs2), true) := by
  have h1 : (cs1 ++ node.mk cits ccs :: node.mk (up :: sits1) scs :: cs2)[cs1.length]?
      = some (node.mk cits ccs) := getElem?_at _ _ _ _ rfl
  have h2 : (cs1 ++ node.mk cits ccs :: node.mk (up :: sits1) scs :: cs2)[cs1.length + 1]?
      = some (node.mk (up :: sits1) scs) := getElem?_at_succ _ _ _ _ _ rfl
  have h3 : (xs1 ++ sep :: xs2)[cs1.length]? = some sep := getElem?_at _ _ _ _ hlen
  have h6 : setAt (xs1 ++ sep :: xs2) cs1.length up = some (xs1 ++ up :: xs2) :=
    setAt_at _ _ _ _ _ hlen
  have h7 : slicesDelete (up :: sits1) 0 1 = some sits1 := by simp [slicesDelete]
  have h8 : ∀ m : node K V,
      setAt (cs1 ++ node.mk cits ccs :: node.mk (up :: sits1) scs :: cs2) cs1.length m
        = some (cs1 ++ m :: node.mk (up :: sits1) scs :: cs2) :=
    fun m => setAt_at _ _ _ _ _ rfl
  have h9 : ∀ m m2 : node K V,
      setAt (cs1 ++ m2 :: node.mk (up :: sits1) scs :: cs2) (cs1.length + 1) m
        = some (cs1 ++ m2 :: m :: cs2) :=
    fun m m2 => setAt_at_succ _ _ _ _ _ _ rfl
  have hdec : decide (t ≤ (up :: sits1).length) = true := by simpa using hst
  have hlt : cs1.length + 1
      < (cs1 ++ node.mk cits ccs :: node.mk (up :: sits1) scs :: cs2).length := by simp
  have hlt' : (cs1.length + 1
      < (cs1 ++ node.mk cits ccs :: node.mk (up :: sits1) scs :: cs2).length) = True :=
    eq_true hlt
  have hsz' : (up :: sits1)[0]? = some up := by simp
  have hdec2 : decide (t ≤ sits1.length + 1) = true := by simpa using hst
  rcases getElem?_pred_cases (cs1 ++ node.mk cits ccs :: node.mk (up :: sits1) scs :: cs2)
    cs1.length (by simp) with h0 | ⟨h0, s0, hs0⟩
  · have hz : (0 < cs1.length) = False := by simp [h0]
    rcases hcase with ⟨e1, e2, e3⟩ | ⟨mv, e1, e2⟩
    · subst e1 e2 e3
      have hl : (node.mk (up :: sits1) ([] : List (node K V))).isLeaf = true := by
        simp [node.isLeaf]
      simp only [stealIfPossible, node.children_mk, node.items_mk, h1, h2, h3, h6, h7, h8, h9,
        hdec, hl, hz, hlt', hsz', Option.bind_eq_bind, Option.some_bind, Option.pure_def,
        if_true, if_false, Bool.not_true, Bool.false_eq_true, List.length_nil]
    · subst e1 e2
      have hl : (node.mk (up :: sits1) (mv :: s2c)).isLeaf = false := by
        simp [node.isLeaf]
      have hm : (mv :: s2c)[0]? = some mv := by simp
      have hsd : slicesDelete (mv :: s2c) 0 1 = some s2c := by simp [slicesDelete]
      simp only [stealIfPossible, node.children_mk, node.items_mk, h1, h2, h3, h6, h7, h8, h9,
        hdec, hdec2, hl, hz, hlt', hsz', hm, hsd, Option.bind_eq_bind, Option.some_bind,
        Option.pure_def, if_true, if_false, Bool.not_false, Bool.false_eq_true,
        List.length_cons, Nat.add_one_ne_zero, List.take_succ_cons, List.take_zero,
        List.drop_succ_cons, List.drop_zero]
  · have := hleft s0 h0 hs0
    have hd : decide (t ≤ s0.items.length) = false := by simpa using this
    have hz : (0 < cs1.length) = True := eq_true h0
    rcases hcase with ⟨e1, e2, e3⟩ | ⟨mv, e1, e2⟩
    · subst e1 e2 e3
      have hl : (node.mk (up :: sits1) ([] : List (node K V))).isLeaf = true := by
        simp [node.isLeaf]
      simp only [stealIfPossible, node.children_mk, node.items_mk, h1, h2, h3, h6, h7, h8, h9,
        hdec, hl, hz, hlt', hsz', hs0, hd, Option.bind_eq_bind, Option.some_bind,
        Option.pure_def, if_true, if_false, Bool.not_true, Bool.false_eq_true,
        List.length_nil]
    · subst e1 e2
      have hl : (node.mk (up :: sits1) (mv :: s2c)).isLeaf = false := by
        simp [node.isLeaf]
      have hm : (mv :: s2c)[0]? = some mv := by simp
      have hsd : slicesDelete (mv :: s2c) 0 1 = some s2c := by simp [slicesDelete]
      simp only [stealIfPossible, node.children_mk, node.items_mk, h1, h2, h3, h6, h7, h8, h9,
        hdec, hdec2, hl, hz, hlt', hsz', hs0, hd, hm, hsd, Option.bind_eq_bind, Option.some_bind,
        Option.pure_def, if_true, if_false, Bool.not_false, Bool.false_eq_true,
        List.length_cons, Nat.add_one_ne_zero, List.take_succ_cons, List.take_zero,
        List.drop_succ_cons, List.drop_zero]

end stealLocal

/-! ## Split, merge and steal -/

section restructure

variable {K V : Type} {cmp : K → K → Int}

/-- C17: for every `t ≥ 2`, every internal node `P` (with `len(items)+1`
children) that satisfies the ordering invariant and every child
`N = P.children[i]` that holds exactly `2t-1` items (and `2t` children if it is
internal), `splitNode(N, P)` leaves `P` with the item `N.items[t-1]` inserted
at index `i` (the local search of `P` for the promoted key returns exactly
`i`), `P.children[i] = left` with the first `t-1` items of `N` (and its first
`t` children), `P.children[i+1] = right` with the last `t-1` items of `N` (and
its last `t` children), all other items and children of `P` in their previous
order, and the in-order sequence of the subtree of `P` unchanged. -/
theorem splitNode_into_parent (hc : StrictTotal cmp) {t : Nat} (ht : 2 ≤ t)
    (P N : node K V) (i : Nat)
    (hch : P.children.length = P.items.length + 1) (hord : P.ordered cmp = true)
    (hN : P.children[i]? = some N) (hfull : N.items.length = 2 * t - 1)
    (hNc : N.children = [] ∨ N.children.length = 2 * t) :
    ∃ xs1 xs2 cs1 cs2 left item right,
      P.items = xs1 ++ xs2 ∧ xs1.length = i ∧ P.children = cs1 ++ N :: cs2 ∧ cs1.length = i ∧
      N.items[t - 1]? = some item ∧ P.bSearch item.Key cmp = some (i, false) ∧
      N.items = left.items ++ item :: right.items ∧
      left.items.length = t - 1 ∧ right.items.length = t - 1 ∧
      N.children = left.children ++ right.children ∧
      (N.children.length = 2 * t → left.children.length = t ∧ right.children.length = t) ∧
      splitNode t cmp N (some P)
        = some (i, i + 1, node.mk (xs1 ++ item :: xs2) (cs1 ++ left :: right :: cs2)) ∧
      (node.mk (xs1 ++ item :: xs2) (cs1 ++ left :: right :: cs2)).inorder = P.inorder := by
  cases P with
  | mk its cs =>
  simp only [node.items_mk, node.children_mk] at hch hN
  have hi : i < cs.length := by
    by_contra hn
    rw [List.getElem?_eq_none (by omega)] at hN
    cases hN
  obtain ⟨cs1, c, cs2, e1, hcs1⟩ := exists_split_at cs i hi
  subst e1
  have hcN : c = N := by
    rw [getElem?_at cs1 c cs2 i hcs1.symm] at hN
    simpa using hN
  subst hcN
  obtain ⟨xs1, xs2, e2, hxs1⟩ := exists_split_le its i (by
    simp only [List.length_append, List.length_cons] at hch; omega)
  subst e2
  have hlen : cs1.length = xs1.length := by rw [hcs1, hxs1]
  obtain ⟨left, item, right, hci, hll, hrl, hcc, -, hcl, hino, hsplit⟩ :=
    @splitNode_local _ _ cmp _ (by omega) c hfull hNc
  simp only [node.ordered, Bool.and_eq_true] at hord
  obtain ⟨⟨hasc, hsep⟩, -⟩ := hord
  have hs : SortedItems cmp (xs1 ++ xs2) := (ascending_iff hc _).1 hasc
  have hkey : item.Key ∈ c.allKeys := by
    cases c with
    | mk nits ncs =>
      simp only [node.items_mk] at hci
      simp only [node.allKeys, List.mem_append, List.mem_map]
      exact Or.inl ⟨item, by rw [hci]; simp, rfl⟩
  obtain ⟨-, hb1, hb2⟩ := separated_at hc xs1 cs1 none xs2 c cs2 hlen hs hsep item.Key hkey
  have hbs : (node.mk (xs1 ++ xs2) (cs1 ++ c :: cs2)).bSearch item.Key cmp
      = some (xs1.length, false) := bSearch_at hc xs1 xs2 _ hs item.Key hb1 hb2
  have hget : c.items[t - 1]? = some item := by
    rw [hci]
    exact getElem?_at _ _ _ _ hll.symm
  refine ⟨xs1, xs2, cs1, cs2, left, item, right, rfl, hxs1, rfl, hcs1, hget, ?_, hci, hll,
    hrl, hcc, hcl, ?_, ?_⟩
  · rw [hbs, hxs1]
  · rw [hsplit xs1 xs2 cs1 cs2 c hlen hbs, hcs1]
  · rw [inorder_split xs1 (item :: xs2) cs1 left (right :: cs2) hlen,
      inorder_split xs1 xs2 cs1 c cs2 hlen, hino]
    simp

theorem splitNode_into_parent_witness :
    (2 ≤ 2 ∧ StrictTotal intCompare ∧
      parentOfFullLeaf.children.length = parentOfFullLeaf.items.length + 1 ∧
      parentOfFullLeaf.ordered intCompare = true ∧
      parentOfFullLeaf.children[0]? = some (node.mk [⟨1, 1⟩, ⟨2, 2⟩, ⟨3, 3⟩] []) ∧
      (node.mk ([⟨1, 1⟩, ⟨2, 2⟩, ⟨3, 3⟩] : List (Item Int Int)) []).items.length = 2 * 2 - 1 ∧
      ((node.mk ([⟨1, 1⟩, ⟨2, 2⟩, ⟨3, 3⟩] : List (Item Int Int)) []).children = [] ∨
        (node.mk ([⟨1, 1⟩, ⟨2, 2⟩, ⟨3, 3⟩] : List (Item Int Int)) []).children.length = 2 * 2)) ∧
    ∃ xs1 xs2 cs1 cs2 left item right,
      parentOfFullLeaf.items = xs1 ++ xs2 ∧ xs1.length = 0 ∧
      parentOfFullLeaf.children = cs1 ++ node.mk [⟨1, 1⟩, ⟨2, 2⟩, ⟨3, 3⟩] [] :: cs2 ∧
      cs1.length = 0 ∧
      (node.mk ([⟨1, 1⟩, ⟨2, 2⟩, ⟨3, 3⟩] : List (Item Int Int)) []).items[2 - 1]? = some item ∧
      parentOfFullLeaf.bSearch item.Key intCompare = some (0, false) ∧
      (node.mk ([⟨1, 1⟩, ⟨2, 2⟩, ⟨3, 3⟩] : List (Item Int Int)) []).items
        = left.items ++ item :: right.items ∧
      left.items.length = 2 - 1 ∧ right.items.length = 2 - 1 ∧
      (node.mk ([⟨1, 1⟩, ⟨2, 2⟩, ⟨3, 3⟩] : List (Item Int Int)) []).children
        = left.children ++ right.children ∧
      ((node.mk ([⟨1, 1⟩, ⟨2, 2⟩, ⟨3, 3⟩] : List (Item Int Int)) []).children.length = 2 * 2 →
        left.children.length = 2 ∧ right.children.length = 2) ∧
      splitNode 2 intCompare (node.mk [⟨1, 1⟩, ⟨2, 2⟩, ⟨3, 3⟩] []) (some parentOfFullLeaf)
        = some (0, 0 + 1, node.mk (xs1 ++ item :: xs2) (cs1 ++ left :: right :: cs2)) ∧
      (node.mk (xs1 ++ item :: xs2) (cs1 ++ left :: right :: cs2)).inorder
        = parentOfFullLeaf.inorder :=
  ⟨⟨by decide, intCompare_strictTotal, by decide, by decide, rfl, by decide, Or.inl rfl⟩,
    splitNode_into_parent (t := 2) intCompare_strictTotal (by decide) parentOfFullLeaf
      (node.mk [⟨1, 1⟩, ⟨2, 2⟩, ⟨3, 3⟩] []) 0 (by decide) (by decide) rfl (by decide)
      (Or.inl rfl)⟩

/-- C18: for every parent with at least one item (and `len(items)+1` children)
and every child index `c`, `merge(parent, c)` takes `left = c-1` if `c > 0` and
`left = c` otherwise, and returns the node `parent.children[left]`, whose items
are now the old left child's items, then the old `parent.items[left]`, then the
old right child's items, and whose children are those of both children, so the
former separator sits at the index equal to the old length of the left child;
the parent loses exactly the item at index `left` and the child at index
`left+1`; and the in-order sequence of the subtree of the parent is unchanged
(the two children being both leaves or both internal). -/
theorem merge_correct (parent : node K V) (c left : Nat)
    (hch : parent.children.length = parent.items.length + 1)
    (hit : 1 ≤ parent.items.length) (hc : c < parent.children.length)
    (hleft : left = if 0 < c then c - 1 else c) :
    ∃ xs1 sep xs2 cs1 L R cs2,
      parent.items = xs1 ++ sep :: xs2 ∧ xs1.length = left ∧
      parent.children = cs1 ++ L :: R :: cs2 ∧ cs1.length = left ∧
      merge parent c = some (node.mk (xs1 ++ xs2)
        (cs1 ++ node.mk (L.items ++ [sep] ++ R.items) (L.children ++ R.children) :: cs2),
        left) ∧
      (L.items ++ [sep] ++ R.items)[L.items.length]? = some sep ∧
      (((L.children = [] ∧ R.children = []) ∨
          (L.children.length = L.items.length + 1 ∧
            R.children.length = R.items.length + 1)) →
        (node.mk (xs1 ++ xs2)
          (cs1 ++ node.mk (L.items ++ [sep] ++ R.items) (L.children ++ R.children) :: cs2)).inorder
          = parent.inorder) := by
  cases parent with
  | mk its cs =>
  simp only [node.items_mk, node.children_mk] at hch hit hc
  have hl : left < its.length := by
    rw [hleft]
    split <;> omega
  obtain ⟨xs1, sep, xs2, cs1, a, b, cs2, e1, h1, e2, h2⟩ := exists_split_two its cs left hch hl
  subst e1 e2
  have hlen : cs1.length = xs1.length := by rw [h1, h2]
  have hci : c = cs1.length + 1 ∨ (c = 0 ∧ cs1 = []) := by
    by_cases h0 : 0 < c
    · left
      rw [if_pos h0] at hleft
      omega
    · right
      rw [if_neg h0] at hleft
      refine ⟨by omega, ?_⟩
      apply List.length_eq_zero.1
      omega
  refine ⟨xs1, sep, xs2, cs1, a, b, cs2, rfl, h1, rfl, h2, ?_, ?_, ?_⟩
  · rw [merge_eval xs1 sep xs2 cs1 a b cs2 c hlen hci, h2]
  · rw [List.append_assoc]
    exact getElem?_at _ _ _ _ rfl
  · intro hk
    rw [inorder_split xs1 xs2 cs1 _ cs2 hlen,
      inorder_split xs1 (sep :: xs2) cs1 a (b :: cs2) hlen, merged_inorder a b sep hk]
    simp

theorem merge_correct_witness :
    (tenRoot.children.length = tenRoot.items.length + 1 ∧ 1 ≤ tenRoot.items.length ∧
      1 < tenRoot.children.length ∧ 0 = (if 0 < 1 then 1 - 1 else 1)) ∧
    ∃ xs1 sep xs2 cs1 L R cs2,
      tenRoot.items = xs1 ++ sep :: xs2 ∧ xs1.length = 0 ∧
      tenRoot.children = cs1 ++ L :: R :: cs2 ∧ cs1.length = 0 ∧
      merge tenRoot 1 = some (node.mk (xs1 ++ xs2)
        (cs1 ++ node.mk (L.items ++ [sep] ++ R.items) (L.children ++ R.children) :: cs2),
        0) ∧
      (L.items ++ [sep] ++ R.items)[L.items.length]? = some sep ∧
      (((L.children = [] ∧ R.children = []) ∨
          (L.children.length = L.items.length + 1 ∧
            R.children.length = R.items.length + 1)) →
        (node.mk (xs1 ++ xs2)
          (cs1 ++ node.mk (L.items ++ [sep] ++ R.items) (L.children ++ R.children) :: cs2)).inorder
          = tenRoot.inorder) :=
  ⟨⟨by decide, by decide, by decide, by decide⟩,
    merge_correct tenRoot 1 0 (by decide) (by decide) (by decide) (by decide)⟩

end restructure

section stealContract

variable {K V : Type}

/-- The children moved by a steal, from the shape of the two nodes: none when
they are leaves, one when they are internal. -/
theorem snoc_children {t d : Nat} (sits : List (Item K V)) (scs : List (node K V))
    (cits : List (Item K V)) (ccs : List (node K V))
    (hs : (node.mk sits scs).shaped t d (t - 1) = true)
    (hcs : (node.mk cits ccs).shaped t d (t - 1) = true) :
    (scs = [] ∧ ccs = []) ∨
      (scs.length = sits.length + 1 ∧ ccs.length = cits.length + 1) := by
  cases d with
  | zero => exact Or.inl ⟨(shaped_zero.1 hs).1, (shaped_zero.1 hcs).1⟩
  | succ d => exact Or.inr ⟨(shaped_succ.1 hs).1, (shaped_succ.1 hcs).1⟩

theorem steal_left_inorder (sits1 : List (Item K V)) (up sep : Item K V)
    (cits : List (Item K V)) (scs ccs s2c c2c : List (node K V))
    (hcase : (scs = [] ∧ s2c = [] ∧ c2c = ccs ∧ ccs = []) ∨
      (∃ mv, scs = s2c ++ [mv] ∧ c2c = mv :: ccs ∧ s2c.length = sits1.length + 1 ∧
        ccs.length = cits.length + 1)) :
    (node.mk (sits1 ++ [up]) scs).inorder ++ sep :: (node.mk cits ccs).inorder
      = (node.mk sits1 s2c).inorder ++ up :: (node.mk (sep :: cits) c2c).inorder := by
  rcases hcase with ⟨e1, e2, e3, e4⟩ | ⟨mv, e1, e2, h1, h2⟩
  · subst e1 e2 e3 e4
    simp
  · subst e1 e2
    have hA : (node.mk (sits1 ++ [up]) (s2c ++ [mv])).inorder
        = (node.mk sits1 s2c).inorder ++ up :: mv.inorder := by
      rw [inorder_mk, inorder_mk, inorderList_append]
      rw [interleave_append sits1 up [] _ _ (by simp [h1]) (by simp)]
      simp
    have hB : (node.mk (sep :: cits) (mv :: ccs)).inorder
        = mv.inorder ++ sep :: (node.mk cits ccs).inorder := by
      cases ccs with
      | nil => simp at h2
      | cons c0 ccs => simp [inorder_mk]
    rw [hA, hB]
    simp

theorem steal_right_inorder (sits1 : List (Item K V)) (up sep : Item K V)
    (cits : List (Item K V)) (scs ccs s2c c2c : List (node K V))
    (hcase : (scs = [] ∧ s2c = [] ∧ c2c = ccs ∧ ccs = []) ∨
      (∃ mv, scs = mv :: s2c ∧ c2c = ccs ++ [mv] ∧ s2c.length = sits1.length + 1 ∧
        ccs.length = cits.length + 1)) :
    (node.mk cits ccs).inorder ++ sep :: (node.mk (up :: sits1) scs).inorder
      = (node.mk (cits ++ [sep]) c2c).inorder ++ up :: (node.mk sits1 s2c).inorder := by
  rcases hcase with ⟨e1, e2, e3, e4⟩ | ⟨mv, e1, e2, h1, h2⟩
  · subst e1 e2 e3 e4
    simp
  · subst e1 e2
    have hB : (node.mk (cits ++ [sep]) (ccs ++ [mv])).inorder
        = (node.mk cits ccs).inorder ++ sep :: mv.inorder := by
      rw [inorder_mk, inorder_mk, inorderList_append]
      rw [interleave_append cits sep [] _ _ (by simp [h2]) (by simp)]
      simp
    have hA : (node.mk (up :: sits1) (mv :: s2c)).inorder
        = mv.inorder ++ up :: (node.mk sits1 s2c).inorder := by
      cases s2c with
      | nil => simp at h1
      | cons c0 l => simp [inorder_mk]
    rw [hA, hB]
    simp

/-- C19: for every `t ≥ 1`, every internal node `parent` that satisfies the
structural invariant and every child index `c`, `stealIfPossible(parent, c)`
returns `false` and changes nothing exactly when neither the left sibling
(`c > 0`) nor the right sibling (`c+1 < len(children)`) holds at least `t`
items; otherwise it returns `true`, borrows from the left sibling whenever that
one holds at least `t` items and from the right sibling only otherwise, the
child gains exactly one item (the separator) and one child if it is internal,
the lending sibling loses exactly one item (which goes up into the parent) and
one child if it is internal, the parent keeps the same number of items, and the
in-order sequence of the subtree of the parent is unchanged. -/
theorem stealIfPossible_correct {t d lo : Nat} (ht : 1 ≤ t) (parent : node K V) (c : Nat)
    (hsh : parent.shaped t (d + 1) lo = true) (hc : c < parent.children.length) :
    ∃ p2 r, stealIfPossible t parent c = some (p2, r) ∧
      (r = false ↔
        (∀ s, 0 < c → parent.children[c - 1]? = some s → s.items.length < t) ∧
        (∀ s, parent.children[c + 1]? = some s → s.items.length < t)) ∧
      (r = false → p2 = parent) ∧
      (r = true → p2.items.length = parent.items.length ∧ p2.inorder = parent.inorder ∧
        ((∃ xs1 sep xs2 cs1 s ch cs2 s2 up ch2,
            parent = node.mk (xs1 ++ sep :: xs2) (cs1 ++ s :: ch :: cs2) ∧
            c = cs1.length + 1 ∧ cs1.length = xs1.length ∧ t ≤ s.items.length ∧
            p2 = node.mk (xs1 ++ up :: xs2) (cs1 ++ s2 :: ch2 :: cs2) ∧
            s.items = s2.items ++ [up] ∧ ch2.items = sep :: ch.items ∧
            ((s.isLeaf = true ∧ s2.children = s.children ∧ ch2.children = ch.children) ∨
              (s.isLeaf = false ∧ ∃ mv, s.children = s2.children ++ [mv] ∧
                ch2.children = mv :: ch.children))) ∨
          (∃ xs1 sep xs2 cs1 ch s cs2 ch2 up s2,
            parent = node.mk (xs1 ++ sep :: xs2) (cs1 ++ ch :: s :: cs2) ∧
            c = cs1.length ∧ cs1.length = xs1.length ∧
            (∀ s0, 0 < c → parent.children[c - 1]? = some s0 → s0.items.length < t) ∧
            t ≤ s.items.length ∧
            p2 = node.mk (xs1 ++ up :: xs2) (cs1 ++ ch2 :: s2 :: cs2) ∧
            s.items = up :: s2.items ∧ ch2.items = ch.items ++ [sep] ∧
            ((s.isLeaf = true ∧ s2.children = s.children ∧ ch2.children = ch.children) ∨
              (s.isLeaf = false ∧ ∃ mv, s.children = mv :: s2.children ∧
                ch2.children = ch.children ++ [mv]))))) := by
  cases parent with
  | mk its cs =>
  simp only [node.children_mk] at hc
  obtain ⟨hcl, -, -, hch⟩ := (shaped_parent_iff _ _).1 hsh
  obtain ⟨cs1, ch, cs2, e, hc1⟩ := exists_split_at cs c hc
  subst e
  subst hc1
  simp only [List.length_append, List.length_cons] at hcl
  have hchs : ch.shaped t d (t - 1) = true := hch ch (by simp)
  by_cases hL : ∃ cs0 s0, cs1 = cs0 ++ [s0] ∧ t ≤ s0.items.length
  · -- the left sibling lends
    obtain ⟨cs0, s0, rfl, hst⟩ := hL
    obtain ⟨xs0, sep, xs2, rfl, hx0⟩ := exists_split_at its cs0.length (by
      simp only [List.length_append, List.length_singleton] at hcl; omega)
    have hl0 : cs0.length = xs0.length := hx0.symm
    have hs0 : s0.shaped t d (t - 1) = true := hch s0 (by simp)
    cases s0 with
    | mk sits scs =>
    cases ch with
    | mk cits ccs =>
    simp only [node.items_mk] at hst
    obtain ⟨sits1, up, rfl⟩ := exists_snoc sits (by omega)
    have hst1 : t ≤ sits1.length + 1 := by simpa using hst
    have hkind := snoc_children _ scs cits ccs hs0 hchs
    obtain ⟨s2c, c2c, hev, hino, hdesc⟩ : ∃ s2c c2c,
        ((scs = [] ∧ s2c = [] ∧ c2c = ccs) ∨ (∃ mv, scs = s2c ++ [mv] ∧ c2c = mv :: ccs)) ∧
        ((scs = [] ∧ s2c = [] ∧ c2c = ccs ∧ ccs = []) ∨
          (∃ mv, scs = s2c ++ [mv] ∧ c2c = mv :: ccs ∧ s2c.length = sits1.length + 1 ∧
            ccs.length = cits.length + 1)) ∧
        (((node.mk (sits1 ++ [up]) scs).isLeaf = true ∧ s2c = scs ∧ c2c = ccs) ∨
          ((node.mk (sits1 ++ [up]) scs).isLeaf = false ∧
            ∃ mv, scs = s2c ++ [mv] ∧ c2c = mv :: ccs)) := by
      rcases hkind with ⟨e1, e2⟩ | ⟨h1, h2⟩
      · subst e1 e2
        exact ⟨[], [], Or.inl ⟨rfl, rfl, rfl⟩, Or.inl ⟨rfl, rfl, rfl, rfl⟩,
          Or.inl ⟨by simp [node.isLeaf], rfl, rfl⟩⟩
      · obtain ⟨scs1, mv, rfl⟩ := exists_snoc scs (by omega)
        have hl1 : scs1.length = sits1.length + 1 := by
          simp only [List.length_append, List.length_singleton] at h1
          omega
        exact ⟨scs1, mv :: ccs, Or.inr ⟨mv, rfl, rfl⟩, Or.inr ⟨mv, rfl, rfl, hl1, h2⟩,
          Or.inr ⟨by simp [node.isLeaf], mv, rfl, rfl⟩⟩
    have hrun := steal_left_eval (t := t) xs0 sep xs2 cs0 sits1 up scs cits ccs cs2 s2c c2c
      hl0 hst1 hev
    have e2 : cs0 ++ [node.mk (sits1 ++ [up]) scs] ++ node.mk cits ccs :: cs2
        = cs0 ++ node.mk (sits1 ++ [up]) scs :: node.mk cits ccs :: cs2 := by simp
    have e3 : (cs0 ++ [node.mk (sits1 ++ [up]) scs]).length = cs0.length + 1 := by simp
    rw [e2, e3]
    refine ⟨_, true, hrun, ?_, ?_, fun _ => ⟨by simp, ?_, Or.inl ?_⟩⟩
    · constructor
      · intro h; cases h
      · rintro ⟨hleft, -⟩
        exfalso
        have := hleft (node.mk (sits1 ++ [up]) scs) (by omega) (by
          simp only [node.children_mk, Nat.add_sub_cancel]
          exact getElem?_at _ _ _ _ rfl)
        simp only [node.items_mk] at this
        omega
    · intro h; cases h
    · rw [inorder_split xs0 (up :: xs2) cs0 _ (_ :: cs2) hl0,
        inorder_split xs0 (sep :: xs2) cs0 _ (_ :: cs2) hl0]
      simp only [inorderList_cons, weaveR_cons, List.append_assoc]
      have := congrArg (fun l => l ++ weaveR xs2 (node.inorderList cs2))
        (steal_left_inorder sits1 up sep cits scs ccs s2c c2c hino)
      simp only [List.append_assoc, List.cons_append] at this
      rw [this]
    · refine ⟨xs0, sep, xs2, cs0, node.mk (sits1 ++ [up]) scs, node.mk cits ccs, cs2,
        node.mk sits1 s2c, up, node.mk (sep :: cits) c2c, rfl, rfl, hl0, hst, rfl, rfl, rfl, ?_⟩
      rcases hdesc with ⟨h1, h2, h3⟩ | ⟨h1, mv, h2, h3⟩
      · exact Or.inl ⟨h1, h2, h3⟩
      · exact Or.inr ⟨h1, mv, h2, h3⟩
  by_cases hR : ∃ s cs3, cs2 = s :: cs3 ∧ t ≤ s.items.length
  · -- the right sibling lends
    obtain ⟨s, cs3, rfl, hst⟩ := hR
    obtain ⟨xs1, sep, xs3, rfl, hx1⟩ := exists_split_at its cs1.length (by
      simp only [List.length_cons] at hcl; omega)
    have hlen : cs1.length = xs1.length := hx1.symm
    have hs0 : s.shaped t d (t - 1) = true := hch s (by simp)
    have hsmall := left_small cs1 hL (ch :: s :: cs3)
    cases s with
    | mk sits scs =>
    cases ch with
    | mk cits ccs =>
    simp only [node.items_mk] at hst
    obtain ⟨up, sits1, rfl⟩ : ∃ up sits1, sits = up :: sits1 := by
      cases sits with
      | nil => simp at hst; omega
      | cons a l => exact ⟨a, l, rfl⟩
    have hst1 : t ≤ sits1.length + 1 := by simpa using hst
    have hkind := snoc_children _ scs cits ccs hs0 hchs
    obtain ⟨s2c, c2c, hev, hino, hdesc⟩ : ∃ s2c c2c,
        ((scs = [] ∧ s2c = [] ∧ c2c = ccs) ∨ (∃ mv, scs = mv :: s2c ∧ c2c = ccs ++ [mv])) ∧
        ((scs = [] ∧ s2c = [] ∧ c2c = ccs ∧ ccs = []) ∨
          (∃ mv, scs = mv :: s2c ∧ c2c = ccs ++ [mv] ∧ s2c.length = sits1.length + 1 ∧
            ccs.length = cits.length + 1)) ∧
        (((node.mk (up :: sits1) scs).isLeaf = true ∧ s2c = scs ∧ c2c = ccs) ∨
          ((node.mk (up :: sits1) scs).isLeaf = false ∧
            ∃ mv, scs = mv :: s2c ∧ c2c = ccs ++ [mv])) := by
      rcases hkind with ⟨e1, e2⟩ | ⟨h1, h2⟩
      · subst e1 e2
        exact ⟨[], [], Or.inl ⟨rfl, rfl, rfl⟩, Or.inl ⟨rfl, rfl, rfl, rfl⟩,
          Or.inl ⟨by simp [node.isLeaf], rfl, rfl⟩⟩
      · obtain ⟨mv, scs1, rfl⟩ : ∃ mv scs1, scs = mv :: scs1 := by
          cases scs with
          | nil => simp at h1
          | cons a l => exact ⟨a, l, rfl⟩
        have hl1 : scs1.length = sits1.length + 1 := by
          simp only [List.length_cons] at h1
          omega
        exact ⟨scs1, ccs ++ [mv], Or.inr ⟨mv, rfl, rfl⟩, Or.inr ⟨mv, rfl, rfl, hl1, h2⟩,
          Or.inr ⟨by simp [node.isLeaf], mv, rfl, rfl⟩⟩
    have hrun := steal_right_eval (t := t) xs1 sep xs3 cs1 cits ccs up sits1 scs cs3 s2c c2c
      hlen hst1 hsmall hev
    refine ⟨_, true, hrun, ?_, ?_, fun _ => ⟨by simp, ?_, Or.inr ?_⟩⟩
    · constructor
      · intro h; cases h
      · rintro ⟨-, hright⟩
        exfalso
        have := hright (node.mk (up :: sits1) scs) (by
          simp only [node.children_mk]
          exact getElem?_at_succ _ _ _ _ _ rfl)
        simp only [node.items_mk] at this
        omega
    · intro h; cases h
    · rw [inorder_split xs1 (up :: xs3) cs1 _ (_ :: cs3) hlen,
        inorder_split xs1 (sep :: xs3) cs1 _ (_ :: cs3) hlen]
      simp only [inorderList_cons, weaveR_cons, List.append_assoc]
      have := congrArg (fun l => l ++ weaveR xs3 (node.inorderList cs3))
        (steal_right_inorder sits1 up sep cits scs ccs s2c c2c hino)
      simp only [List.append_assoc, List.cons_append] at this
      rw [this]
    · refine ⟨xs1, sep, xs3, cs1, node.mk cits ccs, node.mk (up :: sits1) scs, cs3,
        node.mk (cits ++ [sep]) c2c, up, node.mk sits1 s2c, rfl, rfl, hlen, ?_, hst, rfl, rfl,
        rfl, ?_⟩
      · intro s0 h0 hg
        exact hsmall s0 h0 hg
      · rcases hdesc with ⟨h1, h2, h3⟩ | ⟨h1, mv, h2, h3⟩
        · exact Or.inl ⟨h1, h2, h3⟩
        · exact Or.inr ⟨h1, mv, h2, h3⟩
  -- no sibling can lend
  have hl := left_small cs1 hL (ch :: cs2)
  have hr := right_small cs1 ch cs2 hR
  refine ⟨_, false, steal_none (t := t) its cs1 ch cs2 hl hr, ?_, fun _ => rfl, ?_⟩
  · constructor
    · intro _
      exact ⟨fun s h0 hg => hl s h0 hg, fun s hg => hr s hg⟩
    · intro _; rfl
  · intro h; cases h

theorem stealIfPossible_correct_witness :
    (1 ≤ 2 ∧ tenRoot.shaped 2 (1 + 1) 1 = true ∧ 0 < tenRoot.children.length) ∧
    (∃ p2 r, stealIfPossible 2 tenRoot 0 = some (p2, r) ∧
      (r = false ↔
        (∀ s, 0 < 0 → tenRoot.children[0 - 1]? = some s → s.items.length < 2) ∧
        (∀ s, tenRoot.children[0 + 1]? = some s → s.items.length < 2)) ∧
      (r = false → p2 = tenRoot) ∧
      (r = true → p2.items.length = tenRoot.items.length ∧ p2.inorder = tenRoot.inorder ∧
        ((∃ xs1 sep xs2 cs1 s ch cs2 s2 up ch2,
            tenRoot = node.mk (xs1 ++ sep :: xs2) (cs1 ++ s :: ch :: cs2) ∧
            0 = cs1.length + 1 ∧ cs1.length = xs1.length ∧ 2 ≤ s.items.length ∧
            p2 = node.mk (xs1 ++ up :: xs2) (cs1 ++ s2 :: ch2 :: cs2) ∧
            s.items = s2.items ++ [up] ∧ ch2.items = sep :: ch.items ∧
            ((s.isLeaf = true ∧ s2.children = s.children ∧ ch2.children = ch.children) ∨
              (s.isLeaf = false ∧ ∃ mv, s.children = s2.children ++ [mv] ∧
                ch2.children = mv :: ch.children))) ∨
          (∃ xs1 sep xs2 cs1 ch s cs2 ch2 up s2,
            tenRoot = node.mk (xs1 ++ sep :: xs2) (cs1 ++ ch :: s :: cs2) ∧
            0 = cs1.length ∧ cs1.length = xs1.length ∧
            (∀ s0, 0 < 0 → tenRoot.children[0 - 1]? = some s0 → s0.items.length < 2) ∧
            2 ≤ s.items.length ∧
            p2 = node.mk (xs1 ++ up :: xs2) (cs1 ++ ch2 :: s2 :: cs2) ∧
            s.items = up :: s2.items ∧ ch2.items = ch.items ++ [sep] ∧
            ((s.isLeaf = true ∧ s2.children = s.children ∧ ch2.children = ch.children) ∨
              (s.isLeaf = false ∧ ∃ mv, s.children = mv :: s2.children ∧
                ch2.children = ch.children ++ [mv])))))) :=
  ⟨⟨by decide, by decide, by decide⟩,
    @stealIfPossible_correct Int Int 2 1 1 (by decide) tenRoot 0 (by decide) (by decide)⟩

end stealContract

/-! ## The current node of `remove` after the steal-or-merge step -/

section traced

variable {K V : Type} {cmp : K → K → Int}

/-- The rest of an iteration of `remove.traced` returns what the rest of an
iteration of `remove` returns. -/
theorem traced_tail (t : Nat) (key : K) (f : Nat) (p2 : node K V) (pos : Nat)
    (ih : ∀ (p : node K V) (ci : Nat),
      (remove.traced t cmp key f p ci).map Prod.fst = remove t cmp key f p ci) :
    Option.map Prod.fst (do
      let nd ← p2.children[pos]?
      let (ind, exist) ← nd.bSearch key cmp
      if exist then do
        let nd2 ← delete t cmp f nd ind
        let pchildren ← setAt p2.children pos nd2
        pure ((node.mk p2.items pchildren, true), [nd])
      else if nd.isLeaf then pure ((p2, false), [nd])
      else do
        let ((nd2, r), rest) ← remove.traced t cmp key f nd ind
        let pchildren ← setAt p2.children pos nd2
        pure ((node.mk p2.items pchildren, r), nd :: rest)) =
    (do
      let nd ← p2.children[pos]?
      let (ind, exist) ← nd.bSearch key cmp
      if exist then do
        let nd ← delete t cmp f nd ind
        let pchildren ← setAt p2.children pos nd
        pure (node.mk p2.items pchildren, true)
      else if nd.isLeaf then pure (p2, false)
      else do
        let (nd, r) ← remove t cmp key f nd ind
        let pchildren ← setAt p2.children pos nd
        pure (node.mk p2.items pchildren, r)) := by
  cases h2 : p2.children[pos]? with
  | none => simp only [Option.bind_eq_bind, Option.none_bind, Option.map_none']
  | some nd =>
    simp only [Option.bind_eq_bind, Option.some_bind]
    cases h3 : nd.bSearch key cmp with
    | none => simp only [Option.none_bind, Option.map_none']
    | some ie =>
      obtain ⟨ind, ex⟩ := ie
      simp only [Option.some_bind]
      cases ex with
      | true =>
        simp only [if_true]
        cases hd : delete t cmp f nd ind with
        | none => simp only [Option.none_bind, Option.map_none']
        | some nd2 =>
          simp only [Option.some_bind]
          cases hset : setAt p2.children pos nd2 with
          | none => simp only [Option.none_bind, Option.map_none']
          | some pcs => simp only [Option.some_bind, Option.pure_def, Option.map_some']
      | false =>
        simp only [Bool.false_eq_true, if_false]
        by_cases hl : nd.isLeaf = true
        · simp only [hl, if_true, Option.pure_def, Option.map_some']
        · simp only [hl, if_false, Bool.false_eq_true]
          rw [← ih nd ind]
          cases hr : remove.traced t cmp key f nd ind with
          | none => simp only [Option.none_bind, Option.map_none']
          | some res =>
            obtain ⟨⟨nd2, r⟩, rest⟩ := res
            simp only [Option.some_bind, Option.map_some']
            cases hset : setAt p2.children pos nd2 with
            | none => simp only [Option.none_bind, Option.map_none']
            | some pcs => simp only [Option.some_bind, Option.pure_def, Option.map_some']

/-- The parent and the result that `remove.traced` returns are the ones that
`remove` returns, for every call. -/
theorem traced_result (t : Nat) (key : K) :
    ∀ (fuel : Nat) (parent : node K V) (childInd : Nat),
      (remove.traced t cmp key fuel parent childInd).map Prod.fst
        = remove t cmp key fuel parent childInd := by
  intro fuel
  induction fuel with
  | zero =>
    intro parent childInd
    simp only [remove.traced, remove, Option.map_none']
  | succ f ih =>
    intro parent ci
    rw [remove, remove.traced]
    cases h0 : parent.children[ci]? with
    | none => simp only [Option.bind_eq_bind, Option.none_bind, Option.map_none']
    | some nd0 =>
      simp only [Option.bind_eq_bind, Option.some_bind]
      simp only [rebalance, Option.bind_eq_bind]
      have htail := fun p2 pos => traced_tail t key f p2 pos ih
      simp only [Option.bind_eq_bind] at htail
      by_cases hc : (nd0.items.length == t - 1) = true
      · simp only [hc, if_true]
        cases hs : stealIfPossible t parent ci with
        | none => simp only [Option.none_bind, Option.map_none']
        | some ps =>
          obtain ⟨p, stolen⟩ := ps
          simp only [Option.some_bind]
          cases stolen with
          | true =>
            simp only [Bool.not_true, Bool.false_eq_true, if_false, Option.pure_def,
              Option.some_bind]
            exact htail p ci
          | false =>
            simp only [Bool.not_false, if_true]
            cases hm : merge p ci with
            | none => simp only [Option.none_bind, Option.map_none']
            | some pp =>
              obtain ⟨p3, pos⟩ := pp
              simp only [Option.some_bind]
              exact htail p3 pos
      · simp only [hc, if_false, Option.pure_def, Bool.false_eq_true, Option.some_bind]
        exact htail parent ci

/-- The steal-or-merge step on any child: the sequence of the parent is
unchanged, the parent loses at most one item, and the current node has at least
`t` items afterwards. -/
theorem rebalance_total {t d lo : Nat} (ht : 2 ≤ t) (xs1 xs2 : List (Item K V))
    (cs1 : List (node K V)) (c : node K V) (cs2 : List (node K V))
    (hlen : cs1.length = xs1.length)
    (hsh : (node.mk (xs1 ++ xs2) (cs1 ++ c :: cs2)).shaped t (d + 1) lo = true)
    (hlo : 1 ≤ lo) :
    ∃ ys1 ys2 ds1 c2 ds2,
      rebalance t (node.mk (xs1 ++ xs2) (cs1 ++ c :: cs2)) cs1.length c
        = some (node.mk (ys1 ++ ys2) (ds1 ++ c2 :: ds2), ds1.length) ∧
      ds1.length = ys1.length ∧
      (node.mk (ys1 ++ ys2) (ds1 ++ c2 :: ds2)).shaped t (d + 1) (lo - 1) = true ∧
      (node.mk (ys1 ++ ys2) (ds1 ++ c2 :: ds2)).inorder
        = (node.mk (xs1 ++ xs2) (cs1 ++ c :: cs2)).inorder ∧
      t ≤ c2.items.length := by
  by_cases hct : c.items.length = t - 1
  · obtain ⟨ys1, ys2, ds1, c2, ds2, hreb, hdl, hsh2, hino, hc2t, -⟩ :=
      rebalance_spec ht xs1 xs2 cs1 c cs2 hlen hsh hlo hct
    exact ⟨ys1, ys2, ds1, c2, ds2, hreb, hdl, hsh2, hino, hc2t⟩
  · have hcsh : c.shaped t d (t - 1) = true :=
      ((shaped_parent_iff _ _).1 hsh).2.2.2 c (by simp)
    have hge : t ≤ c.items.length := by
      have := shaped_lo hcsh
      omega
    have hreb : rebalance t (node.mk (xs1 ++ xs2) (cs1 ++ c :: cs2)) cs1.length c
        = some (node.mk (xs1 ++ xs2) (cs1 ++ c :: cs2), cs1.length) := by
      have : (c.items.length == t - 1) = false := by simpa using hct
      simp [rebalance, this]
    exact ⟨xs1, xs2, cs1, c, cs2, hreb, hlen, shaped_mono hsh (by omega), rfl, hge⟩

/-- In every iteration of the loop of `remove` the current node holds at least
`t` items after the steal-or-merge step. -/
theorem traced_nodes (hc : StrictTotal cmp) {t : Nat} (ht : 2 ≤ t) (key : K) :
    ∀ (d fuel lo : Nat) (xs1 xs2 : List (Item K V)) (cs1 : List (node K V)) (c : node K V)
      (cs2 : List (node K V)) (res : node K V × Bool) (nodes : List (node K V)),
      cs1.length = xs1.length →
      (node.mk (xs1 ++ xs2) (cs1 ++ c :: cs2)).shaped t (d + 1) lo = true → 1 ≤ lo →
      SortedItems cmp (node.mk (xs1 ++ xs2) (cs1 ++ c :: cs2)).inorder →
      remove.traced t cmp key fuel (node.mk (xs1 ++ xs2) (cs1 ++ c :: cs2)) cs1.length
        = some (res, nodes) →
      nodes ≠ [] ∧ ∀ n ∈ nodes, t ≤ n.items.length := by
  intro d
  induction d with
  | zero =>
    intro fuel lo xs1 xs2 cs1 c cs2 res nodes hlen hsh hlo hs hrun
    cases fuel with
    | zero => simp [remove.traced] at hrun
    | succ f =>
    have h0 : (node.mk (xs1 ++ xs2) (cs1 ++ c :: cs2)).children[cs1.length]? = some c :=
      getElem?_at _ _ _ _ rfl
    obtain ⟨ys1, ys2, ds1, c2, ds2, hreb, hdl, hsh2, hino, hc2t⟩ :=
      rebalance_total ht xs1 xs2 cs1 c cs2 hlen hsh hlo
    have hs2 : SortedItems cmp (node.mk (ys1 ++ ys2) (ds1 ++ c2 :: ds2)).inorder := by
      rw [hino]; exact hs
    obtain ⟨-, hc2sh, hc2s, -, -, -, -⟩ := context_facts hdl hsh2 hs2
    have h2 : (node.mk (ys1 ++ ys2) (ds1 ++ c2 :: ds2)).children[ds1.length]? = some c2 :=
      getElem?_at _ _ _ _ rfl
    have hleaf : c2.isLeaf = true := (node.isLeaf_iff c2).2 (shaped_zero.1 hc2sh).1
    have hone : ∀ n ∈ [c2], t ≤ n.items.length := by simpa using hc2t
    rcases bSearch_cases hc c2 (sorted_items_of_inorder hc2sh hc2s) key with
      ⟨zs1, zs2, -, -, -, hb⟩ | ⟨zs1, x, zs2, -, -, hb⟩
    · simp only [remove.traced, h0, hreb, h2, hb, Option.bind_eq_bind, Option.some_bind,
        Option.pure_def, if_true, if_false, Bool.false_eq_true, hleaf, Option.some.injEq,
        Prod.mk.injEq] at hrun
      obtain ⟨-, rfl⟩ := hrun
      exact ⟨by simp, hone⟩
    · simp only [remove.traced, h0, hreb, h2, hb, Option.bind_eq_bind, Option.some_bind,
        Option.pure_def, if_true] at hrun
      cases hd : delete t cmp f c2 zs1.length with
      | none => simp [hd] at hrun
      | some nd2 =>
        simp only [hd, Option.some_bind] at hrun
        have hset : setAt (node.mk (ys1 ++ ys2) (ds1 ++ c2 :: ds2)).children ds1.length nd2
            = some (ds1 ++ nd2 :: ds2) := setAt_at _ _ _ _ _ rfl
        simp only [hset, Option.some_bind, Option.some.injEq, Prod.mk.injEq] at hrun
        obtain ⟨-, rfl⟩ := hrun
        exact ⟨by simp, hone⟩
  | succ d ih =>
    intro fuel lo xs1 xs2 cs1 c cs2 res nodes hlen hsh hlo hs hrun
    cases fuel with
    | zero => simp [remove.traced] at hrun
    | succ f =>
    have h0 : (node.mk (xs1 ++ xs2) (cs1 ++ c :: cs2)).children[cs1.length]? = some c :=
      getElem?_at _ _ _ _ rfl
    obtain ⟨ys1, ys2, ds1, c2, ds2, hreb, hdl, hsh2, hino, hc2t⟩ :=
      rebalance_total ht xs1 xs2 cs1 c cs2 hlen hsh hlo
    have hs2 : SortedItems cmp (node.mk (ys1 ++ ys2) (ds1 ++ c2 :: ds2)).inorder := by
      rw [hino]; exact hs
    obtain ⟨-, hc2sh, hc2s, -, -, -, -⟩ := context_facts hdl hsh2 hs2
    have h2 : (node.mk (ys1 ++ ys2) (ds1 ++ c2 :: ds2)).children[ds1.length]? = some c2 :=
      getElem?_at _ _ _ _ rfl
    have hone : ∀ n ∈ [c2], t ≤ n.items.length := by simpa using hc2t
    rcases bSearch_cases hc c2 (sorted_items_of_inorder hc2sh hc2s) key with
      ⟨zs1, zs2, hits, -, -, hb⟩ | ⟨zs1, x, zs2, -, -, hb⟩
    · cases c2 with
      | mk its es =>
      simp only [node.items_mk] at hits hc2t
      subst hits
      have hp := (shaped_parent_iff _ _).1 hc2sh
      obtain ⟨es1, e, es2, rfl, hel⟩ := exists_split_at es zs1.length
        (by rw [hp.1]; simp; omega)
      have hleaf : (node.mk (zs1 ++ zs2) (es1 ++ e :: es2)).isLeaf = false := by
        simp [node.isLeaf]
      have hsh3 : (node.mk (zs1 ++ zs2) (es1 ++ e :: es2)).shaped t (d + 1) t = true :=
        shaped_mono (shaped_exact hc2sh) (by simpa using hc2t)
      simp only [remove.traced, h0, hreb, h2, hb, Option.bind_eq_bind, Option.some_bind,
        Option.pure_def, if_false, Bool.false_eq_true, hleaf] at hrun
      cases hr : remove.traced t cmp key f (node.mk (zs1 ++ zs2) (es1 ++ e :: es2)) zs1.length
        with
      | none => simp [hr] at hrun
      | some out =>
        obtain ⟨⟨nd2, r⟩, rest⟩ := out
        simp only [hr, Option.some_bind] at hrun
        have hset : setAt (node.mk (ys1 ++ ys2)
            (ds1 ++ node.mk (zs1 ++ zs2) (es1 ++ e :: es2) :: ds2)).children ds1.length nd2
            = some (ds1 ++ nd2 :: ds2) := setAt_at _ _ _ _ _ rfl
        simp only [hset, Option.some_bind, Option.some.injEq, Prod.mk.injEq] at hrun
        obtain ⟨-, rfl⟩ := hrun
        rw [← hel] at hr
        obtain ⟨-, hall⟩ := ih f t zs1 zs2 es1 e es2 (nd2, r) rest hel hsh3 (by omega) hc2s hr
        refine ⟨by simp, ?_⟩
        intro n hn
        rcases List.mem_cons.1 hn with h | h
        · subst h; simpa using hc2t
        · exact hall n h
    · simp only [remove.traced, h0, hreb, h2, hb, Option.bind_eq_bind, Option.some_bind,
        Option.pure_def, if_true] at hrun
      cases hd : delete t cmp f c2 zs1.length with
      | none => simp [hd] at hrun
      | some nd2 =>
        simp only [hd, Option.some_bind] at hrun
        have hset : setAt (node.mk (ys1 ++ ys2) (ds1 ++ c2 :: ds2)).children ds1.length nd2
            = some (ds1 ++ nd2 :: ds2) := setAt_at _ _ _ _ _ rfl
        simp only [hset, Option.some_bind, Option.some.injEq, Prod.mk.injEq] at hrun
        obtain ⟨-, rfl⟩ := hrun
        exact ⟨by simp, hone⟩

/-- A call of `remove` below a parent that holds an item returns, and leaves no
node below the parent with fewer than `t-1` items. -/
theorem remove_shape (hc : StrictTotal cmp) {t : Nat} (ht : 2 ≤ t) (d : Nat) (key : K)
    (fuel lo : Nat) (xs1 xs2 : List (Item K V))
    (cs1 : List (node K V)) (c : node K V) (cs2 : List (node K V))
    (hlen : cs1.length = xs1.length)
    (hsh : (node.mk (xs1 ++ xs2) (cs1 ++ c :: cs2)).shaped t (d + 1) lo = true)
    (hlo : 1 ≤ lo)
    (hs : SortedItems cmp (node.mk (xs1 ++ xs2) (cs1 ++ c :: cs2)).inorder)
    (hfuel : 2 * d + 2 ≤ fuel) :
    ∃ p2 r, remove t cmp key fuel (node.mk (xs1 ++ xs2) (cs1 ++ c :: cs2)) cs1.length
        = some (p2, r) ∧ p2.shaped t (d + 1) (lo - 1) = true := by
  obtain ⟨f, rfl⟩ : ∃ f, fuel = f + 1 := ⟨fuel - 1, by omega⟩
  have hbody : BodyGoal (V := V) cmp t d := (delete_body_spec hc ht d).2
  have h0 : (node.mk (xs1 ++ xs2) (cs1 ++ c :: cs2)).children[cs1.length]? = some c :=
    getElem?_at _ _ _ _ rfl
  obtain ⟨ys1, ys2, ds1, c2, ds2, hreb, hdl, hsh2, hino, hc2t⟩ :=
    rebalance_total ht xs1 xs2 cs1 c cs2 hlen hsh hlo
  have hs2 : SortedItems cmp (node.mk (ys1 ++ ys2) (ds1 ++ c2 :: ds2)).inorder := by
    rw [hino]; exact hs
  obtain ⟨-, hc2sh, hc2s, -, -, -, -⟩ := context_facts hdl hsh2 hs2
  have hc2sh2 : c2.shaped t d t = true := shaped_mono (shaped_exact hc2sh) hc2t
  obtain ⟨nd2, r, hrun, hnd2, -⟩ := hbody key f t c2 hc2sh2 (by omega) hc2s (by omega)
  have h2 : (node.mk (ys1 ++ ys2) (ds1 ++ c2 :: ds2)).children[ds1.length]? = some c2 :=
    getElem?_at _ _ _ _ rfl
  have hset : setAt (node.mk (ys1 ++ ys2) (ds1 ++ c2 :: ds2)).children ds1.length nd2
      = some (ds1 ++ nd2 :: ds2) := setAt_at _ _ _ _ _ rfl
  exact ⟨node.mk (ys1 ++ ys2) (ds1 ++ nd2 :: ds2), r,
    remove_eval t key f _ _ c _ _ c2 nd2 r _ h0 hreb h2 hrun hset,
    shaped_replace hsh2 (shaped_mono hnd2 (by omega))⟩

/-- C16: for every `t ≥ 2` and every call `remove(node, parent, childInd, key)`
on a tree that satisfies the structural invariant, where
`node == parent.children[childInd]` and the parent holds at least one item (it
is the root, or it holds at least `t` items), the call returns, and what it
returns is what `remove.traced`, the same loop with a record of the current
node of every iteration, returns; in every iteration of the loop the current
node holds at least `t` items after the steal-or-merge step, when it is
searched, handed to `delete` or used as the parent of the next iteration;
after the call no node below the parent holds fewer than `t-1` items and the
parent has lost at most one item. -/
theorem remove_rebalanced (hc : StrictTotal cmp) {t d : Nat} (ht : 2 ≤ t) (key : K)
    (fuel : Nat) (parent : node K V) (childInd : Nat)
    (hsh : parent.shaped t (d + 1) 0 = true) (hlo : 1 ≤ parent.items.length)
    (hs : SortedItems cmp parent.inorder) (hci : childInd < parent.children.length)
    (hfuel : 2 * d + 2 ≤ fuel) :
    ∃ p2 r nodes, remove t cmp key fuel parent childInd = some (p2, r) ∧
      remove.traced t cmp key fuel parent childInd = some ((p2, r), nodes) ∧ nodes ≠ [] ∧
      (∀ n ∈ nodes, t ≤ n.items.length) ∧
      p2.shaped t (d + 1) (parent.items.length - 1) = true := by
  cases parent with
  | mk its cs =>
  simp only [node.children_mk, node.items_mk] at hci hlo ⊢
  have hp := (shaped_parent_iff _ _).1 hsh
  obtain ⟨cs1, c, cs2, rfl, hcl⟩ := exists_split_at cs childInd hci
  obtain ⟨xs1, xs2, rfl, hxl⟩ := exists_split_le its childInd (by
    have := hp.1
    simp only [List.length_append, List.length_cons] at this
    omega)
  have hlen : cs1.length = xs1.length := by rw [hcl, hxl]
  have hsh1 := shaped_exact hsh
  simp only [node.items_mk] at hsh1
  obtain ⟨p2, r, hrun, hsh2⟩ := remove_shape hc ht d key fuel _ xs1 xs2 cs1 c cs2 hlen hsh1
    hlo hs hfuel
  have htie := @traced_result _ _ cmp t key fuel (node.mk (xs1 ++ xs2) (cs1 ++ c :: cs2)) cs1.length
  rw [hrun] at htie
  cases htr : remove.traced t cmp key fuel (node.mk (xs1 ++ xs2) (cs1 ++ c :: cs2)) cs1.length
    with
  | none => simp [htr] at htie
  | some out =>
    obtain ⟨res, nodes⟩ := out
    simp only [htr, Option.map_some', Option.some.injEq] at htie
    subst htie
    obtain ⟨hne, hall⟩ := traced_nodes hc ht key d fuel _ xs1 xs2 cs1 c cs2 _ nodes hlen hsh1
      hlo hs htr
    rw [hcl] at hrun htr
    exact ⟨_, _, nodes, hrun, htr, hne, hall, hsh2⟩

theorem remove_rebalanced_witness :
    (StrictTotal intCompare ∧ 2 ≤ 2 ∧ tenRoot.shaped 2 (1 + 1) 0 = true ∧
      1 ≤ tenRoot.items.length ∧ SortedItems intCompare tenRoot.inorder ∧
      0 < tenRoot.children.length ∧ 2 * 1 + 2 ≤ 6) ∧
    ∃ p2 r nodes, remove 2 intCompare 0 6 tenRoot 0 = some (p2, r) ∧
      remove.traced 2 intCompare 0 6 tenRoot 0 = some ((p2, r), nodes) ∧ nodes ≠ [] ∧
      (∀ n ∈ nodes, 2 ≤ n.items.length) ∧
      p2.shaped 2 (1 + 1) (tenRoot.items.length - 1) = true :=
  ⟨⟨intCompare_strictTotal, by decide, by decide, by decide,
      by simp [SortedItems, tenRoot, node.inorder, node.inorderList, interleave, weaveR,
        intCompare],
      by decide, by decide⟩,
    remove_rebalanced intCompare_strictTotal (by decide) 0 6 tenRoot 0 (by decide) (by decide)
      (by simp [SortedItems, tenRoot, node.inorder, node.inorderList, interleave, weaveR,
        intCompare])
      (by decide) (by decide)⟩

end traced

/-! ## The height of the tree after `TryAdd` -/

section height

variable {K V : Type} {cmp : K → K → Int}

theorem setAt_eq_set {α : Type} (l l2 : List α) (i : Nat) (v : α)
    (h : setAt l i v = some l2) : l2 = l.set i v := by
  unfold setAt at h
  split at h
  · simpa using h.symm
  · cases h

theorem slicesInsert_split {α : Type} (l l2 : List α) (i : Nat) (v : α)
    (h : slicesInsert l i v = some l2) : ∃ a b, l = a ++ b ∧ l2 = a ++ v :: b := by
  unfold slicesInsert at h
  split at h
  · exact ⟨l.take i, l.drop i, (List.take_append_drop i l).symm, by simpa using h.symm⟩
  · cases h

/-- An iteration of the loop of `TryAdd` on a child that is not full leaves the
items of the parent as they are and touches this child only. -/
theorem loop_child (t : Nat) (key : K) (value : V) (f : Nat) (parent : node K V) (ci : Nat)
    (curr p : node K V) (r : Bool) (hget : parent.children[ci]? = some curr)
    (hfill : curr.isFilled t = false)
    (h : TryAdd.loop t cmp key value (f + 1) parent ci = some (p, r)) :
    ∃ c2, p = node.mk parent.items (parent.children.set ci c2) ∧
      (c2 = curr ∨
        (curr.isLeaf = true ∧ ∃ a b, curr.items = a ++ b ∧
          c2.items = a ++ NewItem key value :: b) ∨
        (curr.isLeaf = false ∧ ∃ ind, curr.bSearch key cmp = some (ind, false) ∧
          TryAdd.loop t cmp key value f curr ind = some (c2, r))) := by
  simp only [TryAdd.loop, hget, Option.bind_eq_bind, Option.some_bind] at h
  cases hb : curr.bSearch key cmp with
  | none => simp [hb] at h
  | some ie =>
    obtain ⟨ind, ex⟩ := ie
    simp only [hb, Option.some_bind] at h
    cases ex with
    | true =>
      simp only [if_true, Option.pure_def, Option.some.injEq, Prod.mk.injEq] at h
      refine ⟨curr, ?_, Or.inl rfl⟩
      rw [← h.1]
      have hs := setAt_eq_set _ _ _ _ (setAt_self parent.children ci curr hget)
      rw [← hs, node.eta]
    | false =>
      simp only [Bool.false_eq_true, if_false, hfill] at h
      by_cases hleaf : curr.isLeaf = true
      · simp only [hleaf, if_true] at h
        cases h1 : slicesInsert curr.items ind (NewItem key value) with
        | none => simp [h1] at h
        | some its2 =>
          simp only [h1, Option.some_bind] at h
          cases h2 : setAt parent.children ci (node.mk its2 curr.children) with
          | none => simp [h2] at h
          | some pcs =>
            simp only [h2, Option.some_bind, Option.pure_def, Option.some.injEq,
              Prod.mk.injEq] at h
            obtain ⟨a, b, e1, e2⟩ := slicesInsert_split _ _ _ _ h1
            refine ⟨node.mk its2 curr.children, ?_, Or.inr (Or.inl ⟨hleaf, a, b, e1, e2⟩)⟩
            rw [← h.1, setAt_eq_set _ _ _ _ h2]
      · have hleaf2 : curr.isLeaf = false := by simpa using hleaf
        simp only [hleaf2, Bool.false_eq_true, if_false] at h
        cases hl : TryAdd.loop t cmp key value f curr ind with
        | none => simp [hl] at h
        | some q =>
          obtain ⟨curr2, ok⟩ := q
          simp only [hl, Option.some_bind] at h
          cases h2 : setAt parent.children ci curr2 with
          | none => simp [h2] at h
          | some pcs =>
            simp only [h2, Option.some_bind, Option.pure_def, Option.some.injEq,
              Prod.mk.injEq] at h
            obtain ⟨e1, e2⟩ := h
            subst e2
            refine ⟨curr2, ?_, Or.inr (Or.inr ⟨hleaf2, ind, rfl, hl⟩)⟩
            rw [← e1, setAt_eq_set _ _ _ _ h2]

/-- The loop of `TryAdd` adds at most one item to the parent: the item at index
`t-1` of the child, which the split of the child promotes when it is full. -/
theorem loop_items (hc : StrictTotal cmp) {t d lo : Nat} (ht : 1 ≤ t) (key : K) (value : V)
    (fuel : Nat) (xs1 xs2 : List (Item K V)) (cs1 : List (node K V)) (c : node K V)
    (cs2 : List (node K V)) (hlen : cs1.length = xs1.length)
    (hsh : (node.mk (xs1 ++ xs2) (cs1 ++ c :: cs2)).shaped t (d + 1) lo = true)
    (hs : SortedItems cmp (node.mk (xs1 ++ xs2) (cs1 ++ c :: cs2)).inorder)
    (p : node K V) (r : Bool)
    (h : TryAdd.loop t cmp key value fuel (node.mk (xs1 ++ xs2) (cs1 ++ c :: cs2)) cs1.length
      = some (p, r)) :
    p.items = xs1 ++ xs2 ∨
      ∃ item, c.items.length = 2 * t - 1 ∧ c.items[t - 1]? = some item ∧
        p.items = xs1 ++ item :: xs2 := by
  cases fuel with
  | zero => simp [TryAdd.loop] at h
  | succ f =>
  have hget : (node.mk (xs1 ++ xs2) (cs1 ++ c :: cs2)).children[cs1.length]? = some c :=
    getElem?_at _ _ _ _ rfl
  by_cases hfill : c.isFilled t = true
  · obtain ⟨hl2, hcsh, hcs, -, -, -, -⟩ := context_facts hlen hsh hs
    have hfull : c.items.length = 2 * t - 1 := by
      simpa [node.isFilled] using hfill
    rcases bSearch_cases hc c (sorted_items_of_inorder hcsh hcs) key with
      ⟨ys1, ys2, hits, hy1, hy2, hb⟩ | ⟨ys1, x, ys2, hits, hk, hb⟩
    · obtain ⟨left, item, right, hci, hll, hrl, hlsh, hrsh, hino, -, hsplit⟩ :=
        @splitNode_full _ _ cmp _ _ ht c hcsh hfull
      have himem : item ∈ c.inorder := mem_items_inorder hcsh (by rw [hci]; simp)
      obtain ⟨hi1, hi2, hbp⟩ := bSearch_of_child hc hlen hsh hs item himem
      have hsp := hsplit xs1 xs2 cs1 cs2 c hlen hbp
      have hlf : left.isFilled t = false := by
        simp only [node.isFilled, beq_eq_false_iff_ne, ne_eq]; omega
      have hrf : right.isFilled t = false := by
        simp only [node.isFilled, beq_eq_false_iff_ne, ne_eq]; omega
      have hmed : c.items[t - 1]? = some item := by
        rw [hci]
        exact getElem?_at _ _ _ _ hll.symm
      right
      refine ⟨item, hfull, hmed, ?_⟩
      by_cases hind : ys1.length ≤ t - 1
      · have h2 : TryAdd.loop t cmp key value f
            (node.mk (xs1 ++ item :: xs2) (cs1 ++ left :: right :: cs2)) cs1.length
            = some (p, r) := by
          rw [← h]
          simp only [TryAdd.loop, hget, hb, hfill, hsp, hind, Option.bind_eq_bind,
            Option.some_bind, Bool.false_eq_true, if_false, if_true]
        cases f with
        | zero => simp [TryAdd.loop] at h2
        | succ g =>
          obtain ⟨c2, e, -⟩ := loop_child t key value g _ _ left p r
            (getElem?_at _ _ _ _ rfl) hlf h2
          rw [e]
          rfl
      · have h2 : TryAdd.loop t cmp key value f
            (node.mk (xs1 ++ item :: xs2) (cs1 ++ left :: right :: cs2)) (cs1.length + 1)
            = some (p, r) := by
          rw [← h]
          simp only [TryAdd.loop, hget, hb, hfill, hsp, hind, Option.bind_eq_bind,
            Option.some_bind, Bool.false_eq_true, if_false, if_true]
        cases f with
        | zero => simp [TryAdd.loop] at h2
        | succ g =>
          obtain ⟨c2, e, -⟩ := loop_child t key value g _ _ right p r
            (getElem?_at_succ _ _ _ _ _ rfl) hrf h2
          rw [e]
          rfl
    · left
      have : p = node.mk (xs1 ++ xs2) (cs1 ++ c :: cs2) := by
        simp only [TryAdd.loop, hget, hb, Option.bind_eq_bind, Option.some_bind, if_true,
          Option.pure_def, Option.some.injEq, Prod.mk.injEq] at h
        exact h.1.symm
      rw [this]
      rfl
  · have hfill2 : c.isFilled t = false := by simpa using hfill
    obtain ⟨c2, e, -⟩ := loop_child t key value f _ _ c p r hget hfill2 h
    left
    rw [e]
    rfl

end height

section heightRoot

variable {K V : Type} {cmp : K → K → Int}

/-- An iteration of the loop of `TryAdd` on a child that is not full leaves the
parent as it is but for this child, which gets at most one more item: the new
item, or the item at index `t-1` of the full node below it that the search for
the key leads to. -/
theorem loop_child_items (hc : StrictTotal cmp) {t d : Nat} (ht : 1 ≤ t) (key : K) (value : V)
    (g : Nat) (parent : node K V) (ci : Nat) (curr p : node K V) (r : Bool)
    (hget : parent.children[ci]? = some curr) (hfill : curr.isFilled t = false)
    (hcsh : curr.shaped t d (t - 1) = true) (hcs : SortedItems cmp curr.inorder)
    (h : TryAdd.loop t cmp key value (g + 1) parent ci = some (p, r)) :
    ∃ c2, p = node.mk parent.items (parent.children.set ci c2) ∧
      (c2.items = curr.items ∨ ∃ a b x, curr.items = a ++ b ∧ c2.items = a ++ x :: b ∧
        (x = NewItem key value ∨
          ∃ ind full, curr.bSearch key cmp = some (ind, false) ∧
            curr.children[ind]? = some full ∧ full.items.length = 2 * t - 1 ∧
            full.items[t - 1]? = some x)) := by
  obtain ⟨c2, e, hcase⟩ := loop_child t key value g parent ci curr p r hget hfill h
  refine ⟨c2, e, ?_⟩
  rcases hcase with h1 | ⟨-, a, b, e1, e2⟩ | ⟨hleaf, ind, hb, hloop⟩
  · exact Or.inl (by rw [h1])
  · exact Or.inr ⟨a, b, _, e1, e2, Or.inl rfl⟩
  · cases d with
    | zero =>
      have := (node.isLeaf_iff curr).2 (shaped_zero.1 hcsh).1
      rw [this] at hleaf
      cases hleaf
    | succ d =>
      rcases bSearch_cases hc curr (sorted_items_of_inorder hcsh hcs) key with
        ⟨zs1, zs2, hits, -, -, hb2⟩ | ⟨zs1, x, zs2, -, -, hb2⟩
      · rw [hb] at hb2
        simp only [Option.some.injEq, Prod.mk.injEq, and_true] at hb2
        subst hb2
        cases curr with
        | mk its es =>
        simp only [node.items_mk] at hits
        subst hits
        have hp := (shaped_parent_iff _ _).1 hcsh
        obtain ⟨es1, e0, es2, rfl, hel⟩ := exists_split_at es zs1.length
          (by rw [hp.1]; simp; omega)
        rw [← hel] at hloop
        rcases loop_items hc ht key value g zs1 zs2 es1 e0 es2 hel hcsh hcs c2 r hloop with
          h3 | ⟨item, hf3, hm3, h3⟩
        · exact Or.inl h3
        · exact Or.inr ⟨zs1, zs2, item, rfl, h3,
            Or.inr ⟨es1.length, e0, by rw [hel]; exact hb, getElem?_at _ _ _ _ rfl, hf3, hm3⟩⟩
      · rw [hb] at hb2
        simp at hb2

/-- The loop of `TryAdd` started at the root: the depth of the tree grows by one
exactly when the root is full and does not hold the key, and then the new root
holds the middle item of the old one over its two halves, one of which may have
got one more item. -/
theorem loopNil_height (hc : StrictTotal cmp) {t : Nat} (ht : 2 ≤ t) (key : K) (value : V)
    (d lo fuel : Nat) (root : node K V) (hlo : lo ≤ 1)
    (hsh : root.shaped t d lo = true) (hs : SortedItems cmp root.inorder)
    (hfuel : 2 * d + 2 ≤ fuel) :
    ∃ root2 r, TryAdd.loopNil t cmp key value fuel root none = some (root2, r) ∧
      ((root.items.length = 2 * t - 1 ∧ ∀ x ∈ root.items, x.Key ≠ key) →
        root2.shaped t (d + 1) lo = true ∧
        ∃ left item right l2 r2,
          splitNode t cmp root none = some (0, 1, node.mk [item] [left, right]) ∧
          root.items = left.items ++ item :: right.items ∧
          left.items.length = t - 1 ∧ right.items.length = t - 1 ∧
          root2 = node.mk [item] [l2, r2] ∧
          ((r2 = right ∧ GrownBy t cmp key value left l2) ∨
            (l2 = left ∧ GrownBy t cmp key value right r2))) ∧
      (¬ (root.items.length = 2 * t - 1 ∧ ∀ x ∈ root.items, x.Key ≠ key) →
        root2.shaped t d lo = true) := by
  obtain ⟨f, rfl⟩ : ∃ f, fuel = f + 1 := ⟨fuel - 1, by omega⟩
  rcases bSearch_cases hc root (sorted_items_of_inorder hsh hs) key with
    ⟨ys1, ys2, hits, hy1, hy2, hb⟩ | ⟨ys1, x, ys2, hits, hk, hb⟩
  · have hnotin : ∀ x ∈ root.items, x.Key ≠ key := by
      intro x hx hk
      rw [hits] at hx
      rcases List.mem_append.1 hx with h | h
      · have := hy1 x h; rw [hk] at this; exact hc.irrefl _ this
      · have := hy2 x h; rw [hk] at this; exact hc.irrefl _ this
    by_cases hfull : root.items.length = 2 * t - 1
    · have hfill : root.isFilled t = true := by
        simp only [node.isFilled, beq_iff_eq]; exact hfull
      have hsh' : root.shaped t d (t - 1) = true := shaped_mono (shaped_exact hsh) (by omega)
      obtain ⟨left, item, right, hci, hll, hrl, hlsh, hrsh, hino, hsplit, -⟩ :=
        @splitNode_full _ _ cmp _ _ (by omega) root hsh' hfull
      have hpre := mem_of_initial_le (hits.symm.trans hci)
      have hshN : (node.mk [item] [left, right]).shaped t (d + 1) 1 = true := by
        rw [shaped_succ]
        refine ⟨by simp, by simp, by simp; omega, ?_⟩
        intro y hy
        simp only [node.children_mk, List.mem_cons, List.mem_singleton, List.not_mem_nil,
          or_false] at hy
        rcases hy with h | h
        · subst h; exact hlsh
        · subst h; exact hrsh
      have hinoN : (node.mk [item] [left, right]).inorder = root.inorder := by
        rw [hino]; simp [inorder_mk]
      have hsN : SortedItems cmp (node.mk [item] [left, right]).inorder := by
        rw [hinoN]; exact hs
      have hls : SortedItems cmp left.inorder := by
        rw [hino] at hs
        exact hs.append_left
      have hrs : SortedItems cmp right.inorder := by
        rw [hino] at hs
        exact (List.pairwise_cons.1 hs.append_right).2
      have hlf : left.isFilled t = false := by
        simp only [node.isFilled, beq_eq_false_iff_ne, ne_eq]; omega
      have hrf : right.isFilled t = false := by
        simp only [node.isFilled, beq_eq_false_iff_ne, ne_eq]; omega
      obtain ⟨g, rfl⟩ : ∃ g, f = g + 1 := ⟨f - 1, by omega⟩
      by_cases hind : ys1.length ≤ t - 1
      · have hkey : cmp key item.Key < 0 := hy2 item (hpre.1 (by omega))
        obtain ⟨p, r, hrun, hshp, -⟩ := loop_spec hc (by omega) key value d false (g + 1) 1
          [] [item] [] left [right] rfl hshN hsN
          (by simp) (by simpa using hkey)
          (by simp only [Bool.false_eq_true, if_false]; exact ⟨by omega, by omega⟩)
        simp only [List.nil_append, List.length_nil] at hrun
        obtain ⟨c2, e, hc2⟩ := loop_child_items hc (by omega) key value g _ 0 left p r
          (by simp) hlf hlsh hls hrun
        refine ⟨p, r, ?_, fun _ => ⟨shaped_mono hshp hlo, left, item, right, c2,
          right, hsplit, hci, hll, hrl, by rw [e]; simp, Or.inl ⟨rfl, hc2⟩⟩, fun hn => ?_⟩
        · rw [← hrun, ← loopNil_some_eq t key value g _ left 0 (by simp) hlf]
          simp [TryAdd.loopNil, hb, hfill, hsplit, hind]
        · exact absurd ⟨hfull, hnotin⟩ hn
      · have hkey : cmp item.Key key < 0 := hy1 item (hpre.2 (by omega))
        obtain ⟨p, r, hrun, hshp, -⟩ := loop_spec hc (by omega) key value d false (g + 1) 1
          [item] [] [left] right [] rfl hshN hsN
          (by simpa using hkey) (by simp)
          (by simp only [Bool.false_eq_true, if_false]; exact ⟨by omega, by omega⟩)
        simp only [List.append_nil, List.length_singleton, List.singleton_append] at hrun
        obtain ⟨c2, e, hc2⟩ := loop_child_items hc (by omega) key value g _ 1 right p r
          (by simp) hrf hrsh hrs hrun
        refine ⟨p, r, ?_, fun _ => ⟨shaped_mono hshp hlo, left, item, right, left,
          c2, hsplit, hci, hll, hrl, by rw [e]; simp, Or.inr ⟨rfl, hc2⟩⟩, fun hn => ?_⟩
        · rw [← hrun, ← loopNil_some_eq t key value g _ right 1 (by simp) hrf]
          simp [TryAdd.loopNil, hb, hfill, hsplit, hind]
        · exact absurd ⟨hfull, hnotin⟩ hn
    · have hnf : root.items.length < 2 * t - 1 := by
        have := shaped_hi hsh
        omega
      have hfill : root.isFilled t = false := by
        simp only [node.isFilled, beq_eq_false_iff_ne, ne_eq]; exact hfull
      cases root with
      | mk rits rcs =>
      simp only [node.items_mk] at hits hnf hfull
      subst hits
      cases d with
      | zero =>
        have hrcs : rcs = [] := (shaped_zero.1 hsh).1
        subst hrcs
        have hins : slicesInsert (ys1 ++ ys2) ys1.length (NewItem key value)
            = some (ys1 ++ NewItem key value :: ys2) := slicesInsert_at _ _ _ _ rfl
        refine ⟨node.mk (ys1 ++ NewItem key value :: ys2) [], true, ?_,
          fun h => absurd h.1 hfull, fun _ => ?_⟩
        · simp [TryAdd.loopNil, hb, hfill, node.isLeaf, hins]
        · rw [shaped_zero]
          have := shaped_lo hsh
          simp only [node.items_mk, List.length_append, List.length_cons,
            node.children_mk] at this hnf ⊢
          exact ⟨trivial, by omega, by omega⟩
      | succ d2 =>
        have hcc := shaped_succ.1 hsh
        simp only [node.children_mk, node.items_mk] at hcc
        obtain ⟨ds1, dc, ds2, hds, hdl⟩ := exists_split_at rcs ys1.length
          (by rw [hcc.1]; simp; omega)
        subst hds
        have hleaf : (node.mk (ys1 ++ ys2) (ds1 ++ dc :: ds2)).isLeaf = false := by
          simp [node.isLeaf]
        obtain ⟨p, r, hrun, hshp, -⟩ := loop_spec hc (by omega) key value d2 true f lo
          ys1 ys2 ds1 dc ds2 hdl hsh hs hy1 hy2
          (by simp only [if_true]; exact ⟨hnf, by omega⟩)
        rw [hdl] at hrun
        refine ⟨p, r, ?_, fun h => absurd h.1 hfull, fun _ => hshp⟩
        simp [TryAdd.loopNil, hb, hfill, hleaf, hrun]
  · refine ⟨root, false, by simp [TryAdd.loopNil, hb], fun h => ?_, fun _ => hsh⟩
    exact absurd hk (h.2 x (by rw [hits]; simp))

end heightRoot

section heightGrowth

variable {K V : Type}

/-- C20 (amended): for every `t ≥ 2`, every non-empty tree that satisfies the
structural invariant and every key, `TryAdd` makes the tree exactly one level
taller when the root holds `2t-1` items and the key is not among the root's own
items, and leaves the height unchanged in every other case; when the height
grows, the new root holds exactly one item (the old root's item at index
`t-1`) and exactly two children, which are the two halves `left` and `right`
that `splitNode` makes of the old root (the first `t-1` items of the old root
and its last `t-1` items), but that one of the two may hold one more item:
the newly inserted one, or the item at index `t-1` of the full child of this
half that the search for the key leads to, which the split of that child
promotes. The tree satisfies the invariant afterwards. -/
theorem TryAdd_height (b : BTree K V) (root : node K V) (key : K) (value : V)
    (ht : 2 ≤ b.t) (hc : StrictTotal b.compare) (hinv : b.invariant = true)
    (hroot : b.root = some root) :
    ∃ b2 r root2, TryAdd b key value = some (b2, r) ∧ b2.root = some root2 ∧
      b2.invariant = true ∧
      ((root.items.length = 2 * b.t - 1 ∧ ∀ x ∈ root.items, x.Key ≠ key) →
        root2.height = root.height + 1 ∧
        ∃ left item right l2 r2,
          splitNode b.t b.compare root none = some (0, 1, node.mk [item] [left, right]) ∧
          root.items = left.items ++ item :: right.items ∧
          left.items.length = b.t - 1 ∧ right.items.length = b.t - 1 ∧
          root2 = node.mk [item] [l2, r2] ∧
          ((r2 = right ∧ GrownBy b.t b.compare key value left l2) ∨
            (l2 = left ∧ GrownBy b.t b.compare key value right r2))) ∧
      (¬ (root.items.length = 2 * b.t - 1 ∧ ∀ x ∈ root.items, x.Key ≠ key) →
        root2.height = root.height) := by
  obtain ⟨b3, r3, -, -, hb3, -, -, -, -, hinv3, -⟩ := TryAdd_core b key value ht hc hinv
  obtain ⟨broot, t, count, cmp⟩ := b
  simp only at ht hc hroot
  subst hroot
  obtain ⟨d, hsh, hs⟩ := (invariant_iff cmp hc root t count).1 hinv
  have hd := shaped_height d 0 root hsh
  obtain ⟨root2, r, hrun, hgrow, hkeep⟩ := loopNil_height hc ht key value d 0
    (2 * root.height + 2) root (by omega) hsh hs (by omega)
  have hres : ∃ b2, TryAdd (BTree.mk (some root) t count cmp) key value = some (b2, r) ∧
      b2.root = some root2 := by
    cases r with
    | true => exact ⟨⟨some root2, t, (count + 1) % 2 ^ 64, cmp⟩, by simp [TryAdd, hrun], rfl⟩
    | false => exact ⟨⟨some root2, t, count, cmp⟩, by simp [TryAdd, hrun], rfl⟩
  obtain ⟨b2, hb2, hr2⟩ := hres
  have hsame : b3 = b2 := by
    rw [hb3] at hb2
    exact (Prod.mk.inj (Option.some.inj hb2)).1
  subst hsame
  refine ⟨b3, r, root2, hb2, hr2, hinv3, fun h => ?_, fun h => ?_⟩
  · obtain ⟨hsh2, hrest⟩ := hgrow h
    exact ⟨by rw [shaped_height (d + 1) 0 root2 hsh2, hd], hrest⟩
  · rw [shaped_height d 0 root2 (hkeep h), hd]

theorem TryAdd_height_witness :
    (2 ≤ fullLevelsTree.t ∧ StrictTotal fullLevelsTree.compare ∧
      fullLevelsTree.invariant = true ∧ fullLevelsTree.root = some fullLevelsRoot) ∧
    ∃ b2 r root2, TryAdd fullLevelsTree 5 50 = some (b2, r) ∧ b2.root = some root2 ∧
      b2.invariant = true ∧
      ((fullLevelsRoot.items.length = 2 * fullLevelsTree.t - 1 ∧
          ∀ x ∈ fullLevelsRoot.items, x.Key ≠ 5) →
        root2.height = fullLevelsRoot.height + 1 ∧
        ∃ left item right l2 r2,
          splitNode fullLevelsTree.t fullLevelsTree.compare fullLevelsRoot none
            = some (0, 1, node.mk [item] [left, right]) ∧
          fullLevelsRoot.items = left.items ++ item :: right.items ∧
          left.items.length = fullLevelsTree.t - 1 ∧
          right.items.length = fullLevelsTree.t - 1 ∧
          root2 = node.mk [item] [l2, r2] ∧
          ((r2 = right ∧
              GrownBy fullLevelsTree.t fullLevelsTree.compare 5 50 left l2) ∨
            (l2 = left ∧
              GrownBy fullLevelsTree.t fullLevelsTree.compare 5 50 right r2))) ∧
      (¬ (fullLevelsRoot.items.length = 2 * fullLevelsTree.t - 1 ∧
          ∀ x ∈ fullLevelsRoot.items, x.Key ≠ 5) →
        root2.height = fullLevelsRoot.height) :=
  ⟨⟨by decide, intCompare_strictTotal, by decide, rfl⟩,
    TryAdd_height fullLevelsTree fullLevelsRoot 5 50 (by decide) intCompare_strictTotal
      (by decide) rfl⟩

/-- C20 as stated fails in its last part: the tree `fullLevelsTree` (minimum
degree 2, root `[10 20 30]` over four full leaves) satisfies the invariant, its
root holds `2t-1` items and not the key 5, and after `TryAdd(5, 50)` the left
child of the new root holds `[2 10]`: two items, not `t-1 = 1`, of which `2`
is neither an item of the old root nor the newly inserted one (the split of the
full leaf `[1 2 3]` promoted it). -/
theorem TryAdd_child_gets_promoted_item :
    2 ≤ fullLevelsTree.t ∧ StrictTotal fullLevelsTree.compare ∧
    fullLevelsTree.invariant = true ∧ fullLevelsTree.root = some fullLevelsRoot ∧
    fullLevelsRoot.items.length = 2 * fullLevelsTree.t - 1 ∧
    (∀ x ∈ fullLevelsRoot.items, x.Key ≠ 5) ∧
    TryAdd fullLevelsTree 5 50 = some (fullLevelsAdded, true) ∧
    fullLevelsAdded.root = some (node.mk [⟨20, 20⟩] [fullLevelsLeft, fullLevelsRight]) ∧
    fullLevelsLeft.items = [⟨2, 2⟩, ⟨10, 10⟩] ∧
    fullLevelsLeft.items.length ≠ fullLevelsTree.t - 1 ∧
    NewItem 5 50 ∉ fullLevelsLeft.items ∧
    (⟨2, 2⟩ : Item Int Int) ∉ fullLevelsRoot.items :=
  ⟨by decide, intCompare_strictTotal, by decide, rfl, by decide, by decide, rfl, rfl, rfl,
    by decide, by decide, by decide⟩

end heightGrowth

end BTreeGo
